import Mathlib

/-!
balsamic: the Pkl AST renderer

A shallow embedding of the Go packages `ast`, `internal/bytesutil` (and the parts of the
Go standard library they call) together with theorems about the text they produce.

Modelling conventions.

* Go `string` and `[]byte` values are modelled by Lean `String`, that is by the sequence of
  Unicode code points of a valid UTF-8 text.  `len` counts UTF-8 bytes, as in Go.  A `nil`
  byte slice and an empty one are both the empty string (the code only ever asks for
  their length).
* A Go interface (`Expression`, `Type`, `ObjectMember`, ...) is an open set of
  implementations; a value of such an interface is modelled by its `Marshal` method, a
  function from the context to either an error or the rendered text.  The concrete node
  types of the package are structures with one field per Go field and are turned into
  interface values by the `to...` functions.
* Fields documented as required in the source are not optional in the model: a `nil`
  pointer or interface in such a field is outside the domain.  Optional pointer and
  interface fields are `Option`s, `none` standing for `nil`.
* The generic constraint `[N Node]` of `joinNodes` is the type class `Node`.
* The indent level is a Go `uint`.  It only grows by one per nested body, so it is bounded
  by the height of the tree being rendered, and the text for level `d` is `2 * d` bytes
  long; levels are therefore modelled by natural numbers and `strings.Repeat` by plain
  repetition (memory is unbounded in the model).
-/

namespace Balsamic

/-! ## Go built-ins and standard library -/

/-- Go `len` of a string or byte slice: its number of (UTF-8) bytes. -/
def len (s : String) : Nat := s.utf8ByteSize

/-- Go `error` values. -/
structure Error where
  msg : String
deriving DecidableEq, Repr

/-- Go `strings.Repeat(s, count)`. -/
def stringsRepeat (s : String) : Nat → String
  | 0 => ""
  | count + 1 => s ++ stringsRepeat s count

/-- The digits used by `strconv` for hexadecimal escapes (`lowerhex`). -/
def lowerhex : List Char :=
  ['0', '1', '2', '3', '4', '5', '6', '7', '8', '9', 'a', 'b', 'c', 'd', 'e', 'f']

/-- Digit `lowerhex[(r >> s) & 0xF]` of a rune. -/
def hexDigitAt (r : Nat) (s : Nat) : Char := lowerhex.getD ((r >>> s) &&& 0xF) '0'

/-- Go `strconv.IsPrint`.  The Latin-1 range is decided by the code of the function; above
it the standard library consults its Unicode tables, which are the parameter
`printTable`. -/
def IsPrint (printTable : Char → Bool) (r : Char) : Bool :=
  if r.toNat ≤ 0xFF then
    if 0x20 ≤ r.toNat ∧ r.toNat ≤ 0x7E then true
    else if 0xA1 ≤ r.toNat ∧ r.toNat ≤ 0xFF then r.toNat ≠ 0xAD
    else false
  else printTable r

/-- Go `strconv.appendEscapedRune` for the double quote, without the ASCII-only and
graphic-only modes. -/
def appendEscapedRune (printTable : Char → Bool) (buf : String) (r : Char) : String :=
  if r = '"' ∨ r = '\\' then (buf.push '\\').push r
  else if IsPrint printTable r then buf.push r
  else if r.toNat = 0x07 then buf ++ "\\a"
  else if r.toNat = 0x08 then buf ++ "\\b"
  else if r.toNat = 0x0C then buf ++ "\\f"
  else if r = '\n' then buf ++ "\\n"
  else if r = '\r' then buf ++ "\\r"
  else if r = '\t' then buf ++ "\\t"
  else if r.toNat = 0x0B then buf ++ "\\v"
  else if r.toNat < 0x20 ∨ r.toNat = 0x7F then
    ((buf ++ "\\x").push (hexDigitAt r.toNat 4)).push (hexDigitAt r.toNat 0)
  else if r.toNat < 0x10000 then
    [12, 8, 4, 0].foldl (fun b s => b.push (hexDigitAt r.toNat s)) (buf ++ "\\u")
  else
    [28, 24, 20, 16, 12, 8, 4, 0].foldl (fun b s => b.push (hexDigitAt r.toNat s)) (buf ++ "\\U")

/-- Go `strconv.Quote`: the double-quoted Go string literal of `s`. -/
def strconvQuote (printTable : Char → Bool) (s : String) : String :=
  (s.data.foldl (appendEscapedRune printTable) "\"").push '"'

/-- Go `strconv.FormatInt(i, 10)` for an `int64` value `i`: `formatBits` receives the bits
of `i` as the unsigned `uint64(i)`, negates them in 64-bit arithmetic when `i` is
negative, and writes the decimal digits of the result after the sign; `2^64` is
`18446744073709551616`. -/
def strconvFormatInt (i : Int) : String :=
  let u : Nat := (i % 18446744073709551616).toNat
  let u : Nat := if i < 0 then (18446744073709551616 - u) % 18446744073709551616 else u
  if i < 0 then "-" ++ Nat.repr u else Nat.repr u

/-- Go `bytes.Split(s, sep)` for the one-byte separator `\n`, on the characters of a
text: the pieces between the separators, one more than there are separators. -/
def splitNewline : List Char → List String
  | [] => [""]
  | c :: cs =>
    if c = '\n' then "" :: splitNewline cs
    else
      match splitNewline cs with
      | [] => [String.singleton c]
      | line :: lines => (String.singleton c ++ line) :: lines

/-! ## internal/bytesutil -/

/-- Go `bytes.Buffer` (embedded in `bytesutil.Buffer`): the bytes written so far. -/
structure Buffer where
  bytes : String
deriving DecidableEq, Repr

/-- The zero value `var b bytesutil.Buffer`. -/
def Buffer.empty : Buffer := ⟨""⟩

/-- Go `b.Bytes()`. -/
def Buffer.Bytes (b : Buffer) : String := b.bytes

/-- Go `b.Write(p)`: the buffer afterwards and the number of bytes written. -/
def Buffer.Write (b : Buffer) (p : String) : Buffer × Nat := (⟨b.bytes ++ p⟩, len p)

/-- Go `b.WriteString(s)`. -/
def Buffer.WriteString (b : Buffer) (s : String) : Buffer × Nat := (⟨b.bytes ++ s⟩, len s)

/-- Go `b.WriteRune(r)` (and `b.WriteByte` for an ASCII byte). -/
def Buffer.WriteRune (b : Buffer) (r : Char) : Buffer × Nat :=
  (⟨b.bytes.push r⟩, len (String.singleton r))

/-- Go `WriteWithSuffix`: writes `p` followed by `suffix`, and nothing when `p` is
empty. -/
def Buffer.WriteWithSuffix (b : Buffer) (p : String) (suffix : String) : Buffer × Nat :=
  if len p = 0 then (b, 0)
  else
    let (b, n) := b.Write p
    let (b, ns) := b.WriteString suffix
    (b, n + ns)

/-- Go `WriteWithPrefix`: writes `pre` followed by `p`, and nothing when `p` is empty. -/
def Buffer.WriteWithPrefix (b : Buffer) (pre : String) (p : String) : Buffer × Nat :=
  if len p = 0 then (b, 0)
  else
    let (b, np) := b.WriteString pre
    let (b, n) := b.Write p
    (b, np + n)

/-- Go `WriteWithPrefixSuffix`: writes `pre`, `p`, `suffix`, and nothing when `p` is
empty. -/
def Buffer.WriteWithPrefixSuffix (b : Buffer) (pre : String) (p : String) (suffix : String) :
    Buffer × Nat :=
  if len p = 0 then (b, 0)
  else
    let (b, np) := b.WriteString pre
    let (b, n) := b.Write p
    let (b, ns) := b.WriteString suffix
    (b, np + n + ns)

/-! ## ast/node.go -/

/-- The part of a `context.Context` the package reads: the value stored under
`indentLevelKey`, if any.  The value is a Go `uint`, here a natural number. -/
structure Ctx where
  indentLevel : Option Nat
deriving DecidableEq, Repr

/-- Go `context.Background()`: a context that carries no indent level. -/
def Ctx.Background : Ctx := ⟨none⟩

/-- The Go interface `Node`, as a constraint on a type of nodes. -/
class Node (N : Type) where
  Marshal : N → Ctx → Except Error String

/-- Go `ctxWithIndentLevel`. -/
def ctxWithIndentLevel (_ctx : Ctx) (indentLevel : Nat) : Ctx := ⟨some indentLevel⟩

/-- Go `getIndentLevel`. -/
def getIndentLevel (ctx : Ctx) : Nat :=
  match ctx.indentLevel with
  | some indent => indent
  | none => 0

/-- Go `math.MaxUint`, the largest value of the type `uint` (64 bits wide). -/
def mathMaxUint : Nat := 18446744073709551615

/-- Go `a + b` on the type `uint`: the sum modulo `2^64`, which is
`18446744073709551616`. -/
def uintAdd (a b : Nat) : Nat := (a + b) % 18446744073709551616

/-- Go `raiseIndentLevel`: the context derived with `context.WithValue`, whose indent
level is `indentLevel+1`.  The Go sum is the `uint` sum `uintAdd indentLevel 1`; it is
written here as the sum of natural numbers, which it is for every level below
`mathMaxUint` (at `mathMaxUint` itself the Go sum wraps around to 0). -/
def raiseIndentLevel (ctx : Ctx) : Ctx :=
  let indentLevel := getIndentLevel ctx
  ⟨some (indentLevel + 1)⟩

/-- Go `indentation`; the count `int(indentLevel)` handed to `strings.Repeat` is the
level itself. -/
def indentation (ctx : Ctx) : String :=
  let indentLevel := getIndentLevel ctx
  if indentLevel = 0 then ""
  else stringsRepeat "  " indentLevel

/-- Go `newlineWithIndentation`. -/
def newlineWithIndentation (ctx : Ctx) : String := "\n" ++ indentation ctx

/-- The `for i, node := range nodes` loop of `joinNodes`, from index `i` on, with the
buffer `b` built so far. -/
def joinNodesLoop {N : Type} [Node N] (ctx : Ctx) (separator : String) :
    Nat → List N → Buffer → Except Error Buffer
  | _, [], b => .ok b
  | i, node :: rest, b =>
    let b := if i > 0 then (b.WriteString separator).1 else b
    match Node.Marshal node ctx with
    | .error err => .error err
    | .ok node => joinNodesLoop ctx separator (i + 1) rest (b.Write node).1

/-- Go `joinNodes`. -/
def joinNodes {N : Type} [Node N] (ctx : Ctx) (nodes : List N) (separator : String) :
    Except Error String :=
  if nodes.length = 0 then .ok ""
  else
    match joinNodesLoop ctx separator 0 nodes Buffer.empty with
    | .error err => .error err
    | .ok b => .ok b.Bytes

/-! ## The interfaces of the package

A value of an interface type is any implementation of `Marshal`. -/

/-- Go interface `Expression`. -/
structure Expression where
  Marshal : Ctx → Except Error String

/-- Go interface `Type`. -/
structure TypeNode where
  Marshal : Ctx → Except Error String

/-- Go interface `ObjectMember`. -/
structure ObjectMember where
  Marshal : Ctx → Except Error String

/-- Go interface `ModuleMember`. -/
structure ModuleMember where
  Marshal : Ctx → Except Error String

instance : Node Expression := ⟨fun n ctx => n.Marshal ctx⟩

instance : Node TypeNode := ⟨fun n ctx => n.Marshal ctx⟩

instance : Node ObjectMember := ⟨fun n ctx => n.Marshal ctx⟩

instance : Node ModuleMember := ⟨fun n ctx => n.Marshal ctx⟩

/-! ## ast/identifier.go, ast/modifier.go -/

/-- Go `type Identifier string`. -/
structure Identifier where
  val : String
deriving DecidableEq, Repr

/-- Go `Identifier.Marshal`. -/
def Identifier.Marshal (i : Identifier) (_ctx : Ctx) : Except Error String := .ok i.val

/-- Go `type QualifiedIdentifier string`. -/
structure QualifiedIdentifier where
  val : String
deriving DecidableEq, Repr

/-- Go `QualifiedIdentifier.Marshal`. -/
def QualifiedIdentifier.Marshal (i : QualifiedIdentifier) (_ctx : Ctx) : Except Error String :=
  .ok i.val

/-- Go `type Modifier string`. -/
structure Modifier where
  val : String
deriving DecidableEq, Repr

/-- Go `Modifier.Marshal`. -/
def Modifier.Marshal (m : Modifier) (_ctx : Ctx) : Except Error String := .ok m.val

instance : Node Modifier := ⟨Modifier.Marshal⟩

/-- Go `type Modifiers []Modifier`. -/
abbrev Modifiers := List Modifier

/-- Go `Modifiers.Marshal`. -/
def Modifiers.Marshal (m : Modifiers) (ctx : Ctx) : Except Error String := joinNodes ctx m " "

/-! ## ast/comment.go -/

/-- Go `type Docs string`. -/
structure Docs where
  val : String
deriving DecidableEq, Repr

/-- The `for i, line := range bytes.Split(...)` loop of `Docs.Marshal`. -/
def Docs.marshalLoop (ctx : Ctx) : Nat → List String → Buffer → Buffer
  | _, [], b => b
  | i, line :: rest, b =>
    let b := if i > 0 then (b.WriteString (newlineWithIndentation ctx)).1 else b
    let b :=
      if len line > 0 then ((b.WriteString "/// ").1.Write line).1
      else (b.WriteString "///").1
    Docs.marshalLoop ctx (i + 1) rest b

/-- Go `Docs.Marshal`. -/
def Docs.Marshal (c : Docs) (ctx : Ctx) : Except Error String :=
  if c.val = "" then .ok ""
  else .ok (Docs.marshalLoop ctx 0 (splitNewline c.val.data) Buffer.empty).Bytes

/-- Go `type ShebangComment string`. -/
structure ShebangComment where
  val : String
deriving DecidableEq, Repr

/-- Go `ShebangComment.Marshal`. -/
def ShebangComment.Marshal (c : ShebangComment) (_ctx : Ctx) : Except Error String :=
  let b := Buffer.empty
  let b := (b.WriteWithPrefix "#! " c.val).1
  .ok b.Bytes

/-! ## ast/parameter.go -/

/-- Go `Parameter`: a required name and an optional type (the Go field `Type`, here
`Typ`). -/
structure Parameter where
  Name : Identifier
  Typ : Option TypeNode := none

/-- Go `Parameter.Marshal`. -/
def Parameter.Marshal (p : Parameter) (ctx : Ctx) : Except Error String := do
  let b := Buffer.empty
  let name ← p.Name.Marshal ctx
  let b := (b.Write name).1
  let b ← (match p.Typ with
    | some t => do
      let typ ← t.Marshal ctx
      pure (b.WriteWithPrefix ": " typ).1
    | none => pure b)
  pure b.Bytes

instance : Node Parameter := ⟨Parameter.Marshal⟩

/-- Go `type Parameters []*Parameter`. -/
abbrev Parameters := List Parameter

/-! ## ast/object.go -/

/-- Go `type ObjectMembers []ObjectMember`. -/
abbrev ObjectMembers := List ObjectMember

/-- Go `ObjectMembers.Marshal`. -/
def ObjectMembers.Marshal (m : ObjectMembers) (ctx : Ctx) : Except Error String := do
  let b := Buffer.empty
  let raisedCtx := raiseIndentLevel ctx
  let raisedNl := newlineWithIndentation raisedCtx
  let members ← joinNodes raisedCtx m raisedNl
  let b := (b.WriteWithPrefix raisedNl members).1
  pure b.Bytes

/-- Go `ObjectBody`. -/
structure ObjectBody where
  Parameters : Parameters := []
  Members : ObjectMembers := []

/-- Go `ObjectBody.Marshal`. -/
def ObjectBody.Marshal (o : ObjectBody) (ctx : Ctx) : Except Error String := do
  let b := Buffer.empty
  let b := (b.WriteRune '\x7b').1
  let params ← joinNodes ctx o.Parameters ", "
  let b := (b.WriteWithPrefixSuffix " " params " ->").1
  let members ← ObjectMembers.Marshal o.Members ctx
  let b := (b.WriteWithSuffix members (newlineWithIndentation ctx)).1
  let b := (b.WriteRune '\x7d').1
  pure b.Bytes

instance : Node ObjectBody := ⟨ObjectBody.Marshal⟩

/-- Go `ObjectProperty` (the Go field `Type` is `Typ`).  `Body` is a slice of bodies, of
which only the length and the elements are read. -/
structure ObjectProperty where
  Modifiers : Modifiers := []
  Name : Identifier
  Typ : Option TypeNode := none
  Value : Option Expression := none
  Body : List ObjectBody := []

/-- Go `ObjectProperty.Marshal`. -/
def ObjectProperty.Marshal (p : ObjectProperty) (ctx : Ctx) : Except Error String := do
  let b := Buffer.empty
  let modifiers ← Modifiers.Marshal p.Modifiers ctx
  let b := (b.WriteWithSuffix modifiers " ").1
  let name ← p.Name.Marshal ctx
  let b := (b.Write name).1
  let b ← (match p.Typ with
    | some t => do
      let typ ← t.Marshal ctx
      pure (b.WriteWithPrefix ": " typ).1
    | none => pure b)
  let b ← (match p.Value with
    | some v => do
      let val ← v.Marshal ctx
      pure (b.WriteWithPrefix " = " val).1
    | none => pure b)
  let body ← joinNodes ctx p.Body " "
  let b := (b.WriteWithPrefix " " body).1
  pure b.Bytes

/-- An `*ObjectProperty` as a value of the interface `ObjectMember`. -/
def ObjectProperty.toObjectMember (p : ObjectProperty) : ObjectMember := ⟨p.Marshal⟩

/-- Go `ForGenerator`: optional key, required value parameter, collection and body. -/
structure ForGenerator where
  Key : Option Parameter := none
  Value : Parameter
  Collection : Expression
  Body : ObjectBody

/-- Go `ForGenerator.Marshal`. -/
def ForGenerator.Marshal (m : ForGenerator) (ctx : Ctx) : Except Error String := do
  let b := Buffer.empty
  let b := (b.WriteString "for (").1
  let b ← (match m.Key with
    | some k => do
      let key ← k.Marshal ctx
      pure (b.WriteWithSuffix key ", ").1
    | none => pure b)
  let val ← m.Value.Marshal ctx
  let b := (b.Write val).1
  let col ← m.Collection.Marshal ctx
  let b := (b.WriteWithPrefixSuffix " in " col ") ").1
  let body ← m.Body.Marshal ctx
  let b := (b.Write body).1
  pure b.Bytes

/-- A `*ForGenerator` as a value of the interface `ObjectMember`. -/
def ForGenerator.toObjectMember (m : ForGenerator) : ObjectMember := ⟨m.Marshal⟩

/-- Go `WhenGenerator`: required condition and `Then` body, optional `Else` body. -/
structure WhenGenerator where
  Condition : Expression
  Then : ObjectBody
  Else : Option ObjectBody := none

/-- Go `WhenGenerator.Marshal`. -/
def WhenGenerator.Marshal (m : WhenGenerator) (ctx : Ctx) : Except Error String := do
  let b := Buffer.empty
  let cond ← m.Condition.Marshal ctx
  let b := (b.WriteWithPrefixSuffix "when (" cond ") ").1
  let thenExpr ← m.Then.Marshal ctx
  let b := (b.Write thenExpr).1
  let b ← (match m.Else with
    | some e => do
      let elseExpr ← e.Marshal ctx
      pure (b.WriteWithPrefix " else " elseExpr).1
    | none => pure b)
  pure b.Bytes

/-- A `*WhenGenerator` as a value of the interface `ObjectMember`. -/
def WhenGenerator.toObjectMember (m : WhenGenerator) : ObjectMember := ⟨m.Marshal⟩

/-! ## ast/expression.go (the literals and the plain member access) -/

/-- Go `type Expressions []Expression`. -/
abbrev Expressions := List Expression

/-- Go `Expressions.Marshal`. -/
def Expressions.Marshal (e : Expressions) (ctx : Ctx) : Except Error String :=
  joinNodes ctx e ", "

/-- Go `type IntExpression int64`; the `int64` values are the integers from `-2^63` to
`2^63 - 1`. -/
structure IntExpression where
  val : Int
deriving DecidableEq, Repr

/-- Go `IntExpression.Marshal`. -/
def IntExpression.Marshal (e : IntExpression) (_ctx : Ctx) : Except Error String :=
  .ok (strconvFormatInt e.val)

/-- An `IntExpression` as a value of the interface `Expression`. -/
def IntExpression.toExpression (e : IntExpression) : Expression := ⟨e.Marshal⟩

/-- Go `type StringExpression string`. -/
structure StringExpression where
  val : String
deriving DecidableEq, Repr

/-- Go `StringExpression.Marshal`. -/
def StringExpression.Marshal (printTable : Char → Bool) (e : StringExpression) (_ctx : Ctx) :
    Except Error String :=
  .ok (strconvQuote printTable e.val)

/-- A `StringExpression` as a value of the interface `Expression`. -/
def StringExpression.toExpression (printTable : Char → Bool) (e : StringExpression) :
    Expression :=
  ⟨e.Marshal printTable⟩

/-- Go `MemberAccessExpression`: `Arguments` is `none` for a `nil` slice and `some []` for
the empty list `NoArguments`. -/
structure MemberAccessExpression where
  Name : Identifier
  Arguments : Option Expressions := none

/-- Go `MemberAccessExpression.Marshal`. -/
def MemberAccessExpression.Marshal (e : MemberAccessExpression) (ctx : Ctx) :
    Except Error String := do
  let b := Buffer.empty
  let name ← e.Name.Marshal ctx
  let b := (b.Write name).1
  let b ← (match e.Arguments with
    | some arguments => do
      let args ← Expressions.Marshal arguments ctx
      let b := (b.WriteRune '(').1
      let b := (b.Write args).1
      pure (b.WriteRune ')').1
    | none => pure b)
  pure b.Bytes

/-- A `*MemberAccessExpression` as a value of the interface `Expression`. -/
def MemberAccessExpression.toExpression (e : MemberAccessExpression) : Expression :=
  ⟨e.Marshal⟩

/-! ## ast/annotation.go -/

/-- Go `Annotation`: the name of the class and an optional body. -/
structure Annotation where
  Name : QualifiedIdentifier
  Body : Option ObjectBody := none

/-- Go `Annotation.Marshal`. -/
def Annotation.Marshal (a : Annotation) (ctx : Ctx) : Except Error String := do
  let b := Buffer.empty
  let name ← a.Name.Marshal ctx
  let b := (b.WriteWithPrefix "@" name).1
  let b ← (match a.Body with
    | some o => do
      let body ← o.Marshal ctx
      pure (b.WriteWithPrefix " " body).1
    | none => pure b)
  pure b.Bytes

instance : Node Annotation := ⟨fun a ctx => a.Marshal ctx⟩

/-- Go `type Annotations []*Annotation`. -/
abbrev Annotations := List Annotation

/-- Go `Annotations.Marshal`. -/
def Annotations.Marshal (a : Annotations) (ctx : Ctx) : Except Error String :=
  joinNodes ctx a (newlineWithIndentation ctx)

/-! ## ast/class.go (properties) -/

/-- Go `ClassProperty` (the Go field `Type` is `Typ`). -/
structure ClassProperty where
  Docs : Docs := ⟨""⟩
  Annotations : Annotations := []
  Modifiers : Modifiers := []
  Name : Identifier
  Typ : Option TypeNode := none
  Expression : Option Expression := none
  Body : Option ObjectBody := none

/-- Go `ClassProperty.Marshal`. -/
def ClassProperty.Marshal (p : ClassProperty) (ctx : Ctx) : Except Error String := do
  let b := Buffer.empty
  let docs ← p.Docs.Marshal ctx
  let b := (b.WriteWithSuffix docs (newlineWithIndentation ctx)).1
  let annotations ← Annotations.Marshal p.Annotations ctx
  let b := (b.WriteWithSuffix annotations (newlineWithIndentation ctx)).1
  let modifiers ← Modifiers.Marshal p.Modifiers ctx
  let b := (b.WriteWithSuffix modifiers " ").1
  let name ← p.Name.Marshal ctx
  let b := (b.Write name).1
  let b ← (match p.Typ with
    | some t => do
      let typ ← t.Marshal ctx
      pure (b.WriteWithPrefix ": " typ).1
    | none => pure b)
  let b ← (match p.Expression with
    | some e => do
      let expr ← e.Marshal ctx
      pure (b.WriteWithPrefix " = " expr).1
    | none => pure b)
  let b ← (match p.Body with
    | some o => do
      let body ← o.Marshal ctx
      pure (b.WriteWithPrefix " " body).1
    | none => pure b)
  pure b.Bytes

/-- A `*ClassProperty` as a value of the interface `ModuleMember`. -/
def ClassProperty.toModuleMember (p : ClassProperty) : ModuleMember := ⟨p.Marshal⟩

/-! ## ast/module.go -/

/-- Go `type ModuleRelationship string`. -/
structure ModuleRelationship where
  val : String
deriving DecidableEq, Repr

/-- Go `ModuleRelationshipExtends`. -/
def ModuleRelationshipExtends : ModuleRelationship := ⟨"extends"⟩

/-- Go `ModuleRelationshipAmends`. -/
def ModuleRelationshipAmends : ModuleRelationship := ⟨"amends"⟩

/-- Go `ImportClause`: required path, optional alias (empty when unset), glob flag. -/
structure ImportClause where
  Path : String
  Alias : String := ""
  Glob : Bool := false
deriving DecidableEq, Repr

/-- Go `ImportClause.Marshal`. -/
def ImportClause.Marshal (printTable : Char → Bool) (i : ImportClause) (_ctx : Ctx) :
    Except Error String :=
  let b := Buffer.empty
  let b := if i.Glob then (b.WriteString "import* ").1 else (b.WriteString "import ").1
  let b := (b.WriteString (strconvQuote printTable i.Path)).1
  let b :=
    if i.Alias ≠ "" then ((b.WriteString " as ").1.WriteString i.Alias).1
    else b
  .ok b.Bytes

/-- Go `type ImportClauses []*ImportClause`. -/
abbrev ImportClauses := List ImportClause

/-- Go `ImportClauses.Marshal`; the `Node` constraint of `joinNodes` is met by
`ImportClause.Marshal`. -/
def ImportClauses.Marshal (printTable : Char → Bool) (i : ImportClauses) (ctx : Ctx) :
    Except Error String :=
  @joinNodes ImportClause ⟨ImportClause.Marshal printTable⟩ ctx i "\n"

/-- Go `type ModuleMembers []ModuleMember`. -/
abbrev ModuleMembers := List ModuleMember

/-- Go `ModuleMembers.Marshal`. -/
def ModuleMembers.Marshal (m : ModuleMembers) (ctx : Ctx) : Except Error String :=
  joinNodes ctx m "\n\n"

/-- Go `Module`.  Unset string fields are empty strings, unset lists are empty. -/
structure Module where
  ShebangComment : ShebangComment := ⟨""⟩
  Docs : Docs := ⟨""⟩
  Annotations : Annotations := []
  Modifiers : Modifiers := []
  Name : QualifiedIdentifier := ⟨""⟩
  ParentRelationship : ModuleRelationship := ⟨""⟩
  ParentName : String := ""
  Imports : ImportClauses := []
  Members : ModuleMembers := []

/-- Go `Module.Marshal`. -/
def Module.Marshal (printTable : Char → Bool) (m : Module) (ctx : Ctx) :
    Except Error String := do
  let b := Buffer.empty
  let shebang ← m.ShebangComment.Marshal ctx
  let b := (b.WriteWithSuffix shebang "\n").1
  let docs ← m.Docs.Marshal ctx
  let b := (b.WriteWithSuffix docs "\n").1
  let annotations ← Annotations.Marshal m.Annotations ctx
  let b := (b.WriteWithSuffix annotations "\n").1
  let modifiers ← Modifiers.Marshal m.Modifiers ctx
  let b := (b.WriteWithSuffix modifiers " ").1
  let b ← (if m.Name.val ≠ "" then do
      let name ← m.Name.Marshal ctx
      pure (b.WriteWithPrefix "module " name).1
    else pure b)
  let b :=
    if m.ParentName ≠ "" then
      let b := if m.Name.val ≠ "" then (b.WriteRune ' ').1 else b
      let b := (b.WriteString m.ParentRelationship.val).1
      let b := (b.WriteRune ' ').1
      (b.WriteString (strconvQuote printTable m.ParentName)).1
    else b
  let b := (b.WriteRune '\n').1
  let imports ← ImportClauses.Marshal printTable m.Imports ctx
  let b := (b.WriteWithPrefixSuffix "\n" imports "\n").1
  let members ← ModuleMembers.Marshal m.Members ctx
  let b := (b.WriteWithPrefixSuffix "\n" members "\n").1
  pure b.Bytes

/-! ## ast/node.go: the loop of `joinNodes` with a count of the `Marshal` calls -/

/-- The loop of `joinNodes` (as `joinNodesLoop`), which in addition counts in `calls` the
nodes whose `Marshal` has been called: the result of the loop together with the count
when the loop is left. -/
def joinNodesLoopCalls {N : Type} [Node N] (ctx : Ctx) (separator : String) :
    Nat → List N → Buffer → Nat → Except Error Buffer × Nat
  | _, [], b, calls => (.ok b, calls)
  | i, node :: rest, b, calls =>
    let b := if i > 0 then (b.WriteString separator).1 else b
    match Node.Marshal node ctx with
    | .error err => (.error err, calls + 1)
    | .ok node => joinNodesLoopCalls ctx separator (i + 1) rest (b.Write node).1 (calls + 1)

/-- Go `joinNodes` (as `joinNodes`) together with the number of nodes whose `Marshal` has
been called. -/
def joinNodesCalls {N : Type} [Node N] (ctx : Ctx) (nodes : List N) (separator : String) :
    Except Error String × Nat :=
  if nodes.length = 0 then (.ok "", 0)
  else
    match joinNodesLoopCalls ctx separator 0 nodes Buffer.empty 0 with
    | (.error err, calls) => (.error err, calls)
    | (.ok b, calls) => (.ok b.Bytes, calls)

/-! ## ast/comment.go: block comments -/

/-- Go `type BlockComment string`. -/
structure BlockComment where
  val : String
deriving DecidableEq, Repr

/-- The `for i, line := range bytes.Split(...)` loop of `BlockComment.Marshal`. -/
def BlockComment.marshalLoop (ctx : Ctx) : Nat → List String → Buffer → Buffer
  | _, [], b => b
  | i, line :: rest, b =>
    let b := if i > 0 then (b.WriteString (newlineWithIndentation ctx)).1 else b
    let b := if len line > 0 then (b.WriteString "  ").1 else b
    let b := (b.Write line).1
    BlockComment.marshalLoop ctx (i + 1) rest b

/-- Go `BlockComment.Marshal`. -/
def BlockComment.Marshal (c : BlockComment) (ctx : Ctx) : Except Error String :=
  if c.val = "" then .ok ""
  else
    let b := Buffer.empty
    let b := (b.WriteString "/*").1
    let b := (b.WriteString (newlineWithIndentation ctx)).1
    let b := BlockComment.marshalLoop ctx 0 (splitNewline c.val.data) b
    let b := (b.WriteString (newlineWithIndentation ctx)).1
    let b := (b.WriteString "*/").1
    .ok b.Bytes

/-! ## ast/parameter.go: type parameters -/

/-- Go `type TypeVariance string`. -/
structure TypeVariance where
  val : String
deriving DecidableEq, Repr

/-- Go `TypeParameter`: a variance (empty when unset) and a name. -/
structure TypeParameter where
  Variance : TypeVariance := ⟨""⟩
  Name : Identifier
deriving DecidableEq, Repr

/-- Go `TypeParameter.Marshal`. -/
def TypeParameter.Marshal (t : TypeParameter) (ctx : Ctx) : Except Error String := do
  let b := Buffer.empty
  let b := if t.Variance.val ≠ "" then (b.WriteWithSuffix t.Variance.val " ").1 else b
  let name ← t.Name.Marshal ctx
  let b := (b.Write name).1
  pure b.Bytes

instance : Node TypeParameter := ⟨TypeParameter.Marshal⟩

/-- Go `type TypeParameters []*TypeParameter`. -/
abbrev TypeParameters := List TypeParameter

/-- Go `TypeParameters.Marshal`. -/
def TypeParameters.Marshal (t : TypeParameters) (ctx : Ctx) : Except Error String := do
  let b := Buffer.empty
  let params ← joinNodes ctx t ", "
  let b := (b.WriteWithPrefixSuffix "<" params ">").1
  pure b.Bytes

/-! ## ast/type.go: declared types -/

/-- Go `DeclaredType`: a name and a list of type arguments. -/
structure DeclaredType where
  Name : QualifiedIdentifier
  TypeParameters : List TypeNode := []

/-- Go `DeclaredType.Marshal`. -/
def DeclaredType.Marshal (t : DeclaredType) (ctx : Ctx) : Except Error String := do
  let b := Buffer.empty
  let name ← t.Name.Marshal ctx
  let b := (b.Write name).1
  let b ← (if t.TypeParameters.length > 0 then do
      let params ← joinNodes ctx t.TypeParameters ", "
      let b := (b.WriteRune '<').1
      let b := (b.Write params).1
      pure (b.WriteRune '>').1
    else pure b)
  pure b.Bytes

/-- A `*DeclaredType` as a value of the interface `Type`. -/
def DeclaredType.toTypeNode (t : DeclaredType) : TypeNode := ⟨t.Marshal⟩

/-! ## ast/class.go: classes and methods -/

/-- Go interface `ClassMember`. -/
structure ClassMember where
  Marshal : Ctx → Except Error String

instance : Node ClassMember := ⟨fun n ctx => n.Marshal ctx⟩

/-- A `*ClassProperty` as a value of the interface `ClassMember`. -/
def ClassProperty.toClassMember (p : ClassProperty) : ClassMember := ⟨p.Marshal⟩

/-- Go `Class` (`Members` is a slice of `ClassMember`). -/
structure Class where
  Docs : Docs := ⟨""⟩
  Annotations : Annotations := []
  Modifiers : Modifiers := []
  Name : Identifier
  TypeParameters : TypeParameters := []
  ParentName : QualifiedIdentifier := ⟨""⟩
  ParentTypeParameters : Balsamic.TypeParameters := []
  Members : List ClassMember := []

/-- Go `Class.Marshal`. -/
def Class.Marshal (c : Class) (ctx : Ctx) : Except Error String := do
  let b := Buffer.empty
  let docs ← c.Docs.Marshal ctx
  let b := (b.WriteWithSuffix docs (newlineWithIndentation ctx)).1
  let annotations ← Annotations.Marshal c.Annotations ctx
  let b := (b.WriteWithSuffix annotations (newlineWithIndentation ctx)).1
  let modifiers ← Modifiers.Marshal c.Modifiers ctx
  let b := (b.WriteWithSuffix modifiers " ").1
  let name ← c.Name.Marshal ctx
  let b := (b.WriteWithPrefix "class " name).1
  let typeParams ← TypeParameters.Marshal c.TypeParameters ctx
  let b := (b.Write typeParams).1
  let parentName ← c.ParentName.Marshal ctx
  let b := (b.WriteWithPrefix " extends " parentName).1
  let parentTypeParams ← TypeParameters.Marshal c.ParentTypeParameters ctx
  let b := (b.Write parentTypeParams).1
  let membersCtx := raiseIndentLevel ctx
  let membersSep := "\n" ++ newlineWithIndentation membersCtx
  let members ← joinNodes membersCtx c.Members membersSep
  let b := (b.WriteWithPrefixSuffix
    (" \x7b" ++ newlineWithIndentation membersCtx)
    members
    (newlineWithIndentation ctx ++ "\x7d")).1
  pure b.Bytes

/-- A `*Class` as a value of the interface `ModuleMember`. -/
def Class.toModuleMember (c : Class) : ModuleMember := ⟨c.Marshal⟩

/-- Go `MethodSignature` (the Go field `Result` is an optional `Type`). -/
structure MethodSignature where
  Modifiers : Modifiers := []
  Name : Identifier
  TypeParameters : TypeParameters := []
  Parameters : Parameters := []
  Result : Option TypeNode := none

/-- Go `MethodSignature.Marshal`. -/
def MethodSignature.Marshal (m : MethodSignature) (ctx : Ctx) : Except Error String := do
  let b := Buffer.empty
  let modifiers ← Modifiers.Marshal m.Modifiers ctx
  let b := (b.WriteWithSuffix modifiers " ").1
  let name ← m.Name.Marshal ctx
  let b := (b.WriteWithPrefix "function " name).1
  let typeParams ← TypeParameters.Marshal m.TypeParameters ctx
  let b := (b.Write typeParams).1
  let params ← joinNodes ctx m.Parameters ", "
  let b := (b.WriteRune '(').1
  let b := (b.Write params).1
  let b := (b.WriteRune ')').1
  let b ← (match m.Result with
    | some r => do
      let result ← r.Marshal ctx
      pure (b.WriteWithPrefix ": " result).1
    | none => pure b)
  pure b.Bytes

/-- Go `ClassMethod`: optional docs and annotations, a required signature and an optional
implementation. -/
structure ClassMethod where
  Docs : Docs := ⟨""⟩
  Annotations : Annotations := []
  Signature : MethodSignature
  Implementation : Option Expression := none

/-- Go `ClassMethod.Marshal`. -/
def ClassMethod.Marshal (m : ClassMethod) (ctx : Ctx) : Except Error String := do
  let b := Buffer.empty
  let docs ← m.Docs.Marshal ctx
  let b := (b.WriteWithSuffix docs (newlineWithIndentation ctx)).1
  let annotations ← Annotations.Marshal m.Annotations ctx
  let b := (b.WriteWithSuffix annotations (newlineWithIndentation ctx)).1
  let signature ← m.Signature.Marshal ctx
  let b := (b.Write signature).1
  let b ← (match m.Implementation with
    | some e => do
      let impl ← e.Marshal ctx
      pure (b.WriteWithPrefix " = " impl).1
    | none => pure b)
  pure b.Bytes

/-- A `*ClassMethod` as a value of the interface `ClassMember`. -/
def ClassMethod.toClassMember (m : ClassMethod) : ClassMember := ⟨m.Marshal⟩

/-- A `*ClassMethod` as a value of the interface `ModuleMember`. -/
def ClassMethod.toModuleMember (m : ClassMethod) : ModuleMember := ⟨m.Marshal⟩

/-! ## ast/typealias.go -/

/-- Go `TypeAlias` (the Go field `Type`, required, is `Typ`). -/
structure TypeAlias where
  Docs : Docs := ⟨""⟩
  Annotations : Annotations := []
  Modifiers : Modifiers := []
  Name : Identifier
  Parameters : TypeParameters := []
  Typ : TypeNode

/-- Go `TypeAlias.Marshal`. -/
def TypeAlias.Marshal (t : TypeAlias) (ctx : Ctx) : Except Error String := do
  let b := Buffer.empty
  let docs ← t.Docs.Marshal ctx
  let b := (b.WriteWithSuffix docs (newlineWithIndentation ctx)).1
  let annotations ← Annotations.Marshal t.Annotations ctx
  let b := (b.WriteWithSuffix annotations (newlineWithIndentation ctx)).1
  let modifiers ← Modifiers.Marshal t.Modifiers ctx
  let b := (b.WriteWithSuffix modifiers " ").1
  let name ← t.Name.Marshal ctx
  let b := (b.WriteWithPrefix "typealias " name).1
  let params ← TypeParameters.Marshal t.Parameters ctx
  let b := (b.Write params).1
  let typ ← t.Typ.Marshal ctx
  let b := (b.WriteWithPrefix " = " typ).1
  pure b.Bytes

/-- A `*TypeAlias` as a value of the interface `ModuleMember`. -/
def TypeAlias.toModuleMember (t : TypeAlias) : ModuleMember := ⟨t.Marshal⟩

/-! ## ast/operator.go, ast/expression.go: binary expressions -/

/-- Go `type BinaryOperator string`. -/
structure BinaryOperator where
  val : String
deriving DecidableEq, Repr

/-- Go `BinaryOperatorPlus`. -/
def BinaryOperatorPlus : BinaryOperator := ⟨"+"⟩
/-- Go `BinaryOperatorMinus`. -/
def BinaryOperatorMinus : BinaryOperator := ⟨"-"⟩
/-- Go `BinaryOperatorMultiply`. -/
def BinaryOperatorMultiply : BinaryOperator := ⟨"*"⟩
/-- Go `BinaryOperatorDivide`. -/
def BinaryOperatorDivide : BinaryOperator := ⟨"/"⟩
/-- Go `BinaryOperatorIntegerDivide`. -/
def BinaryOperatorIntegerDivide : BinaryOperator := ⟨"~/"⟩
/-- Go `BinaryOperatorModulo`. -/
def BinaryOperatorModulo : BinaryOperator := ⟨"%"⟩
/-- Go `BinaryOperatorExponent`. -/
def BinaryOperatorExponent : BinaryOperator := ⟨"**"⟩
/-- Go `BinaryOperatorEqual`. -/
def BinaryOperatorEqual : BinaryOperator := ⟨"=="⟩
/-- Go `BinaryOperatorNotEqual`. -/
def BinaryOperatorNotEqual : BinaryOperator := ⟨"!="⟩
/-- Go `BinaryOperatorLessThan`. -/
def BinaryOperatorLessThan : BinaryOperator := ⟨"<"⟩
/-- Go `BinaryOperatorLessThanOrEqual`. -/
def BinaryOperatorLessThanOrEqual : BinaryOperator := ⟨"<="⟩
/-- Go `BinaryOperatorGreaterThan`. -/
def BinaryOperatorGreaterThan : BinaryOperator := ⟨">"⟩
/-- Go `BinaryOperatorGreaterThanOrEqual`. -/
def BinaryOperatorGreaterThanOrEqual : BinaryOperator := ⟨">="⟩
/-- Go `BinaryOperatorBitwiseAnd`. -/
def BinaryOperatorBitwiseAnd : BinaryOperator := ⟨"&"⟩
/-- Go `BinaryOperatorBitwiseOr`. -/
def BinaryOperatorBitwiseOr : BinaryOperator := ⟨"|"⟩
/-- Go `BinaryOperatorLogicalAnd`. -/
def BinaryOperatorLogicalAnd : BinaryOperator := ⟨"&&"⟩
/-- Go `BinaryOperatorLogicalOr`. -/
def BinaryOperatorLogicalOr : BinaryOperator := ⟨"||"⟩
/-- Go `BinaryOperatorNullCoalesce`. -/
def BinaryOperatorNullCoalesce : BinaryOperator := ⟨"??"⟩
/-- Go `BinaryOperatorPipe`. -/
def BinaryOperatorPipe : BinaryOperator := ⟨"|>"⟩

/-- Go `BinaryExpression`: the three fields are required. -/
structure BinaryExpression where
  Operator : BinaryOperator
  Left : Expression
  Right : Expression

/-- Go `BinaryExpression.Marshal`. -/
def BinaryExpression.Marshal (e : BinaryExpression) (ctx : Ctx) : Except Error String := do
  let b := Buffer.empty
  let left ← e.Left.Marshal ctx
  let right ← e.Right.Marshal ctx
  let b := (b.WriteWithSuffix left " ").1
  let b := (b.WriteString e.Operator.val).1
  let b := (b.WriteWithPrefix " " right).1
  pure b.Bytes

/-- A `*BinaryExpression` as a value of the interface `Expression`. -/
def BinaryExpression.toExpression (e : BinaryExpression) : Expression := ⟨e.Marshal⟩

/-- Go `var NoArguments = Expressions{}`: the list that is present and empty. -/
def NoArguments : Expressions := []

/-! ## ast/type.go: string literal, union and function literal types -/

/-- Go `type StringLiteralType string`. -/
structure StringLiteralType where
  val : String
deriving DecidableEq, Repr

/-- Go `StringLiteralType.Marshal`. -/
def StringLiteralType.Marshal (printTable : Char → Bool) (t : StringLiteralType) (_ctx : Ctx) :
    Except Error String :=
  .ok (strconvQuote printTable t.val)

/-- A `StringLiteralType` as a value of the interface `Type`. -/
def StringLiteralType.toTypeNode (printTable : Char → Bool) (t : StringLiteralType) :
    TypeNode :=
  ⟨t.Marshal printTable⟩

/-- Go `UnionType`: `Default` is optional. -/
structure UnionType where
  Members : List TypeNode
  Default : Option TypeNode := none

/-- Go `UnionType.Marshal`. -/
def UnionType.Marshal (t : UnionType) (ctx : Ctx) : Except Error String := do
  let b := Buffer.empty
  let members ← joinNodes ctx t.Members " | "
  let b := (b.Write members).1
  let b ← (match t.Default with
    | some d => do
      let dflt ← d.Marshal ctx
      let b := if t.Members.length > 0 then (b.WriteString " | *").1 else (b.WriteRune '*').1
      pure (b.Write dflt).1
    | none => pure b)
  pure b.Bytes

/-- A `*UnionType` as a value of the interface `Type`. -/
def UnionType.toTypeNode (t : UnionType) : TypeNode := ⟨t.Marshal⟩

/-- Go `FunctionLiteralType`: `Parameters` is optional (a `nil` slice and an empty one are
both the empty list), `Result` is required. -/
structure FunctionLiteralType where
  Parameters : List TypeNode := []
  Result : TypeNode

/-- Go `FunctionLiteralType.Marshal`. -/
def FunctionLiteralType.Marshal (t : FunctionLiteralType) (ctx : Ctx) :
    Except Error String := do
  let b := Buffer.empty
  let params ← joinNodes ctx t.Parameters ", "
  let b := (b.WriteWithPrefixSuffix "(" params ")").1
  let result ← t.Result.Marshal ctx
  let b := (b.WriteWithPrefix " -> " result).1
  pure b.Bytes

/-- A `*FunctionLiteralType` as a value of the interface `Type`. -/
def FunctionLiteralType.toTypeNode (t : FunctionLiteralType) : TypeNode := ⟨t.Marshal⟩

/-! ## Go standard library: `strings.Split`, `path` and the errors of `io/fs` -/

/-- Go `strings.Split(s, "/")`, on the characters of a text: the pieces between the
slashes, one more than there are slashes. -/
def splitSlash : List Char → List String
  | [] => [""]
  | c :: cs =>
    if c = '/' then "" :: splitSlash cs
    else
      match splitSlash cs with
      | [] => [String.singleton c]
      | piece :: pieces => (String.singleton c ++ piece) :: pieces

/-- The step of the loop of Go `path.Clean` for one path element, the text between two
slashes; `out` holds the elements written so far, the last one first. An empty element
and `.` are dropped; `..` removes the last element written when there is one that is
not itself `..` (`out.w > dotdot`), is dropped at the top of a rooted path, and is
written otherwise; every other element is written. -/
def cleanStep (rooted : Bool) (out : List String) (element : String) : List String :=
  if element = "" ∨ element = "." then out
  else if element = ".." then
    match out with
    | last :: rest =>
      if last ≠ ".." then rest else if rooted then out else ".." :: out
    | [] => if rooted then out else ".." :: out
  else element :: out

/-- Go `path.Clean`: the shortest path name equivalent to `path` by purely lexical
processing, read element by element. A rooted path keeps its leading slash, and the
empty result is `.`. -/
def pathClean (path : String) : String :=
  if path = "" then "."
  else
    let rooted := path.data.head? = some '/'
    let out := (splitSlash path.data).foldl (cleanStep rooted) []
    let text := (if rooted then "/" else "") ++ String.intercalate "/" out.reverse
    if text = "" then "." else text

/-- The part `path[:i+1]` of Go `path.Split`: the characters up to and including the
last slash, nothing when there is no slash. -/
def uptoLastSlash : List Char → List Char
  | [] => []
  | c :: cs =>
    let rest := uptoLastSlash cs
    if c = '/' ∨ rest ≠ [] then c :: rest else []

/-- Go `path.Dir`: all but the last element of the path, cleaned. -/
def pathDir (path : String) : String :=
  pathClean (String.mk (uptoLastSlash path.data))

/-- Go `path.Join`: the elements joined by slashes, leading empty elements left out, and
the result cleaned; the empty text when every element is empty. -/
def pathJoin (elem : List String) : String :=
  if (elem.map len).sum = 0 then ""
  else
    pathClean (elem.foldl
      (fun buf e =>
        if buf ≠ "" ∨ e ≠ "" then (if buf ≠ "" then buf ++ "/" else buf) ++ e else buf)
      "")

/-- Go `fs.ErrInvalid`. -/
def fsErrInvalid : Error := ⟨"invalid argument"⟩

/-- Go `fs.ErrExist`. -/
def fsErrExist : Error := ⟨"file already exists"⟩

/-- Go `fs.ErrNotExist`. -/
def fsErrNotExist : Error := ⟨"file does not exist"⟩

/-- Go `&fs.PathError{Op: op, Path: path, Err: err}`, by the text of its `Error()`. -/
def fsPathError (op path : String) (err : Error) : Error :=
  ⟨op ++ " " ++ path ++ ": " ++ err.msg⟩

/-- Go `fs.ModeDir`, the bit `1 << 31` of a `fs.FileMode`. -/
def fsModeDir : Nat := 2 ^ 31

/-! ## internal/fsutil/memfs

The methods take the store and return the store afterwards together with their result.
The mutex of the store is not modelled (the calls are sequential), and neither is the
modification time of a node, which is read from the clock. -/

/-- Go `memNode`: a file with its bytes, or a directory. -/
structure memNode where
  data : String := ""
  mode : Nat
  isDir : Bool
deriving DecidableEq, Repr

/-- Go `m[k]` on a map held as a list of its entries: the value stored under `k`. -/
def mapLookup {β : Type} (k : String) : List (String × β) → Option β
  | [] => none
  | (k2, v2) :: rest => if k2 = k then some v2 else mapLookup k rest

/-- Go `m[k] = v` on a map held as a list of its entries: the entry of `k` is replaced,
or added when there is none. -/
def mapAssign {β : Type} (k : String) (v : β) : List (String × β) → List (String × β)
  | [] => [(k, v)]
  | (k2, v2) :: rest => if k2 = k then (k, v) :: rest else (k2, v2) :: mapAssign k v rest

/-- Go `MemFS`: the map from the normalized paths to the nodes. -/
structure MemFS where
  nodes : List (String × memNode)
deriving DecidableEq, Repr

/-- Go `New`: the store that holds the root directory `.` only. -/
def New : MemFS :=
  ⟨[(".", { mode := fsModeDir ||| 0o755, isDir := true })]⟩

/-- The loop of Go `MkDirAll` over the components of the path. -/
def MemFS.mkDirAllLoop (perm : Nat) : List String → String → MemFS → MemFS × Option Error
  | [], _, m => (m, none)
  | component :: rest, currentPath, m =>
    if component = "" then MemFS.mkDirAllLoop perm rest currentPath m
    else
      let currentPath :=
        if currentPath = "." then component else pathJoin [currentPath, component]
      match mapLookup currentPath m.nodes with
      | some node =>
        if !node.isDir then (m, some (fsPathError "mkdir" currentPath fsErrExist))
        else MemFS.mkDirAllLoop perm rest currentPath m
      | none =>
        MemFS.mkDirAllLoop perm rest currentPath
          ⟨mapAssign currentPath { mode := perm ||| fsModeDir, isDir := true } m.nodes⟩

/-- Go `MemFS.MkDirAll`: the store afterwards and the error, `none` for `nil`. -/
def MemFS.MkDirAll (m : MemFS) (name : String) (perm : Nat) : MemFS × Option Error :=
  let name := pathClean name
  if name = "." then (m, none)
  else
    match mapLookup name m.nodes with
    | some node =>
      if node.isDir then (m, none)
      else (m, some (fsPathError "mkdir" name fsErrExist))
    | none => MemFS.mkDirAllLoop perm (splitSlash name.data) "." m

/-- Go `MemFS.WriteFile`: the store afterwards and the error, `none` for `nil`. -/
def MemFS.WriteFile (m : MemFS) (name : String) (data : String) (perm : Nat) :
    MemFS × Option Error :=
  let name := pathClean name
  if (match mapLookup name m.nodes with
      | some node => node.isDir
      | none => false) then
    (m, some (fsPathError "write" name fsErrInvalid))
  else
    let dir := pathDir name
    let made : MemFS × Option Error :=
      if dir ≠ "." ∧ (match mapLookup dir m.nodes with
          | some node => !node.isDir
          | none => true) = true then
        m.MkDirAll dir 0o755
      else (m, none)
    match made.2 with
    | some err => (made.1, some err)
    | none =>
      (⟨mapAssign name { data := data, mode := perm, isDir := false } made.1.nodes⟩, none)

/-- Go `MemFS.ReadFile`: the store afterwards and the bytes of the file, or the error. -/
def MemFS.ReadFile (m : MemFS) (name : String) : MemFS × Except Error String :=
  let name := pathClean name
  match mapLookup name m.nodes with
  | none => (m, .error fsErrNotExist)
  | some node =>
    if node.isDir then (m, .error (fsPathError "read" name fsErrInvalid))
    else (m, .ok node.data)

/-! ## Go standard library: `strconv.Unquote`

The inverse of `strconv.Quote`, for a text between double quotes. A text is a list of
characters here, so an escape that stands for a single byte above `0x7F`, which is not a
character by itself, has no result. -/

/-- Go `unhex`: the value of a hexadecimal digit. -/
def unhex (c : Char) : Option Nat :=
  if '0'.toNat ≤ c.toNat ∧ c.toNat ≤ '9'.toNat then some (c.toNat - '0'.toNat)
  else if 'a'.toNat ≤ c.toNat ∧ c.toNat ≤ 'f'.toNat then some (c.toNat - 'a'.toNat + 10)
  else if 'A'.toNat ≤ c.toNat ∧ c.toNat ≤ 'F'.toNat then some (c.toNat - 'A'.toNat + 10)
  else none

/-- The loop `v = v<<4 | x` of Go `UnquoteChar` over the hexadecimal digits `cs`. -/
def unhexLoop : Nat → List Char → Option Nat
  | v, [] => some v
  | v, c :: cs =>
    match unhex c with
    | some x => unhexLoop (v <<< 4 ||| x) cs
    | none => none

/-- The loop `v = (v << 3) | x` of Go `UnquoteChar` over the octal digits `cs`. -/
def unoctLoop : Nat → List Char → Option Nat
  | v, [] => some v
  | v, c :: cs =>
    if '0'.toNat ≤ c.toNat ∧ c.toNat ≤ '7'.toNat then
      unoctLoop (v <<< 3 ||| (c.toNat - '0'.toNat)) cs
    else none

/-- Go `utf8.ValidRune`. -/
def utf8ValidRune (v : Nat) : Bool :=
  v < 0xD800 || (0xDFFF < v && v ≤ 0x10FFFF)

/-- A value below `0x80` written by a one-byte escape, as a character. -/
def byteRune (v : Nat) (tail : List Char) : Option (Char × List Char) :=
  if v < 0x80 then some (Char.ofNat v, tail) else none

/-- Go `strconv.UnquoteChar(s, '"')`: the first character or escape sequence of `s`
decoded, and the rest of `s`; `none` for a syntax error. -/
def UnquoteChar : List Char → Option (Char × List Char)
  | [] => none
  | c :: s =>
    if c = '"' then none
    else if c ≠ '\\' then some (c, s)
    else
      match s with
      | [] => none
      | c :: s =>
        if c = 'a' then some (Char.ofNat 7, s)
        else if c = 'b' then some (Char.ofNat 8, s)
        else if c = 'f' then some (Char.ofNat 12, s)
        else if c = 'n' then some ('\n', s)
        else if c = 'r' then some ('\r', s)
        else if c = 't' then some ('\t', s)
        else if c = 'v' then some (Char.ofNat 11, s)
        else if c = 'x' then
          match s with
          | h1 :: h2 :: tail => (unhexLoop 0 [h1, h2]).bind fun v => byteRune v tail
          | _ => none
        else if c = 'u' then
          match s with
          | h1 :: h2 :: h3 :: h4 :: tail =>
            (unhexLoop 0 [h1, h2, h3, h4]).bind fun v =>
              if utf8ValidRune v then some (Char.ofNat v, tail) else none
          | _ => none
        else if c = 'U' then
          match s with
          | h1 :: h2 :: h3 :: h4 :: h5 :: h6 :: h7 :: h8 :: tail =>
            (unhexLoop 0 [h1, h2, h3, h4, h5, h6, h7, h8]).bind fun v =>
              if utf8ValidRune v then some (Char.ofNat v, tail) else none
          | _ => none
        else if '0'.toNat ≤ c.toNat ∧ c.toNat ≤ '7'.toNat then
          match s with
          | o1 :: o2 :: tail =>
            (unoctLoop (c.toNat - '0'.toNat) [o1, o2]).bind fun v =>
              if v > 255 then none else byteRune v tail
          | _ => none
        else if c = '\\' then some ('\\', s)
        else if c = '"' then some ('"', s)
        else none

/-- The loop of Go `strconv.Unquote` after the opening quote: the characters are decoded
one `UnquoteChar` at a time up to the terminating quote, which must end the text; a raw
line feed is a syntax error. Every turn of the loop takes one unit of `fuel`. -/
def unquoteLoop : Nat → List Char → String → Option String
  | 0, _, _ => none
  | fuel + 1, s, buf =>
    match s with
    | [] => none
    | c :: rest =>
      if c = '"' then (if rest = [] then some buf else none)
      else if c = '\n' then none
      else
        match UnquoteChar (c :: rest) with
        | none => none
        | some (r, rem) => unquoteLoop fuel rem (buf.push r)

/-- Go `strconv.Unquote` for a text between double quotes: the text that the literal
denotes, `none` for a syntax error. The fuel is the length of the text, which no run of
the loop exceeds. -/
def strconvUnquote (s : String) : Option String :=
  match s.data with
  | [] => none
  | c :: rest => if c = '"' then unquoteLoop (rest.length + 1) rest "" else none

/-! ## internal/fsutil/memfs: opening a directory -/

/-- The loop of Go `path.Base` that strips the trailing slashes. -/
def stripTrailingSlashes (path : List Char) : List Char :=
  (path.reverse.dropWhile (fun c => c = '/')).reverse

/-- The part `path[i+1:]` of Go `path.Base`: the characters after the last slash, all of
them when there is no slash. -/
def afterLastSlash : List Char → List Char
  | [] => []
  | c :: cs => if '/' ∈ cs then afterLastSlash cs else if c = '/' then cs else c :: cs

/-- Go `path.Base`: the last element of the path. -/
def pathBase (path : String) : String :=
  if path = "" then "."
  else
    let last := afterLastSlash (stripTrailingSlashes path.data)
    if last = [] then "/" else String.mk last

/-- Go `dirEntry`: an entry of a directory listing (without the modification time). -/
structure dirEntry where
  name : String
  isDir : Bool
  mode : Nat
  size : Nat
deriving DecidableEq, Repr

/-- Go `fsFile`: an open file or directory (without the modification time). -/
structure fsFile where
  name : String
  data : String
  entries : List dirEntry
  offset : Nat
  dirOffset : Nat
  mode : Nat
  isDir : Bool
deriving DecidableEq, Repr

/-- The block of Go `openDir` that appends the entry named `entryName` unless an entry
of that name was added before; `seenEntries` holds the names added. -/
def addEntry (entryName : String) (node : memNode) (entries : List dirEntry)
    (seenEntries : List String) : List dirEntry × List String :=
  if entryName ∉ seenEntries then
    let entry : dirEntry :=
      { name := entryName, isDir := node.isDir, mode := node.mode, size := len node.data }
    (entries ++ [entry], entryName :: seenEntries)
  else (entries, seenEntries)

/-- The loop of Go `openDir` over the nodes of the store, in the order in which the map
yields them. -/
def openDirLoop (dirPath : String) :
    List (String × memNode) → List dirEntry → List String → List dirEntry
  | [], entries, _ => entries
  | (nodePath, node) :: rest, entries, seenEntries =>
    if nodePath = dirPath then openDirLoop dirPath rest entries seenEntries
    else if dirPath = "." then
      if '/' ∉ nodePath.data then
        let added := addEntry nodePath node entries seenEntries
        openDirLoop dirPath rest added.1 added.2
      else openDirLoop dirPath rest entries seenEntries
    else
      if pathDir nodePath = dirPath then
        let added := addEntry (pathBase nodePath) node entries seenEntries
        openDirLoop dirPath rest added.1 added.2
      else openDirLoop dirPath rest entries seenEntries

/-- Go `sort.Slice(entries, less)` with `less` comparing the names: the entries in
ascending order of name. The names of the entries of a listing are distinct, so the
order is the same for every sorting algorithm; the texts are compared character by
character, which is the byte order of their UTF-8 encodings. -/
def sortEntries (entries : List dirEntry) : List dirEntry :=
  entries.insertionSort (fun a b => a.name ≤ b.name)

/-- Go `MemFS.openDir`. -/
def MemFS.openDir (m : MemFS) (dirPath : String) : Except Error fsFile :=
  match mapLookup dirPath m.nodes with
  | none => .error fsErrNotExist
  | some dirNode =>
    if !dirNode.isDir then .error fsErrNotExist
    else
      let entries := openDirLoop dirPath m.nodes [] []
      .ok { name := dirPath, data := "", entries := sortEntries entries, offset := 0,
            dirOffset := 0, mode := dirNode.mode, isDir := true }

/-- Go `MemFS.Open`: the store afterwards and the open file, or the error. -/
def MemFS.Open (m : MemFS) (name : String) : MemFS × Except Error fsFile :=
  let name := pathClean name
  match mapLookup name m.nodes with
  | none => (m, .error fsErrNotExist)
  | some node =>
    if node.isDir then (m, m.openDir name)
    else
      (m, .ok { name := name, data := node.data, entries := [], offset := 0, dirOffset := 0,
                mode := node.mode, isDir := false })

/-! ## pkl/module.go, pkl/project.go -/

/-- Go `pkl.Module`: a path and the syntax tree of the module. -/
structure pkl.Module where
  Path : String
  AST : Balsamic.Module

/-- Go `pkl.Module.Marshal`: the tree rendered with `context.Background()`. -/
def pkl.Module.Marshal (printTable : Char → Bool) (m : pkl.Module) : Except Error String :=
  Balsamic.Module.Marshal printTable m.AST Ctx.Background

/-- Go `pkl.Project`: `Modules` is the map from paths to modules, held as the list of
its entries in the order in which a `range` over the map yields them. -/
structure pkl.Project where
  Name : String
  Modules : List (String × pkl.Module)

/-- Go `pkl.NewProject`: the project that holds the manifest module `PklProject`. -/
def pkl.NewProject (name : String) : pkl.Project :=
  let manifest : pkl.Module :=
    { Path := "PklProject"
      AST := { ParentRelationship := ModuleRelationshipAmends, ParentName := "pkl:Project" } }
  { Name := name, Modules := [(manifest.Path, manifest)] }

/-- Go `pkl.Project.AddModule`: the project afterwards. -/
def pkl.Project.AddModule (p : pkl.Project) (m : pkl.Module) : pkl.Project :=
  { p with Modules := mapAssign m.Path m p.Modules }

/-- The error built by Go `fmt.Errorf` for a format that ends in `: %w`: its message and
the error it wraps, which `Unwrap` returns. -/
structure wrapError where
  msg : String
  err : Error
deriving DecidableEq, Repr

/-- Go `Unwrap` of a wrapping error. -/
def wrapError.Unwrap (e : wrapError) : Error := e.err

/-- Go `fmt.Errorf("marshal Pkl module %s: %w", path, err)`. -/
def marshalError (path : String) (err : Error) : wrapError :=
  ⟨"marshal Pkl module " ++ path ++ ": " ++ err.msg, err⟩

/-- Go `fmt.Errorf("write Pkl module %s: %w", path, err)`. -/
def writeError (path : String) (err : Error) : wrapError :=
  ⟨"write Pkl module " ++ path ++ ": " ++ err.msg, err⟩

/-- The loop of Go `pkl.Project.Render` over the modules, in the order in which the map
yields them: the store after the last module, or the error of the first module that
fails, in which case no store is returned. -/
def pkl.renderLoop (printTable : Char → Bool) :
    List (String × pkl.Module) → MemFS → Except wrapError MemFS
  | [], fsys => .ok fsys
  | (_, m) :: rest, fsys =>
    match m.Marshal printTable with
    | .error err => .error (marshalError m.Path err)
    | .ok data =>
      match (fsys.WriteFile m.Path data 0o666).2 with
      | some err => .error (writeError m.Path err)
      | none => pkl.renderLoop printTable rest (fsys.WriteFile m.Path data 0o666).1

/-- Go `pkl.Project.Render`. -/
def pkl.Project.Render (printTable : Char → Bool) (p : pkl.Project) : Except wrapError MemFS :=
  pkl.renderLoop printTable p.Modules New

/-! ## ast/comment.go: line comments -/

/-- Go `type LineComment string`. -/
structure LineComment where
  val : String
deriving DecidableEq, Repr

/-- Go `LineComment.Marshal`. -/
def LineComment.Marshal (c : LineComment) (ctx : Ctx) : Except Error String :=
  let b := Buffer.empty
  let pre := indentation ctx ++ "// "
  let b := (b.WriteWithPrefix pre c.val).1
  .ok b.Bytes

/-! ## ast/operator.go, ast/expression.go: the remaining expressions -/

/-- Go `type PrefixUnaryOperand string`. -/
structure PrefixUnaryOperand where
  val : String
deriving DecidableEq, Repr

/-- Go `type PostfixUnaryOperand string`. -/
structure PostfixUnaryOperand where
  val : String
deriving DecidableEq, Repr

/-- Go `type TypeOperator string`. -/
structure TypeOperator where
  val : String
deriving DecidableEq, Repr

/-- Go `type BuiltinExpression string`. -/
structure BuiltinExpression where
  val : String
deriving DecidableEq, Repr

/-- Go `BuiltinExpression.Marshal`. -/
def BuiltinExpression.Marshal (e : BuiltinExpression) (_ctx : Ctx) : Except Error String :=
  .ok e.val

/-- A `BuiltinExpression` as a value of the interface `Expression`. -/
def BuiltinExpression.toExpression (e : BuiltinExpression) : Expression := ⟨e.Marshal⟩

/-- Go `type FloatExpression float64`: the value, by the 64 bits of its IEEE 754 form. -/
structure FloatExpression where
  bits : Nat
deriving DecidableEq, Repr

/-- Go `FloatExpression.Marshal`; the text `strconv.FormatFloat(f, 'f', -1, 64)` of a
value is the parameter `formatFloat`. -/
def FloatExpression.Marshal (formatFloat : Nat → String) (e : FloatExpression) (_ctx : Ctx) :
    Except Error String :=
  .ok (formatFloat e.bits)

/-- A `FloatExpression` as a value of the interface `Expression`. -/
def FloatExpression.toExpression (formatFloat : Nat → String) (e : FloatExpression) :
    Expression :=
  ⟨e.Marshal formatFloat⟩

/-- Go `PrefixUnaryExpression`. -/
structure PrefixUnaryExpression where
  Operator : PrefixUnaryOperand
  Operand : Expression

/-- Go `PrefixUnaryExpression.Marshal`. -/
def PrefixUnaryExpression.Marshal (e : PrefixUnaryExpression) (ctx : Ctx) :
    Except Error String := do
  let b := Buffer.empty
  let operand ← e.Operand.Marshal ctx
  let b := (b.WriteString e.Operator.val).1
  let b := (b.Write operand).1
  pure b.Bytes

/-- A `*PrefixUnaryExpression` as a value of the interface `Expression`. -/
def PrefixUnaryExpression.toExpression (e : PrefixUnaryExpression) : Expression :=
  ⟨e.Marshal⟩

/-- Go `PostfixUnaryExpression`. -/
structure PostfixUnaryExpression where
  Operator : PostfixUnaryOperand
  Operand : Expression

/-- Go `PostfixUnaryExpression.Marshal`. -/
def PostfixUnaryExpression.Marshal (e : PostfixUnaryExpression) (ctx : Ctx) :
    Except Error String := do
  let b := Buffer.empty
  let operand ← e.Operand.Marshal ctx
  let b := (b.Write operand).1
  let b := (b.WriteString e.Operator.val).1
  pure b.Bytes

/-- A `*PostfixUnaryExpression` as a value of the interface `Expression`. -/
def PostfixUnaryExpression.toExpression (e : PostfixUnaryExpression) : Expression :=
  ⟨e.Marshal⟩

/-- Go `TypeExpression` (the Go field `Type` is `Typ`). -/
structure TypeExpression where
  Operator : TypeOperator
  Expression : Expression
  Typ : TypeNode

/-- Go `TypeExpression.Marshal`. -/
def TypeExpression.Marshal (e : TypeExpression) (ctx : Ctx) : Except Error String := do
  let b := Buffer.empty
  let expr ← e.Expression.Marshal ctx
  let typ ← e.Typ.Marshal ctx
  let b := (b.WriteWithSuffix expr " ").1
  let b := (b.WriteString e.Operator.val).1
  let b := (b.WriteWithPrefix " " typ).1
  pure b.Bytes

/-- A `*TypeExpression` as a value of the interface `Expression`. -/
def TypeExpression.toExpression (e : TypeExpression) : Balsamic.Expression := ⟨e.Marshal⟩

/-- Go `QualifiedMemberAccessExpression`: `Arguments` is `none` for a `nil` slice. -/
structure QualifiedMemberAccessExpression where
  Receiver : Expression
  Nullable : Bool := false
  Name : Identifier
  Arguments : Option Expressions := none

/-- Go `QualifiedMemberAccessExpression.Marshal`. -/
def QualifiedMemberAccessExpression.Marshal (e : QualifiedMemberAccessExpression) (ctx : Ctx) :
    Except Error String := do
  let b := Buffer.empty
  let receiver ← e.Receiver.Marshal ctx
  let b := (b.Write receiver).1
  let b := if e.Nullable then (b.WriteString ".?").1 else (b.WriteRune '.').1
  let name ← e.Name.Marshal ctx
  let b := (b.Write name).1
  let b ← (match e.Arguments with
    | some arguments => do
      let args ← Expressions.Marshal arguments ctx
      let b := (b.WriteRune '(').1
      let b := (b.Write args).1
      pure (b.WriteRune ')').1
    | none => pure b)
  pure b.Bytes

/-- A `*QualifiedMemberAccessExpression` as a value of the interface `Expression`. -/
def QualifiedMemberAccessExpression.toExpression (e : QualifiedMemberAccessExpression) :
    Expression :=
  ⟨e.Marshal⟩

/-- Go `SuperAccessExpression`: `Arguments` is `none` for a `nil` slice. -/
structure SuperAccessExpression where
  Name : Identifier
  Arguments : Option Expressions := none

/-- Go `SuperAccessExpression.Marshal`. -/
def SuperAccessExpression.Marshal (e : SuperAccessExpression) (ctx : Ctx) :
    Except Error String := do
  let b := Buffer.empty
  let name ← e.Name.Marshal ctx
  let b := (b.WriteWithPrefix "super." name).1
  let b ← (match e.Arguments with
    | some arguments => do
      let args ← Expressions.Marshal arguments ctx
      let b := (b.WriteRune '(').1
      let b := (b.Write args).1
      pure (b.WriteRune ')').1
    | none => pure b)
  pure b.Bytes

/-- A `*SuperAccessExpression` as a value of the interface `Expression`. -/
def SuperAccessExpression.toExpression (e : SuperAccessExpression) : Expression :=
  ⟨e.Marshal⟩

/-- Go `SubscriptExpression`. -/
structure SubscriptExpression where
  Receiver : Expression
  Subscript : Expression

/-- Go `SubscriptExpression.Marshal`. -/
def SubscriptExpression.Marshal (e : SubscriptExpression) (ctx : Ctx) :
    Except Error String := do
  let b := Buffer.empty
  let receiver ← e.Receiver.Marshal ctx
  let b := (b.Write receiver).1
  let subscript ← e.Subscript.Marshal ctx
  let b := (b.WriteWithPrefixSuffix "[" subscript "]").1
  pure b.Bytes

/-- A `*SubscriptExpression` as a value of the interface `Expression`. -/
def SubscriptExpression.toExpression (e : SubscriptExpression) : Expression := ⟨e.Marshal⟩

/-- Go `SuperSubscriptExpression`. -/
structure SuperSubscriptExpression where
  Subscript : Expression

/-- Go `SuperSubscriptExpression.Marshal`. -/
def SuperSubscriptExpression.Marshal (e : SuperSubscriptExpression) (ctx : Ctx) :
    Except Error String := do
  let b := Buffer.empty
  let subscript ← e.Subscript.Marshal ctx
  let b := (b.WriteWithPrefixSuffix "super[" subscript "]").1
  pure b.Bytes

/-- A `*SuperSubscriptExpression` as a value of the interface `Expression`. -/
def SuperSubscriptExpression.toExpression (e : SuperSubscriptExpression) : Expression :=
  ⟨e.Marshal⟩

/-- Go interface `AmendParentExpression`. -/
structure AmendParentExpression where
  Marshal : Ctx → Except Error String

/-- Go `ParenthesizedExpression`. -/
structure ParenthesizedExpression where
  Expression : Expression

/-- Go `ParenthesizedExpression.Marshal`. -/
def ParenthesizedExpression.Marshal (e : ParenthesizedExpression) (ctx : Ctx) :
    Except Error String := do
  let b := Buffer.empty
  let expr ← e.Expression.Marshal ctx
  let b := (b.WriteWithPrefixSuffix "(" expr ")").1
  pure b.Bytes

/-- A `*ParenthesizedExpression` as a value of the interface `Expression`. -/
def ParenthesizedExpression.toExpression (e : ParenthesizedExpression) :
    Balsamic.Expression :=
  ⟨e.Marshal⟩

/-- A `*ParenthesizedExpression` as a value of the interface `AmendParentExpression`. -/
def ParenthesizedExpression.toAmendParentExpression (e : ParenthesizedExpression) :
    AmendParentExpression :=
  ⟨e.Marshal⟩

/-- Go `NewExpression` (the Go field `Type` is `Typ`): an optional type and a body. -/
structure NewExpression where
  Typ : Option TypeNode := none
  Body : ObjectBody

/-- Go `NewExpression.Marshal`. -/
def NewExpression.Marshal (e : NewExpression) (ctx : Ctx) : Except Error String := do
  let b := Buffer.empty
  let b := (b.WriteString "new ").1
  let b ← (match e.Typ with
    | some t => do
      let typ ← t.Marshal ctx
      pure (b.WriteWithSuffix typ " ").1
    | none => pure b)
  let body ← e.Body.Marshal ctx
  let b := (b.Write body).1
  pure b.Bytes

/-- A `*NewExpression` as a value of the interface `Expression`. -/
def NewExpression.toExpression (e : NewExpression) : Expression := ⟨e.Marshal⟩

/-- A `*NewExpression` as a value of the interface `AmendParentExpression`. -/
def NewExpression.toAmendParentExpression (e : NewExpression) : AmendParentExpression :=
  ⟨e.Marshal⟩

/-- Go `AmendExpression`. -/
structure AmendExpression where
  Parent : AmendParentExpression
  Body : ObjectBody

/-- Go `AmendExpression.Marshal`. -/
def AmendExpression.Marshal (e : AmendExpression) (ctx : Ctx) : Except Error String := do
  let b := Buffer.empty
  let parent ← e.Parent.Marshal ctx
  let body ← e.Body.Marshal ctx
  let b := (b.Write parent).1
  let b := (b.WriteRune ' ').1
  let b := (b.Write body).1
  pure b.Bytes

/-- An `*AmendExpression` as a value of the interface `Expression`. -/
def AmendExpression.toExpression (e : AmendExpression) : Expression := ⟨e.Marshal⟩

/-- An `*AmendExpression` as a value of the interface `AmendParentExpression`. -/
def AmendExpression.toAmendParentExpression (e : AmendExpression) : AmendParentExpression :=
  ⟨e.Marshal⟩

/-- Go `IfExpression`. -/
structure IfExpression where
  Condition : Expression
  Then : Expression
  Else : Expression

/-- Go `IfExpression.Marshal`. -/
def IfExpression.Marshal (e : IfExpression) (ctx : Ctx) : Except Error String := do
  let b := Buffer.empty
  let cond ← e.Condition.Marshal ctx
  let b := (b.WriteWithPrefixSuffix "if (" cond ") ").1
  let thenExpr ← e.Then.Marshal ctx
  let b := (b.Write thenExpr).1
  let elseExpr ← e.Else.Marshal ctx
  let b := (b.WriteWithPrefix " else " elseExpr).1
  pure b.Bytes

/-- An `*IfExpression` as a value of the interface `Expression`. -/
def IfExpression.toExpression (e : IfExpression) : Expression := ⟨e.Marshal⟩

/-- Go `ImportExpression`. -/
structure ImportExpression where
  Path : String
  Glob : Bool := false
deriving DecidableEq, Repr

/-- Go `ImportExpression.Marshal`. -/
def ImportExpression.Marshal (printTable : Char → Bool) (e : ImportExpression) (_ctx : Ctx) :
    Except Error String :=
  let b := Buffer.empty
  let b := if e.Glob then (b.WriteString "import*(").1 else (b.WriteString "import(").1
  let b := (b.WriteString (strconvQuote printTable e.Path)).1
  let b := (b.WriteRune ')').1
  .ok b.Bytes

/-- An `*ImportExpression` as a value of the interface `Expression`. -/
def ImportExpression.toExpression (printTable : Char → Bool) (e : ImportExpression) :
    Expression :=
  ⟨e.Marshal printTable⟩

/-- Go `LetExpression`. -/
structure LetExpression where
  Name : Parameter
  Value : Expression
  Expression : Expression

/-- Go `LetExpression.Marshal`. -/
def LetExpression.Marshal (e : LetExpression) (ctx : Ctx) : Except Error String := do
  let b := Buffer.empty
  let name ← e.Name.Marshal ctx
  let b := (b.WriteWithPrefixSuffix "let (" name " = ").1
  let val ← e.Value.Marshal ctx
  let b := (b.WriteWithSuffix val ") ").1
  let expr ← e.Expression.Marshal ctx
  let b := (b.Write expr).1
  pure b.Bytes

/-- A `*LetExpression` as a value of the interface `Expression`. -/
def LetExpression.toExpression (e : LetExpression) : Balsamic.Expression := ⟨e.Marshal⟩

/-- Go `type ReadVariant string`. -/
structure ReadVariant where
  val : String
deriving DecidableEq, Repr

/-- Go `ReadVariantNullable`. -/
def ReadVariantNullable : ReadVariant := ⟨"nullable"⟩

/-- Go `ReadVariantGlob`. -/
def ReadVariantGlob : ReadVariant := ⟨"glob"⟩

/-- Go `ReadExpression`: `Variant` is optional, the empty text when unset. -/
structure ReadExpression where
  Variant : ReadVariant := ⟨""⟩
  Value : Expression

/-- Go `ReadExpression.Marshal`. -/
def ReadExpression.Marshal (e : ReadExpression) (ctx : Ctx) : Except Error String := do
  let b := Buffer.empty
  let b :=
    if e.Variant = ReadVariantNullable then (b.WriteString "read?(").1
    else if e.Variant = ReadVariantGlob then (b.WriteString "read*(").1
    else (b.WriteString "read(").1
  let expr ← e.Value.Marshal ctx
  let b := (b.Write expr).1
  let b := (b.WriteRune ')').1
  pure b.Bytes

/-- A `*ReadExpression` as a value of the interface `Expression`. -/
def ReadExpression.toExpression (e : ReadExpression) : Expression := ⟨e.Marshal⟩

/-- Go `ThrowExpression`. -/
structure ThrowExpression where
  Value : Expression

/-- Go `ThrowExpression.Marshal`. -/
def ThrowExpression.Marshal (e : ThrowExpression) (ctx : Ctx) : Except Error String := do
  let b := Buffer.empty
  let expr ← e.Value.Marshal ctx
  let b := (b.WriteWithPrefixSuffix "throw(" expr ")").1
  pure b.Bytes

/-- A `*ThrowExpression` as a value of the interface `Expression`. -/
def ThrowExpression.toExpression (e : ThrowExpression) : Expression := ⟨e.Marshal⟩

/-- Go `TraceExpression`. -/
structure TraceExpression where
  Value : Expression

/-- Go `TraceExpression.Marshal`. -/
def TraceExpression.Marshal (e : TraceExpression) (ctx : Ctx) : Except Error String := do
  let b := Buffer.empty
  let expr ← e.Value.Marshal ctx
  let b := (b.WriteWithPrefixSuffix "trace(" expr ")").1
  pure b.Bytes

/-- A `*TraceExpression` as a value of the interface `Expression`. -/
def TraceExpression.toExpression (e : TraceExpression) : Expression := ⟨e.Marshal⟩

/-! ## ast/type.go: the remaining types -/

/-- Go `type BuiltinType string`. -/
structure BuiltinType where
  val : String
deriving DecidableEq, Repr

/-- Go `BuiltinType.Marshal`. -/
def BuiltinType.Marshal (t : BuiltinType) (_ctx : Ctx) : Except Error String := .ok t.val

/-- A `BuiltinType` as a value of the interface `Type`. -/
def BuiltinType.toTypeNode (t : BuiltinType) : TypeNode := ⟨t.Marshal⟩

/-- Go `ParenthesizedType` (the Go field `Type` is `Typ`). -/
structure ParenthesizedType where
  Typ : TypeNode

/-- Go `ParenthesizedType.Marshal`. -/
def ParenthesizedType.Marshal (t : ParenthesizedType) (ctx : Ctx) : Except Error String := do
  let b := Buffer.empty
  let typ ← t.Typ.Marshal ctx
  let b := (b.WriteWithPrefixSuffix "(" typ ")").1
  pure b.Bytes

/-- A `*ParenthesizedType` as a value of the interface `Type`. -/
def ParenthesizedType.toTypeNode (t : ParenthesizedType) : TypeNode := ⟨t.Marshal⟩

/-- Go `NullableType` (the Go field `Type` is `Typ`). -/
structure NullableType where
  Typ : TypeNode

/-- Go `NullableType.Marshal`. -/
def NullableType.Marshal (t : NullableType) (ctx : Ctx) : Except Error String := do
  let b := Buffer.empty
  let typ ← t.Typ.Marshal ctx
  let b := (b.WriteWithSuffix typ "?").1
  pure b.Bytes

/-- A `*NullableType` as a value of the interface `Type`. -/
def NullableType.toTypeNode (t : NullableType) : TypeNode := ⟨t.Marshal⟩

/-- Go `ConstrainedType` (the Go field `Type` is `Typ`). -/
structure ConstrainedType where
  Typ : TypeNode
  Constraints : Expressions := []

/-- Go `ConstrainedType.Marshal`. -/
def ConstrainedType.Marshal (t : ConstrainedType) (ctx : Ctx) : Except Error String := do
  let b := Buffer.empty
  let typ ← t.Typ.Marshal ctx
  let b := (b.Write typ).1
  let constraints ← Expressions.Marshal t.Constraints ctx
  let b := (b.WriteWithPrefixSuffix "(" constraints ")").1
  pure b.Bytes

/-- A `*ConstrainedType` as a value of the interface `Type`. -/
def ConstrainedType.toTypeNode (t : ConstrainedType) : TypeNode := ⟨t.Marshal⟩

/-! ## ast/object.go: the remaining object members -/

/-- Go `ObjectMethod`. -/
structure ObjectMethod where
  Signature : MethodSignature
  Value : Expression

/-- Go `ObjectMethod.Marshal`. -/
def ObjectMethod.Marshal (m : ObjectMethod) (ctx : Ctx) : Except Error String := do
  let b := Buffer.empty
  let signature ← m.Signature.Marshal ctx
  let b := (b.Write signature).1
  let val ← m.Value.Marshal ctx
  let b := (b.WriteWithPrefix " = " val).1
  pure b.Bytes

/-- An `*ObjectMethod` as a value of the interface `ObjectMember`. -/
def ObjectMethod.toObjectMember (m : ObjectMethod) : ObjectMember := ⟨m.Marshal⟩

/-- Go `ObjectEntry`. The guard `m.Body != nil` of the Go code makes no difference
between a `nil` and an empty slice, since the empty joined text is not written: both
are the empty list. -/
structure ObjectEntry where
  Key : Expression
  Value : Option Expression := none
  Body : List ObjectBody := []

/-- Go `ObjectEntry.Marshal`. -/
def ObjectEntry.Marshal (m : ObjectEntry) (ctx : Ctx) : Except Error String := do
  let b := Buffer.empty
  let key ← m.Key.Marshal ctx
  let b := (b.WriteWithPrefixSuffix "[" key "]").1
  let b ← (match m.Value with
    | some v => do
      let val ← v.Marshal ctx
      pure (b.WriteWithPrefix " = " val).1
    | none => pure b)
  let body ← joinNodes ctx m.Body " "
  let b := (b.WriteWithPrefix " " body).1
  pure b.Bytes

/-- An `*ObjectEntry` as a value of the interface `ObjectMember`. -/
def ObjectEntry.toObjectMember (m : ObjectEntry) : ObjectMember := ⟨m.Marshal⟩

/-- Go `ObjectElement`. -/
structure ObjectElement where
  Value : Expression

/-- Go `ObjectElement.Marshal`. -/
def ObjectElement.Marshal (m : ObjectElement) (ctx : Ctx) : Except Error String :=
  m.Value.Marshal ctx

/-- An `*ObjectElement` as a value of the interface `ObjectMember`. -/
def ObjectElement.toObjectMember (m : ObjectElement) : ObjectMember := ⟨m.Marshal⟩

/-- Go `ObjectSpread`. -/
structure ObjectSpread where
  Value : Expression
  Nullable : Bool := false

/-- Go `ObjectSpread.Marshal`. -/
def ObjectSpread.Marshal (m : ObjectSpread) (ctx : Ctx) : Except Error String := do
  let b := Buffer.empty
  let b := if m.Nullable then (b.WriteString "...?").1 else (b.WriteString "...").1
  let val ← m.Value.Marshal ctx
  let b := (b.Write val).1
  pure b.Bytes

/-- An `*ObjectSpread` as a value of the interface `ObjectMember`. -/
def ObjectSpread.toObjectMember (m : ObjectSpread) : ObjectMember := ⟨m.Marshal⟩

/-- Go `MemberPredicate`; for `Body` see `ObjectEntry`. -/
structure MemberPredicate where
  Condition : Expression
  Value : Option Expression := none
  Body : List ObjectBody := []

/-- Go `MemberPredicate.Marshal`. -/
def MemberPredicate.Marshal (m : MemberPredicate) (ctx : Ctx) : Except Error String := do
  let b := Buffer.empty
  let cond ← m.Condition.Marshal ctx
  let b := (b.WriteWithPrefixSuffix "[[" cond "]]").1
  let b ← (match m.Value with
    | some v => do
      let val ← v.Marshal ctx
      pure (b.WriteWithPrefix " = " val).1
    | none => pure b)
  let body ← joinNodes ctx m.Body " "
  let b := (b.WriteWithPrefix " " body).1
  pure b.Bytes

/-- A `*MemberPredicate` as a value of the interface `ObjectMember`. -/
def MemberPredicate.toObjectMember (m : MemberPredicate) : ObjectMember := ⟨m.Marshal⟩

/-! ## The trees built from the node types of the package

The interfaces of the package are open: a value of `Expression` is any implementation
of `Marshal`. The trees below are the values built from the node types of the package
alone, in which every required child is present; `toExpression` and its companions
give the value of the package that a tree stands for. -/

mutual
/-- The expressions built from the node types of the package. -/
inductive ExpressionTree where
  | BuiltinExpression (e : BuiltinExpression)
  | IntExpression (e : IntExpression)
  | FloatExpression (e : FloatExpression)
  | StringExpression (e : StringExpression)
  | PrefixUnaryExpression (Operator : PrefixUnaryOperand) (Operand : ExpressionTree)
  | PostfixUnaryExpression (Operator : PostfixUnaryOperand) (Operand : ExpressionTree)
  | BinaryExpression (Operator : BinaryOperator) (Left Right : ExpressionTree)
  | TypeExpression (Operator : TypeOperator) (Expression : ExpressionTree) (Typ : TypeTree)
  | MemberAccessExpression (Name : Identifier) (Arguments : Option (List ExpressionTree))
  | QualifiedMemberAccessExpression (Receiver : ExpressionTree) (Nullable : Bool)
      (Name : Identifier) (Arguments : Option (List ExpressionTree))
  | SuperAccessExpression (Name : Identifier) (Arguments : Option (List ExpressionTree))
  | SubscriptExpression (Receiver Subscript : ExpressionTree)
  | SuperSubscriptExpression (Subscript : ExpressionTree)
  | ParenthesizedExpression (Expression : ExpressionTree)
  | NewExpression (Typ : Option TypeTree) (Body : ObjectBodyTree)
  | AmendExpression (Parent : AmendParentTree) (Body : ObjectBodyTree)
  | IfExpression (Condition Then Else : ExpressionTree)
  | ImportExpression (e : ImportExpression)
  | LetExpression (Name : ParameterTree) (Value Expression : ExpressionTree)
  | ReadExpression (Variant : ReadVariant) (Value : ExpressionTree)
  | ThrowExpression (Value : ExpressionTree)
  | TraceExpression (Value : ExpressionTree)
/-- The values of the interface `AmendParentExpression` built from the node types. -/
inductive AmendParentTree where
  | ParenthesizedExpression (Expression : ExpressionTree)
  | NewExpression (Typ : Option TypeTree) (Body : ObjectBodyTree)
  | AmendExpression (Parent : AmendParentTree) (Body : ObjectBodyTree)
/-- The types built from the node types of the package. -/
inductive TypeTree where
  | BuiltinType (t : BuiltinType)
  | StringLiteralType (t : StringLiteralType)
  | DeclaredType (Name : QualifiedIdentifier) (TypeParameters : List TypeTree)
  | ParenthesizedType (Typ : TypeTree)
  | NullableType (Typ : TypeTree)
  | ConstrainedType (Typ : TypeTree) (Constraints : List ExpressionTree)
  | UnionType (Members : List TypeTree) (Default : Option TypeTree)
  | FunctionLiteralType (Parameters : List TypeTree) (Result : TypeTree)
/-- The parameters built from the node types of the package. -/
inductive ParameterTree where
  | mk (Name : Identifier) (Typ : Option TypeTree)
/-- The method signatures built from the node types of the package. -/
inductive MethodSignatureTree where
  | mk (Modifiers : Modifiers) (Name : Identifier) (TypeParameters : TypeParameters)
      (Parameters : List ParameterTree) (Result : Option TypeTree)
/-- The object bodies built from the node types of the package. -/
inductive ObjectBodyTree where
  | mk (Parameters : List ParameterTree) (Members : List ObjectMemberTree)
/-- The object members built from the node types of the package. -/
inductive ObjectMemberTree where
  | ObjectProperty (Modifiers : Modifiers) (Name : Identifier) (Typ : Option TypeTree)
      (Value : Option ExpressionTree) (Body : List ObjectBodyTree)
  | ObjectMethod (Signature : MethodSignatureTree) (Value : ExpressionTree)
  | ObjectEntry (Key : ExpressionTree) (Value : Option ExpressionTree)
      (Body : List ObjectBodyTree)
  | ObjectElement (Value : ExpressionTree)
  | ObjectSpread (Value : ExpressionTree) (Nullable : Bool)
  | MemberPredicate (Condition : ExpressionTree) (Value : Option ExpressionTree)
      (Body : List ObjectBodyTree)
  | ForGenerator (Key : Option ParameterTree) (Value : ParameterTree)
      (Collection : ExpressionTree) (Body : ObjectBodyTree)
  | WhenGenerator (Condition : ExpressionTree) (Then : ObjectBodyTree)
      (Else : Option ObjectBodyTree)
end

mutual
/-- The value of the interface `Expression` that a tree stands for. -/
def ExpressionTree.toExpression (printTable : Char → Bool) (formatFloat : Nat → String) :
    ExpressionTree → Expression
  | .BuiltinExpression e => e.toExpression
  | .IntExpression e => e.toExpression
  | .FloatExpression e => e.toExpression formatFloat
  | .StringExpression e => e.toExpression printTable
  | .PrefixUnaryExpression op x =>
    PrefixUnaryExpression.toExpression ⟨op, x.toExpression printTable formatFloat⟩
  | .PostfixUnaryExpression op x =>
    PostfixUnaryExpression.toExpression ⟨op, x.toExpression printTable formatFloat⟩
  | .BinaryExpression op l r =>
    BinaryExpression.toExpression
      ⟨op, l.toExpression printTable formatFloat, r.toExpression printTable formatFloat⟩
  | .TypeExpression op x t =>
    TypeExpression.toExpression
      ⟨op, x.toExpression printTable formatFloat, t.toTypeNode printTable formatFloat⟩
  | .MemberAccessExpression name args =>
    MemberAccessExpression.toExpression ⟨name, toArguments printTable formatFloat args⟩
  | .QualifiedMemberAccessExpression x nullable name args =>
    QualifiedMemberAccessExpression.toExpression
      ⟨x.toExpression printTable formatFloat, nullable, name,
        toArguments printTable formatFloat args⟩
  | .SuperAccessExpression name args =>
    SuperAccessExpression.toExpression ⟨name, toArguments printTable formatFloat args⟩
  | .SubscriptExpression x s =>
    SubscriptExpression.toExpression
      ⟨x.toExpression printTable formatFloat, s.toExpression printTable formatFloat⟩
  | .SuperSubscriptExpression s =>
    SuperSubscriptExpression.toExpression ⟨s.toExpression printTable formatFloat⟩
  | .ParenthesizedExpression x =>
    ParenthesizedExpression.toExpression ⟨x.toExpression printTable formatFloat⟩
  | .NewExpression t body =>
    NewExpression.toExpression
      ⟨toOptionalType printTable formatFloat t, body.toObjectBody printTable formatFloat⟩
  | .AmendExpression parent body =>
    AmendExpression.toExpression
      ⟨parent.toAmendParentExpression printTable formatFloat,
        body.toObjectBody printTable formatFloat⟩
  | .IfExpression c t e =>
    IfExpression.toExpression
      ⟨c.toExpression printTable formatFloat, t.toExpression printTable formatFloat,
        e.toExpression printTable formatFloat⟩
  | .ImportExpression e => e.toExpression printTable
  | .LetExpression name v x =>
    LetExpression.toExpression
      ⟨name.toParameter printTable formatFloat, v.toExpression printTable formatFloat,
        x.toExpression printTable formatFloat⟩
  | .ReadExpression variant v =>
    ReadExpression.toExpression ⟨variant, v.toExpression printTable formatFloat⟩
  | .ThrowExpression v => ThrowExpression.toExpression ⟨v.toExpression printTable formatFloat⟩
  | .TraceExpression v => TraceExpression.toExpression ⟨v.toExpression printTable formatFloat⟩
/-- The list of expressions that a list of trees stands for. -/
def toExpressions (printTable : Char → Bool) (formatFloat : Nat → String) :
    List ExpressionTree → Expressions
  | [] => []
  | x :: xs => x.toExpression printTable formatFloat :: toExpressions printTable formatFloat xs
/-- The optional argument list that an optional list of trees stands for. -/
def toArguments (printTable : Char → Bool) (formatFloat : Nat → String) :
    Option (List ExpressionTree) → Option Expressions
  | none => none
  | some xs => some (toExpressions printTable formatFloat xs)
/-- The optional expression that an optional tree stands for. -/
def toOptionalExpression (printTable : Char → Bool) (formatFloat : Nat → String) :
    Option ExpressionTree → Option Expression
  | none => none
  | some x => some (x.toExpression printTable formatFloat)
/-- The value of the interface `AmendParentExpression` that a tree stands for. -/
def AmendParentTree.toAmendParentExpression (printTable : Char → Bool)
    (formatFloat : Nat → String) : AmendParentTree → AmendParentExpression
  | .ParenthesizedExpression x =>
    ParenthesizedExpression.toAmendParentExpression ⟨x.toExpression printTable formatFloat⟩
  | .NewExpression t body =>
    NewExpression.toAmendParentExpression
      ⟨toOptionalType printTable formatFloat t, body.toObjectBody printTable formatFloat⟩
  | .AmendExpression parent body =>
    AmendExpression.toAmendParentExpression
      ⟨parent.toAmendParentExpression printTable formatFloat,
        body.toObjectBody printTable formatFloat⟩
/-- The value of the interface `Type` that a tree stands for. -/
def TypeTree.toTypeNode (printTable : Char → Bool) (formatFloat : Nat → String) :
    TypeTree → TypeNode
  | .BuiltinType t => t.toTypeNode
  | .StringLiteralType t => t.toTypeNode printTable
  | .DeclaredType name ps => DeclaredType.toTypeNode ⟨name, toTypes printTable formatFloat ps⟩
  | .ParenthesizedType t => ParenthesizedType.toTypeNode ⟨t.toTypeNode printTable formatFloat⟩
  | .NullableType t => NullableType.toTypeNode ⟨t.toTypeNode printTable formatFloat⟩
  | .ConstrainedType t cs =>
    ConstrainedType.toTypeNode
      ⟨t.toTypeNode printTable formatFloat, toExpressions printTable formatFloat cs⟩
  | .UnionType ms d =>
    UnionType.toTypeNode
      ⟨toTypes printTable formatFloat ms, toOptionalType printTable formatFloat d⟩
  | .FunctionLiteralType ps r =>
    FunctionLiteralType.toTypeNode
      ⟨toTypes printTable formatFloat ps, r.toTypeNode printTable formatFloat⟩
/-- The list of types that a list of trees stands for. -/
def toTypes (printTable : Char → Bool) (formatFloat : Nat → String) :
    List TypeTree → List TypeNode
  | [] => []
  | t :: ts => t.toTypeNode printTable formatFloat :: toTypes printTable formatFloat ts
/-- The optional type that an optional tree stands for. -/
def toOptionalType (printTable : Char → Bool) (formatFloat : Nat → String) :
    Option TypeTree → Option TypeNode
  | none => none
  | some t => some (t.toTypeNode printTable formatFloat)
/-- The parameter that a tree stands for. -/
def ParameterTree.toParameter (printTable : Char → Bool) (formatFloat : Nat → String) :
    ParameterTree → Parameter
  | .mk name t => ⟨name, toOptionalType printTable formatFloat t⟩
/-- The list of parameters that a list of trees stands for. -/
def toParameters (printTable : Char → Bool) (formatFloat : Nat → String) :
    List ParameterTree → Parameters
  | [] => []
  | p :: ps => p.toParameter printTable formatFloat :: toParameters printTable formatFloat ps
/-- The optional parameter that an optional tree stands for. -/
def toOptionalParameter (printTable : Char → Bool) (formatFloat : Nat → String) :
    Option ParameterTree → Option Parameter
  | none => none
  | some p => some (p.toParameter printTable formatFloat)
/-- The method signature that a tree stands for. -/
def MethodSignatureTree.toMethodSignature (printTable : Char → Bool)
    (formatFloat : Nat → String) : MethodSignatureTree → MethodSignature
  | .mk modifiers name tps ps r =>
    ⟨modifiers, name, tps, toParameters printTable formatFloat ps,
      toOptionalType printTable formatFloat r⟩
/-- The object body that a tree stands for. -/
def ObjectBodyTree.toObjectBody (printTable : Char → Bool) (formatFloat : Nat → String) :
    ObjectBodyTree → ObjectBody
  | .mk ps ms =>
    ⟨toParameters printTable formatFloat ps, toObjectMembers printTable formatFloat ms⟩
/-- The list of object bodies that a list of trees stands for. -/
def toObjectBodies (printTable : Char → Bool) (formatFloat : Nat → String) :
    List ObjectBodyTree → List ObjectBody
  | [] => []
  | b :: bs => b.toObjectBody printTable formatFloat :: toObjectBodies printTable formatFloat bs
/-- The optional object body that an optional tree stands for. -/
def toOptionalObjectBody (printTable : Char → Bool) (formatFloat : Nat → String) :
    Option ObjectBodyTree → Option ObjectBody
  | none => none
  | some b => some (b.toObjectBody printTable formatFloat)
/-- The value of the interface `ObjectMember` that a tree stands for. -/
def ObjectMemberTree.toObjectMember (printTable : Char → Bool) (formatFloat : Nat → String) :
    ObjectMemberTree → ObjectMember
  | .ObjectProperty modifiers name t v bodies =>
    ObjectProperty.toObjectMember
      ⟨modifiers, name, toOptionalType printTable formatFloat t,
        toOptionalExpression printTable formatFloat v,
        toObjectBodies printTable formatFloat bodies⟩
  | .ObjectMethod s v =>
    ObjectMethod.toObjectMember
      ⟨s.toMethodSignature printTable formatFloat, v.toExpression printTable formatFloat⟩
  | .ObjectEntry k v bodies =>
    ObjectEntry.toObjectMember
      ⟨k.toExpression printTable formatFloat, toOptionalExpression printTable formatFloat v,
        toObjectBodies printTable formatFloat bodies⟩
  | .ObjectElement v => ObjectElement.toObjectMember ⟨v.toExpression printTable formatFloat⟩
  | .ObjectSpread v nullable =>
    ObjectSpread.toObjectMember ⟨v.toExpression printTable formatFloat, nullable⟩
  | .MemberPredicate c v bodies =>
    MemberPredicate.toObjectMember
      ⟨c.toExpression printTable formatFloat, toOptionalExpression printTable formatFloat v,
        toObjectBodies printTable formatFloat bodies⟩
  | .ForGenerator k v c body =>
    ForGenerator.toObjectMember
      ⟨toOptionalParameter printTable formatFloat k, v.toParameter printTable formatFloat,
        c.toExpression printTable formatFloat, body.toObjectBody printTable formatFloat⟩
  | .WhenGenerator c t e =>
    WhenGenerator.toObjectMember
      ⟨c.toExpression printTable formatFloat, t.toObjectBody printTable formatFloat,
        toOptionalObjectBody printTable formatFloat e⟩
/-- The list of object members that a list of trees stands for. -/
def toObjectMembers (printTable : Char → Bool) (formatFloat : Nat → String) :
    List ObjectMemberTree → ObjectMembers
  | [] => []
  | m :: ms =>
    m.toObjectMember printTable formatFloat :: toObjectMembers printTable formatFloat ms
end

/-! ## ast/parameter.go: parameter lists -/

/-- Go `Parameters.Marshal`. -/
def Parameters.Marshal (p : Parameters) (ctx : Ctx) : Except Error String :=
  joinNodes ctx p ", "

/-! ## The declarations built from the node types of the package -/

/-- The annotations built from the node types of the package. -/
structure AnnotationTree where
  Name : QualifiedIdentifier
  Body : Option ObjectBodyTree := none

/-- The annotation that a tree stands for. -/
def AnnotationTree.toAnnotation (printTable : Char → Bool) (formatFloat : Nat → String)
    (a : AnnotationTree) : Annotation :=
  ⟨a.Name, toOptionalObjectBody printTable formatFloat a.Body⟩

/-- The list of annotations that a list of trees stands for. -/
def toAnnotations (printTable : Char → Bool) (formatFloat : Nat → String)
    (l : List AnnotationTree) : Annotations :=
  l.map (AnnotationTree.toAnnotation printTable formatFloat)

/-- The class properties built from the node types of the package. -/
structure ClassPropertyTree where
  Docs : Docs := ⟨""⟩
  Annotations : List AnnotationTree := []
  Modifiers : Modifiers := []
  Name : Identifier
  Typ : Option TypeTree := none
  Expression : Option ExpressionTree := none
  Body : Option ObjectBodyTree := none

/-- The class property that a tree stands for. -/
def ClassPropertyTree.toClassProperty (printTable : Char → Bool) (formatFloat : Nat → String)
    (p : ClassPropertyTree) : ClassProperty :=
  ⟨p.Docs, toAnnotations printTable formatFloat p.Annotations, p.Modifiers, p.Name,
    toOptionalType printTable formatFloat p.Typ,
    toOptionalExpression printTable formatFloat p.Expression,
    toOptionalObjectBody printTable formatFloat p.Body⟩

/-- The class methods built from the node types of the package. -/
structure ClassMethodTree where
  Docs : Docs := ⟨""⟩
  Annotations : List AnnotationTree := []
  Signature : MethodSignatureTree
  Implementation : Option ExpressionTree := none

/-- The class method that a tree stands for. -/
def ClassMethodTree.toClassMethod (printTable : Char → Bool) (formatFloat : Nat → String)
    (m : ClassMethodTree) : ClassMethod :=
  ⟨m.Docs, toAnnotations printTable formatFloat m.Annotations,
    m.Signature.toMethodSignature printTable formatFloat,
    toOptionalExpression printTable formatFloat m.Implementation⟩

/-- The values of the interface `ClassMember` built from the node types. -/
inductive ClassMemberTree where
  | ClassProperty (p : ClassPropertyTree)
  | ClassMethod (m : ClassMethodTree)

/-- The value of the interface `ClassMember` that a tree stands for. -/
def ClassMemberTree.toClassMember (printTable : Char → Bool) (formatFloat : Nat → String) :
    ClassMemberTree → ClassMember
  | .ClassProperty p => (p.toClassProperty printTable formatFloat).toClassMember
  | .ClassMethod m => (m.toClassMethod printTable formatFloat).toClassMember

/-- The classes built from the node types of the package. -/
structure ClassTree where
  Docs : Docs := ⟨""⟩
  Annotations : List AnnotationTree := []
  Modifiers : Modifiers := []
  Name : Identifier
  TypeParameters : TypeParameters := []
  ParentName : QualifiedIdentifier := ⟨""⟩
  ParentTypeParameters : Balsamic.TypeParameters := []
  Members : List ClassMemberTree := []

/-- The class that a tree stands for. -/
def ClassTree.toClass (printTable : Char → Bool) (formatFloat : Nat → String)
    (c : ClassTree) : Class :=
  ⟨c.Docs, toAnnotations printTable formatFloat c.Annotations, c.Modifiers, c.Name,
    c.TypeParameters, c.ParentName, c.ParentTypeParameters,
    c.Members.map (ClassMemberTree.toClassMember printTable formatFloat)⟩

/-- The type aliases built from the node types of the package. -/
structure TypeAliasTree where
  Docs : Docs := ⟨""⟩
  Annotations : List AnnotationTree := []
  Modifiers : Modifiers := []
  Name : Identifier
  Parameters : TypeParameters := []
  Typ : TypeTree

/-- The type alias that a tree stands for. -/
def TypeAliasTree.toTypeAlias (printTable : Char → Bool) (formatFloat : Nat → String)
    (t : TypeAliasTree) : TypeAlias :=
  ⟨t.Docs, toAnnotations printTable formatFloat t.Annotations, t.Modifiers, t.Name,
    t.Parameters, t.Typ.toTypeNode printTable formatFloat⟩

/-- The values of the interface `ModuleMember` built from the node types. -/
inductive ModuleMemberTree where
  | Class (c : ClassTree)
  | ClassProperty (p : ClassPropertyTree)
  | ClassMethod (m : ClassMethodTree)
  | TypeAlias (t : TypeAliasTree)

/-- The value of the interface `ModuleMember` that a tree stands for. -/
def ModuleMemberTree.toModuleMember (printTable : Char → Bool) (formatFloat : Nat → String) :
    ModuleMemberTree → ModuleMember
  | .Class c => (c.toClass printTable formatFloat).toModuleMember
  | .ClassProperty p => (p.toClassProperty printTable formatFloat).toModuleMember
  | .ClassMethod m => (m.toClassMethod printTable formatFloat).toModuleMember
  | .TypeAlias t => (t.toTypeAlias printTable formatFloat).toModuleMember

/-- The modules built from the node types of the package. -/
structure ModuleTree where
  ShebangComment : ShebangComment := ⟨""⟩
  Docs : Docs := ⟨""⟩
  Annotations : List AnnotationTree := []
  Modifiers : Modifiers := []
  Name : QualifiedIdentifier := ⟨""⟩
  ParentRelationship : ModuleRelationship := ⟨""⟩
  ParentName : String := ""
  Imports : ImportClauses := []
  Members : List ModuleMemberTree := []

/-- The module that a tree stands for. -/
def ModuleTree.toModule (printTable : Char → Bool) (formatFloat : Nat → String)
    (m : ModuleTree) : Module :=
  ⟨m.ShebangComment, m.Docs, toAnnotations printTable formatFloat m.Annotations, m.Modifiers,
    m.Name, m.ParentRelationship, m.ParentName, m.Imports,
    m.Members.map (ModuleMemberTree.toModuleMember printTable formatFloat)⟩

/-- The values of the types of the package that have a `Marshal` method, built from the
node types of the package: one case for each type, the node types of an interface under
the case of the interface. -/
inductive NodeTree where
  | Identifier (i : Identifier)
  | QualifiedIdentifier (i : QualifiedIdentifier)
  | Modifier (m : Modifier)
  | Modifiers (m : Modifiers)
  | LineComment (c : LineComment)
  | BlockComment (c : BlockComment)
  | Docs (c : Docs)
  | ShebangComment (c : ShebangComment)
  | Expression (e : ExpressionTree)
  | AmendParentExpression (e : AmendParentTree)
  | Expressions (e : List ExpressionTree)
  | TypeNode (t : TypeTree)
  | Parameter (p : ParameterTree)
  | Parameters (p : List ParameterTree)
  | TypeParameter (t : TypeParameter)
  | TypeParameters (t : TypeParameters)
  | MethodSignature (m : MethodSignatureTree)
  | ObjectBody (o : ObjectBodyTree)
  | ObjectMember (m : ObjectMemberTree)
  | ObjectMembers (m : List ObjectMemberTree)
  | AnnotationTree (a : AnnotationTree)
  | Annotations (a : List AnnotationTree)
  | ClassMember (m : ClassMemberTree)
  | ModuleMember (m : ModuleMemberTree)
  | ModuleMembers (m : List ModuleMemberTree)
  | ImportClause (i : ImportClause)
  | ImportClauses (i : ImportClauses)
  | Module (m : ModuleTree)

/-- Go `Marshal` of the value that a tree stands for. -/
def NodeTree.Marshal (printTable : Char → Bool) (formatFloat : Nat → String) :
    NodeTree → Ctx → Except Error String
  | .Identifier i => i.Marshal
  | .QualifiedIdentifier i => i.Marshal
  | .Modifier m => m.Marshal
  | .Modifiers m => Modifiers.Marshal m
  | .LineComment c => c.Marshal
  | .BlockComment c => c.Marshal
  | .Docs c => c.Marshal
  | .ShebangComment c => c.Marshal
  | .Expression e => (e.toExpression printTable formatFloat).Marshal
  | .AmendParentExpression e => (e.toAmendParentExpression printTable formatFloat).Marshal
  | .Expressions e => Expressions.Marshal (toExpressions printTable formatFloat e)
  | .TypeNode t => (t.toTypeNode printTable formatFloat).Marshal
  | .Parameter p => (p.toParameter printTable formatFloat).Marshal
  | .Parameters p => Parameters.Marshal (toParameters printTable formatFloat p)
  | .TypeParameter t => t.Marshal
  | .TypeParameters t => TypeParameters.Marshal t
  | .MethodSignature m => (m.toMethodSignature printTable formatFloat).Marshal
  | .ObjectBody o => (o.toObjectBody printTable formatFloat).Marshal
  | .ObjectMember m => (m.toObjectMember printTable formatFloat).Marshal
  | .ObjectMembers m => ObjectMembers.Marshal (toObjectMembers printTable formatFloat m)
  | .AnnotationTree a => (a.toAnnotation printTable formatFloat).Marshal
  | .Annotations a => Annotations.Marshal (toAnnotations printTable formatFloat a)
  | .ClassMember m => (m.toClassMember printTable formatFloat).Marshal
  | .ModuleMember m => (m.toModuleMember printTable formatFloat).Marshal
  | .ModuleMembers m =>
    ModuleMembers.Marshal (m.map (ModuleMemberTree.toModuleMember printTable formatFloat))
  | .ImportClause i => i.Marshal printTable
  | .ImportClauses i => ImportClauses.Marshal printTable i
  | .Module m => (m.toModule printTable formatFloat).Marshal printTable

/-! ## Specification-level text functions and the inputs of the scenarios -/

/-- The texts `rs` in list order with `sep` between each consecutive pair: nothing for
the empty list, no separator before the first or after the last text. -/
def joined (sep : String) : List String → String
  | [] => ""
  | [r] => r
  | r :: r2 :: rs => r ++ sep ++ joined sep (r2 :: rs)

/-- Every text of `rs`, in list order, each preceded by `pre`. -/
def prefixedAll (pre : String) : List String → String
  | [] => ""
  | r :: rs => pre ++ r ++ prefixedAll pre rs

/-- The string of `n` space characters. -/
def spaces (n : Nat) : String := String.mk (List.replicate n ' ')

/-- The object body of the end-to-end scenario, with the members `foo = "bar"` and
`baz = 42`. -/
def exampleObjectBody (printTable : Char → Bool) : ObjectBody :=
  { Members := [
      ObjectProperty.toObjectMember
        { Name := ⟨"foo"⟩, Value := some (StringExpression.toExpression printTable ⟨"bar"⟩) },
      ObjectProperty.toObjectMember
        { Name := ⟨"baz"⟩, Value := some (IntExpression.toExpression ⟨42⟩) }] }

/-- The for generator of the end-to-end scenario: over `items`, with parameter `item`
and the body member `value = item`. -/
def exampleForGenerator : ForGenerator :=
  { Value := { Name := ⟨"item"⟩ },
    Collection := MemberAccessExpression.toExpression { Name := ⟨"items"⟩ },
    Body := { Members := [
      ObjectProperty.toObjectMember
        { Name := ⟨"value"⟩,
          Value := some (MemberAccessExpression.toExpression { Name := ⟨"item"⟩ }) }] } }

/-- A when generator on the condition `foo` with the `Then` body member `value = "baz"`
and the `Else` body member `value = "qux"`. -/
def exampleWhenGenerator (printTable : Char → Bool) : WhenGenerator :=
  { Condition := MemberAccessExpression.toExpression { Name := ⟨"foo"⟩ },
    Then := { Members := [
      ObjectProperty.toObjectMember
        { Name := ⟨"value"⟩,
          Value := some (StringExpression.toExpression printTable ⟨"baz"⟩) }] },
    Else := some { Members := [
      ObjectProperty.toObjectMember
        { Name := ⟨"value"⟩,
          Value := some (StringExpression.toExpression printTable ⟨"qux"⟩) }] } }

/-- The text `Module.Marshal` writes after the line break that ends the header: the import
block when there are import texts, then the member block when the joined member text is
not empty. -/
def moduleTail (importTexts memberTexts : List String) : String :=
  (if importTexts = [] then "" else "\n" ++ joined "\n" importTexts ++ "\n") ++
    (if joined "\n\n" memberTexts = "" then "" else "\n" ++ joined "\n\n" memberTexts ++ "\n")

/-- The module of the end-to-end scenario: named `foo.bar`, with the import
"@foo/Bar.pkl" and the property `foo = "bar"`. -/
def exampleModule (printTable : Char → Bool) : Module :=
  { Name := ⟨"foo.bar"⟩,
    Imports := [{ Path := "@foo/Bar.pkl" }],
    Members := [ClassProperty.toModuleMember
      { Name := ⟨"foo"⟩,
        Expression := some (StringExpression.toExpression printTable ⟨"bar"⟩) }] }

/-- A module named `foo` whose only member is a class property with an empty name. -/
def emptyMemberModule : Module :=
  { Name := ⟨"foo"⟩, Members := [ClassProperty.toModuleMember { Name := ⟨""⟩ }] }

/-- A line of documentation as `Docs.Marshal` renders it: the marker and a space before a
non-empty line, the bare marker for an empty line. -/
def docsLine (line : String) : String := if line = "" then "///" else "/// " ++ line

/-- A line of a block comment as `BlockComment.Marshal` renders it: two spaces before a
non-empty line, nothing for an empty line. -/
def blockCommentLine (line : String) : String := if line = "" then "" else "  " ++ line

/-- The text a declaration writes before its core, from the rendered docs `D`, the
joined annotation text `A` and the joined modifier text `M`: each is written only when
it is not empty, the docs and the annotations followed by the line break `nl`, the
modifiers by a space. -/
def declarationPrefix (nl D A M : String) : String :=
  (if D = "" then "" else D ++ nl) ++ (if A = "" then "" else A ++ nl) ++
    (if M = "" then "" else M ++ " ")

/-- The type alias of the test "with all": docs of three lines, two annotations, two
modifiers, a type parameter and the type `X`. -/
def exampleTypeAlias : TypeAlias :=
  { Docs := ⟨"This is a Hello World.\n\nMore docs here."⟩,
    Annotations := [{ Name := ⟨"Foo"⟩ }, { Name := ⟨"Bar"⟩ }],
    Modifiers := [⟨"local"⟩, ⟨"const"⟩],
    Name := ⟨"HelloWorld"⟩,
    Parameters := [{ Name := ⟨"T"⟩ }],
    Typ := DeclaredType.toTypeNode { Name := ⟨"X"⟩ } }

/-- The class `Foo` whose only modifier is the empty string. -/
def emptyModifierClass : Class := { Name := ⟨"Foo"⟩, Modifiers := [⟨""⟩] }

/-- The class of the test "with members": `Foo` with the property `bar: String` and the
method `baz` returning `Int`, implemented by `42`. -/
def exampleClass : Class :=
  { Name := ⟨"Foo"⟩,
    Members := [
      ClassProperty.toClassMember
        { Name := ⟨"bar"⟩, Typ := some (DeclaredType.toTypeNode { Name := ⟨"String"⟩ }) },
      ClassMethod.toClassMember
        { Signature :=
            { Name := ⟨"baz"⟩, Result := some (DeclaredType.toTypeNode { Name := ⟨"Int"⟩ }) },
          Implementation := some (IntExpression.toExpression ⟨42⟩) }] }

/-- The property `bar` amended by the object body with the member `baz = 1`. -/
def nestedBodyProperty : ClassProperty :=
  { Name := ⟨"bar"⟩,
    Body := some { Members := [
      ObjectProperty.toObjectMember
        { Name := ⟨"baz"⟩, Value := some (IntExpression.toExpression ⟨1⟩) }] } }

/-- The class `Foo` with two members: the property `nestedBodyProperty`, which carries a
nested object body, followed by the property `qux = 2`. -/
def nestedBodyClass : Class :=
  { Name := ⟨"Foo"⟩,
    Members := [
      ClassProperty.toClassMember nestedBodyProperty,
      ClassProperty.toClassMember
        { Name := ⟨"qux"⟩, Expression := some (IntExpression.toExpression ⟨2⟩) }] }

/-- An expression node that renders to `a`. -/
def renderingNode : Expression := ⟨fun _ => .ok "a"⟩

/-- An expression node whose rendering fails with the error `first`. -/
def failingNode : Expression := ⟨fun _ => .error ⟨"first"⟩⟩

/-- An expression node whose rendering fails with the error `second`. -/
def otherFailingNode : Expression := ⟨fun _ => .error ⟨"second"⟩⟩

/-- The method signature named `f` whose only modifier is the empty string. -/
def emptyModifierSignature : MethodSignature := { Name := ⟨"f"⟩, Modifiers := [⟨""⟩] }

/-- The method signature named `f` whose result type is the declared type with the empty
name, which renders to the empty text. -/
def emptyResultSignature : MethodSignature :=
  { Name := ⟨"f"⟩, Result := some (DeclaredType.toTypeNode { Name := ⟨""⟩ }) }

/-- The result type `U` of `exampleSignature`. -/
def exampleResultType : TypeNode := DeclaredType.toTypeNode { Name := ⟨"U"⟩ }

/-- The method signature of the test "with all": modifier `abstract`, name `foo`, type
parameters `T` and `U`, parameter `bar: T` and result type `U`. -/
def exampleSignature : MethodSignature :=
  { Modifiers := [⟨"abstract"⟩],
    Name := ⟨"foo"⟩,
    TypeParameters := [{ Name := ⟨"T"⟩ }, { Name := ⟨"U"⟩ }],
    Parameters := [{ Name := ⟨"bar"⟩, Typ := some (DeclaredType.toTypeNode { Name := ⟨"T"⟩ }) }],
    Result := some exampleResultType }

/-- The call `foobar(42, "foobar")` of the package's tests. -/
def exampleCall (printTable : Char → Bool) : MemberAccessExpression :=
  { Name := ⟨"foobar"⟩
    Arguments := some [(IntExpression.mk 42).toExpression,
      (StringExpression.mk "foobar").toExpression printTable] }

/-- The member access `a`. -/
def exampleAccess (name : String) : Expression :=
  ({ Name := ⟨name⟩ } : MemberAccessExpression).toExpression

/-- The sum `a + b`. -/
def exampleSum : BinaryExpression :=
  { Operator := BinaryOperatorPlus, Left := exampleAccess "a", Right := exampleAccess "b" }

/-- The product whose left operand is the sum `a + b` and whose right operand is `c`. -/
def exampleProduct : BinaryExpression :=
  { Operator := BinaryOperatorMultiply, Left := exampleSum.toExpression,
    Right := exampleAccess "c" }

/-- The union `Int | String` with the default `"foobar"` of the package's tests. -/
def exampleUnion (printTable : Char → Bool) : UnionType :=
  { Members := [({ Name := ⟨"Int"⟩ } : DeclaredType).toTypeNode,
      ({ Name := ⟨"String"⟩ } : DeclaredType).toTypeNode]
    Default := some ((StringLiteralType.mk "foobar").toTypeNode printTable) }

/-- The function type `(String, Int) -> Boolean` of the package's tests. -/
def exampleFunctionType : FunctionLiteralType :=
  { Parameters := [({ Name := ⟨"String"⟩ } : DeclaredType).toTypeNode,
      ({ Name := ⟨"Int"⟩ } : DeclaredType).toTypeNode]
    Result := ({ Name := ⟨"Boolean"⟩ } : DeclaredType).toTypeNode }

/-- A function type without parameters: `FunctionLiteralType{Result: &DeclaredType{Name:
"Int"}}`. -/
def noParameterFunctionType : FunctionLiteralType :=
  { Result := ({ Name := ⟨"Int"⟩ } : DeclaredType).toTypeNode }

/-- The fresh store after `WriteFile("a/b/c.txt", "hello", 0644)`. -/
def exampleStore : MemFS := (New.WriteFile "a/b/c.txt" "hello" 0o644).1

/-- The fresh store after `WriteFile("/", "a", 0644)`. -/
def rootFileStore : MemFS := (New.WriteFile "/" "a" 0o644).1

/-- The text that `strconv.Quote` writes for one character: what `appendEscapedRune`
appends to the empty text. -/
def escapedRune (printTable : Char → Bool) (r : Char) : String :=
  appendEscapedRune printTable "" r

/-- The escaped texts of the characters of `l`, one after the other. -/
def escapedRunes (printTable : Char → Bool) : List Char → String
  | [] => ""
  | r :: rs => escapedRune printTable r ++ escapedRunes printTable rs

/-- The number of double quotes of a text that no backslash escapes: the text is read
from the left, and a backslash takes the character after it with it. -/
def unescapedQuotes : List Char → Nat
  | [] => 0
  | [c] => if c = '"' then 1 else 0
  | c :: d :: rest =>
    if c = '\\' then unescapedQuotes rest
    else (if c = '"' then 1 else 0) + unescapedQuotes (d :: rest)

/-- The value of a decimal digit. -/
def digitValue (c : Char) : Option Nat :=
  if '0'.toNat ≤ c.toNat ∧ c.toNat ≤ '9'.toNat then some (c.toNat - '0'.toNat) else none

/-- The number that the decimal digits `cs` denote after the digits read so far, whose
value is `acc`; `none` when a character is not a digit. -/
def parseDigits : Nat → List Char → Option Nat
  | acc, [] => some acc
  | acc, c :: cs =>
    match digitValue c with
    | some d => parseDigits (10 * acc + d) cs
    | none => none

/-- The integer that a decimal numeral denotes: an optional leading `-` and at least one
decimal digit. -/
def parseDecimal (s : String) : Option Int :=
  match s.data with
  | [] => none
  | c :: cs =>
    if c = '-' then
      if cs = [] then none
      else
        match parseDigits 0 cs with
        | some v => some (-Int.ofNat v)
        | none => none
    else
      match parseDigits 0 (c :: cs) with
      | some v => some (Int.ofNat v)
      | none => none

/-- The fresh store after the writes of `b.txt`, `a/y.txt`, `a.txt` and `a/x.txt`, in
this order. -/
def listingStore : MemFS :=
  ((((New.WriteFile "b.txt" "1" 0o644).1.WriteFile "a/y.txt" "2" 0o644).1.WriteFile
    "a.txt" "3" 0o644).1.WriteFile "a/x.txt" "4" 0o644).1

/-- The name under which the node stored at `nodePath` is listed in the directory
`dirPath`, `none` when it is not listed there: the conditions of the loop of `openDir`. -/
def entryNameOf (dirPath nodePath : String) : Option String :=
  if nodePath = dirPath then none
  else if dirPath = "." then
    if '/' ∉ nodePath.data then some nodePath else none
  else
    if pathDir nodePath = dirPath then some (pathBase nodePath) else none

/-- The manifest module of a project, as `NewProject` builds it. -/
def manifestModule : pkl.Module :=
  { Path := "PklProject"
    AST := { ParentRelationship := ModuleRelationshipAmends, ParentName := "pkl:Project" } }

/-- The text of the manifest file. -/
def manifestText : String := "amends \"pkl:Project\"\n"

/-- A module stored under the path `./PklProject`, which amends `pkl:Other`. -/
def shadowModule : pkl.Module :=
  { Path := "./PklProject"
    AST := { ParentRelationship := ModuleRelationshipAmends, ParentName := "pkl:Other" } }

/-- A module with the given path and the name `m`. -/
def namedModule (path : String) : pkl.Module :=
  { Path := path, AST := { Name := ⟨"m"⟩ } }

/-- A module with the given path whose member fails to render with the error `first`. -/
def failingModule (path : String) : pkl.Module :=
  { Path := path, AST := { Name := ⟨"m"⟩, Members := [⟨fun _ => .error ⟨"first"⟩⟩] } }

/-- A rendering that returns a text for every context: it never returns an error. -/
def Total (m : Ctx → Except Error String) : Prop := ∀ ctx, ∃ r, m ctx = .ok r

/-- A rendering whose outcome depends on the context through its indent level only. -/
def DepthOnly (m : Ctx → Except Error String) : Prop :=
  ∀ ctx ctx2, getIndentLevel ctx = getIndentLevel ctx2 → m ctx = m ctx2

/-- A rendering that never fails and reads only the indent level of the context. -/
def Regular (m : Ctx → Except Error String) : Prop := Total m ∧ DepthOnly m

/-- The characters of a text with two spaces added after every line feed. -/
def shiftChars : List Char → List Char
  | [] => []
  | c :: cs => if c = '\n' then '\n' :: ' ' :: ' ' :: shiftChars cs else c :: shiftChars cs

/-- The text `s` with every `"\n"` replaced by `"\n"` followed by two spaces. -/
def shift (s : String) : String := String.mk (shiftChars s.data)

/-- Whether a text holds no line feed. -/
def noNewline (s : String) : Bool := s.data.all (fun c => c != '\n')

/-- A rendering that never fails and whose text one level deeper is the text with every
line feed followed by two more spaces. -/
def Shifts (m : Ctx → Except Error String) : Prop :=
  ∀ ctx, ∃ r, m ctx = .ok r ∧ m (raiseIndentLevel ctx) = .ok (shift r)

mutual
/-- Whether no token of an expression holds a line feed.  The tokens are the identifiers,
the modifiers and the operators; with `strict` they are all the texts that the renderer
writes as they are, which adds the names of the built-in expressions and types and the
variances of type parameters. -/
def ExpressionTree.clean (strict : Bool) : ExpressionTree → Bool
  | .BuiltinExpression e => !strict || noNewline e.val
  | .IntExpression _ => true
  | .FloatExpression _ => true
  | .StringExpression _ => true
  | .PrefixUnaryExpression op x => noNewline op.val && x.clean strict
  | .PostfixUnaryExpression op x => noNewline op.val && x.clean strict
  | .BinaryExpression op l r => noNewline op.val && l.clean strict && r.clean strict
  | .TypeExpression op x t => noNewline op.val && x.clean strict && t.clean strict
  | .MemberAccessExpression name args => noNewline name.val && cleanArguments strict args
  | .QualifiedMemberAccessExpression x _ name args =>
    x.clean strict && noNewline name.val && cleanArguments strict args
  | .SuperAccessExpression name args => noNewline name.val && cleanArguments strict args
  | .SubscriptExpression x s => x.clean strict && s.clean strict
  | .SuperSubscriptExpression s => s.clean strict
  | .ParenthesizedExpression x => x.clean strict
  | .NewExpression t body => cleanOptionalType strict t && body.clean strict
  | .AmendExpression parent body => parent.clean strict && body.clean strict
  | .IfExpression c t e => c.clean strict && t.clean strict && e.clean strict
  | .ImportExpression _ => true
  | .LetExpression name v x => name.clean strict && v.clean strict && x.clean strict
  | .ReadExpression _ v => v.clean strict
  | .ThrowExpression v => v.clean strict
  | .TraceExpression v => v.clean strict
/-- Whether no token of a list of expressions holds a line feed. -/
def cleanExpressions (strict : Bool) : List ExpressionTree → Bool
  | [] => true
  | x :: xs => x.clean strict && cleanExpressions strict xs
/-- Whether no token of an optional argument list holds a line feed. -/
def cleanArguments (strict : Bool) : Option (List ExpressionTree) → Bool
  | none => true
  | some xs => cleanExpressions strict xs
/-- Whether no token of an optional expression holds a line feed. -/
def cleanOptionalExpression (strict : Bool) : Option ExpressionTree → Bool
  | none => true
  | some x => x.clean strict
/-- Whether no token of the parent of an amend expression holds a line feed. -/
def AmendParentTree.clean (strict : Bool) : AmendParentTree → Bool
  | .ParenthesizedExpression x => x.clean strict
  | .NewExpression t body => cleanOptionalType strict t && body.clean strict
  | .AmendExpression parent body => parent.clean strict && body.clean strict
/-- Whether no token of a type holds a line feed. -/
def TypeTree.clean (strict : Bool) : TypeTree → Bool
  | .BuiltinType t => !strict || noNewline t.val
  | .StringLiteralType _ => true
  | .DeclaredType name ps => noNewline name.val && cleanTypes strict ps
  | .ParenthesizedType t => t.clean strict
  | .NullableType t => t.clean strict
  | .ConstrainedType t cs => t.clean strict && cleanExpressions strict cs
  | .UnionType ms d => cleanTypes strict ms && cleanOptionalType strict d
  | .FunctionLiteralType ps r => cleanTypes strict ps && r.clean strict
/-- Whether no token of a list of types holds a line feed. -/
def cleanTypes (strict : Bool) : List TypeTree → Bool
  | [] => true
  | t :: ts => t.clean strict && cleanTypes strict ts
/-- Whether no token of an optional type holds a line feed. -/
def cleanOptionalType (strict : Bool) : Option TypeTree → Bool
  | none => true
  | some t => t.clean strict
/-- Whether no token of a parameter holds a line feed. -/
def ParameterTree.clean (strict : Bool) : ParameterTree → Bool
  | .mk name t => noNewline name.val && cleanOptionalType strict t
/-- Whether no token of a list of parameters holds a line feed. -/
def cleanParameters (strict : Bool) : List ParameterTree → Bool
  | [] => true
  | p :: ps => p.clean strict && cleanParameters strict ps
/-- Whether no token of an optional parameter holds a line feed. -/
def cleanOptionalParameter (strict : Bool) : Option ParameterTree → Bool
  | none => true
  | some p => p.clean strict
/-- Whether no token of a method signature holds a line feed. -/
def MethodSignatureTree.clean (strict : Bool) : MethodSignatureTree → Bool
  | .mk modifiers name tps ps r =>
    modifiers.all (fun m => noNewline m.val) && noNewline name.val &&
      tps.all (fun t => (!strict || noNewline t.Variance.val) && noNewline t.Name.val) &&
      cleanParameters strict ps && cleanOptionalType strict r
/-- Whether no token of an object body holds a line feed. -/
def ObjectBodyTree.clean (strict : Bool) : ObjectBodyTree → Bool
  | .mk ps ms => cleanParameters strict ps && cleanObjectMembers strict ms
/-- Whether no token of a list of object bodies holds a line feed. -/
def cleanObjectBodies (strict : Bool) : List ObjectBodyTree → Bool
  | [] => true
  | b :: bs => b.clean strict && cleanObjectBodies strict bs
/-- Whether no token of an optional object body holds a line feed. -/
def cleanOptionalObjectBody (strict : Bool) : Option ObjectBodyTree → Bool
  | none => true
  | some b => b.clean strict
/-- Whether no token of an object member holds a line feed. -/
def ObjectMemberTree.clean (strict : Bool) : ObjectMemberTree → Bool
  | .ObjectProperty modifiers name t v bodies =>
    modifiers.all (fun m => noNewline m.val) && noNewline name.val &&
      cleanOptionalType strict t && cleanOptionalExpression strict v &&
      cleanObjectBodies strict bodies
  | .ObjectMethod s v => s.clean strict && v.clean strict
  | .ObjectEntry k v bodies =>
    k.clean strict && cleanOptionalExpression strict v && cleanObjectBodies strict bodies
  | .ObjectElement v => v.clean strict
  | .ObjectSpread v _ => v.clean strict
  | .MemberPredicate c v bodies =>
    c.clean strict && cleanOptionalExpression strict v && cleanObjectBodies strict bodies
  | .ForGenerator k v c body =>
    cleanOptionalParameter strict k && v.clean strict && c.clean strict && body.clean strict
  | .WhenGenerator c t e => c.clean strict && t.clean strict && cleanOptionalObjectBody strict e
/-- Whether no token of a list of object members holds a line feed. -/
def cleanObjectMembers (strict : Bool) : List ObjectMemberTree → Bool
  | [] => true
  | m :: ms => m.clean strict && cleanObjectMembers strict ms
end

/-- The object body with the one member `x = new`, whose value is a new object with the
one element `1`. -/
def nestedBodyTree : ObjectBodyTree :=
  .mk [] [.ObjectProperty [] ⟨"x"⟩ none
    (some (.NewExpression none (.mk [] [.ObjectElement (.IntExpression ⟨1⟩)]))) []]

/-- The object body whose one member is the element made of a built-in expression, the
name of which holds a line feed. -/
def builtinBodyTree : ObjectBodyTree :=
  .mk [] [.ObjectElement (.BuiltinExpression ⟨"a\nb"⟩)]

/-! ## Auxiliary lemmas -/

theorem len_eq_zero_iff (s : String) : len s = 0 ↔ s = "" := by
  obtain ⟨l⟩ := s
  cases l with
  | nil => simp [len, String.utf8ByteSize, String.utf8ByteSize.go]
  | cons c cs =>
    have h : 0 < c.utf8Size := Char.utf8Size_pos c
    have h2 : (String.mk (c :: cs)) ≠ "" := by
      intro h3
      have := congrArg String.data h3
      simp at this
    simp [len, String.utf8ByteSize, String.utf8ByteSize.go, h2]
    omega

theorem ok_bind {ε α β : Type} (a : α) (f : α → Except ε β) :
    (Except.ok a >>= f) = f a := rfl

theorem error_bind {ε α β : Type} (e : ε) (f : α → Except ε β) :
    ((Except.error e : Except ε α) >>= f) = Except.error e := rfl

theorem joined_cons (sep r : String) (rs : List String) :
    joined sep (r :: rs) = r ++ prefixedAll sep rs := by
  induction rs generalizing r with
  | nil => simp [joined, prefixedAll]
  | cons r2 rs ih => simp [joined, prefixedAll, ih, String.append_assoc]

theorem joinNodesLoop_ok {N : Type} [Node N] (ctx : Ctx) (sep : String) (nodes : List N)
    (rs : List String) (h : List.Forall₂ (fun n r => Node.Marshal n ctx = .ok r) nodes rs)
    (i : Nat) (b : Buffer) :
    joinNodesLoop ctx sep (i + 1) nodes b = .ok ⟨b.bytes ++ prefixedAll sep rs⟩ := by
  induction h generalizing i b with
  | nil => simp [joinNodesLoop, prefixedAll]
  | cons hn _ ih =>
    simp [joinNodesLoop, hn, ih, prefixedAll, Buffer.WriteString, Buffer.Write,
      String.append_assoc]

theorem joinNodes_ok {N : Type} [Node N] (ctx : Ctx) (sep : String) (nodes : List N)
    (rs : List String) (h : List.Forall₂ (fun n r => Node.Marshal n ctx = .ok r) nodes rs) :
    joinNodes ctx nodes sep = .ok (joined sep rs) := by
  cases h with
  | nil => simp [joinNodes, joined]
  | cons hn ht =>
    simp [joinNodes, joinNodesLoop, hn, joinNodesLoop_ok ctx sep _ _ ht, joined_cons,
      Buffer.Write, Buffer.empty, Buffer.Bytes]

theorem WriteWithSuffix_fst (b : Buffer) (p suffix : String) :
    (b.WriteWithSuffix p suffix).1 = if p = "" then b else ⟨b.bytes ++ p ++ suffix⟩ := by
  by_cases h : p = ""
  · simp [Buffer.WriteWithSuffix, h, len_eq_zero_iff]
  · simp [Buffer.WriteWithSuffix, h, len_eq_zero_iff, Buffer.Write, Buffer.WriteString]

theorem WriteWithPrefix_fst (b : Buffer) (pre p : String) :
    (b.WriteWithPrefix pre p).1 = if p = "" then b else ⟨b.bytes ++ pre ++ p⟩ := by
  by_cases h : p = ""
  · simp [Buffer.WriteWithPrefix, h, len_eq_zero_iff]
  · simp [Buffer.WriteWithPrefix, h, len_eq_zero_iff, Buffer.Write, Buffer.WriteString]

theorem WriteWithPrefixSuffix_fst (b : Buffer) (pre p suffix : String) :
    (b.WriteWithPrefixSuffix pre p suffix).1 =
      if p = "" then b else ⟨b.bytes ++ pre ++ p ++ suffix⟩ := by
  by_cases h : p = ""
  · simp [Buffer.WriteWithPrefixSuffix, h, len_eq_zero_iff]
  · simp [Buffer.WriteWithPrefixSuffix, h, len_eq_zero_iff, Buffer.Write, Buffer.WriteString]

theorem stringsRepeat_two_spaces (n : Nat) : stringsRepeat "  " n = spaces (2 * n) := by
  induction n with
  | zero => rfl
  | succ n ih =>
    rw [stringsRepeat, ih]
    apply String.ext
    simp [spaces, Nat.mul_succ, List.replicate_succ]

theorem indentation_eq_spaces (ctx : Ctx) : indentation ctx = spaces (2 * getIndentLevel ctx) := by
  unfold indentation
  by_cases h : getIndentLevel ctx = 0
  · simp [h, spaces]
  · simp [h, stringsRepeat_two_spaces]

theorem append_eq_empty_iff (s t : String) : s ++ t = "" ↔ s = "" ∧ t = "" := by
  constructor
  · intro h
    have := congrArg String.data h
    simp at this
    exact ⟨String.ext (by simpa using this.1), String.ext (by simpa using this.2)⟩
  · rintro ⟨rfl, rfl⟩
    rfl

theorem push_eq_append (s : String) (c : Char) : s.push c = s ++ String.singleton c := by
  apply String.ext
  simp [String.singleton]

theorem WriteRune_fst (b : Buffer) (c : Char) :
    (b.WriteRune c).1 = ⟨b.bytes ++ String.singleton c⟩ := by
  simp [Buffer.WriteRune, push_eq_append]

theorem append_ne_empty_left (s t : String) (h : s ≠ "") : s ++ t ≠ "" := by
  intro h2
  apply h
  have := congrArg String.data h2
  simp at this
  apply String.ext
  simpa using this.1

theorem append_ne_empty_right (s t : String) (h : t ≠ "") : s ++ t ≠ "" := by
  intro h2
  apply h
  have := congrArg String.data h2
  simp at this
  apply String.ext
  simpa using this.2

theorem joined_ne_empty (sep : String) (r : String) (rs : List String) (h : r ≠ "") :
    joined sep (r :: rs) ≠ "" := by
  rw [joined_cons]
  exact append_ne_empty_left _ _ h

theorem forall₂_ok_of_nonempty {N : Type} (f : N → Except Error String) (nodes : List N)
    (rs : List String) (h : List.Forall₂ (fun n r => f n = .ok r ∧ r ≠ "") nodes rs) :
    List.Forall₂ (fun n r => f n = .ok r) nodes rs :=
  List.Forall₂.imp (fun _ _ hab => hab.1) h

theorem joined_eq_empty_iff_of_nonempty {N : Type} (f : N → Except Error String)
    (sep : String) (nodes : List N) (rs : List String)
    (h : List.Forall₂ (fun n r => f n = .ok r ∧ r ≠ "") nodes rs) :
    joined sep rs = "" ↔ rs = [] := by
  cases h with
  | nil => simp [joined]
  | cons hn _ => simp [joined_ne_empty sep _ _ hn.2]

theorem prefixedAll_eq (sep : String) (r : String) (rs : List String) :
    sep ++ joined sep (r :: rs) = prefixedAll sep (r :: rs) := by
  rw [joined_cons]
  simp [prefixedAll, String.append_assoc]

theorem ObjectBody_Marshal_ne_empty (o : ObjectBody) (ctx : Ctx) (out : String)
    (h : ObjectBody.Marshal o ctx = .ok out) : out ≠ "" := by
  simp only [ObjectBody.Marshal, Buffer.Bytes, WriteRune_fst, pure, Except.pure] at h
  cases hp : joinNodes ctx o.Parameters ", " with
  | error e => simp [hp, error_bind] at h
  | ok params =>
    cases hm : ObjectMembers.Marshal o.Members ctx with
    | error e => simp [hp, hm, ok_bind, error_bind] at h
    | ok members =>
      simp only [hp, hm, ok_bind, Except.ok.injEq] at h
      rw [← h]
      apply append_ne_empty_right
      decide

theorem length_prefixedAll (sep : String) (rs : List String) :
    (prefixedAll sep rs).length = (rs.map String.length).sum + rs.length * sep.length := by
  induction rs with
  | nil => simp [prefixedAll]
  | cons r rs ih =>
    simp [prefixedAll, ih, Nat.succ_mul]
    omega

theorem forall₂_of_forall_exists {N : Type} (f : N → Except Error String) (nodes : List N)
    (h : ∀ n ∈ nodes, ∃ r, f n = .ok r) :
    ∃ rs, List.Forall₂ (fun n r => f n = .ok r) nodes rs := by
  induction nodes with
  | nil => exact ⟨[], List.Forall₂.nil⟩
  | cons n ns ih =>
    obtain ⟨r, hr⟩ := h n (List.mem_cons_self n ns)
    obtain ⟨rs, hrs⟩ := ih (fun x hx => h x (List.mem_cons_of_mem n hx))
    exact ⟨r :: rs, List.Forall₂.cons hr hrs⟩

theorem forall₂_map_of_total {N : Type} (f : N → Except Error String) (g : N → String)
    (hf : ∀ n, f n = .ok (g n)) (nodes : List N) :
    List.Forall₂ (fun n r => f n = .ok r) nodes (nodes.map g) := by
  induction nodes with
  | nil => exact List.Forall₂.nil
  | cons n ns ih => exact List.Forall₂.cons (hf n) ih

theorem Docs_Marshal_total (c : Docs) (ctx : Ctx) : ∃ D, Docs.Marshal c ctx = .ok D := by
  unfold Docs.Marshal
  split <;> exact ⟨_, rfl⟩

theorem Modifiers_Marshal_total (m : Modifiers) (ctx : Ctx) :
    Modifiers.Marshal m ctx = .ok (joined " " (m.map Modifier.val)) :=
  joinNodes_ok ctx " " m _ (forall₂_map_of_total _ _ (fun _ => rfl) m)

theorem ShebangComment_Marshal_eq (c : ShebangComment) (ctx : Ctx) :
    ShebangComment.Marshal c ctx = .ok (if c.val = "" then "" else "#! " ++ c.val) := by
  simp only [ShebangComment.Marshal, WriteWithPrefix_fst, Buffer.Bytes, Buffer.empty]
  split <;> simp

theorem ImportClause_Marshal_ne_empty (printTable : Char → Bool) (i : ImportClause)
    (ctx : Ctx) (r : String) (h : ImportClause.Marshal printTable i ctx = .ok r) : r ≠ "" := by
  simp only [ImportClause.Marshal, Buffer.Bytes, Buffer.WriteString, Buffer.empty,
    Except.ok.injEq] at h
  rw [← h]
  split <;> split <;> simp [append_eq_empty_iff]

theorem importTexts_joined_eq_empty_iff (printTable : Char → Bool) (ctx : Ctx)
    (imports : List ImportClause) (its : List String)
    (hi : List.Forall₂ (fun i r => ImportClause.Marshal printTable i ctx = .ok r) imports its) :
    joined "\n" its = "" ↔ its = [] := by
  cases hi with
  | nil => simp [joined]
  | cons h _ =>
    simp [joined_ne_empty "\n" _ _ (ImportClause_Marshal_ne_empty printTable _ ctx _ h)]

theorem Module_Marshal_eq (printTable : Char → Bool) (m : Module) (ctx : Ctx)
    (D A : String) (its mts : List String)
    (hD : Docs.Marshal m.Docs ctx = .ok D)
    (hA : Annotations.Marshal m.Annotations ctx = .ok A)
    (hi : List.Forall₂ (fun i r => ImportClause.Marshal printTable i ctx = .ok r) m.Imports its)
    (hm : List.Forall₂ (fun (x : ModuleMember) r => x.Marshal ctx = .ok r) m.Members mts) :
    Module.Marshal printTable m ctx = .ok
      ((if m.ShebangComment.val = "" then "" else "#! " ++ m.ShebangComment.val ++ "\n") ++
        (if D = "" then "" else D ++ "\n") ++
        (if A = "" then "" else A ++ "\n") ++
        (if joined " " (m.Modifiers.map Modifier.val) = "" then ""
          else joined " " (m.Modifiers.map Modifier.val) ++ " ") ++
        (if m.Name.val = "" then "" else "module " ++ m.Name.val) ++
        (if m.ParentName = "" then ""
          else (if m.Name.val = "" then "" else " ") ++ m.ParentRelationship.val ++ " " ++
            strconvQuote printTable m.ParentName) ++
        "\n" ++ moduleTail its mts) := by
  have hi2 : ImportClauses.Marshal printTable m.Imports ctx = .ok (joined "\n" its) :=
    @joinNodes_ok ImportClause ⟨ImportClause.Marshal printTable⟩ ctx "\n" m.Imports its hi
  have hm2 : ModuleMembers.Marshal m.Members ctx = .ok (joined "\n\n" mts) :=
    joinNodes_ok ctx "\n\n" m.Members mts hm
  have hie := importTexts_joined_eq_empty_iff printTable ctx _ _ hi
  simp only [Module.Marshal, ShebangComment_Marshal_eq, hD, hA, Modifiers_Marshal_total, hi2,
    hm2, ok_bind, WriteWithPrefixSuffix_fst, WriteWithSuffix_fst, WriteWithPrefix_fst,
    WriteRune_fst, Buffer.WriteString, QualifiedIdentifier.Marshal, Buffer.Bytes, Buffer.empty,
    moduleTail, pure, Except.pure, hie]
  by_cases h1 : m.ShebangComment.val = "" <;> by_cases h2 : D = "" <;>
    by_cases h3 : A = "" <;> by_cases h4 : joined " " (m.Modifiers.map Modifier.val) = "" <;>
    by_cases h5 : m.Name.val = "" <;> by_cases h6 : m.ParentName = "" <;>
    by_cases h7 : its = [] <;> by_cases h8 : joined "\n\n" mts = "" <;>
    simp [h1, h2, h3, h4, h5, h6, h7, h8, ok_bind, append_eq_empty_iff, String.append_assoc] <;>
    rfl

theorem moduleTail_nil : moduleTail [] [] = "" := by
  simp [moduleTail, joined]

theorem Annotations_ok_of_Module_ok (printTable : Char → Bool) (m : Module) (ctx : Ctx)
    (H : String) (hH : Module.Marshal printTable m ctx = .ok H) :
    ∃ A, Annotations.Marshal m.Annotations ctx = .ok A := by
  obtain ⟨D, hD⟩ := Docs_Marshal_total m.Docs ctx
  cases hA : Annotations.Marshal m.Annotations ctx with
  | ok A => exact ⟨A, rfl⟩
  | error e =>
    simp [Module.Marshal, ShebangComment_Marshal_eq, hD, hA, ok_bind, error_bind] at hH

theorem data_getLast_append_newline (s : String) :
    (s ++ "\n").data.getLast? = some '\n' ∧ s ++ "\n" ≠ "" := by
  refine ⟨?_, append_ne_empty_right _ _ (by decide)⟩
  have h : ("\n" : String).data = ['\n'] := rfl
  simp [String.data_append, h]

theorem moduleTail_cases (its mts : List String) :
    moduleTail its mts = "" ∨ ∃ t, moduleTail its mts = t ++ "\n" := by
  unfold moduleTail
  by_cases h1 : its = [] <;> by_cases h2 : joined "\n\n" mts = ""
  · left; simp [h1, h2]
  · right; exact ⟨"\n" ++ joined "\n\n" mts, by simp [h1, h2, String.append_assoc]⟩
  · right; exact ⟨"\n" ++ joined "\n" its, by simp [h1, h2, String.append_assoc]⟩
  · right
    exact ⟨"\n" ++ joined "\n" its ++ "\n" ++ "\n" ++ joined "\n\n" mts,
      by simp [h1, h2, String.append_assoc]; rfl⟩

/-! ## Auxiliary lemmas: comments -/

theorem len_pos_iff (s : String) : len s > 0 ↔ s ≠ "" := by
  rw [gt_iff_lt, Nat.pos_iff_ne_zero]
  exact not_congr (len_eq_zero_iff s)

theorem splitNewline_ne_nil (l : List Char) : splitNewline l ≠ [] := by
  cases l with
  | nil => simp [splitNewline]
  | cons c cs =>
    unfold splitNewline
    split
    · simp
    · split <;> simp

theorem joined_map_cons {α : Type} (f : α → String) (sep : String) (x : α) (xs : List α) :
    joined sep ((x :: xs).map f) = f x ++ prefixedAll sep (xs.map f) := by
  rw [List.map_cons, joined_cons]

theorem Docs_marshalLoop_succ (ctx : Ctx) (i : Nat) (lines : List String) (b : Buffer) :
    Docs.marshalLoop ctx (i + 1) lines b =
      ⟨b.bytes ++ prefixedAll (newlineWithIndentation ctx) (lines.map docsLine)⟩ := by
  induction lines generalizing i b with
  | nil => simp [Docs.marshalLoop, prefixedAll]
  | cons line rest ih =>
    by_cases h : line = ""
    · simp [Docs.marshalLoop, ih, prefixedAll, docsLine, h, len_pos_iff, Buffer.WriteString,
        Buffer.Write, String.append_assoc]
    · simp [Docs.marshalLoop, ih, prefixedAll, docsLine, h, len_pos_iff, Buffer.WriteString,
        Buffer.Write, String.append_assoc]

theorem Docs_Marshal_eq (c : Docs) (ctx : Ctx) :
    Docs.Marshal c ctx = .ok (if c.val = "" then ""
      else joined (newlineWithIndentation ctx) ((splitNewline c.val.data).map docsLine)) := by
  unfold Docs.Marshal
  by_cases h : c.val = ""
  · simp [h]
  · simp only [h, if_false]
    cases hs : splitNewline c.val.data with
    | nil => exact absurd hs (splitNewline_ne_nil _)
    | cons line rest =>
      by_cases hl : line = ""
      · simp [Docs.marshalLoop, Docs_marshalLoop_succ, joined_cons, docsLine, hl,
          len_pos_iff, Buffer.WriteString, Buffer.Write, Buffer.Bytes, Buffer.empty]
      · simp [Docs.marshalLoop, Docs_marshalLoop_succ, joined_cons, docsLine, hl,
          len_pos_iff, Buffer.WriteString, Buffer.Write, Buffer.Bytes, Buffer.empty,
          String.append_assoc]

theorem docsLine_ne_empty (line : String) : docsLine line ≠ "" := by
  unfold docsLine
  split
  · decide
  · exact append_ne_empty_left _ _ (by decide)

theorem Docs_Marshal_eq_empty_iff (c : Docs) (ctx : Ctx) (D : String)
    (h : Docs.Marshal c ctx = .ok D) : D = "" ↔ c.val = "" := by
  rw [Docs_Marshal_eq] at h
  have h := Except.ok.inj h
  by_cases hc : c.val = ""
  · simp [hc] at h
    simp [hc, ← h]
  · simp only [hc, if_false] at h
    cases hs : splitNewline c.val.data with
    | nil => exact absurd hs (splitNewline_ne_nil _)
    | cons line rest =>
      rw [hs, List.map_cons] at h
      have := joined_ne_empty (newlineWithIndentation ctx) _ (rest.map docsLine)
        (docsLine_ne_empty line)
      rw [h] at this
      simp [hc, this]

theorem BlockComment_marshalLoop_succ (ctx : Ctx) (i : Nat) (lines : List String) (b : Buffer) :
    BlockComment.marshalLoop ctx (i + 1) lines b =
      ⟨b.bytes ++ prefixedAll (newlineWithIndentation ctx) (lines.map blockCommentLine)⟩ := by
  induction lines generalizing i b with
  | nil => simp [BlockComment.marshalLoop, prefixedAll]
  | cons line rest ih =>
    by_cases h : line = ""
    · simp [BlockComment.marshalLoop, ih, prefixedAll, blockCommentLine, h, len_pos_iff,
        Buffer.WriteString, Buffer.Write, String.append_assoc]
    · simp [BlockComment.marshalLoop, ih, prefixedAll, blockCommentLine, h, len_pos_iff,
        Buffer.WriteString, Buffer.Write, String.append_assoc]

theorem BlockComment_Marshal_eq (c : BlockComment) (ctx : Ctx) :
    BlockComment.Marshal c ctx = .ok (if c.val = "" then ""
      else "/*" ++ newlineWithIndentation ctx ++
        joined (newlineWithIndentation ctx) ((splitNewline c.val.data).map blockCommentLine) ++
        newlineWithIndentation ctx ++ "*/") := by
  unfold BlockComment.Marshal
  by_cases h : c.val = ""
  · simp [h]
  · simp only [h, if_false]
    cases hs : splitNewline c.val.data with
    | nil => exact absurd hs (splitNewline_ne_nil _)
    | cons line rest =>
      by_cases hl : line = ""
      · simp [BlockComment.marshalLoop, BlockComment_marshalLoop_succ, joined_cons,
          blockCommentLine, hl, len_pos_iff, Buffer.WriteString, Buffer.Write, Buffer.Bytes,
          Buffer.empty, String.append_assoc]
      · simp [BlockComment.marshalLoop, BlockComment_marshalLoop_succ, joined_cons,
          blockCommentLine, hl, len_pos_iff, Buffer.WriteString, Buffer.Write, Buffer.Bytes,
          Buffer.empty, String.append_assoc]

theorem splitNewline_joined (l : List Char) : joined "\n" (splitNewline l) = String.mk l := by
  induction l with
  | nil => rfl
  | cons c cs ih =>
    unfold splitNewline
    by_cases hc : c = '\n'
    · simp only [hc, if_true]
      rw [joined_cons]
      cases hs : splitNewline cs with
      | nil => exact absurd hs (splitNewline_ne_nil _)
      | cons line rest =>
        rw [hs] at ih
        rw [← prefixedAll_eq, ih]
        apply String.ext
        have h : ("\n" : String).data = ['\n'] := rfl
        simp [String.data_append, h]
    · simp only [hc, if_false]
      cases hs : splitNewline cs with
      | nil => exact absurd hs (splitNewline_ne_nil _)
      | cons line rest =>
        rw [hs] at ih
        simp only
        rw [joined_cons] at ih ⊢
        rw [String.append_assoc, ih]
        apply String.ext
        simp [String.data_append, String.singleton]

theorem splitNewline_no_newline (l : List Char) :
    ∀ line ∈ splitNewline l, '\n' ∉ line.data := by
  induction l with
  | nil => simp [splitNewline]
  | cons c cs ih =>
    unfold splitNewline
    by_cases hc : c = '\n'
    · simp only [hc, if_true]
      intro line hline
      rcases List.mem_cons.1 hline with h | h
      · simp [h]
      · exact ih line h
    · simp only [hc, if_false]
      cases hs : splitNewline cs with
      | nil => exact absurd hs (splitNewline_ne_nil _)
      | cons first rest =>
        rw [hs] at ih
        intro line hline
        rcases List.mem_cons.1 hline with h | h
        · have h1 := ih first (List.mem_cons_self _ _)
          simp [h, String.data_append, String.singleton, h1, Ne.symm hc]
        · exact ih line (List.mem_cons_of_mem _ h)

/-! ## Auxiliary lemmas: declarations -/

theorem Annotations_Marshal_nil (ctx : Ctx) : Annotations.Marshal [] ctx = .ok "" := by
  simp [Annotations.Marshal, joinNodes]

theorem Docs_Marshal_empty (ctx : Ctx) : Docs.Marshal ⟨""⟩ ctx = .ok "" := by
  simp [Docs.Marshal]

theorem Modifiers_Marshal_nil (ctx : Ctx) : Modifiers.Marshal [] ctx = .ok "" := by
  simp [Modifiers.Marshal, joinNodes]

theorem TypeParameters_Marshal_nil (ctx : Ctx) : TypeParameters.Marshal [] ctx = .ok "" := by
  simp [TypeParameters.Marshal, joinNodes, ok_bind, WriteWithPrefixSuffix_fst, Buffer.Bytes,
    Buffer.empty, pure, Except.pure]

theorem TypeParameter_Marshal_total (t : TypeParameter) (ctx : Ctx) :
    ∃ r, TypeParameter.Marshal t ctx = .ok r := by
  simp [TypeParameter.Marshal, Identifier.Marshal, ok_bind, pure, Except.pure]

theorem TypeParameters_Marshal_total (t : TypeParameters) (ctx : Ctx) :
    ∃ T, TypeParameters.Marshal t ctx = .ok T := by
  obtain ⟨rs, hrs⟩ := forall₂_of_forall_exists (fun x => TypeParameter.Marshal x ctx) t
    (fun x _ => TypeParameter_Marshal_total x ctx)
  have h := joinNodes_ok ctx ", " t rs hrs
  simp [TypeParameters.Marshal, h, ok_bind, pure, Except.pure]

theorem TypeParameters_Marshal_eq (t : TypeParameters) (ctx : Ctx) (tps : List String)
    (h : List.Forall₂ (fun x r => TypeParameter.Marshal x ctx = .ok r) t tps) :
    TypeParameters.Marshal t ctx = .ok
      (if joined ", " tps = "" then "" else "<" ++ joined ", " tps ++ ">") := by
  have h := joinNodes_ok ctx ", " t tps h
  by_cases he : joined ", " tps = "" <;>
    simp [TypeParameters.Marshal, h, he, ok_bind, WriteWithPrefixSuffix_fst, Buffer.Bytes,
      Buffer.empty, pure, Except.pure]

theorem Class_Marshal_eq (c : Class) (ctx : Ctx) (D A TP PTP MT : String)
    (hD : Docs.Marshal c.Docs ctx = .ok D)
    (hA : Annotations.Marshal c.Annotations ctx = .ok A)
    (hTP : TypeParameters.Marshal c.TypeParameters ctx = .ok TP)
    (hPTP : TypeParameters.Marshal c.ParentTypeParameters ctx = .ok PTP)
    (hM : joinNodes (raiseIndentLevel ctx) c.Members
      ("\n" ++ newlineWithIndentation (raiseIndentLevel ctx)) = .ok MT) :
    Class.Marshal c ctx = .ok
      (declarationPrefix (newlineWithIndentation ctx) D A
          (joined " " (c.Modifiers.map Modifier.val)) ++
        (if c.Name.val = "" then "" else "class " ++ c.Name.val) ++ TP ++
        (if c.ParentName.val = "" then "" else " extends " ++ c.ParentName.val) ++ PTP ++
        (if MT = "" then ""
          else " \x7b" ++ newlineWithIndentation (raiseIndentLevel ctx) ++ MT ++
            (newlineWithIndentation ctx ++ "\x7d"))) := by
  simp only [Class.Marshal, hD, hA, hTP, hPTP, hM, Modifiers_Marshal_total, ok_bind,
    WriteWithPrefixSuffix_fst, WriteWithSuffix_fst, WriteWithPrefix_fst, Buffer.Write,
    Identifier.Marshal, QualifiedIdentifier.Marshal, Buffer.Bytes, Buffer.empty,
    declarationPrefix, pure, Except.pure]
  by_cases h1 : D = "" <;> by_cases h2 : A = "" <;>
    by_cases h3 : joined " " (c.Modifiers.map Modifier.val) = "" <;>
    by_cases h4 : c.Name.val = "" <;> by_cases h5 : c.ParentName.val = "" <;>
    by_cases h6 : MT = "" <;>
    simp [h1, h2, h3, h4, h5, h6, String.append_assoc] <;>
    rfl

theorem Class_Marshal_parts (c : Class) (ctx : Ctx) (out : String)
    (h : Class.Marshal c ctx = .ok out) :
    ∃ D A TP PTP MT, Docs.Marshal c.Docs ctx = .ok D ∧
      Annotations.Marshal c.Annotations ctx = .ok A ∧
      TypeParameters.Marshal c.TypeParameters ctx = .ok TP ∧
      TypeParameters.Marshal c.ParentTypeParameters ctx = .ok PTP ∧
      joinNodes (raiseIndentLevel ctx) c.Members
        ("\n" ++ newlineWithIndentation (raiseIndentLevel ctx)) = .ok MT := by
  obtain ⟨D, hD⟩ := Docs_Marshal_total c.Docs ctx
  obtain ⟨TP, hTP⟩ := TypeParameters_Marshal_total c.TypeParameters ctx
  obtain ⟨PTP, hPTP⟩ := TypeParameters_Marshal_total c.ParentTypeParameters ctx
  cases hA : Annotations.Marshal c.Annotations ctx with
  | error e =>
    simp [Class.Marshal, hD, hA, ok_bind, error_bind] at h
  | ok A =>
    cases hM : joinNodes (raiseIndentLevel ctx) c.Members
        ("\n" ++ newlineWithIndentation (raiseIndentLevel ctx)) with
    | error e =>
      simp [Class.Marshal, hD, hA, hTP, hPTP, hM, Modifiers_Marshal_total, Identifier.Marshal,
        QualifiedIdentifier.Marshal, ok_bind, error_bind] at h
    | ok MT => exact ⟨D, A, TP, PTP, MT, hD, rfl, hTP, hPTP, rfl⟩

theorem declarationPrefix_empty (nl : String) : declarationPrefix nl "" "" "" = "" := by
  simp [declarationPrefix]

theorem Class_Marshal_prefix (c : Class) (ctx : Ctx) (D A core : String)
    (hD : Docs.Marshal c.Docs ctx = .ok D)
    (hA : Annotations.Marshal c.Annotations ctx = .ok A)
    (hcore : Class.Marshal { c with Docs := ⟨""⟩, Annotations := [], Modifiers := [] } ctx =
      .ok core) :
    Class.Marshal c ctx = .ok
      (declarationPrefix (newlineWithIndentation ctx) D A
        (joined " " (c.Modifiers.map Modifier.val)) ++ core) := by
  obtain ⟨D0, A0, TP, PTP, MT, hD0, hA0, hTP, hPTP, hM⟩ := Class_Marshal_parts _ ctx core hcore
  have h0 := Class_Marshal_eq _ ctx "" "" TP PTP MT (Docs_Marshal_empty ctx)
    (Annotations_Marshal_nil ctx) hTP hPTP hM
  rw [hcore] at h0
  have h0 := Except.ok.inj h0
  simp only [List.map_nil, joined, declarationPrefix_empty, String.empty_append] at h0
  rw [Class_Marshal_eq c ctx D A TP PTP MT hD hA hTP hPTP hM, h0]
  simp [String.append_assoc]

theorem WriteWithSuffix_app (b : Buffer) (p suffix : String) :
    (b.WriteWithSuffix p suffix).1 = ⟨b.bytes ++ (if p = "" then "" else p ++ suffix)⟩ := by
  rw [WriteWithSuffix_fst]
  by_cases h : p = "" <;> simp [h, String.append_assoc]

theorem WriteWithPrefix_app (b : Buffer) (pre p : String) :
    (b.WriteWithPrefix pre p).1 = ⟨b.bytes ++ (if p = "" then "" else pre ++ p)⟩ := by
  rw [WriteWithPrefix_fst]
  by_cases h : p = "" <;> simp [h, String.append_assoc]

theorem WriteWithPrefixSuffix_app (b : Buffer) (pre p suffix : String) :
    (b.WriteWithPrefixSuffix pre p suffix).1 =
      ⟨b.bytes ++ (if p = "" then "" else pre ++ p ++ suffix)⟩ := by
  rw [WriteWithPrefixSuffix_fst]
  by_cases h : p = "" <;> simp [h, String.append_assoc]

theorem ClassProperty_Marshal_prefix (p : ClassProperty) (ctx : Ctx) (D A core : String)
    (hD : Docs.Marshal p.Docs ctx = .ok D)
    (hA : Annotations.Marshal p.Annotations ctx = .ok A)
    (hcore : ClassProperty.Marshal { p with Docs := ⟨""⟩, Annotations := [], Modifiers := [] }
      ctx = .ok core) :
    ClassProperty.Marshal p ctx = .ok
      (declarationPrefix (newlineWithIndentation ctx) D A
        (joined " " (p.Modifiers.map Modifier.val)) ++ core) := by
  simp only [ClassProperty.Marshal, Docs_Marshal_empty, Annotations_Marshal_nil,
    Modifiers_Marshal_nil, ok_bind, WriteWithSuffix_app, WriteWithPrefix_app, Buffer.Write,
    Identifier.Marshal, Buffer.Bytes, Buffer.empty, pure, Except.pure] at hcore
  simp only [ClassProperty.Marshal, hD, hA, Modifiers_Marshal_total, ok_bind,
    WriteWithSuffix_app, WriteWithPrefix_app, Buffer.Write, Identifier.Marshal, Buffer.Bytes,
    Buffer.empty, pure, Except.pure, declarationPrefix]
  rcases hT : p.Typ with _ | t <;> rcases hE : p.Expression with _ | e <;>
    rcases hB : p.Body with _ | o <;> simp only [hT, hE, hB] at hcore ⊢
  all_goals try (
    cases ht : t.Marshal ctx <;>
      simp only [ht, ok_bind, error_bind, reduceCtorEq] at hcore ⊢)
  all_goals try (
    cases he : e.Marshal ctx <;>
      simp only [he, ok_bind, error_bind, reduceCtorEq] at hcore ⊢)
  all_goals try (
    cases ho : o.Marshal ctx <;>
      simp only [ho, ok_bind, error_bind, reduceCtorEq] at hcore ⊢)
  all_goals (
    simp only [ok_bind, if_true, String.append_empty, String.empty_append, Except.ok.injEq]
      at hcore ⊢
    subst hcore
    simp [String.append_assoc])

theorem TypeAlias_Marshal_prefix (t : TypeAlias) (ctx : Ctx) (D A core : String)
    (hD : Docs.Marshal t.Docs ctx = .ok D)
    (hA : Annotations.Marshal t.Annotations ctx = .ok A)
    (hcore : TypeAlias.Marshal { t with Docs := ⟨""⟩, Annotations := [], Modifiers := [] }
      ctx = .ok core) :
    TypeAlias.Marshal t ctx = .ok
      (declarationPrefix (newlineWithIndentation ctx) D A
        (joined " " (t.Modifiers.map Modifier.val)) ++ core) := by
  obtain ⟨TP, hTP⟩ := TypeParameters_Marshal_total t.Parameters ctx
  simp only [TypeAlias.Marshal, Docs_Marshal_empty, Annotations_Marshal_nil,
    Modifiers_Marshal_nil, hTP, ok_bind, WriteWithSuffix_app, WriteWithPrefix_app,
    Buffer.Write, Identifier.Marshal, Buffer.Bytes, Buffer.empty, pure, Except.pure] at hcore
  simp only [TypeAlias.Marshal, hD, hA, hTP, Modifiers_Marshal_total, ok_bind,
    WriteWithSuffix_app, WriteWithPrefix_app, Buffer.Write, Identifier.Marshal, Buffer.Bytes,
    Buffer.empty, pure, Except.pure, declarationPrefix]
  cases ht : t.Typ.Marshal ctx <;> simp only [ht, ok_bind, error_bind, reduceCtorEq] at hcore ⊢
  simp only [ok_bind, if_true, String.append_empty, String.empty_append, Except.ok.injEq]
    at hcore ⊢
  subst hcore
  simp [String.append_assoc]

theorem ObjectBody_Marshal_eq (o : ObjectBody) (ctx : Ctx)
    (d : Nat) (ps ms : List String) (hd : getIndentLevel ctx = d)
    (hp : List.Forall₂ (fun p r => Parameter.Marshal p ctx = .ok r ∧ r ≠ "") o.Parameters ps)
    (hm : List.Forall₂
      (fun (x : ObjectMember) r => x.Marshal (ctxWithIndentLevel ctx (d + 1)) = .ok r ∧ r ≠ "")
      o.Members ms) :
    ObjectBody.Marshal o ctx = .ok
        ("\x7b" ++ (if ps = [] then "" else " " ++ joined ", " ps ++ " ->") ++
          (if ms = [] then ""
            else prefixedAll ("\n" ++ spaces (2 * (d + 1))) ms ++ ("\n" ++ spaces (2 * d))) ++
          "\x7d") := by
  have hraise : raiseIndentLevel ctx = ctxWithIndentLevel ctx (d + 1) := by
    simp [raiseIndentLevel, ctxWithIndentLevel, hd]
  have hnl : newlineWithIndentation ctx = "\n" ++ spaces (2 * d) := by
    simp [newlineWithIndentation, indentation_eq_spaces, hd]
  have hnl1 : newlineWithIndentation (ctxWithIndentLevel ctx (d + 1)) =
      "\n" ++ spaces (2 * (d + 1)) := by
    simp [newlineWithIndentation, indentation_eq_spaces, getIndentLevel, ctxWithIndentLevel]
  have hpj := joinNodes_ok ctx ", " o.Parameters ps (forall₂_ok_of_nonempty _ _ _ hp)
  have hmj := joinNodes_ok (ctxWithIndentLevel ctx (d + 1)) ("\n" ++ spaces (2 * (d + 1)))
    o.Members ms (forall₂_ok_of_nonempty _ _ _ hm)
  have hpe := joined_eq_empty_iff_of_nonempty _ ", " _ _ hp
  have hme := joined_eq_empty_iff_of_nonempty _ ("\n" ++ spaces (2 * (d + 1))) _ _ hm
  simp only [ObjectBody.Marshal, ObjectMembers.Marshal, hraise, hnl, hnl1, hpj, hmj, ok_bind,
    WriteWithPrefixSuffix_fst, WriteWithSuffix_fst, WriteWithPrefix_fst, Buffer.Bytes,
    WriteRune_fst, Buffer.empty, hpe, hme, pure, Except.pure]
  cases ps with
  | nil =>
    cases ms with
    | nil => simp; rfl
    | cons r rs =>
      simp [hme, append_eq_empty_iff, ← prefixedAll_eq, String.append_assoc]
      rfl
  | cons p ps =>
    cases ms with
    | nil => simp [String.append_assoc]; rfl
    | cons r rs =>
      simp [hme, append_eq_empty_iff, ← prefixedAll_eq, String.append_assoc]
      rfl

theorem newlineWithIndentation_eq (ctx : Ctx) (d : Nat) (hd : getIndentLevel ctx = d) :
    newlineWithIndentation ctx = "\n" ++ spaces (2 * d) := by
  simp [newlineWithIndentation, indentation_eq_spaces, hd]

theorem raiseIndentLevel_eq (ctx : Ctx) (d : Nat) (hd : getIndentLevel ctx = d) :
    raiseIndentLevel ctx = ctxWithIndentLevel ctx (d + 1) := by
  simp [raiseIndentLevel, ctxWithIndentLevel, hd]

theorem newlineWithIndentation_raised (ctx : Ctx) (d : Nat) :
    newlineWithIndentation (ctxWithIndentLevel ctx (d + 1)) = "\n" ++ spaces (2 * (d + 1)) :=
  newlineWithIndentation_eq (ctxWithIndentLevel ctx (d + 1)) (d + 1) rfl

theorem getIndentLevel_ctxWithIndentLevel (ctx : Ctx) (d : Nat) :
    getIndentLevel (ctxWithIndentLevel ctx d) = d := rfl

theorem joinNodes_nil {N : Type} [Node N] (ctx : Ctx) (sep : String) :
    joinNodes ctx ([] : List N) sep = .ok "" := rfl

theorem Class_Marshal_head (c : Class) (ctx : Ctx) (head MT : String)
    (hhead : Class.Marshal { c with Members := [] } ctx = .ok head)
    (hM : joinNodes (raiseIndentLevel ctx) c.Members
      ("\n" ++ newlineWithIndentation (raiseIndentLevel ctx)) = .ok MT) :
    Class.Marshal c ctx = .ok
      (head ++ (if MT = "" then ""
        else " \x7b" ++ newlineWithIndentation (raiseIndentLevel ctx) ++ MT ++
          (newlineWithIndentation ctx ++ "\x7d"))) := by
  obtain ⟨D, A, TP, PTP, MT0, hD, hA, hTP, hPTP, hM0⟩ := Class_Marshal_parts _ ctx head hhead
  have hM0' : joinNodes (raiseIndentLevel ctx) ({ c with Members := [] } : Class).Members
      ("\n" ++ newlineWithIndentation (raiseIndentLevel ctx)) = .ok "" := rfl
  have h0 := Class_Marshal_eq _ ctx D A TP PTP "" hD hA hTP hPTP hM0'
  rw [hhead] at h0
  have h0 := Except.ok.inj h0
  simp only [if_true, String.append_empty] at h0
  rw [Class_Marshal_eq c ctx D A TP PTP MT hD hA hTP hPTP hM, h0]

theorem ClassProperty_Marshal_body (p : ClassProperty) (ctx : Ctx) (o : ObjectBody)
    (P B : String) (hb : p.Body = some o) (hB : ObjectBody.Marshal o ctx = .ok B)
    (hP : ClassProperty.Marshal { p with Body := none } ctx = .ok P) :
    ClassProperty.Marshal p ctx = .ok (P ++ " " ++ B) := by
  have hBne := ObjectBody_Marshal_ne_empty o ctx B hB
  obtain ⟨D, hD⟩ := Docs_Marshal_total p.Docs ctx
  simp only [ClassProperty.Marshal, hD, Modifiers_Marshal_total, ok_bind,
    WriteWithSuffix_app, WriteWithPrefix_app, Buffer.Write, Identifier.Marshal, Buffer.Bytes,
    Buffer.empty, pure, Except.pure] at hP
  simp only [ClassProperty.Marshal, hD, hb, hB, hBne, Modifiers_Marshal_total, ok_bind,
    WriteWithSuffix_app, WriteWithPrefix_app, Buffer.Write, Identifier.Marshal, Buffer.Bytes,
    Buffer.empty, pure, Except.pure]
  cases hA : Annotations.Marshal p.Annotations ctx <;>
    simp only [hA, ok_bind, error_bind, reduceCtorEq] at hP ⊢
  rcases hT : p.Typ with _ | t <;> rcases hE : p.Expression with _ | e <;>
    simp only [hT, hE] at hP ⊢
  all_goals try (
    cases ht : t.Marshal ctx <;>
      simp only [ht, ok_bind, error_bind, reduceCtorEq] at hP ⊢)
  all_goals try (
    cases he : e.Marshal ctx <;>
      simp only [he, ok_bind, error_bind, reduceCtorEq] at hP ⊢)
  all_goals (
    simp only [ok_bind, if_false, Except.ok.injEq] at hP ⊢
    subst hP
    simp [String.append_assoc])

theorem joinNodesLoopCalls_fst {N : Type} [Node N] (ctx : Ctx) (sep : String) (nodes : List N)
    (i : Nat) (b : Buffer) (calls : Nat) :
    (joinNodesLoopCalls ctx sep i nodes b calls).1 = joinNodesLoop ctx sep i nodes b := by
  induction nodes generalizing i b calls with
  | nil => rfl
  | cons n ns ih =>
    simp only [joinNodesLoopCalls, joinNodesLoop]
    cases h : Node.Marshal n ctx with
    | error e => rfl
    | ok r => exact ih _ _ _

theorem joinNodesCalls_fst {N : Type} [Node N] (ctx : Ctx) (sep : String) (nodes : List N) :
    (joinNodesCalls ctx nodes sep).1 = joinNodes ctx nodes sep := by
  unfold joinNodesCalls joinNodes
  split
  · rfl
  · have h := joinNodesLoopCalls_fst ctx sep nodes 0 Buffer.empty 0
    rcases hc : joinNodesLoopCalls ctx sep 0 nodes Buffer.empty 0 with ⟨res, calls⟩
    rw [hc] at h
    simp only at h
    subst h
    generalize joinNodesLoop ctx sep 0 nodes Buffer.empty = res
    cases res <;> rfl

theorem joinNodesLoopCalls_error {N : Type} [Node N] (ctx : Ctx) (sep : String)
    (pre : List N) (n : N) (rest : List N) (rs : List String) (err : Error)
    (hpre : List.Forall₂ (fun x r => Node.Marshal x ctx = .ok r) pre rs)
    (hn : Node.Marshal n ctx = .error err) (i : Nat) (b : Buffer) (calls : Nat) :
    joinNodesLoopCalls ctx sep i (pre ++ n :: rest) b calls =
      (.error err, calls + pre.length + 1) := by
  induction hpre generalizing i b calls with
  | nil => simp [joinNodesLoopCalls, hn]
  | cons hx _ ih =>
    simp only [List.cons_append, joinNodesLoopCalls, hx, List.append_eq, ih, List.length_cons,
      Prod.mk.injEq, true_and]
    omega

theorem joinNodesCalls_error {N : Type} [Node N] (ctx : Ctx) (sep : String)
    (pre : List N) (n : N) (rest : List N) (rs : List String) (err : Error)
    (hpre : List.Forall₂ (fun x r => Node.Marshal x ctx = .ok r) pre rs)
    (hn : Node.Marshal n ctx = .error err) :
    joinNodesCalls ctx (pre ++ n :: rest) sep = (.error err, pre.length + 1) := by
  unfold joinNodesCalls
  rw [joinNodesLoopCalls_error ctx sep pre n rest rs err hpre hn]
  simp

/-! ## Auxiliary lemmas: the in-memory store -/

theorem mapLookup_mapAssign {β : Type} (k k2 : String) (v : β) (l : List (String × β)) :
    mapLookup k2 (mapAssign k v l) = if k2 = k then some v else mapLookup k2 l := by
  induction l with
  | nil =>
    by_cases h : k2 = k
    · simp [mapAssign, mapLookup, h]
    · have h2 : ¬ k = k2 := fun e => h e.symm
      simp [mapAssign, mapLookup, h, h2]
  | cons e rest ih =>
    obtain ⟨k3, v3⟩ := e
    by_cases h3 : k3 = k
    · subst h3
      by_cases h : k2 = k3
      · simp [mapAssign, mapLookup, h]
      · have h2 : ¬ k3 = k2 := fun e => h e.symm
        simp [mapAssign, mapLookup, h, h2]
    · by_cases h : k2 = k
      · subst h
        simp [mapAssign, mapLookup, h3, ih]
      · simp only [mapAssign, h3, if_false, mapLookup, ih, h]

theorem WriteFile_ok_lookup (m : MemFS) (p data : String) (perm : Nat)
    (hw : (m.WriteFile p data perm).2 = none) :
    mapLookup (pathClean p) (m.WriteFile p data perm).1.nodes =
      some { data := data, mode := perm, isDir := false } := by
  unfold MemFS.WriteFile at hw ⊢
  simp only at hw ⊢
  split at hw
  · simp at hw
  · rename_i hdir
    rw [if_neg hdir]
    split at hw
    · simp at hw
    · rename_i hmade
      simp only [hmade]
      simp [mapLookup_mapAssign]

theorem ReadFile_of_lookup (m : MemFS) (q : String) (node : memNode)
    (h : mapLookup (pathClean q) m.nodes = some node) (hf : node.isDir = false) :
    (m.ReadFile q).2 = .ok node.data := by
  simp [MemFS.ReadFile, h, hf]

/-! ## Auxiliary lemmas: quoting -/

theorem append_ite (c : Prop) [Decidable c] (b x y : String) :
    (b ++ if c then x else y) = if c then b ++ x else b ++ y := by
  split <;> rfl

theorem appendEscapedRune_eq (printTable : Char → Bool) (buf : String) (r : Char) :
    appendEscapedRune printTable buf r = buf ++ escapedRune printTable r := by
  unfold escapedRune appendEscapedRune
  simp only [List.foldl, push_eq_append, String.append_assoc, String.empty_append,
    append_ite]

theorem foldl_appendEscapedRune (printTable : Char → Bool) (l : List Char) (buf : String) :
    l.foldl (appendEscapedRune printTable) buf = buf ++ escapedRunes printTable l := by
  induction l generalizing buf with
  | nil => simp [escapedRunes]
  | cons r rs ih =>
    rw [List.foldl_cons, ih, appendEscapedRune_eq, escapedRunes, String.append_assoc]

theorem strconvQuote_eq (printTable : Char → Bool) (s : String) :
    strconvQuote printTable s = "\"" ++ escapedRunes printTable s.data ++ "\"" := by
  rw [strconvQuote, foldl_appendEscapedRune, push_eq_append]
  rfl

theorem char_eq_ofNat (r : Char) (n : Nat) (h : r.toNat = n) : r = Char.ofNat n := by
  rw [← h, Char.ofNat_toNat]

/-- The shapes of the text written for one character. -/
theorem escapedRune_cases (printTable : Char → Bool) (r : Char) :
    ((r = '"' ∨ r = '\\') ∧ (escapedRune printTable r).data = ['\\', r]) ∨
    (r ≠ '"' ∧ r ≠ '\\' ∧ r ≠ '\n' ∧ (escapedRune printTable r).data = [r]) ∨
    (r = Char.ofNat 7 ∧ (escapedRune printTable r).data = ['\\', 'a']) ∨
    (r = Char.ofNat 8 ∧ (escapedRune printTable r).data = ['\\', 'b']) ∨
    (r = Char.ofNat 12 ∧ (escapedRune printTable r).data = ['\\', 'f']) ∨
    (r = '\n' ∧ (escapedRune printTable r).data = ['\\', 'n']) ∨
    (r = '\r' ∧ (escapedRune printTable r).data = ['\\', 'r']) ∨
    (r = '\t' ∧ (escapedRune printTable r).data = ['\\', 't']) ∨
    (r = Char.ofNat 11 ∧ (escapedRune printTable r).data = ['\\', 'v']) ∨
    (r.toNat < 128 ∧ (escapedRune printTable r).data =
      ['\\', 'x', hexDigitAt r.toNat 4, hexDigitAt r.toNat 0]) ∨
    (r.toNat < 0x10000 ∧ (escapedRune printTable r).data =
      ['\\', 'u', hexDigitAt r.toNat 12, hexDigitAt r.toNat 8, hexDigitAt r.toNat 4,
        hexDigitAt r.toNat 0]) ∨
    ((escapedRune printTable r).data =
      ['\\', 'U', hexDigitAt r.toNat 28, hexDigitAt r.toNat 24, hexDigitAt r.toNat 20,
        hexDigitAt r.toNat 16, hexDigitAt r.toNat 12, hexDigitAt r.toNat 8,
        hexDigitAt r.toNat 4, hexDigitAt r.toNat 0]) := by
  unfold escapedRune appendEscapedRune
  by_cases h1 : r = '"' ∨ r = '\\'
  · left
    exact ⟨h1, by simp [h1]⟩
  right
  by_cases h2 : IsPrint printTable r = true
  · left
    refine ⟨fun e => h1 (Or.inl e), fun e => h1 (Or.inr e), ?_, by simp [h1, h2]⟩
    intro e
    subst e
    simp [IsPrint] at h2
  right
  by_cases h3 : r.toNat = 0x07
  · left
    exact ⟨char_eq_ofNat r _ h3, by simp [h1, h2, h3]⟩
  right
  by_cases h4 : r.toNat = 0x08
  · left
    exact ⟨char_eq_ofNat r _ h4, by simp [h1, h2, h4]⟩
  right
  by_cases h5 : r.toNat = 0x0C
  · left
    exact ⟨char_eq_ofNat r _ h5, by simp [h1, h2, h5]⟩
  right
  by_cases h6 : r = '\n'
  · left
    exact ⟨h6, by subst h6; simp [IsPrint]⟩
  right
  by_cases h7 : r = '\r'
  · left
    exact ⟨h7, by subst h7; simp [IsPrint]⟩
  right
  by_cases h8 : r = '\t'
  · left
    exact ⟨h8, by subst h8; simp [IsPrint]⟩
  right
  by_cases h9 : r.toNat = 0x0B
  · left
    exact ⟨char_eq_ofNat r _ h9, by simp [h1, h2, h3, h4, h5, h6, h7, h8, h9]⟩
  right
  by_cases h10 : r.toNat < 0x20 ∨ r.toNat = 0x7F
  · left
    refine ⟨by omega, ?_⟩
    simp only [h1, h2, h3, h4, h5, h6, h7, h8, h9, h10, if_true, if_false]
    rfl
  right
  by_cases h11 : r.toNat < 0x10000
  · left
    refine ⟨h11, ?_⟩
    simp only [h1, h2, h3, h4, h5, h6, h7, h8, h9, h10, h11, if_true, if_false]
    rfl
  right
  simp only [h1, h2, h3, h4, h5, h6, h7, h8, h9, h10, h11, if_true, if_false]
  rfl

theorem lowerhex_getD_mem (i : Nat) : lowerhex.getD i '0' ∈ lowerhex := by
  by_cases h : i < 16
  · interval_cases i <;> decide
  · rw [List.getD_eq_default _ _ (by simpa [lowerhex] using h)]
    decide

theorem hexDigitAt_ne (n s : Nat) : hexDigitAt n s ≠ '"' ∧ hexDigitAt n s ≠ '\\' := by
  have h := lowerhex_getD_mem ((n >>> s) &&& 0xF)
  have hall : ∀ c ∈ lowerhex, c ≠ '"' ∧ c ≠ '\\' := by decide
  exact hall _ h

theorem unescapedQuotes_plain (c : Char) (rest : List Char) (h1 : c ≠ '"') (h2 : c ≠ '\\') :
    unescapedQuotes (c :: rest) = unescapedQuotes rest := by
  cases rest with
  | nil => simp [unescapedQuotes, h1]
  | cons d rest => simp [unescapedQuotes, h1, h2]

theorem unescapedQuotes_escape (d : Char) (rest : List Char) :
    unescapedQuotes ('\\' :: d :: rest) = unescapedQuotes rest := by
  simp [unescapedQuotes]

theorem unescapedQuotes_quote (d : Char) (rest : List Char) :
    unescapedQuotes ('"' :: d :: rest) = 1 + unescapedQuotes (d :: rest) := by
  simp [unescapedQuotes]

theorem unescapedQuotes_escapedRune (printTable : Char → Bool) (r : Char) (rest : List Char) :
    unescapedQuotes ((escapedRune printTable r).data ++ rest) = unescapedQuotes rest := by
  have hx := fun s => hexDigitAt_ne r.toNat s
  rcases escapedRune_cases printTable r with h | h | h | h | h | h | h | h | h | h | h | h
  · rw [h.2]; exact unescapedQuotes_escape _ _
  · rw [h.2.2.2]; exact unescapedQuotes_plain _ _ h.1 h.2.1
  · rw [h.2]; exact unescapedQuotes_escape _ _
  · rw [h.2]; exact unescapedQuotes_escape _ _
  · rw [h.2]; exact unescapedQuotes_escape _ _
  · rw [h.2]; exact unescapedQuotes_escape _ _
  · rw [h.2]; exact unescapedQuotes_escape _ _
  · rw [h.2]; exact unescapedQuotes_escape _ _
  · rw [h.2]; exact unescapedQuotes_escape _ _
  · rw [h.2]
    simp only [List.cons_append, List.nil_append, unescapedQuotes_escape]
    rw [unescapedQuotes_plain _ _ (hx 4).1 (hx 4).2, unescapedQuotes_plain _ _ (hx 0).1 (hx 0).2]
  · rw [h.2]
    simp only [List.cons_append, List.nil_append, unescapedQuotes_escape]
    rw [unescapedQuotes_plain _ _ (hx 12).1 (hx 12).2, unescapedQuotes_plain _ _ (hx 8).1 (hx 8).2,
      unescapedQuotes_plain _ _ (hx 4).1 (hx 4).2, unescapedQuotes_plain _ _ (hx 0).1 (hx 0).2]
  · rw [h]
    simp only [List.cons_append, List.nil_append, unescapedQuotes_escape]
    rw [unescapedQuotes_plain _ _ (hx 28).1 (hx 28).2, unescapedQuotes_plain _ _ (hx 24).1 (hx 24).2,
      unescapedQuotes_plain _ _ (hx 20).1 (hx 20).2, unescapedQuotes_plain _ _ (hx 16).1 (hx 16).2,
      unescapedQuotes_plain _ _ (hx 12).1 (hx 12).2, unescapedQuotes_plain _ _ (hx 8).1 (hx 8).2,
      unescapedQuotes_plain _ _ (hx 4).1 (hx 4).2, unescapedQuotes_plain _ _ (hx 0).1 (hx 0).2]

theorem unescapedQuotes_escapedRunes (printTable : Char → Bool) (l rest : List Char) :
    unescapedQuotes ((escapedRunes printTable l).data ++ rest) = unescapedQuotes rest := by
  induction l with
  | nil => simp [escapedRunes]
  | cons r rs ih =>
    rw [escapedRunes, String.data_append, List.append_assoc, unescapedQuotes_escapedRune, ih]

/-! ## Auxiliary lemmas: unquoting -/

theorem shiftLeft_four_or (v x : Nat) (hx : x < 16) : v <<< 4 ||| x = 16 * v + x := by
  have h := Nat.mul_add_lt_is_or (i := 4) (b := x) (by simpa using hx) v
  rw [Nat.shiftLeft_eq, Nat.mul_comm]
  exact h.symm

theorem nibble_eq (n s : Nat) : (n >>> s) &&& 0xF = n / 2 ^ s % 16 := by
  rw [Nat.shiftRight_eq_div_pow]
  exact Nat.and_pow_two_sub_one_eq_mod _ 4

theorem unhex_lowerhex (i : Nat) (h : i < 16) : unhex (lowerhex.getD i '0') = some i := by
  interval_cases i <;> rfl

theorem unhex_hexDigitAt (n s : Nat) : unhex (hexDigitAt n s) = some (n / 2 ^ s % 16) := by
  unfold hexDigitAt
  rw [nibble_eq]
  exact unhex_lowerhex _ (Nat.mod_lt _ (by decide))

theorem unhexLoop_hexDigitAt (v n s : Nat) (cs : List Char) :
    unhexLoop v (hexDigitAt n s :: cs) = unhexLoop (16 * v + n / 2 ^ s % 16) cs := by
  rw [unhexLoop, unhex_hexDigitAt]
  simp only
  rw [shiftLeft_four_or _ _ (Nat.mod_lt _ (by decide))]

theorem unhexLoop_two (n : Nat) (h : n < 256) :
    unhexLoop 0 [hexDigitAt n 4, hexDigitAt n 0] = some n := by
  rw [unhexLoop_hexDigitAt, unhexLoop_hexDigitAt, unhexLoop]
  congr 1
  omega

theorem unhexLoop_four (n : Nat) (h : n < 0x10000) :
    unhexLoop 0 [hexDigitAt n 12, hexDigitAt n 8, hexDigitAt n 4, hexDigitAt n 0] = some n := by
  rw [unhexLoop_hexDigitAt, unhexLoop_hexDigitAt, unhexLoop_hexDigitAt, unhexLoop_hexDigitAt, unhexLoop]
  congr 1
  omega

theorem unhexLoop_eight (n : Nat) (h : n < 0x100000000) :
    unhexLoop 0 [hexDigitAt n 28, hexDigitAt n 24, hexDigitAt n 20, hexDigitAt n 16,
      hexDigitAt n 12, hexDigitAt n 8, hexDigitAt n 4, hexDigitAt n 0] = some n := by
  rw [unhexLoop_hexDigitAt, unhexLoop_hexDigitAt, unhexLoop_hexDigitAt, unhexLoop_hexDigitAt, unhexLoop_hexDigitAt, unhexLoop_hexDigitAt, unhexLoop_hexDigitAt, unhexLoop_hexDigitAt, unhexLoop]
  congr 1
  omega

theorem utf8ValidRune_toNat (r : Char) : utf8ValidRune r.toNat = true := by
  have h := r.valid
  simp only [utf8ValidRune, Bool.or_eq_true, Bool.and_eq_true, decide_eq_true_eq]
  rcases h with h | h
  · left
    exact h
  · right
    have h1 := h.1
    have h2 := h.2
    simp only [Char.toNat] at *
    omega

theorem toNat_lt_two_pow_32 (r : Char) : r.toNat < 0x100000000 := by
  have h := r.valid
  rcases h with h | h
  · simp only [Char.toNat] at *
    omega
  · have h2 := h.2
    simp only [Char.toNat] at *
    omega

theorem unquoteLoop_step (fuel : Nat) (c r : Char) (t tail : List Char) (buf : String)
    (h1 : c ≠ '"') (h2 : c ≠ '\n') (h : UnquoteChar (c :: t) = some (r, tail)) :
    unquoteLoop (fuel + 1) (c :: t) buf = unquoteLoop fuel tail (buf.push r) := by
  rw [unquoteLoop]
  simp only [h1, h2, if_false, h]

theorem UnquoteChar_hex_two (n : Nat) (rest : List Char) (h : n < 128) :
    UnquoteChar ('\\' :: 'x' :: hexDigitAt n 4 :: hexDigitAt n 0 :: rest) =
      some (Char.ofNat n, rest) := by
  have hv := unhexLoop_two n (by omega)
  simp [UnquoteChar, hv, byteRune, h]

theorem UnquoteChar_hex_four (n : Nat) (rest : List Char) (h : n < 0x10000)
    (hv : utf8ValidRune n = true) :
    UnquoteChar ('\\' :: 'u' :: hexDigitAt n 12 :: hexDigitAt n 8 :: hexDigitAt n 4 ::
      hexDigitAt n 0 :: rest) = some (Char.ofNat n, rest) := by
  have hx := unhexLoop_four n h
  simp [UnquoteChar, hx, hv]

theorem UnquoteChar_hex_eight (n : Nat) (rest : List Char) (h : n < 0x100000000)
    (hv : utf8ValidRune n = true) :
    UnquoteChar ('\\' :: 'U' :: hexDigitAt n 28 :: hexDigitAt n 24 :: hexDigitAt n 20 ::
      hexDigitAt n 16 :: hexDigitAt n 12 :: hexDigitAt n 8 :: hexDigitAt n 4 ::
      hexDigitAt n 0 :: rest) = some (Char.ofNat n, rest) := by
  have hx := unhexLoop_eight n h
  simp [UnquoteChar, hx, hv]

theorem unquoteLoop_escapedRune (printTable : Char → Bool) (fuel : Nat) (r : Char)
    (rest : List Char) (buf : String) :
    unquoteLoop (fuel + 1) ((escapedRune printTable r).data ++ rest) buf =
      unquoteLoop fuel rest (buf.push r) := by
  have hb : ('\\' : Char) ≠ '"' ∧ ('\\' : Char) ≠ '\n' := by decide
  rcases escapedRune_cases printTable r with h | h | h | h | h | h | h | h | h | h | h | h
  · rw [h.2]
    refine unquoteLoop_step fuel _ r _ rest buf hb.1 hb.2 ?_
    rcases h.1 with e | e <;> subst e <;> simp [UnquoteChar]
  · rw [h.2.2.2]
    refine unquoteLoop_step fuel _ r _ rest buf h.1 h.2.2.1 ?_
    simp [UnquoteChar, h.1, h.2.1]
  · rw [h.2, h.1]
    exact unquoteLoop_step fuel _ _ _ rest buf hb.1 hb.2 (by simp [UnquoteChar])
  · rw [h.2, h.1]
    exact unquoteLoop_step fuel _ _ _ rest buf hb.1 hb.2 (by simp [UnquoteChar])
  · rw [h.2, h.1]
    exact unquoteLoop_step fuel _ _ _ rest buf hb.1 hb.2 (by simp [UnquoteChar])
  · rw [h.2, h.1]
    exact unquoteLoop_step fuel _ _ _ rest buf hb.1 hb.2 (by simp [UnquoteChar])
  · rw [h.2, h.1]
    exact unquoteLoop_step fuel _ _ _ rest buf hb.1 hb.2 (by simp [UnquoteChar])
  · rw [h.2, h.1]
    exact unquoteLoop_step fuel _ _ _ rest buf hb.1 hb.2 (by simp [UnquoteChar])
  · rw [h.2, h.1]
    exact unquoteLoop_step fuel _ _ _ rest buf hb.1 hb.2 (by simp [UnquoteChar])
  · rw [h.2]
    refine unquoteLoop_step fuel _ r _ rest buf hb.1 hb.2 ?_
    have := UnquoteChar_hex_two r.toNat rest h.1
    rwa [Char.ofNat_toNat] at this
  · rw [h.2]
    refine unquoteLoop_step fuel _ r _ rest buf hb.1 hb.2 ?_
    have := UnquoteChar_hex_four r.toNat rest h.1 (utf8ValidRune_toNat r)
    rwa [Char.ofNat_toNat] at this
  · rw [h]
    refine unquoteLoop_step fuel _ r _ rest buf hb.1 hb.2 ?_
    have := UnquoteChar_hex_eight r.toNat rest (toNat_lt_two_pow_32 r) (utf8ValidRune_toNat r)
    rwa [Char.ofNat_toNat] at this

theorem unquoteLoop_escapedRunes (printTable : Char → Bool) (l : List Char) (fuel : Nat)
    (buf : String) (hf : l.length < fuel) :
    unquoteLoop fuel ((escapedRunes printTable l).data ++ ['"']) buf =
      some (buf ++ String.mk l) := by
  induction l generalizing fuel buf with
  | nil =>
    obtain ⟨k, rfl⟩ : ∃ k, fuel = k + 1 := ⟨fuel - 1, by simp at hf; omega⟩
    simp [escapedRunes, unquoteLoop]
  | cons r rs ih =>
    obtain ⟨k, rfl⟩ : ∃ k, fuel = k + 1 := ⟨fuel - 1, by simp at hf; omega⟩
    rw [escapedRunes, String.data_append, List.append_assoc, unquoteLoop_escapedRune,
      ih k (buf.push r) (by simpa using hf)]
    congr 1
    apply String.ext
    simp

theorem length_le_escapedRunes (printTable : Char → Bool) (l : List Char) :
    l.length ≤ (escapedRunes printTable l).data.length := by
  induction l with
  | nil => simp
  | cons r rs ih =>
    have h1 : 1 ≤ (escapedRune printTable r).data.length := by
      rcases escapedRune_cases printTable r with h | h | h | h | h | h | h | h | h | h | h | h
      all_goals first
        | (rw [h.2]; simp)
        | (rw [h.2.2.2]; simp)
        | (rw [h]; simp)
    rw [escapedRunes, String.data_append, List.length_append, List.length_cons]
    omega

theorem strconvUnquote_strconvQuote (printTable : Char → Bool) (s : String) :
    strconvUnquote (strconvQuote printTable s) = some s := by
  rw [strconvQuote_eq]
  have hd : ("\"" ++ escapedRunes printTable s.data ++ "\"").data =
      '"' :: ((escapedRunes printTable s.data).data ++ ['"']) := by
    simp [String.data_append]
  unfold strconvUnquote
  rw [hd]
  simp only [if_true]
  rw [unquoteLoop_escapedRunes printTable s.data _ ""]
  · simp
  · have := length_le_escapedRunes printTable s.data
    simp only [List.length_append, List.length_singleton]
    omega

/-! ## Auxiliary lemmas: decimal numerals -/

theorem digitValue_digitChar (d : Nat) (h : d < 10) :
    digitValue (Nat.digitChar d) = some d ∧ (Nat.digitChar d).isDigit = true ∧
      (0 < d → Nat.digitChar d ≠ '0') ∧ Nat.digitChar d ≠ '-' := by
  interval_cases d <;> decide

theorem parseDigits_append (acc : Nat) (a b : List Char) :
    parseDigits acc (a ++ b) = (parseDigits acc a).bind fun v => parseDigits v b := by
  induction a generalizing acc with
  | nil => rfl
  | cons c cs ih =>
    simp only [List.cons_append, parseDigits]
    cases digitValue c with
    | none => rfl
    | some d => exact ih _

/-- The digits written by `Nat.toDigitsCore` with enough fuel. -/
theorem toDigitsCore_spec (f m : Nat) (ds : List Char) (h : m < f) :
    ∃ l : List Char, Nat.toDigitsCore 10 f m ds = l ++ ds ∧ l ≠ [] ∧
      (∀ c ∈ l, c.isDigit = true) ∧ (0 < m → l.head? ≠ some '0') ∧
      (m = 0 → l = ['0']) ∧ l.head? ≠ some '-' ∧
      (∀ acc, parseDigits acc l = some (acc * 10 ^ l.length + m)) := by
  induction f generalizing m ds with
  | zero => omega
  | succ f ih =>
    have hd := digitValue_digitChar (m % 10) (Nat.mod_lt _ (by decide))
    by_cases h0 : m / 10 = 0
    · have hm : m % 10 = m := by omega
      refine ⟨[Nat.digitChar (m % 10)], ?_, by simp, ?_, ?_, ?_, ?_, ?_⟩
      · simp [Nat.toDigitsCore, h0]
      · intro c hc
        simp only [List.mem_singleton] at hc
        rw [hc]
        exact hd.2.1
      · intro hpos
        simp only [List.head?_cons, ne_eq, Option.some.injEq]
        exact hd.2.2.1 (by omega)
      · intro hz
        subst hz
        rfl
      · simp only [List.head?_cons, ne_eq, Option.some.injEq]
        exact hd.2.2.2
      · intro acc
        simp only [parseDigits, hd.1, List.length_singleton, pow_one, Option.some.injEq]
        omega
    · obtain ⟨l, hl, hne, hdig, hhead, _, hminus, hparse⟩ :=
        ih (m / 10) (Nat.digitChar (m % 10) :: ds) (by omega)
      refine ⟨l ++ [Nat.digitChar (m % 10)], ?_, by simp, ?_, ?_, ?_, ?_, ?_⟩
      · simp [Nat.toDigitsCore, h0, hl]
      · intro c hc
        rcases List.mem_append.mp hc with hc | hc
        · exact hdig c hc
        · simp only [List.mem_singleton] at hc
          rw [hc]
          exact hd.2.1
      · intro _
        cases l with
        | nil => exact absurd rfl hne
        | cons a t => simpa using hhead (by omega)
      · intro hz
        omega
      · cases l with
        | nil => exact absurd rfl hne
        | cons a t => simpa using hminus
      · intro acc
        rw [parseDigits_append, hparse acc]
        simp only [Option.bind, parseDigits, hd.1, List.length_append, List.length_singleton,
          Option.some.injEq]
        have hm := Nat.div_add_mod m 10
        rw [pow_succ]
        nlinarith [hm]

theorem magnitude_eq (n : Int) (hmin : -9223372036854775808 ≤ n) (hmax : n < 9223372036854775808) :
    (if n < 0 then (18446744073709551616 - (n % 18446744073709551616).toNat) %
        18446744073709551616
      else (n % 18446744073709551616).toNat) = n.natAbs := by
  split <;> omega

/-! ## Auxiliary lemmas: what a write leaves alone -/

theorem mkDirAllLoop_preserves (perm : Nat) (components : List String) (currentPath : String)
    (m : MemFS) (k : String) (v : memNode) (h : mapLookup k m.nodes = some v) :
    mapLookup k (MemFS.mkDirAllLoop perm components currentPath m).1.nodes = some v := by
  induction components generalizing currentPath m with
  | nil => simpa [MemFS.mkDirAllLoop] using h
  | cons c rest ih =>
    rw [MemFS.mkDirAllLoop]
    by_cases hc : c = ""
    · simp only [hc, if_true]
      exact ih currentPath m h
    · simp only [hc, if_false]
      generalize (if currentPath = "." then c else pathJoin [currentPath, c]) = cp
      cases hl : mapLookup cp m.nodes with
      | some node =>
        simp only
        split
        · exact h
        · exact ih _ m h
      | none =>
        simp only
        apply ih
        rw [mapLookup_mapAssign]
        split
        · rename_i hk
          rw [hk, hl] at h
          exact absurd h (by simp)
        · exact h

theorem MkDirAll_preserves (m : MemFS) (name : String) (perm : Nat) (k : String) (v : memNode)
    (h : mapLookup k m.nodes = some v) :
    mapLookup k (m.MkDirAll name perm).1.nodes = some v := by
  unfold MemFS.MkDirAll
  simp only
  split
  · exact h
  · split
    · split <;> exact h
    · exact mkDirAllLoop_preserves _ _ _ _ _ _ h

/-- A path stored before a call of `WriteFile`, other than the path written, keeps its
node, whether the call succeeds or not. -/
theorem WriteFile_preserves (m : MemFS) (p data : String) (perm : Nat) (k : String)
    (v : memNode) (h : mapLookup k m.nodes = some v) (hk : k ≠ pathClean p) :
    mapLookup k (m.WriteFile p data perm).1.nodes = some v := by
  unfold MemFS.WriteFile
  simp only
  split
  · exact h
  · have hmade : ∀ made : MemFS × Option Error, mapLookup k made.1.nodes = some v →
        mapLookup k
          (match made.2 with
            | some err => (made.1, some err)
            | none =>
              (⟨mapAssign (pathClean p) { data := data, mode := perm, isDir := false }
                made.1.nodes⟩, none)).1.nodes = some v := by
      intro made hm
      split
      · exact hm
      · simp only [mapLookup_mapAssign, hk, if_false]
        exact hm
    apply hmade
    split
    · exact MkDirAll_preserves _ _ _ _ _ h
    · exact h

theorem WriteFile_not_directory (m : MemFS) (p data : String) (perm : Nat)
    (hw : (m.WriteFile p data perm).2 = none) (v : memNode)
    (h : mapLookup (pathClean p) m.nodes = some v) : v.isDir = false := by
  unfold MemFS.WriteFile at hw
  simp only [h] at hw
  by_cases hd : v.isDir = true
  · simp [hd] at hw
  · simpa using hd

/-! ## Auxiliary lemmas: directory listings -/

theorem openDirLoop_cons (dirPath nodePath : String) (node : memNode)
    (rest : List (String × memNode)) (entries : List dirEntry) (seen : List String) :
    openDirLoop dirPath ((nodePath, node) :: rest) entries seen =
      match entryNameOf dirPath nodePath with
      | none => openDirLoop dirPath rest entries seen
      | some x =>
        openDirLoop dirPath rest (addEntry x node entries seen).1 (addEntry x node entries seen).2 := by
  rw [openDirLoop]
  unfold entryNameOf
  split
  · rfl
  · split
    · split <;> rfl
    · split <;> rfl

theorem addEntry_spec (x : String) (node : memNode) (entries : List dirEntry)
    (seen : List String) (hseen : ∀ y, y ∈ seen ↔ y ∈ entries.map (fun e => e.name))
    (hnd : (entries.map (fun e => e.name)).Nodup) :
    (∀ y, y ∈ (addEntry x node entries seen).2 ↔
      y ∈ (addEntry x node entries seen).1.map (fun e => e.name)) ∧
    ((addEntry x node entries seen).1.map (fun e => e.name)).Nodup ∧
    (∀ y, y ∈ (addEntry x node entries seen).1.map (fun e => e.name) ↔
      y ∈ entries.map (fun e => e.name) ∨ y = x) := by
  unfold addEntry
  by_cases hx : x ∈ seen
  · simp only [hx, not_true_eq_false, if_false]
    refine ⟨hseen, hnd, fun y => ⟨Or.inl, fun h => ?_⟩⟩
    rcases h with h | h
    · exact h
    · rw [h]
      exact (hseen x).mp hx
  · simp only [hx, not_false_eq_true, if_true]
    have hx2 : x ∉ entries.map (fun e => e.name) := fun h => hx ((hseen x).mpr h)
    refine ⟨fun y => ?_, ?_, fun y => ?_⟩
    · simp only [List.mem_cons, List.map_append, List.map_cons, List.map_nil,
        List.mem_append, List.mem_singleton, hseen y]
      tauto
    · rw [List.map_append, List.nodup_append]
      refine ⟨hnd, by simp, ?_⟩
      intro a ha hb
      simp only [List.map_cons, List.map_nil, List.mem_singleton] at hb
      rw [hb] at ha
      exact hx2 ha
    · simp only [List.map_append, List.map_cons, List.map_nil, List.mem_append,
        List.mem_singleton]

theorem openDirLoop_spec (dirPath : String) (l : List (String × memNode))
    (entries : List dirEntry) (seen : List String)
    (hseen : ∀ y, y ∈ seen ↔ y ∈ entries.map (fun e => e.name))
    (hnd : (entries.map (fun e => e.name)).Nodup) :
    ((openDirLoop dirPath l entries seen).map (fun e => e.name)).Nodup ∧
    (∀ y, y ∈ (openDirLoop dirPath l entries seen).map (fun e => e.name) ↔
      y ∈ entries.map (fun e => e.name) ∨ ∃ pn ∈ l, entryNameOf dirPath pn.1 = some y) := by
  induction l generalizing entries seen with
  | nil => simp [openDirLoop, hnd]
  | cons pn rest ih =>
    obtain ⟨p, n⟩ := pn
    rw [openDirLoop_cons]
    cases hx : entryNameOf dirPath p with
    | none =>
      simp only
      obtain ⟨h1, h2⟩ := ih entries seen hseen hnd
      refine ⟨h1, fun y => ?_⟩
      rw [h2 y]
      simp [hx]
    | some x =>
      simp only
      obtain ⟨a1, a2, a3⟩ := addEntry_spec x n entries seen hseen hnd
      obtain ⟨h1, h2⟩ := ih _ _ a1 a2
      refine ⟨h1, fun y => ?_⟩
      rw [h2 y, a3 y]
      simp only [List.mem_cons, exists_eq_or_imp, hx, Option.some.injEq]
      constructor
      · rintro ((h | h) | h)
        · exact Or.inl h
        · exact Or.inr (Or.inl h.symm)
        · exact Or.inr (Or.inr h)
      · rintro (h | h | h)
        · exact Or.inl (Or.inl h)
        · exact Or.inl (Or.inr h.symm)
        · exact Or.inr h

theorem sortEntries_spec (entries : List dirEntry)
    (hnd : (entries.map (fun e => e.name)).Nodup) :
    List.Sorted (fun a b : String => a < b) ((sortEntries entries).map (fun e => e.name)) ∧
    ((sortEntries entries).map (fun e => e.name)).Nodup ∧
    (∀ y, y ∈ (sortEntries entries).map (fun e => e.name) ↔
      y ∈ entries.map (fun e => e.name)) := by
  haveI : IsTotal dirEntry (fun a b => a.name ≤ b.name) := ⟨fun a b => le_total a.name b.name⟩
  haveI : IsTrans dirEntry (fun a b => a.name ≤ b.name) :=
    ⟨fun a b c h1 h2 => le_trans h1 h2⟩
  have hs : List.Sorted (fun a b : dirEntry => a.name ≤ b.name) (sortEntries entries) :=
    List.sorted_insertionSort _ entries
  have hp : (sortEntries entries).Perm entries := List.perm_insertionSort _ entries
  have hpm := hp.map (fun e => e.name)
  have hnd2 : ((sortEntries entries).map (fun e => e.name)).Nodup := hpm.nodup_iff.mpr hnd
  have hle : List.Sorted (fun a b : String => a ≤ b)
      ((sortEntries entries).map (fun e => e.name)) := by
    unfold List.Sorted at hs ⊢
    rw [List.pairwise_map]
    exact hs
  exact ⟨hle.lt_of_le hnd2, hnd2, fun y => hpm.mem_iff⟩

theorem mapLookup_eq_some_iff {β : Type} (k : String) (v : β) (l : List (String × β))
    (hnd : (l.map Prod.fst).Nodup) : mapLookup k l = some v ↔ (k, v) ∈ l := by
  induction l with
  | nil => simp [mapLookup]
  | cons e rest ih =>
    obtain ⟨k2, v2⟩ := e
    simp only [List.map_cons, List.nodup_cons] at hnd
    by_cases h : k2 = k
    · subst h
      simp only [mapLookup, if_true, Option.some.injEq, List.mem_cons, Prod.mk.injEq, true_and]
      constructor
      · intro e
        exact Or.inl e.symm
      · rintro (e | e)
        · exact e.symm
        · exact absurd (List.mem_map_of_mem Prod.fst e) hnd.1
    · simp only [mapLookup, h, if_false, List.mem_cons, Prod.mk.injEq]
      rw [ih hnd.2]
      constructor
      · exact Or.inr
      · rintro (⟨e, _⟩ | e)
        · exact absurd e.symm h
        · exact e

theorem mapLookup_perm {β : Type} (k : String) (l l2 : List (String × β))
    (hp : l2.Perm l) (hnd : (l.map Prod.fst).Nodup) : mapLookup k l2 = mapLookup k l := by
  have hnd2 : (l2.map Prod.fst).Nodup := (hp.map Prod.fst).nodup_iff.mpr hnd
  cases h : mapLookup k l with
  | some v =>
    rw [mapLookup_eq_some_iff k v l2 hnd2]
    exact hp.mem_iff.mpr ((mapLookup_eq_some_iff k v l hnd).mp h)
  | none =>
    cases h2 : mapLookup k l2 with
    | none => rfl
    | some v =>
      have := hp.mem_iff.mp ((mapLookup_eq_some_iff k v l2 hnd2).mp h2)
      rw [(mapLookup_eq_some_iff k v l hnd).mpr this] at h
      exact absurd h (by simp)

/-- The names listed by `openDir`: sorted, distinct, and those of the listed nodes. -/
theorem openDir_spec (m : MemFS) (dirPath : String) (node : memNode)
    (hnode : mapLookup dirPath m.nodes = some node) (hdir : node.isDir = true) :
    ∃ f, m.openDir dirPath = .ok f ∧ f.isDir = true ∧
      List.Sorted (fun a b : String => a < b) (f.entries.map (fun e => e.name)) ∧
      (∀ y, y ∈ f.entries.map (fun e => e.name) ↔
        ∃ pn ∈ m.nodes, entryNameOf dirPath pn.1 = some y) := by
  obtain ⟨h1, h2⟩ := openDirLoop_spec dirPath m.nodes [] [] (by simp) (by simp)
  obtain ⟨s1, _, s3⟩ := sortEntries_spec _ h1
  refine ⟨_, by simp only [MemFS.openDir, hnode, hdir]; rfl, rfl, s1, fun y => ?_⟩
  simp only [s3 y, h2 y]
  simp

/-! ## Auxiliary lemmas: rendering a project -/

theorem WriteFile_directory_error (m : MemFS) (p data : String) (perm : Nat) (v : memNode)
    (h : mapLookup (pathClean p) m.nodes = some v) (hd : v.isDir = true) :
    m.WriteFile p data perm = (m, some (fsPathError "write" (pathClean p) fsErrInvalid)) := by
  simp [MemFS.WriteFile, h, hd]

theorem WriteFile_file_stays (m : MemFS) (p data : String) (perm : Nat) (k : String)
    (v : memNode) (h : mapLookup k m.nodes = some v) (hf : v.isDir = false)
    (hw : (m.WriteFile p data perm).2 = none) :
    ∃ v2, mapLookup k (m.WriteFile p data perm).1.nodes = some v2 ∧ v2.isDir = false := by
  by_cases hk : k = pathClean p
  · subst hk
    exact ⟨_, WriteFile_ok_lookup m p data perm hw, rfl⟩
  · exact ⟨v, WriteFile_preserves m p data perm k v h hk, hf⟩

theorem WriteFile_dir_stays (m : MemFS) (p data : String) (perm : Nat) (k : String)
    (v : memNode) (h : mapLookup k m.nodes = some v) (hd : v.isDir = true)
    (hw : (m.WriteFile p data perm).2 = none) :
    mapLookup k (m.WriteFile p data perm).1.nodes = some v := by
  apply WriteFile_preserves m p data perm k v h
  intro e
  subst e
  have := WriteFile_not_directory m p data perm hw v h
  rw [hd] at this
  exact absurd this (by decide)

theorem MkDirAll_a (m : MemFS) (perm : Nat) :
    (∀ v, mapLookup "a" m.nodes = some v → v.isDir = false → (m.MkDirAll "a" perm).2 ≠ none) ∧
    ((m.MkDirAll "a" perm).2 = none →
      ∃ v, mapLookup "a" (m.MkDirAll "a" perm).1.nodes = some v ∧ v.isDir = true) := by
  have hc : pathClean "a" = "a" := by decide
  have hs : splitSlash "a".data = ["a"] := by decide
  unfold MemFS.MkDirAll
  simp only [hc, show ¬ ("a" = ".") by decide, if_false]
  cases h : mapLookup "a" m.nodes with
  | some v =>
    cases hd : v.isDir with
    | true =>
      simp only [hd, if_true]
      refine ⟨fun v2 hv2 hf => ?_, fun _ => ⟨v, h, hd⟩⟩
      rw [Option.some.injEq] at hv2
      rw [← hv2, hd] at hf
      exact absurd hf (by decide)
    | false =>
      simp only [hd, Bool.false_eq_true, if_false]
      exact ⟨fun _ _ _ e => Option.noConfusion e, fun e => Option.noConfusion e⟩
  | none =>
    rw [hs]
    simp only [MemFS.mkDirAllLoop, show ¬ ("a" = "") by decide, if_false, if_true, h]
    refine ⟨fun v2 hv2 => Option.noConfusion hv2,
      fun _ => ⟨{ mode := perm ||| fsModeDir, isDir := true }, ?_, rfl⟩⟩
    simp [mapLookup_mapAssign]

theorem WriteFile_ab_file (m : MemFS) (data : String) (perm : Nat) (v : memNode)
    (ha : mapLookup "a" m.nodes = some v) (hf : v.isDir = false) :
    (m.WriteFile "a/b" data perm).2 ≠ none := by
  have hc : pathClean "a/b" = "a/b" := by decide
  have hdir : pathDir "a/b" = "a" := by decide
  have k1 := (MkDirAll_a m 0o755).1 v ha hf
  intro hw
  unfold MemFS.WriteFile at hw
  simp only [hc, hdir, ha, hf, show ("a" : String) ≠ "." by decide, ne_eq, not_false_eq_true,
    true_and, Bool.not_false, if_true] at hw
  split at hw
  · exact Option.noConfusion hw
  · cases hm : (m.MkDirAll "a" 0o755).2 with
    | none => exact k1 hm
    | some err =>
      simp only [hm] at hw
      exact Option.noConfusion hw

theorem WriteFile_ab_dir (m : MemFS) (data : String) (perm : Nat)
    (hw : (m.WriteFile "a/b" data perm).2 = none) :
    ∃ v, mapLookup "a" (m.WriteFile "a/b" data perm).1.nodes = some v ∧ v.isDir = true := by
  have hc : pathClean "a/b" = "a/b" := by decide
  have hdir : pathDir "a/b" = "a" := by decide
  have hne : ("a" : String) ≠ "a/b" := by decide
  have k2 := (MkDirAll_a m 0o755).2
  unfold MemFS.WriteFile at hw ⊢
  simp only [hc, hdir, show ("a" : String) ≠ "." by decide, ne_eq, not_false_eq_true,
    true_and] at hw ⊢
  split at hw
  · exact Option.noConfusion hw
  · rename_i hg
    rw [if_neg hg]
    split at hw
    · exact Option.noConfusion hw
    · rename_i hmade
      simp only [hmade, mapLookup_mapAssign, hne, if_false]
      split at hmade
      · rename_i hcond
        rw [if_pos hcond]
        exact k2 hmade
      · rename_i hcond
        rw [if_neg hcond]
        cases ha : mapLookup "a" m.nodes with
        | none => simp [ha] at hcond
        | some v =>
          cases hvd : v.isDir with
          | true => exact ⟨v, rfl, hvd⟩
          | false => simp [ha, hvd] at hcond

theorem renderLoop_append (printTable : Char → Bool) (pre rest : List (String × pkl.Module))
    (fsys fsys2 : MemFS) (h : pkl.renderLoop printTable pre fsys = .ok fsys2) :
    pkl.renderLoop printTable (pre ++ rest) fsys = pkl.renderLoop printTable rest fsys2 := by
  induction pre generalizing fsys with
  | nil =>
    simp only [pkl.renderLoop, Except.ok.injEq] at h
    rw [List.nil_append, h]
  | cons e pre ih =>
    obtain ⟨k, m⟩ := e
    rw [List.cons_append, pkl.renderLoop]
    rw [pkl.renderLoop] at h
    cases hm : m.Marshal printTable with
    | error err => simp [hm] at h
    | ok data =>
      simp only [hm] at h ⊢
      cases hw : (fsys.WriteFile m.Path data 0o666).2 with
      | some err => simp [hw] at h
      | none =>
        simp only [hw] at h ⊢
        exact ih _ h

/-- One turn of the loop of `Render` that succeeds. -/
theorem renderLoop_cons_ok (printTable : Char → Bool) (k : String) (m : pkl.Module)
    (rest : List (String × pkl.Module)) (fsys : MemFS)
    (h : ∀ e, pkl.renderLoop printTable ((k, m) :: rest) fsys ≠ .error e) :
    ∃ data, m.Marshal printTable = .ok data ∧ (fsys.WriteFile m.Path data 0o666).2 = none ∧
      pkl.renderLoop printTable ((k, m) :: rest) fsys =
        pkl.renderLoop printTable rest (fsys.WriteFile m.Path data 0o666).1 := by
  rw [pkl.renderLoop] at h ⊢
  cases hm : m.Marshal printTable with
  | error err =>
    have := h (marshalError m.Path err)
    simp only [hm] at this
    exact absurd rfl this
  | ok data =>
    cases hw : (fsys.WriteFile m.Path data 0o666).2 with
    | some err =>
      have := h (writeError m.Path err)
      simp only [hm, hw] at this
      exact absurd rfl this
    | none => exact ⟨data, rfl, hw, by simp only [hw]⟩

theorem renderLoop_file_a (printTable : Char → Bool) (l : List (String × pkl.Module))
    (fsys : MemFS) (v : memNode) (ha : mapLookup "a" fsys.nodes = some v)
    (hf : v.isDir = false) (hl : ∃ y ∈ l, y.2.Path = "a/b") :
    ∃ e, pkl.renderLoop printTable l fsys = .error e := by
  induction l generalizing fsys v with
  | nil =>
    obtain ⟨y, hy, _⟩ := hl
    exact absurd hy (by simp)
  | cons x rest ih =>
    obtain ⟨k, m⟩ := x
    by_contra hne
    have hno : ∀ e, pkl.renderLoop printTable ((k, m) :: rest) fsys ≠ .error e :=
      fun e he => hne ⟨e, he⟩
    obtain ⟨data, _, hw, hstep⟩ := renderLoop_cons_ok printTable k m rest fsys hno
    obtain ⟨v2, hv2, hf2⟩ := WriteFile_file_stays fsys m.Path data 0o666 "a" v ha hf hw
    have hrest : ∃ y ∈ rest, y.2.Path = "a/b" := by
      obtain ⟨y, hy, hp⟩ := hl
      rcases List.mem_cons.mp hy with e | e
      · subst e
        simp only at hp
        rw [hp] at hw
        exact absurd hw (WriteFile_ab_file fsys data 0o666 v ha hf)
      · exact ⟨y, e, hp⟩
    obtain ⟨e, he⟩ := ih _ v2 hv2 hf2 hrest
    exact hno e (by rw [hstep, he])

theorem renderLoop_dir_a (printTable : Char → Bool) (l : List (String × pkl.Module))
    (fsys : MemFS) (v : memNode) (ha : mapLookup "a" fsys.nodes = some v)
    (hd : v.isDir = true) (hl : ∃ y ∈ l, y.2.Path = "a") :
    ∃ e, pkl.renderLoop printTable l fsys = .error e := by
  induction l generalizing fsys with
  | nil =>
    obtain ⟨y, hy, _⟩ := hl
    exact absurd hy (by simp)
  | cons x rest ih =>
    obtain ⟨k, m⟩ := x
    by_contra hne
    have hno : ∀ e, pkl.renderLoop printTable ((k, m) :: rest) fsys ≠ .error e :=
      fun e he => hne ⟨e, he⟩
    obtain ⟨data, _, hw, hstep⟩ := renderLoop_cons_ok printTable k m rest fsys hno
    have hv2 := WriteFile_dir_stays fsys m.Path data 0o666 "a" v ha hd hw
    have hrest : ∃ y ∈ rest, y.2.Path = "a" := by
      obtain ⟨y, hy, hp⟩ := hl
      rcases List.mem_cons.mp hy with e | e
      · subst e
        simp only at hp
        rw [hp, WriteFile_directory_error fsys "a" data 0o666 v (by simpa using ha) hd] at hw
        exact absurd hw (by simp)
      · exact ⟨y, e, hp⟩
    obtain ⟨e, he⟩ := ih _ hv2 hrest
    exact hno e (by rw [hstep, he])

/-- A project with modules at the paths `a` and `a/b` does not render, in any order. -/
theorem renderLoop_a_ab (printTable : Char → Bool) (l : List (String × pkl.Module))
    (fsys : MemFS) (h1 : ∃ x ∈ l, x.2.Path = "a") (h2 : ∃ y ∈ l, y.2.Path = "a/b") :
    ∃ e, pkl.renderLoop printTable l fsys = .error e := by
  induction l generalizing fsys with
  | nil =>
    obtain ⟨y, hy, _⟩ := h1
    exact absurd hy (by simp)
  | cons x rest ih =>
    obtain ⟨k, m⟩ := x
    by_contra hne
    have hno : ∀ e, pkl.renderLoop printTable ((k, m) :: rest) fsys ≠ .error e :=
      fun e he => hne ⟨e, he⟩
    obtain ⟨data, _, hw, hstep⟩ := renderLoop_cons_ok printTable k m rest fsys hno
    have hfin : ∃ e, pkl.renderLoop printTable rest (fsys.WriteFile m.Path data 0o666).1 =
        .error e := by
      by_cases hpa : m.Path = "a"
      · have hlk := WriteFile_ok_lookup fsys m.Path data 0o666 hw
        rw [hpa, show pathClean "a" = "a" by decide] at hlk
        refine renderLoop_file_a printTable rest _ _ (by rw [hpa]; exact hlk) rfl ?_
        obtain ⟨y, hy, hp⟩ := h2
        rcases List.mem_cons.mp hy with e | e
        · subst e
          simp only at hp
          rw [hp] at hpa
          exact absurd hpa (by decide)
        · exact ⟨y, e, hp⟩
      · have hra : ∃ x ∈ rest, x.2.Path = "a" := by
          obtain ⟨x, hx, hp⟩ := h1
          rcases List.mem_cons.mp hx with e | e
          · subst e
            exact absurd hp hpa
          · exact ⟨x, e, hp⟩
        by_cases hpb : m.Path = "a/b"
        · rw [hpb] at hw ⊢
          obtain ⟨v, hv, hvd⟩ := WriteFile_ab_dir fsys data 0o666 hw
          exact renderLoop_dir_a printTable rest _ v hv hvd hra
        · have hrb : ∃ y ∈ rest, y.2.Path = "a/b" := by
            obtain ⟨y, hy, hp⟩ := h2
            rcases List.mem_cons.mp hy with e | e
            · subst e
              exact absurd hp hpb
            · exact ⟨y, e, hp⟩
          exact ih _ hra hrb
    obtain ⟨e, he⟩ := hfin
    exact hno e (by rw [hstep, he])

/-! ## Auxiliary lemmas: renderings that never fail and read only the depth -/

theorem indentation_congr (ctx ctx2 : Ctx) (h : getIndentLevel ctx = getIndentLevel ctx2) :
    indentation ctx = indentation ctx2 := by
  simp only [indentation, h]

theorem newlineWithIndentation_congr (ctx ctx2 : Ctx)
    (h : getIndentLevel ctx = getIndentLevel ctx2) :
    newlineWithIndentation ctx = newlineWithIndentation ctx2 := by
  simp only [newlineWithIndentation, indentation_congr ctx ctx2 h]

theorem raiseIndentLevel_congr (ctx ctx2 : Ctx) (h : getIndentLevel ctx = getIndentLevel ctx2) :
    raiseIndentLevel ctx = raiseIndentLevel ctx2 := by
  simp only [raiseIndentLevel, h]

theorem joinNodes_total {N : Type} [Node N] (ctx : Ctx) (nodes : List N) (sep : String)
    (h : ∀ n ∈ nodes, ∃ r, Node.Marshal n ctx = .ok r) :
    ∃ r, joinNodes ctx nodes sep = .ok r := by
  obtain ⟨rs, hrs⟩ := forall₂_of_forall_exists (fun n => Node.Marshal n ctx) nodes h
  exact ⟨_, joinNodes_ok ctx sep nodes rs hrs⟩

theorem joinNodesLoop_congr {N : Type} [Node N] (ctx ctx2 : Ctx) (sep : String)
    (nodes : List N) (h : ∀ n ∈ nodes, Node.Marshal n ctx = Node.Marshal n ctx2)
    (i : Nat) (b : Buffer) :
    joinNodesLoop ctx sep i nodes b = joinNodesLoop ctx2 sep i nodes b := by
  induction nodes generalizing i b with
  | nil => rfl
  | cons n ns ih =>
    simp only [joinNodesLoop, h n (List.mem_cons_self n ns)]
    cases Node.Marshal n ctx2 with
    | error e => rfl
    | ok r => exact ih (fun x hx => h x (List.mem_cons_of_mem n hx)) _ _

theorem joinNodes_congr {N : Type} [Node N] (ctx ctx2 : Ctx) (nodes : List N) (sep : String)
    (h : ∀ n ∈ nodes, Node.Marshal n ctx = Node.Marshal n ctx2) :
    joinNodes ctx nodes sep = joinNodes ctx2 nodes sep := by
  simp only [joinNodes, joinNodesLoop_congr ctx ctx2 sep nodes h]

/-- Joining regular nodes with a separator is regular. -/
theorem joinNodes_regular {N : Type} [Node N] (nodes : List N) (sep : String)
    (h : ∀ n ∈ nodes, Regular (Node.Marshal n)) :
    Regular (fun ctx => joinNodes ctx nodes sep) :=
  ⟨fun ctx => joinNodes_total ctx nodes sep (fun n hn => (h n hn).1 ctx),
    fun ctx ctx2 hc => joinNodes_congr ctx ctx2 nodes sep (fun n hn => (h n hn).2 ctx ctx2 hc)⟩

theorem Docs_regular (c : Docs) : Regular c.Marshal := by
  refine ⟨fun ctx => Docs_Marshal_total c ctx, fun ctx ctx2 hc => ?_⟩
  simp only [Docs_Marshal_eq, newlineWithIndentation_congr ctx ctx2 hc]

theorem BlockComment_regular (c : BlockComment) : Regular c.Marshal := by
  refine ⟨fun ctx => ⟨_, BlockComment_Marshal_eq c ctx⟩, fun ctx ctx2 hc => ?_⟩
  simp only [BlockComment_Marshal_eq, newlineWithIndentation_congr ctx ctx2 hc]

theorem LineComment_regular (c : LineComment) : Regular c.Marshal := by
  refine ⟨fun ctx => ⟨_, rfl⟩, fun ctx ctx2 hc => ?_⟩
  simp only [LineComment.Marshal, indentation_congr ctx ctx2 hc]

theorem ShebangComment_regular (c : ShebangComment) : Regular c.Marshal :=
  ⟨fun _ => ⟨_, rfl⟩, fun _ _ _ => rfl⟩

theorem Modifiers_regular (m : Modifiers) : Regular (Modifiers.Marshal m) := by
  refine ⟨fun ctx => ⟨_, Modifiers_Marshal_total m ctx⟩, fun ctx ctx2 _ => ?_⟩
  simp only [Modifiers_Marshal_total]

theorem TypeParameter_regular (t : TypeParameter) : Regular t.Marshal :=
  ⟨fun ctx => TypeParameter_Marshal_total t ctx, fun _ _ _ => rfl⟩

theorem TypeParameters_regular (t : TypeParameters) : Regular (TypeParameters.Marshal t) := by
  refine ⟨fun ctx => TypeParameters_Marshal_total t ctx, fun ctx ctx2 hc => ?_⟩
  simp only [TypeParameters.Marshal,
    joinNodes_congr ctx ctx2 t ", " (fun n _ => (TypeParameter_regular n).2 ctx ctx2 hc)]

theorem ImportClause_regular (printTable : Char → Bool) (i : ImportClause) :
    Regular (ImportClause.Marshal printTable i) :=
  ⟨fun _ => ⟨_, rfl⟩, fun _ _ _ => rfl⟩

theorem ImportClauses_regular (printTable : Char → Bool) (i : ImportClauses) :
    Regular (ImportClauses.Marshal printTable i) :=
  @joinNodes_regular ImportClause ⟨ImportClause.Marshal printTable⟩ i "\n"
    (fun n _ => ImportClause_regular printTable n)

theorem ObjectMembers_regular (m : ObjectMembers) (h : ∀ n ∈ m, Regular n.Marshal) :
    Regular (ObjectMembers.Marshal m) := by
  refine ⟨fun ctx => ?_, fun ctx ctx2 hc => ?_⟩
  · obtain ⟨r, hr⟩ := joinNodes_total (raiseIndentLevel ctx) m
      (newlineWithIndentation (raiseIndentLevel ctx)) (fun n hn => (h n hn).1 _)
    simp only [ObjectMembers.Marshal, hr, ok_bind, pure, Except.pure]
    exact ⟨_, rfl⟩
  · simp only [ObjectMembers.Marshal, raiseIndentLevel_congr ctx ctx2 hc]

theorem arguments_total (o : Option Expressions)
    (h : ∀ a, o = some a → ∀ n ∈ a, Regular n.Marshal) (a : Expressions) (ha : o = some a)
    (ctx : Ctx) : ∃ r, joinNodes ctx a ", " = .ok r :=
  joinNodes_total ctx a ", " (fun n hn => (h a ha n hn).1 ctx)

theorem arguments_congr (o : Option Expressions)
    (h : ∀ a, o = some a → ∀ n ∈ a, Regular n.Marshal) (a : Expressions) (ha : o = some a)
    (ctx ctx2 : Ctx) (hc : getIndentLevel ctx = getIndentLevel ctx2) :
    joinNodes ctx a ", " = joinNodes ctx2 a ", " :=
  joinNodes_congr ctx ctx2 a ", " (fun n hn => (h a ha n hn).2 ctx ctx2 hc)

theorem Parameter_regular (p : Parameter) (hTyp : ∀ x, p.Typ = some x → Regular x.Marshal) :
    Regular p.Marshal := by
  refine ⟨fun ctx => ?_, fun ctx ctx2 hc => ?_⟩
  · simp only [Parameter.Marshal, Identifier.Marshal, QualifiedIdentifier.Marshal,
      Expressions.Marshal, ModuleMembers.Marshal, Modifiers_Marshal_total, ok_bind, pure,
      Except.pure]
    rcases o1 : p.Typ with _ | t1
    all_goals try have p1 := (hTyp t1 o1).1 ctx
    all_goals try cases p1
    all_goals try simp only [*, ok_bind]
    all_goals exact ⟨_, rfl⟩
  · simp only [Parameter.Marshal, Identifier.Marshal, QualifiedIdentifier.Marshal,
      Expressions.Marshal, ModuleMembers.Marshal, Modifiers_Marshal_total,
      newlineWithIndentation_congr ctx ctx2 hc]
    rcases o1 : p.Typ with _ | t1
    all_goals try have p1 := (hTyp t1 o1).2 ctx ctx2 hc
    all_goals simp only [*]

theorem ObjectBody_regular (o : ObjectBody)
    (hParameters : ∀ n ∈ o.Parameters, Regular n.Marshal)
    (hMembers : ∀ n ∈ o.Members, Regular n.Marshal) : Regular o.Marshal := by
  refine ⟨fun ctx => ?_, fun ctx ctx2 hc => ?_⟩
  · obtain ⟨r1, e1⟩ := joinNodes_total ctx o.Parameters ", "
      (fun n hn => (hParameters n hn).1 ctx)
    obtain ⟨r2, e2⟩ := (ObjectMembers_regular o.Members hMembers).1 ctx
    simp only [ObjectBody.Marshal, Identifier.Marshal, QualifiedIdentifier.Marshal,
      Expressions.Marshal, ModuleMembers.Marshal, Modifiers_Marshal_total, e1, e2, ok_bind, pure,
      Except.pure]
    exact ⟨_, rfl⟩
  · have e1 := joinNodes_congr ctx ctx2 o.Parameters ", "
      (fun n hn => (hParameters n hn).2 ctx ctx2 hc)
    have e2 := (ObjectMembers_regular o.Members hMembers).2 ctx ctx2 hc
    simp only [ObjectBody.Marshal, Identifier.Marshal, QualifiedIdentifier.Marshal,
      Expressions.Marshal, ModuleMembers.Marshal, Modifiers_Marshal_total, e1, e2,
      newlineWithIndentation_congr ctx ctx2 hc]

theorem ObjectProperty_regular (p : ObjectProperty) (hBody : ∀ n ∈ p.Body, Regular n.Marshal)
    (hTyp : ∀ x, p.Typ = some x → Regular x.Marshal)
    (hValue : ∀ x, p.Value = some x → Regular x.Marshal) : Regular p.Marshal := by
  refine ⟨fun ctx => ?_, fun ctx ctx2 hc => ?_⟩
  · obtain ⟨r1, e1⟩ := joinNodes_total ctx p.Body " "
      (fun n hn => (hBody n hn).1 ctx)
    simp only [ObjectProperty.Marshal, Identifier.Marshal, QualifiedIdentifier.Marshal,
      Expressions.Marshal, ModuleMembers.Marshal, Modifiers_Marshal_total, e1, ok_bind, pure,
      Except.pure]
    rcases o1 : p.Typ with _ | t1 <;> rcases o2 : p.Value with _ | t2
    all_goals try have p1 := (hTyp t1 o1).1 ctx
    all_goals try have p2 := (hValue t2 o2).1 ctx
    all_goals try cases p1
    all_goals try cases p2
    all_goals try simp only [*, ok_bind]
    all_goals exact ⟨_, rfl⟩
  · have e1 := joinNodes_congr ctx ctx2 p.Body " "
      (fun n hn => (hBody n hn).2 ctx ctx2 hc)
    simp only [ObjectProperty.Marshal, Identifier.Marshal, QualifiedIdentifier.Marshal,
      Expressions.Marshal, ModuleMembers.Marshal, Modifiers_Marshal_total, e1,
      newlineWithIndentation_congr ctx ctx2 hc]
    rcases o1 : p.Typ with _ | t1 <;> rcases o2 : p.Value with _ | t2
    all_goals try have p1 := (hTyp t1 o1).2 ctx ctx2 hc
    all_goals try have p2 := (hValue t2 o2).2 ctx ctx2 hc
    all_goals simp only [*]

theorem ForGenerator_regular (m : ForGenerator) (hValue : Regular m.Value.Marshal)
    (hCollection : Regular m.Collection.Marshal) (hBody : Regular m.Body.Marshal)
    (hKey : ∀ x, m.Key = some x → Regular x.Marshal) : Regular m.Marshal := by
  refine ⟨fun ctx => ?_, fun ctx ctx2 hc => ?_⟩
  · obtain ⟨r1, e1⟩ := hValue.1 ctx
    obtain ⟨r2, e2⟩ := hCollection.1 ctx
    obtain ⟨r3, e3⟩ := hBody.1 ctx
    simp only [ForGenerator.Marshal, Identifier.Marshal, QualifiedIdentifier.Marshal,
      Expressions.Marshal, ModuleMembers.Marshal, Modifiers_Marshal_total, e1, e2, e3, ok_bind,
      pure, Except.pure]
    rcases o1 : m.Key with _ | t1
    all_goals try have p1 := (hKey t1 o1).1 ctx
    all_goals try cases p1
    all_goals try simp only [*, ok_bind]
    all_goals exact ⟨_, rfl⟩
  · have e1 := hValue.2 ctx ctx2 hc
    have e2 := hCollection.2 ctx ctx2 hc
    have e3 := hBody.2 ctx ctx2 hc
    simp only [ForGenerator.Marshal, Identifier.Marshal, QualifiedIdentifier.Marshal,
      Expressions.Marshal, ModuleMembers.Marshal, Modifiers_Marshal_total, e1, e2, e3,
      newlineWithIndentation_congr ctx ctx2 hc]
    rcases o1 : m.Key with _ | t1
    all_goals try have p1 := (hKey t1 o1).2 ctx ctx2 hc
    all_goals simp only [*]

theorem WhenGenerator_regular (m : WhenGenerator) (hCondition : Regular m.Condition.Marshal)
    (hThen : Regular m.Then.Marshal) (hElse : ∀ x, m.Else = some x → Regular x.Marshal) :
    Regular m.Marshal := by
  refine ⟨fun ctx => ?_, fun ctx ctx2 hc => ?_⟩
  · obtain ⟨r1, e1⟩ := hCondition.1 ctx
    obtain ⟨r2, e2⟩ := hThen.1 ctx
    simp only [WhenGenerator.Marshal, Identifier.Marshal, QualifiedIdentifier.Marshal,
      Expressions.Marshal, ModuleMembers.Marshal, Modifiers_Marshal_total, e1, e2, ok_bind, pure,
      Except.pure]
    rcases o1 : m.Else with _ | t1
    all_goals try have p1 := (hElse t1 o1).1 ctx
    all_goals try cases p1
    all_goals try simp only [*, ok_bind]
    all_goals exact ⟨_, rfl⟩
  · have e1 := hCondition.2 ctx ctx2 hc
    have e2 := hThen.2 ctx ctx2 hc
    simp only [WhenGenerator.Marshal, Identifier.Marshal, QualifiedIdentifier.Marshal,
      Expressions.Marshal, ModuleMembers.Marshal, Modifiers_Marshal_total, e1, e2,
      newlineWithIndentation_congr ctx ctx2 hc]
    rcases o1 : m.Else with _ | t1
    all_goals try have p1 := (hElse t1 o1).2 ctx ctx2 hc
    all_goals simp only [*]

theorem ObjectMethod_regular (m : ObjectMethod) (hSignature : Regular m.Signature.Marshal)
    (hValue : Regular m.Value.Marshal) : Regular m.Marshal := by
  refine ⟨fun ctx => ?_, fun ctx ctx2 hc => ?_⟩
  · obtain ⟨r1, e1⟩ := hSignature.1 ctx
    obtain ⟨r2, e2⟩ := hValue.1 ctx
    simp only [ObjectMethod.Marshal, Identifier.Marshal, QualifiedIdentifier.Marshal,
      Expressions.Marshal, ModuleMembers.Marshal, Modifiers_Marshal_total, e1, e2, ok_bind, pure,
      Except.pure]
    exact ⟨_, rfl⟩
  · have e1 := hSignature.2 ctx ctx2 hc
    have e2 := hValue.2 ctx ctx2 hc
    simp only [ObjectMethod.Marshal, Identifier.Marshal, QualifiedIdentifier.Marshal,
      Expressions.Marshal, ModuleMembers.Marshal, Modifiers_Marshal_total, e1, e2,
      newlineWithIndentation_congr ctx ctx2 hc]

theorem ObjectEntry_regular (m : ObjectEntry) (hKey : Regular m.Key.Marshal)
    (hBody : ∀ n ∈ m.Body, Regular n.Marshal)
    (hValue : ∀ x, m.Value = some x → Regular x.Marshal) : Regular m.Marshal := by
  refine ⟨fun ctx => ?_, fun ctx ctx2 hc => ?_⟩
  · obtain ⟨r1, e1⟩ := hKey.1 ctx
    obtain ⟨r2, e2⟩ := joinNodes_total ctx m.Body " "
      (fun n hn => (hBody n hn).1 ctx)
    simp only [ObjectEntry.Marshal, Identifier.Marshal, QualifiedIdentifier.Marshal,
      Expressions.Marshal, ModuleMembers.Marshal, Modifiers_Marshal_total, e1, e2, ok_bind, pure,
      Except.pure]
    rcases o1 : m.Value with _ | t1
    all_goals try have p1 := (hValue t1 o1).1 ctx
    all_goals try cases p1
    all_goals try simp only [*, ok_bind]
    all_goals exact ⟨_, rfl⟩
  · have e1 := hKey.2 ctx ctx2 hc
    have e2 := joinNodes_congr ctx ctx2 m.Body " "
      (fun n hn => (hBody n hn).2 ctx ctx2 hc)
    simp only [ObjectEntry.Marshal, Identifier.Marshal, QualifiedIdentifier.Marshal,
      Expressions.Marshal, ModuleMembers.Marshal, Modifiers_Marshal_total, e1, e2,
      newlineWithIndentation_congr ctx ctx2 hc]
    rcases o1 : m.Value with _ | t1
    all_goals try have p1 := (hValue t1 o1).2 ctx ctx2 hc
    all_goals simp only [*]

theorem ObjectElement_regular (m : ObjectElement) (hValue : Regular m.Value.Marshal) :
    Regular m.Marshal := by
  refine ⟨fun ctx => ?_, fun ctx ctx2 hc => ?_⟩
  · obtain ⟨r1, e1⟩ := hValue.1 ctx
    simp only [ObjectElement.Marshal, Identifier.Marshal, QualifiedIdentifier.Marshal,
      Expressions.Marshal, ModuleMembers.Marshal, Modifiers_Marshal_total, e1, ok_bind, pure,
      Except.pure]
    exact ⟨_, rfl⟩
  · have e1 := hValue.2 ctx ctx2 hc
    simp only [ObjectElement.Marshal, Identifier.Marshal, QualifiedIdentifier.Marshal,
      Expressions.Marshal, ModuleMembers.Marshal, Modifiers_Marshal_total, e1,
      newlineWithIndentation_congr ctx ctx2 hc]

theorem ObjectSpread_regular (m : ObjectSpread) (hValue : Regular m.Value.Marshal) :
    Regular m.Marshal := by
  refine ⟨fun ctx => ?_, fun ctx ctx2 hc => ?_⟩
  · obtain ⟨r1, e1⟩ := hValue.1 ctx
    simp only [ObjectSpread.Marshal, Identifier.Marshal, QualifiedIdentifier.Marshal,
      Expressions.Marshal, ModuleMembers.Marshal, Modifiers_Marshal_total, e1, ok_bind, pure,
      Except.pure]
    exact ⟨_, rfl⟩
  · have e1 := hValue.2 ctx ctx2 hc
    simp only [ObjectSpread.Marshal, Identifier.Marshal, QualifiedIdentifier.Marshal,
      Expressions.Marshal, ModuleMembers.Marshal, Modifiers_Marshal_total, e1,
      newlineWithIndentation_congr ctx ctx2 hc]

theorem MemberPredicate_regular (m : MemberPredicate) (hCondition : Regular m.Condition.Marshal)
    (hBody : ∀ n ∈ m.Body, Regular n.Marshal)
    (hValue : ∀ x, m.Value = some x → Regular x.Marshal) : Regular m.Marshal := by
  refine ⟨fun ctx => ?_, fun ctx ctx2 hc => ?_⟩
  · obtain ⟨r1, e1⟩ := hCondition.1 ctx
    obtain ⟨r2, e2⟩ := joinNodes_total ctx m.Body " "
      (fun n hn => (hBody n hn).1 ctx)
    simp only [MemberPredicate.Marshal, Identifier.Marshal, QualifiedIdentifier.Marshal,
      Expressions.Marshal, ModuleMembers.Marshal, Modifiers_Marshal_total, e1, e2, ok_bind, pure,
      Except.pure]
    rcases o1 : m.Value with _ | t1
    all_goals try have p1 := (hValue t1 o1).1 ctx
    all_goals try cases p1
    all_goals try simp only [*, ok_bind]
    all_goals exact ⟨_, rfl⟩
  · have e1 := hCondition.2 ctx ctx2 hc
    have e2 := joinNodes_congr ctx ctx2 m.Body " "
      (fun n hn => (hBody n hn).2 ctx ctx2 hc)
    simp only [MemberPredicate.Marshal, Identifier.Marshal, QualifiedIdentifier.Marshal,
      Expressions.Marshal, ModuleMembers.Marshal, Modifiers_Marshal_total, e1, e2,
      newlineWithIndentation_congr ctx ctx2 hc]
    rcases o1 : m.Value with _ | t1
    all_goals try have p1 := (hValue t1 o1).2 ctx ctx2 hc
    all_goals simp only [*]

theorem MethodSignature_regular (m : MethodSignature)
    (hParameters : ∀ n ∈ m.Parameters, Regular n.Marshal)
    (hResult : ∀ x, m.Result = some x → Regular x.Marshal) : Regular m.Marshal := by
  refine ⟨fun ctx => ?_, fun ctx ctx2 hc => ?_⟩
  · obtain ⟨r1, e1⟩ := (TypeParameters_regular m.TypeParameters).1 ctx
    obtain ⟨r2, e2⟩ := joinNodes_total ctx m.Parameters ", "
      (fun n hn => (hParameters n hn).1 ctx)
    simp only [MethodSignature.Marshal, Identifier.Marshal, QualifiedIdentifier.Marshal,
      Expressions.Marshal, ModuleMembers.Marshal, Modifiers_Marshal_total, e1, e2, ok_bind, pure,
      Except.pure]
    rcases o1 : m.Result with _ | t1
    all_goals try have p1 := (hResult t1 o1).1 ctx
    all_goals try cases p1
    all_goals try simp only [*, ok_bind]
    all_goals exact ⟨_, rfl⟩
  · have e1 := (TypeParameters_regular m.TypeParameters).2 ctx ctx2 hc
    have e2 := joinNodes_congr ctx ctx2 m.Parameters ", "
      (fun n hn => (hParameters n hn).2 ctx ctx2 hc)
    simp only [MethodSignature.Marshal, Identifier.Marshal, QualifiedIdentifier.Marshal,
      Expressions.Marshal, ModuleMembers.Marshal, Modifiers_Marshal_total, e1, e2,
      newlineWithIndentation_congr ctx ctx2 hc]
    rcases o1 : m.Result with _ | t1
    all_goals try have p1 := (hResult t1 o1).2 ctx ctx2 hc
    all_goals simp only [*]

theorem PrefixUnaryExpression_regular (e : PrefixUnaryExpression)
    (hOperand : Regular e.Operand.Marshal) : Regular e.Marshal := by
  refine ⟨fun ctx => ?_, fun ctx ctx2 hc => ?_⟩
  · obtain ⟨r1, e1⟩ := hOperand.1 ctx
    simp only [PrefixUnaryExpression.Marshal, Identifier.Marshal, QualifiedIdentifier.Marshal,
      Expressions.Marshal, ModuleMembers.Marshal, Modifiers_Marshal_total, e1, ok_bind, pure,
      Except.pure]
    exact ⟨_, rfl⟩
  · have e1 := hOperand.2 ctx ctx2 hc
    simp only [PrefixUnaryExpression.Marshal, Identifier.Marshal, QualifiedIdentifier.Marshal,
      Expressions.Marshal, ModuleMembers.Marshal, Modifiers_Marshal_total, e1,
      newlineWithIndentation_congr ctx ctx2 hc]

theorem PostfixUnaryExpression_regular (e : PostfixUnaryExpression)
    (hOperand : Regular e.Operand.Marshal) : Regular e.Marshal := by
  refine ⟨fun ctx => ?_, fun ctx ctx2 hc => ?_⟩
  · obtain ⟨r1, e1⟩ := hOperand.1 ctx
    simp only [PostfixUnaryExpression.Marshal, Identifier.Marshal, QualifiedIdentifier.Marshal,
      Expressions.Marshal, ModuleMembers.Marshal, Modifiers_Marshal_total, e1, ok_bind, pure,
      Except.pure]
    exact ⟨_, rfl⟩
  · have e1 := hOperand.2 ctx ctx2 hc
    simp only [PostfixUnaryExpression.Marshal, Identifier.Marshal, QualifiedIdentifier.Marshal,
      Expressions.Marshal, ModuleMembers.Marshal, Modifiers_Marshal_total, e1,
      newlineWithIndentation_congr ctx ctx2 hc]

theorem BinaryExpression_regular (e : BinaryExpression) (hLeft : Regular e.Left.Marshal)
    (hRight : Regular e.Right.Marshal) : Regular e.Marshal := by
  refine ⟨fun ctx => ?_, fun ctx ctx2 hc => ?_⟩
  · obtain ⟨r1, e1⟩ := hLeft.1 ctx
    obtain ⟨r2, e2⟩ := hRight.1 ctx
    simp only [BinaryExpression.Marshal, Identifier.Marshal, QualifiedIdentifier.Marshal,
      Expressions.Marshal, ModuleMembers.Marshal, Modifiers_Marshal_total, e1, e2, ok_bind, pure,
      Except.pure]
    exact ⟨_, rfl⟩
  · have e1 := hLeft.2 ctx ctx2 hc
    have e2 := hRight.2 ctx ctx2 hc
    simp only [BinaryExpression.Marshal, Identifier.Marshal, QualifiedIdentifier.Marshal,
      Expressions.Marshal, ModuleMembers.Marshal, Modifiers_Marshal_total, e1, e2,
      newlineWithIndentation_congr ctx ctx2 hc]

theorem TypeExpression_regular (e : TypeExpression) (hExpression : Regular e.Expression.Marshal)
    (hTyp : Regular e.Typ.Marshal) : Regular e.Marshal := by
  refine ⟨fun ctx => ?_, fun ctx ctx2 hc => ?_⟩
  · obtain ⟨r1, e1⟩ := hExpression.1 ctx
    obtain ⟨r2, e2⟩ := hTyp.1 ctx
    simp only [TypeExpression.Marshal, Identifier.Marshal, QualifiedIdentifier.Marshal,
      Expressions.Marshal, ModuleMembers.Marshal, Modifiers_Marshal_total, e1, e2, ok_bind, pure,
      Except.pure]
    exact ⟨_, rfl⟩
  · have e1 := hExpression.2 ctx ctx2 hc
    have e2 := hTyp.2 ctx ctx2 hc
    simp only [TypeExpression.Marshal, Identifier.Marshal, QualifiedIdentifier.Marshal,
      Expressions.Marshal, ModuleMembers.Marshal, Modifiers_Marshal_total, e1, e2,
      newlineWithIndentation_congr ctx ctx2 hc]

theorem MemberAccessExpression_regular (e : MemberAccessExpression)
    (hArguments : ∀ a, e.Arguments = some a → ∀ n ∈ a, Regular n.Marshal) :
    Regular e.Marshal := by
  refine ⟨fun ctx => ?_, fun ctx ctx2 hc => ?_⟩
  · simp only [MemberAccessExpression.Marshal, Identifier.Marshal, QualifiedIdentifier.Marshal,
      Expressions.Marshal, ModuleMembers.Marshal, Modifiers_Marshal_total, ok_bind, pure,
      Except.pure]
    rcases o1 : e.Arguments with _ | t1
    all_goals try have p1 := arguments_total e.Arguments hArguments t1 o1 ctx
    all_goals try cases p1
    all_goals try simp only [*, ok_bind]
    all_goals exact ⟨_, rfl⟩
  · simp only [MemberAccessExpression.Marshal, Identifier.Marshal, QualifiedIdentifier.Marshal,
      Expressions.Marshal, ModuleMembers.Marshal, Modifiers_Marshal_total,
      newlineWithIndentation_congr ctx ctx2 hc]
    rcases o1 : e.Arguments with _ | t1
    all_goals try have p1 := arguments_congr e.Arguments hArguments t1 o1 ctx ctx2 hc
    all_goals simp only [*]

theorem QualifiedMemberAccessExpression_regular (e : QualifiedMemberAccessExpression)
    (hReceiver : Regular e.Receiver.Marshal)
    (hArguments : ∀ a, e.Arguments = some a → ∀ n ∈ a, Regular n.Marshal) :
    Regular e.Marshal := by
  refine ⟨fun ctx => ?_, fun ctx ctx2 hc => ?_⟩
  · obtain ⟨r1, e1⟩ := hReceiver.1 ctx
    simp only [QualifiedMemberAccessExpression.Marshal, Identifier.Marshal,
      QualifiedIdentifier.Marshal, Expressions.Marshal, ModuleMembers.Marshal,
      Modifiers_Marshal_total, e1, ok_bind, pure, Except.pure]
    rcases o1 : e.Arguments with _ | t1
    all_goals try have p1 := arguments_total e.Arguments hArguments t1 o1 ctx
    all_goals try cases p1
    all_goals try simp only [*, ok_bind]
    all_goals exact ⟨_, rfl⟩
  · have e1 := hReceiver.2 ctx ctx2 hc
    simp only [QualifiedMemberAccessExpression.Marshal, Identifier.Marshal,
      QualifiedIdentifier.Marshal, Expressions.Marshal, ModuleMembers.Marshal,
      Modifiers_Marshal_total, e1, newlineWithIndentation_congr ctx ctx2 hc]
    rcases o1 : e.Arguments with _ | t1
    all_goals try have p1 := arguments_congr e.Arguments hArguments t1 o1 ctx ctx2 hc
    all_goals simp only [*]

theorem SuperAccessExpression_regular (e : SuperAccessExpression)
    (hArguments : ∀ a, e.Arguments = some a → ∀ n ∈ a, Regular n.Marshal) :
    Regular e.Marshal := by
  refine ⟨fun ctx => ?_, fun ctx ctx2 hc => ?_⟩
  · simp only [SuperAccessExpression.Marshal, Identifier.Marshal, QualifiedIdentifier.Marshal,
      Expressions.Marshal, ModuleMembers.Marshal, Modifiers_Marshal_total, ok_bind, pure,
      Except.pure]
    rcases o1 : e.Arguments with _ | t1
    all_goals try have p1 := arguments_total e.Arguments hArguments t1 o1 ctx
    all_goals try cases p1
    all_goals try simp only [*, ok_bind]
    all_goals exact ⟨_, rfl⟩
  · simp only [SuperAccessExpression.Marshal, Identifier.Marshal, QualifiedIdentifier.Marshal,
      Expressions.Marshal, ModuleMembers.Marshal, Modifiers_Marshal_total,
      newlineWithIndentation_congr ctx ctx2 hc]
    rcases o1 : e.Arguments with _ | t1
    all_goals try have p1 := arguments_congr e.Arguments hArguments t1 o1 ctx ctx2 hc
    all_goals simp only [*]

theorem SubscriptExpression_regular (e : SubscriptExpression)
    (hReceiver : Regular e.Receiver.Marshal) (hSubscript : Regular e.Subscript.Marshal) :
    Regular e.Marshal := by
  refine ⟨fun ctx => ?_, fun ctx ctx2 hc => ?_⟩
  · obtain ⟨r1, e1⟩ := hReceiver.1 ctx
    obtain ⟨r2, e2⟩ := hSubscript.1 ctx
    simp only [SubscriptExpression.Marshal, Identifier.Marshal, QualifiedIdentifier.Marshal,
      Expressions.Marshal, ModuleMembers.Marshal, Modifiers_Marshal_total, e1, e2, ok_bind, pure,
      Except.pure]
    exact ⟨_, rfl⟩
  · have e1 := hReceiver.2 ctx ctx2 hc
    have e2 := hSubscript.2 ctx ctx2 hc
    simp only [SubscriptExpression.Marshal, Identifier.Marshal, QualifiedIdentifier.Marshal,
      Expressions.Marshal, ModuleMembers.Marshal, Modifiers_Marshal_total, e1, e2,
      newlineWithIndentation_congr ctx ctx2 hc]

theorem SuperSubscriptExpression_regular (e : SuperSubscriptExpression)
    (hSubscript : Regular e.Subscript.Marshal) : Regular e.Marshal := by
  refine ⟨fun ctx => ?_, fun ctx ctx2 hc => ?_⟩
  · obtain ⟨r1, e1⟩ := hSubscript.1 ctx
    simp only [SuperSubscriptExpression.Marshal, Identifier.Marshal, QualifiedIdentifier.Marshal,
      Expressions.Marshal, ModuleMembers.Marshal, Modifiers_Marshal_total, e1, ok_bind, pure,
      Except.pure]
    exact ⟨_, rfl⟩
  · have e1 := hSubscript.2 ctx ctx2 hc
    simp only [SuperSubscriptExpression.Marshal, Identifier.Marshal, QualifiedIdentifier.Marshal,
      Expressions.Marshal, ModuleMembers.Marshal, Modifiers_Marshal_total, e1,
      newlineWithIndentation_congr ctx ctx2 hc]

theorem ParenthesizedExpression_regular (e : ParenthesizedExpression)
    (hExpression : Regular e.Expression.Marshal) : Regular e.Marshal := by
  refine ⟨fun ctx => ?_, fun ctx ctx2 hc => ?_⟩
  · obtain ⟨r1, e1⟩ := hExpression.1 ctx
    simp only [ParenthesizedExpression.Marshal, Identifier.Marshal, QualifiedIdentifier.Marshal,
      Expressions.Marshal, ModuleMembers.Marshal, Modifiers_Marshal_total, e1, ok_bind, pure,
      Except.pure]
    exact ⟨_, rfl⟩
  · have e1 := hExpression.2 ctx ctx2 hc
    simp only [ParenthesizedExpression.Marshal, Identifier.Marshal, QualifiedIdentifier.Marshal,
      Expressions.Marshal, ModuleMembers.Marshal, Modifiers_Marshal_total, e1,
      newlineWithIndentation_congr ctx ctx2 hc]

theorem NewExpression_regular (e : NewExpression) (hBody : Regular e.Body.Marshal)
    (hTyp : ∀ x, e.Typ = some x → Regular x.Marshal) : Regular e.Marshal := by
  refine ⟨fun ctx => ?_, fun ctx ctx2 hc => ?_⟩
  · obtain ⟨r1, e1⟩ := hBody.1 ctx
    simp only [NewExpression.Marshal, Identifier.Marshal, QualifiedIdentifier.Marshal,
      Expressions.Marshal, ModuleMembers.Marshal, Modifiers_Marshal_total, e1, ok_bind, pure,
      Except.pure]
    rcases o1 : e.Typ with _ | t1
    all_goals try have p1 := (hTyp t1 o1).1 ctx
    all_goals try cases p1
    all_goals try simp only [*, ok_bind]
    all_goals exact ⟨_, rfl⟩
  · have e1 := hBody.2 ctx ctx2 hc
    simp only [NewExpression.Marshal, Identifier.Marshal, QualifiedIdentifier.Marshal,
      Expressions.Marshal, ModuleMembers.Marshal, Modifiers_Marshal_total, e1,
      newlineWithIndentation_congr ctx ctx2 hc]
    rcases o1 : e.Typ with _ | t1
    all_goals try have p1 := (hTyp t1 o1).2 ctx ctx2 hc
    all_goals simp only [*]

theorem AmendExpression_regular (e : AmendExpression) (hParent : Regular e.Parent.Marshal)
    (hBody : Regular e.Body.Marshal) : Regular e.Marshal := by
  refine ⟨fun ctx => ?_, fun ctx ctx2 hc => ?_⟩
  · obtain ⟨r1, e1⟩ := hParent.1 ctx
    obtain ⟨r2, e2⟩ := hBody.1 ctx
    simp only [AmendExpression.Marshal, Identifier.Marshal, QualifiedIdentifier.Marshal,
      Expressions.Marshal, ModuleMembers.Marshal, Modifiers_Marshal_total, e1, e2, ok_bind, pure,
      Except.pure]
    exact ⟨_, rfl⟩
  · have e1 := hParent.2 ctx ctx2 hc
    have e2 := hBody.2 ctx ctx2 hc
    simp only [AmendExpression.Marshal, Identifier.Marshal, QualifiedIdentifier.Marshal,
      Expressions.Marshal, ModuleMembers.Marshal, Modifiers_Marshal_total, e1, e2,
      newlineWithIndentation_congr ctx ctx2 hc]

theorem IfExpression_regular (e : IfExpression) (hCondition : Regular e.Condition.Marshal)
    (hThen : Regular e.Then.Marshal) (hElse : Regular e.Else.Marshal) : Regular e.Marshal := by
  refine ⟨fun ctx => ?_, fun ctx ctx2 hc => ?_⟩
  · obtain ⟨r1, e1⟩ := hCondition.1 ctx
    obtain ⟨r2, e2⟩ := hThen.1 ctx
    obtain ⟨r3, e3⟩ := hElse.1 ctx
    simp only [IfExpression.Marshal, Identifier.Marshal, QualifiedIdentifier.Marshal,
      Expressions.Marshal, ModuleMembers.Marshal, Modifiers_Marshal_total, e1, e2, e3, ok_bind,
      pure, Except.pure]
    exact ⟨_, rfl⟩
  · have e1 := hCondition.2 ctx ctx2 hc
    have e2 := hThen.2 ctx ctx2 hc
    have e3 := hElse.2 ctx ctx2 hc
    simp only [IfExpression.Marshal, Identifier.Marshal, QualifiedIdentifier.Marshal,
      Expressions.Marshal, ModuleMembers.Marshal, Modifiers_Marshal_total, e1, e2, e3,
      newlineWithIndentation_congr ctx ctx2 hc]

theorem LetExpression_regular (e : LetExpression) (hName : Regular e.Name.Marshal)
    (hValue : Regular e.Value.Marshal) (hExpression : Regular e.Expression.Marshal) :
    Regular e.Marshal := by
  refine ⟨fun ctx => ?_, fun ctx ctx2 hc => ?_⟩
  · obtain ⟨r1, e1⟩ := hName.1 ctx
    obtain ⟨r2, e2⟩ := hValue.1 ctx
    obtain ⟨r3, e3⟩ := hExpression.1 ctx
    simp only [LetExpression.Marshal, Identifier.Marshal, QualifiedIdentifier.Marshal,
      Expressions.Marshal, ModuleMembers.Marshal, Modifiers_Marshal_total, e1, e2, e3, ok_bind,
      pure, Except.pure]
    exact ⟨_, rfl⟩
  · have e1 := hName.2 ctx ctx2 hc
    have e2 := hValue.2 ctx ctx2 hc
    have e3 := hExpression.2 ctx ctx2 hc
    simp only [LetExpression.Marshal, Identifier.Marshal, QualifiedIdentifier.Marshal,
      Expressions.Marshal, ModuleMembers.Marshal, Modifiers_Marshal_total, e1, e2, e3,
      newlineWithIndentation_congr ctx ctx2 hc]

theorem ReadExpression_regular (e : ReadExpression) (hValue : Regular e.Value.Marshal) :
    Regular e.Marshal := by
  refine ⟨fun ctx => ?_, fun ctx ctx2 hc => ?_⟩
  · obtain ⟨r1, e1⟩ := hValue.1 ctx
    simp only [ReadExpression.Marshal, Identifier.Marshal, QualifiedIdentifier.Marshal,
      Expressions.Marshal, ModuleMembers.Marshal, Modifiers_Marshal_total, e1, ok_bind, pure,
      Except.pure]
    exact ⟨_, rfl⟩
  · have e1 := hValue.2 ctx ctx2 hc
    simp only [ReadExpression.Marshal, Identifier.Marshal, QualifiedIdentifier.Marshal,
      Expressions.Marshal, ModuleMembers.Marshal, Modifiers_Marshal_total, e1,
      newlineWithIndentation_congr ctx ctx2 hc]

theorem ThrowExpression_regular (e : ThrowExpression) (hValue : Regular e.Value.Marshal) :
    Regular e.Marshal := by
  refine ⟨fun ctx => ?_, fun ctx ctx2 hc => ?_⟩
  · obtain ⟨r1, e1⟩ := hValue.1 ctx
    simp only [ThrowExpression.Marshal, Identifier.Marshal, QualifiedIdentifier.Marshal,
      Expressions.Marshal, ModuleMembers.Marshal, Modifiers_Marshal_total, e1, ok_bind, pure,
      Except.pure]
    exact ⟨_, rfl⟩
  · have e1 := hValue.2 ctx ctx2 hc
    simp only [ThrowExpression.Marshal, Identifier.Marshal, QualifiedIdentifier.Marshal,
      Expressions.Marshal, ModuleMembers.Marshal, Modifiers_Marshal_total, e1,
      newlineWithIndentation_congr ctx ctx2 hc]

theorem TraceExpression_regular (e : TraceExpression) (hValue : Regular e.Value.Marshal) :
    Regular e.Marshal := by
  refine ⟨fun ctx => ?_, fun ctx ctx2 hc => ?_⟩
  · obtain ⟨r1, e1⟩ := hValue.1 ctx
    simp only [TraceExpression.Marshal, Identifier.Marshal, QualifiedIdentifier.Marshal,
      Expressions.Marshal, ModuleMembers.Marshal, Modifiers_Marshal_total, e1, ok_bind, pure,
      Except.pure]
    exact ⟨_, rfl⟩
  · have e1 := hValue.2 ctx ctx2 hc
    simp only [TraceExpression.Marshal, Identifier.Marshal, QualifiedIdentifier.Marshal,
      Expressions.Marshal, ModuleMembers.Marshal, Modifiers_Marshal_total, e1,
      newlineWithIndentation_congr ctx ctx2 hc]

theorem DeclaredType_regular (t : DeclaredType)
    (hTypeParameters : ∀ n ∈ t.TypeParameters, Regular n.Marshal) : Regular t.Marshal := by
  refine ⟨fun ctx => ?_, fun ctx ctx2 hc => ?_⟩
  · obtain ⟨r1, e1⟩ := joinNodes_total ctx t.TypeParameters ", "
      (fun n hn => (hTypeParameters n hn).1 ctx)
    by_cases hlen : t.TypeParameters.length > 0
    all_goals simp only [DeclaredType.Marshal, Identifier.Marshal, QualifiedIdentifier.Marshal,
        Expressions.Marshal, ModuleMembers.Marshal, Modifiers_Marshal_total, hlen, if_true,
        if_false, e1, ok_bind, pure, Except.pure]
    all_goals exact ⟨_, rfl⟩
  · have e1 := joinNodes_congr ctx ctx2 t.TypeParameters ", "
      (fun n hn => (hTypeParameters n hn).2 ctx ctx2 hc)
    by_cases hlen : t.TypeParameters.length > 0
    all_goals simp only [DeclaredType.Marshal, Identifier.Marshal, QualifiedIdentifier.Marshal,
        Expressions.Marshal, ModuleMembers.Marshal, Modifiers_Marshal_total, hlen, if_true,
        if_false, e1, newlineWithIndentation_congr ctx ctx2 hc]

theorem ParenthesizedType_regular (t : ParenthesizedType) (hTyp : Regular t.Typ.Marshal) :
    Regular t.Marshal := by
  refine ⟨fun ctx => ?_, fun ctx ctx2 hc => ?_⟩
  · obtain ⟨r1, e1⟩ := hTyp.1 ctx
    simp only [ParenthesizedType.Marshal, Identifier.Marshal, QualifiedIdentifier.Marshal,
      Expressions.Marshal, ModuleMembers.Marshal, Modifiers_Marshal_total, e1, ok_bind, pure,
      Except.pure]
    exact ⟨_, rfl⟩
  · have e1 := hTyp.2 ctx ctx2 hc
    simp only [ParenthesizedType.Marshal, Identifier.Marshal, QualifiedIdentifier.Marshal,
      Expressions.Marshal, ModuleMembers.Marshal, Modifiers_Marshal_total, e1,
      newlineWithIndentation_congr ctx ctx2 hc]

theorem NullableType_regular (t : NullableType) (hTyp : Regular t.Typ.Marshal) :
    Regular t.Marshal := by
  refine ⟨fun ctx => ?_, fun ctx ctx2 hc => ?_⟩
  · obtain ⟨r1, e1⟩ := hTyp.1 ctx
    simp only [NullableType.Marshal, Identifier.Marshal, QualifiedIdentifier.Marshal,
      Expressions.Marshal, ModuleMembers.Marshal, Modifiers_Marshal_total, e1, ok_bind, pure,
      Except.pure]
    exact ⟨_, rfl⟩
  · have e1 := hTyp.2 ctx ctx2 hc
    simp only [NullableType.Marshal, Identifier.Marshal, QualifiedIdentifier.Marshal,
      Expressions.Marshal, ModuleMembers.Marshal, Modifiers_Marshal_total, e1,
      newlineWithIndentation_congr ctx ctx2 hc]

theorem ConstrainedType_regular (t : ConstrainedType) (hTyp : Regular t.Typ.Marshal)
    (hConstraints : ∀ n ∈ t.Constraints, Regular n.Marshal) : Regular t.Marshal := by
  refine ⟨fun ctx => ?_, fun ctx ctx2 hc => ?_⟩
  · obtain ⟨r1, e1⟩ := hTyp.1 ctx
    obtain ⟨r2, e2⟩ := joinNodes_total ctx t.Constraints ", "
      (fun n hn => (hConstraints n hn).1 ctx)
    simp only [ConstrainedType.Marshal, Identifier.Marshal, QualifiedIdentifier.Marshal,
      Expressions.Marshal, ModuleMembers.Marshal, Modifiers_Marshal_total, e1, e2, ok_bind, pure,
      Except.pure]
    exact ⟨_, rfl⟩
  · have e1 := hTyp.2 ctx ctx2 hc
    have e2 := joinNodes_congr ctx ctx2 t.Constraints ", "
      (fun n hn => (hConstraints n hn).2 ctx ctx2 hc)
    simp only [ConstrainedType.Marshal, Identifier.Marshal, QualifiedIdentifier.Marshal,
      Expressions.Marshal, ModuleMembers.Marshal, Modifiers_Marshal_total, e1, e2,
      newlineWithIndentation_congr ctx ctx2 hc]

theorem UnionType_regular (t : UnionType) (hMembers : ∀ n ∈ t.Members, Regular n.Marshal)
    (hDefault : ∀ x, t.Default = some x → Regular x.Marshal) : Regular t.Marshal := by
  refine ⟨fun ctx => ?_, fun ctx ctx2 hc => ?_⟩
  · obtain ⟨r1, e1⟩ := joinNodes_total ctx t.Members " | "
      (fun n hn => (hMembers n hn).1 ctx)
    simp only [UnionType.Marshal, Identifier.Marshal, QualifiedIdentifier.Marshal,
      Expressions.Marshal, ModuleMembers.Marshal, Modifiers_Marshal_total, e1, ok_bind, pure,
      Except.pure]
    rcases o1 : t.Default with _ | t1
    all_goals try have p1 := (hDefault t1 o1).1 ctx
    all_goals try cases p1
    all_goals try simp only [*, ok_bind]
    all_goals exact ⟨_, rfl⟩
  · have e1 := joinNodes_congr ctx ctx2 t.Members " | "
      (fun n hn => (hMembers n hn).2 ctx ctx2 hc)
    simp only [UnionType.Marshal, Identifier.Marshal, QualifiedIdentifier.Marshal,
      Expressions.Marshal, ModuleMembers.Marshal, Modifiers_Marshal_total, e1,
      newlineWithIndentation_congr ctx ctx2 hc]
    rcases o1 : t.Default with _ | t1
    all_goals try have p1 := (hDefault t1 o1).2 ctx ctx2 hc
    all_goals simp only [*]

theorem FunctionLiteralType_regular (t : FunctionLiteralType)
    (hParameters : ∀ n ∈ t.Parameters, Regular n.Marshal) (hResult : Regular t.Result.Marshal) :
    Regular t.Marshal := by
  refine ⟨fun ctx => ?_, fun ctx ctx2 hc => ?_⟩
  · obtain ⟨r1, e1⟩ := joinNodes_total ctx t.Parameters ", "
      (fun n hn => (hParameters n hn).1 ctx)
    obtain ⟨r2, e2⟩ := hResult.1 ctx
    simp only [FunctionLiteralType.Marshal, Identifier.Marshal, QualifiedIdentifier.Marshal,
      Expressions.Marshal, ModuleMembers.Marshal, Modifiers_Marshal_total, e1, e2, ok_bind, pure,
      Except.pure]
    exact ⟨_, rfl⟩
  · have e1 := joinNodes_congr ctx ctx2 t.Parameters ", "
      (fun n hn => (hParameters n hn).2 ctx ctx2 hc)
    have e2 := hResult.2 ctx ctx2 hc
    simp only [FunctionLiteralType.Marshal, Identifier.Marshal, QualifiedIdentifier.Marshal,
      Expressions.Marshal, ModuleMembers.Marshal, Modifiers_Marshal_total, e1, e2,
      newlineWithIndentation_congr ctx ctx2 hc]

theorem Annotation_regular (a : Annotation) (hBody : ∀ x, a.Body = some x → Regular x.Marshal) :
    Regular a.Marshal := by
  refine ⟨fun ctx => ?_, fun ctx ctx2 hc => ?_⟩
  · simp only [ Annotation.Marshal, Identifier.Marshal, QualifiedIdentifier.Marshal,
      Expressions.Marshal, ModuleMembers.Marshal, Modifiers_Marshal_total, ok_bind, pure,
      Except.pure]
    rcases o1 : a.Body with _ | t1
    all_goals try have p1 := (hBody t1 o1).1 ctx
    all_goals try cases p1
    all_goals try simp only [*, ok_bind]
    all_goals exact ⟨_, rfl⟩
  · simp only [ Annotation.Marshal, Identifier.Marshal, QualifiedIdentifier.Marshal,
      Expressions.Marshal, ModuleMembers.Marshal, Modifiers_Marshal_total,
      newlineWithIndentation_congr ctx ctx2 hc]
    rcases o1 : a.Body with _ | t1
    all_goals try have p1 := (hBody t1 o1).2 ctx ctx2 hc
    all_goals simp only [*]

theorem Annotations_regular (a : Annotations) (h : ∀ n ∈ a, Regular n.Marshal) :
    Regular (Annotations.Marshal a) := by
  refine ⟨fun ctx => ?_, fun ctx ctx2 hc => ?_⟩
  · exact joinNodes_total ctx a _ (fun n hn => (h n hn).1 ctx)
  · simp only [Annotations.Marshal, newlineWithIndentation_congr ctx ctx2 hc]
    exact joinNodes_congr ctx ctx2 a _ (fun n hn => (h n hn).2 ctx ctx2 hc)

theorem ClassProperty_regular (p : ClassProperty)
    (hAnnotations : ∀ n ∈ p.Annotations, Regular n.Marshal)
    (hTyp : ∀ x, p.Typ = some x → Regular x.Marshal)
    (hExpression : ∀ x, p.Expression = some x → Regular x.Marshal)
    (hBody : ∀ x, p.Body = some x → Regular x.Marshal) : Regular p.Marshal := by
  refine ⟨fun ctx => ?_, fun ctx ctx2 hc => ?_⟩
  · obtain ⟨r1, e1⟩ := (Docs_regular p.Docs).1 ctx
    obtain ⟨r2, e2⟩ := (Annotations_regular p.Annotations hAnnotations).1 ctx
    simp only [ClassProperty.Marshal, Identifier.Marshal, QualifiedIdentifier.Marshal,
      Expressions.Marshal, ModuleMembers.Marshal, Modifiers_Marshal_total, e1, e2, ok_bind, pure,
      Except.pure]
    rcases o1 : p.Typ with _ | t1 <;> rcases o2 : p.Expression with _ | t2 <;>
      rcases o3 : p.Body with _ | t3
    all_goals try have p1 := (hTyp t1 o1).1 ctx
    all_goals try have p2 := (hExpression t2 o2).1 ctx
    all_goals try have p3 := (hBody t3 o3).1 ctx
    all_goals try cases p1
    all_goals try cases p2
    all_goals try cases p3
    all_goals try simp only [*, ok_bind]
    all_goals exact ⟨_, rfl⟩
  · have e1 := (Docs_regular p.Docs).2 ctx ctx2 hc
    have e2 := (Annotations_regular p.Annotations hAnnotations).2 ctx ctx2 hc
    simp only [ClassProperty.Marshal, Identifier.Marshal, QualifiedIdentifier.Marshal,
      Expressions.Marshal, ModuleMembers.Marshal, Modifiers_Marshal_total, e1, e2,
      newlineWithIndentation_congr ctx ctx2 hc]
    rcases o1 : p.Typ with _ | t1 <;> rcases o2 : p.Expression with _ | t2 <;>
      rcases o3 : p.Body with _ | t3
    all_goals try have p1 := (hTyp t1 o1).2 ctx ctx2 hc
    all_goals try have p2 := (hExpression t2 o2).2 ctx ctx2 hc
    all_goals try have p3 := (hBody t3 o3).2 ctx ctx2 hc
    all_goals simp only [*]

theorem ClassMethod_regular (m : ClassMethod)
    (hAnnotations : ∀ n ∈ m.Annotations, Regular n.Marshal)
    (hSignature : Regular m.Signature.Marshal)
    (hImplementation : ∀ x, m.Implementation = some x → Regular x.Marshal) :
    Regular m.Marshal := by
  refine ⟨fun ctx => ?_, fun ctx ctx2 hc => ?_⟩
  · obtain ⟨r1, e1⟩ := (Docs_regular m.Docs).1 ctx
    obtain ⟨r2, e2⟩ := (Annotations_regular m.Annotations hAnnotations).1 ctx
    obtain ⟨r3, e3⟩ := hSignature.1 ctx
    simp only [ClassMethod.Marshal, Identifier.Marshal, QualifiedIdentifier.Marshal,
      Expressions.Marshal, ModuleMembers.Marshal, Modifiers_Marshal_total, e1, e2, e3, ok_bind,
      pure, Except.pure]
    rcases o1 : m.Implementation with _ | t1
    all_goals try have p1 := (hImplementation t1 o1).1 ctx
    all_goals try cases p1
    all_goals try simp only [*, ok_bind]
    all_goals exact ⟨_, rfl⟩
  · have e1 := (Docs_regular m.Docs).2 ctx ctx2 hc
    have e2 := (Annotations_regular m.Annotations hAnnotations).2 ctx ctx2 hc
    have e3 := hSignature.2 ctx ctx2 hc
    simp only [ClassMethod.Marshal, Identifier.Marshal, QualifiedIdentifier.Marshal,
      Expressions.Marshal, ModuleMembers.Marshal, Modifiers_Marshal_total, e1, e2, e3,
      newlineWithIndentation_congr ctx ctx2 hc]
    rcases o1 : m.Implementation with _ | t1
    all_goals try have p1 := (hImplementation t1 o1).2 ctx ctx2 hc
    all_goals simp only [*]

theorem TypeAlias_regular (t : TypeAlias)
    (hAnnotations : ∀ n ∈ t.Annotations, Regular n.Marshal) (hTyp : Regular t.Typ.Marshal) :
    Regular t.Marshal := by
  refine ⟨fun ctx => ?_, fun ctx ctx2 hc => ?_⟩
  · obtain ⟨r1, e1⟩ := (Docs_regular t.Docs).1 ctx
    obtain ⟨r2, e2⟩ := (Annotations_regular t.Annotations hAnnotations).1 ctx
    obtain ⟨r3, e3⟩ := (TypeParameters_regular t.Parameters).1 ctx
    obtain ⟨r4, e4⟩ := hTyp.1 ctx
    simp only [TypeAlias.Marshal, Identifier.Marshal, QualifiedIdentifier.Marshal,
      Expressions.Marshal, ModuleMembers.Marshal, Modifiers_Marshal_total, e1, e2, e3, e4,
      ok_bind, pure, Except.pure]
    exact ⟨_, rfl⟩
  · have e1 := (Docs_regular t.Docs).2 ctx ctx2 hc
    have e2 := (Annotations_regular t.Annotations hAnnotations).2 ctx ctx2 hc
    have e3 := (TypeParameters_regular t.Parameters).2 ctx ctx2 hc
    have e4 := hTyp.2 ctx ctx2 hc
    simp only [TypeAlias.Marshal, Identifier.Marshal, QualifiedIdentifier.Marshal,
      Expressions.Marshal, ModuleMembers.Marshal, Modifiers_Marshal_total, e1, e2, e3, e4,
      newlineWithIndentation_congr ctx ctx2 hc]

theorem Module_regular (printTable : Char → Bool) (m : Module)
    (hAnnotations : ∀ n ∈ m.Annotations, Regular n.Marshal)
    (hMembers : ∀ n ∈ m.Members, Regular n.Marshal) :
    Regular (Module.Marshal printTable m) := by
  refine ⟨fun ctx => ?_, fun ctx ctx2 hc => ?_⟩
  · obtain ⟨r1, e1⟩ := (ShebangComment_regular m.ShebangComment).1 ctx
    obtain ⟨r2, e2⟩ := (Docs_regular m.Docs).1 ctx
    obtain ⟨r3, e3⟩ := (Annotations_regular m.Annotations hAnnotations).1 ctx
    obtain ⟨r4, e4⟩ := (ImportClauses_regular printTable m.Imports).1 ctx
    obtain ⟨r5, e5⟩ := joinNodes_total ctx m.Members "\n\n"
      (fun n hn => (hMembers n hn).1 ctx)
    by_cases hname : m.Name.val = ""
    all_goals simp only [Module.Marshal, Identifier.Marshal, QualifiedIdentifier.Marshal,
        Expressions.Marshal, ModuleMembers.Marshal, Modifiers_Marshal_total, hname, ne_eq,
        not_true_eq_false, not_false_eq_true, if_true, if_false, e1, e2, e3, e4, e5, ok_bind,
        pure, Except.pure]
    all_goals exact ⟨_, rfl⟩
  · have e1 := (ShebangComment_regular m.ShebangComment).2 ctx ctx2 hc
    have e2 := (Docs_regular m.Docs).2 ctx ctx2 hc
    have e3 := (Annotations_regular m.Annotations hAnnotations).2 ctx ctx2 hc
    have e4 := (ImportClauses_regular printTable m.Imports).2 ctx ctx2 hc
    have e5 := joinNodes_congr ctx ctx2 m.Members "\n\n"
      (fun n hn => (hMembers n hn).2 ctx ctx2 hc)
    by_cases hname : m.Name.val = ""
    all_goals simp only [Module.Marshal, Identifier.Marshal, QualifiedIdentifier.Marshal,
        Expressions.Marshal, ModuleMembers.Marshal, Modifiers_Marshal_total, hname, ne_eq,
        not_true_eq_false, not_false_eq_true, if_true, if_false, e1, e2, e3, e4, e5,
        newlineWithIndentation_congr ctx ctx2 hc]

theorem Class_regular (c : Class) (hAnnotations : ∀ n ∈ c.Annotations, Regular n.Marshal)
    (hMembers : ∀ n ∈ c.Members, Regular n.Marshal) : Regular c.Marshal := by
  refine ⟨fun ctx => ?_, fun ctx ctx2 hc => ?_⟩
  · obtain ⟨r1, e1⟩ := (Docs_regular c.Docs).1 ctx
    obtain ⟨r2, e2⟩ := (Annotations_regular c.Annotations hAnnotations).1 ctx
    obtain ⟨r3, e3⟩ := (TypeParameters_regular c.TypeParameters).1 ctx
    obtain ⟨r4, e4⟩ := (TypeParameters_regular c.ParentTypeParameters).1 ctx
    obtain ⟨r5, e5⟩ := joinNodes_total (raiseIndentLevel ctx) c.Members
      ("\n" ++ newlineWithIndentation (raiseIndentLevel ctx)) (fun n hn => (hMembers n hn).1 _)
    simp only [Class.Marshal, Identifier.Marshal, QualifiedIdentifier.Marshal,
      Modifiers_Marshal_total, e1, e2, e3, e4, e5, ok_bind, pure, Except.pure]
    exact ⟨_, rfl⟩
  · have e1 := (Docs_regular c.Docs).2 ctx ctx2 hc
    have e2 := (Annotations_regular c.Annotations hAnnotations).2 ctx ctx2 hc
    have e3 := (TypeParameters_regular c.TypeParameters).2 ctx ctx2 hc
    have e4 := (TypeParameters_regular c.ParentTypeParameters).2 ctx ctx2 hc
    simp only [Class.Marshal, Identifier.Marshal, QualifiedIdentifier.Marshal,
      Modifiers_Marshal_total, e1, e2, e3, e4, newlineWithIndentation_congr ctx ctx2 hc,
      raiseIndentLevel_congr ctx ctx2 hc]

/-! ## Auxiliary lemmas: the trees render without an error, reading only the depth -/

theorem mem_map_regular {T N : Type} (f : T → N) (m : N → Ctx → Except Error String)
    (l : List T) (h : ∀ t, Regular (m (f t))) : ∀ n ∈ l.map f, Regular (m n) := by
  intro n hn
  obtain ⟨t, _, rfl⟩ := List.mem_map.1 hn
  exact h t

mutual
theorem ExpressionTree_regular (printTable : Char → Bool) (formatFloat : Nat → String) :
    ∀ t : ExpressionTree, Regular (t.toExpression printTable formatFloat).Marshal
  | .BuiltinExpression _ => ⟨fun _ => ⟨_, rfl⟩, fun _ _ _ => rfl⟩
  | .IntExpression _ => ⟨fun _ => ⟨_, rfl⟩, fun _ _ _ => rfl⟩
  | .FloatExpression _ => ⟨fun _ => ⟨_, rfl⟩, fun _ _ _ => rfl⟩
  | .StringExpression _ => ⟨fun _ => ⟨_, rfl⟩, fun _ _ _ => rfl⟩
  | .PrefixUnaryExpression _ x =>
    PrefixUnaryExpression_regular _ (ExpressionTree_regular printTable formatFloat x)
  | .PostfixUnaryExpression _ x =>
    PostfixUnaryExpression_regular _ (ExpressionTree_regular printTable formatFloat x)
  | .BinaryExpression _ l r =>
    BinaryExpression_regular _ (ExpressionTree_regular printTable formatFloat l)
      (ExpressionTree_regular printTable formatFloat r)
  | .TypeExpression _ x t =>
    TypeExpression_regular _ (ExpressionTree_regular printTable formatFloat x)
      (TypeTree_regular printTable formatFloat t)
  | .MemberAccessExpression _ args =>
    MemberAccessExpression_regular _ (toArguments_regular printTable formatFloat args)
  | .QualifiedMemberAccessExpression x _ _ args =>
    QualifiedMemberAccessExpression_regular _ (ExpressionTree_regular printTable formatFloat x)
      (toArguments_regular printTable formatFloat args)
  | .SuperAccessExpression _ args =>
    SuperAccessExpression_regular _ (toArguments_regular printTable formatFloat args)
  | .SubscriptExpression x s =>
    SubscriptExpression_regular _ (ExpressionTree_regular printTable formatFloat x)
      (ExpressionTree_regular printTable formatFloat s)
  | .SuperSubscriptExpression s =>
    SuperSubscriptExpression_regular _ (ExpressionTree_regular printTable formatFloat s)
  | .ParenthesizedExpression x =>
    ParenthesizedExpression_regular _ (ExpressionTree_regular printTable formatFloat x)
  | .NewExpression t body =>
    NewExpression_regular _ (ObjectBodyTree_regular printTable formatFloat body)
      (toOptionalType_regular printTable formatFloat t)
  | .AmendExpression parent body =>
    AmendExpression_regular _ (AmendParentTree_regular printTable formatFloat parent)
      (ObjectBodyTree_regular printTable formatFloat body)
  | .IfExpression c t e =>
    IfExpression_regular _ (ExpressionTree_regular printTable formatFloat c)
      (ExpressionTree_regular printTable formatFloat t)
      (ExpressionTree_regular printTable formatFloat e)
  | .ImportExpression _ => ⟨fun _ => ⟨_, rfl⟩, fun _ _ _ => rfl⟩
  | .LetExpression name v x =>
    LetExpression_regular _ (ParameterTree_regular printTable formatFloat name)
      (ExpressionTree_regular printTable formatFloat v)
      (ExpressionTree_regular printTable formatFloat x)
  | .ReadExpression _ v =>
    ReadExpression_regular _ (ExpressionTree_regular printTable formatFloat v)
  | .ThrowExpression v =>
    ThrowExpression_regular _ (ExpressionTree_regular printTable formatFloat v)
  | .TraceExpression v =>
    TraceExpression_regular _ (ExpressionTree_regular printTable formatFloat v)
theorem toExpressions_regular (printTable : Char → Bool) (formatFloat : Nat → String) :
    ∀ (l : List ExpressionTree) (n : Expression),
      n ∈ toExpressions printTable formatFloat l → Regular n.Marshal
  | [], _, h => absurd h (List.not_mem_nil _)
  | x :: xs, _, h =>
    (List.mem_cons.1 h).elim (fun e => e ▸ ExpressionTree_regular printTable formatFloat x)
      (fun h2 => toExpressions_regular printTable formatFloat xs _ h2)
theorem toArguments_regular (printTable : Char → Bool) (formatFloat : Nat → String) :
    ∀ (o : Option (List ExpressionTree)) (a : Expressions),
      toArguments printTable formatFloat o = some a → ∀ n ∈ a, Regular n.Marshal
  | none, _, h => Option.noConfusion h
  | some xs, _, h => Option.some.inj h ▸ toExpressions_regular printTable formatFloat xs
theorem toOptionalExpression_regular (printTable : Char → Bool) (formatFloat : Nat → String) :
    ∀ (o : Option ExpressionTree) (x : Expression),
      toOptionalExpression printTable formatFloat o = some x → Regular x.Marshal
  | none, _, h => Option.noConfusion h
  | some t, _, h => Option.some.inj h ▸ ExpressionTree_regular printTable formatFloat t
theorem AmendParentTree_regular (printTable : Char → Bool) (formatFloat : Nat → String) :
    ∀ t : AmendParentTree, Regular (t.toAmendParentExpression printTable formatFloat).Marshal
  | .ParenthesizedExpression x =>
    ParenthesizedExpression_regular _ (ExpressionTree_regular printTable formatFloat x)
  | .NewExpression t body =>
    NewExpression_regular _ (ObjectBodyTree_regular printTable formatFloat body)
      (toOptionalType_regular printTable formatFloat t)
  | .AmendExpression parent body =>
    AmendExpression_regular _ (AmendParentTree_regular printTable formatFloat parent)
      (ObjectBodyTree_regular printTable formatFloat body)
theorem TypeTree_regular (printTable : Char → Bool) (formatFloat : Nat → String) :
    ∀ t : TypeTree, Regular (t.toTypeNode printTable formatFloat).Marshal
  | .BuiltinType _ => ⟨fun _ => ⟨_, rfl⟩, fun _ _ _ => rfl⟩
  | .StringLiteralType _ => ⟨fun _ => ⟨_, rfl⟩, fun _ _ _ => rfl⟩
  | .DeclaredType _ ps => DeclaredType_regular _ (toTypes_regular printTable formatFloat ps)
  | .ParenthesizedType t =>
    ParenthesizedType_regular _ (TypeTree_regular printTable formatFloat t)
  | .NullableType t => NullableType_regular _ (TypeTree_regular printTable formatFloat t)
  | .ConstrainedType t cs =>
    ConstrainedType_regular _ (TypeTree_regular printTable formatFloat t)
      (toExpressions_regular printTable formatFloat cs)
  | .UnionType ms d =>
    UnionType_regular _ (toTypes_regular printTable formatFloat ms)
      (toOptionalType_regular printTable formatFloat d)
  | .FunctionLiteralType ps r =>
    FunctionLiteralType_regular _ (toTypes_regular printTable formatFloat ps)
      (TypeTree_regular printTable formatFloat r)
theorem toTypes_regular (printTable : Char → Bool) (formatFloat : Nat → String) :
    ∀ (l : List TypeTree) (n : TypeNode),
      n ∈ toTypes printTable formatFloat l → Regular n.Marshal
  | [], _, h => absurd h (List.not_mem_nil _)
  | t :: ts, _, h =>
    (List.mem_cons.1 h).elim (fun e => e ▸ TypeTree_regular printTable formatFloat t)
      (fun h2 => toTypes_regular printTable formatFloat ts _ h2)
theorem toOptionalType_regular (printTable : Char → Bool) (formatFloat : Nat → String) :
    ∀ (o : Option TypeTree) (x : TypeNode),
      toOptionalType printTable formatFloat o = some x → Regular x.Marshal
  | none, _, h => Option.noConfusion h
  | some t, _, h => Option.some.inj h ▸ TypeTree_regular printTable formatFloat t
theorem ParameterTree_regular (printTable : Char → Bool) (formatFloat : Nat → String) :
    ∀ p : ParameterTree, Regular (p.toParameter printTable formatFloat).Marshal
  | .mk _ t => Parameter_regular _ (toOptionalType_regular printTable formatFloat t)
theorem toParameters_regular (printTable : Char → Bool) (formatFloat : Nat → String) :
    ∀ (l : List ParameterTree) (n : Parameter),
      n ∈ toParameters printTable formatFloat l → Regular n.Marshal
  | [], _, h => absurd h (List.not_mem_nil _)
  | p :: ps, _, h =>
    (List.mem_cons.1 h).elim (fun e => e ▸ ParameterTree_regular printTable formatFloat p)
      (fun h2 => toParameters_regular printTable formatFloat ps _ h2)
theorem toOptionalParameter_regular (printTable : Char → Bool) (formatFloat : Nat → String) :
    ∀ (o : Option ParameterTree) (x : Parameter),
      toOptionalParameter printTable formatFloat o = some x → Regular x.Marshal
  | none, _, h => Option.noConfusion h
  | some p, _, h => Option.some.inj h ▸ ParameterTree_regular printTable formatFloat p
theorem MethodSignatureTree_regular (printTable : Char → Bool) (formatFloat : Nat → String) :
    ∀ m : MethodSignatureTree, Regular (m.toMethodSignature printTable formatFloat).Marshal
  | .mk _ _ _ ps r =>
    MethodSignature_regular _ (toParameters_regular printTable formatFloat ps)
      (toOptionalType_regular printTable formatFloat r)
theorem ObjectBodyTree_regular (printTable : Char → Bool) (formatFloat : Nat → String) :
    ∀ o : ObjectBodyTree, Regular (o.toObjectBody printTable formatFloat).Marshal
  | .mk ps ms =>
    ObjectBody_regular _ (toParameters_regular printTable formatFloat ps)
      (toObjectMembers_regular printTable formatFloat ms)
theorem toObjectBodies_regular (printTable : Char → Bool) (formatFloat : Nat → String) :
    ∀ (l : List ObjectBodyTree) (n : ObjectBody),
      n ∈ toObjectBodies printTable formatFloat l → Regular n.Marshal
  | [], _, h => absurd h (List.not_mem_nil _)
  | b :: bs, _, h =>
    (List.mem_cons.1 h).elim (fun e => e ▸ ObjectBodyTree_regular printTable formatFloat b)
      (fun h2 => toObjectBodies_regular printTable formatFloat bs _ h2)
theorem toOptionalObjectBody_regular (printTable : Char → Bool) (formatFloat : Nat → String) :
    ∀ (o : Option ObjectBodyTree) (x : ObjectBody),
      toOptionalObjectBody printTable formatFloat o = some x → Regular x.Marshal
  | none, _, h => Option.noConfusion h
  | some b, _, h => Option.some.inj h ▸ ObjectBodyTree_regular printTable formatFloat b
theorem ObjectMemberTree_regular (printTable : Char → Bool) (formatFloat : Nat → String) :
    ∀ m : ObjectMemberTree, Regular (m.toObjectMember printTable formatFloat).Marshal
  | .ObjectProperty _ _ t v bodies =>
    ObjectProperty_regular _ (toObjectBodies_regular printTable formatFloat bodies)
      (toOptionalType_regular printTable formatFloat t)
      (toOptionalExpression_regular printTable formatFloat v)
  | .ObjectMethod s v =>
    ObjectMethod_regular _ (MethodSignatureTree_regular printTable formatFloat s)
      (ExpressionTree_regular printTable formatFloat v)
  | .ObjectEntry k v bodies =>
    ObjectEntry_regular _ (ExpressionTree_regular printTable formatFloat k)
      (toObjectBodies_regular printTable formatFloat bodies)
      (toOptionalExpression_regular printTable formatFloat v)
  | .ObjectElement v =>
    ObjectElement_regular _ (ExpressionTree_regular printTable formatFloat v)
  | .ObjectSpread v _ =>
    ObjectSpread_regular _ (ExpressionTree_regular printTable formatFloat v)
  | .MemberPredicate c v bodies =>
    MemberPredicate_regular _ (ExpressionTree_regular printTable formatFloat c)
      (toObjectBodies_regular printTable formatFloat bodies)
      (toOptionalExpression_regular printTable formatFloat v)
  | .ForGenerator k v c body =>
    ForGenerator_regular _ (ParameterTree_regular printTable formatFloat v)
      (ExpressionTree_regular printTable formatFloat c)
      (ObjectBodyTree_regular printTable formatFloat body)
      (toOptionalParameter_regular printTable formatFloat k)
  | .WhenGenerator c t e =>
    WhenGenerator_regular _ (ExpressionTree_regular printTable formatFloat c)
      (ObjectBodyTree_regular printTable formatFloat t)
      (toOptionalObjectBody_regular printTable formatFloat e)
theorem toObjectMembers_regular (printTable : Char → Bool) (formatFloat : Nat → String) :
    ∀ (l : List ObjectMemberTree) (n : ObjectMember),
      n ∈ toObjectMembers printTable formatFloat l → Regular n.Marshal
  | [], _, h => absurd h (List.not_mem_nil _)
  | m :: ms, _, h =>
    (List.mem_cons.1 h).elim (fun e => e ▸ ObjectMemberTree_regular printTable formatFloat m)
      (fun h2 => toObjectMembers_regular printTable formatFloat ms _ h2)
end

/-! ## Auxiliary lemmas: the declarations render without an error, reading only the depth -/

theorem AnnotationTree_regular (printTable : Char → Bool) (formatFloat : Nat → String)
    (a : AnnotationTree) : Regular (a.toAnnotation printTable formatFloat).Marshal :=
  Annotation_regular _ (toOptionalObjectBody_regular printTable formatFloat a.Body)

theorem toAnnotations_regular (printTable : Char → Bool) (formatFloat : Nat → String)
    (l : List AnnotationTree) :
    ∀ n ∈ toAnnotations printTable formatFloat l, Regular n.Marshal :=
  mem_map_regular _ Annotation.Marshal l (AnnotationTree_regular printTable formatFloat)

theorem ClassPropertyTree_regular (printTable : Char → Bool) (formatFloat : Nat → String)
    (p : ClassPropertyTree) : Regular (p.toClassProperty printTable formatFloat).Marshal :=
  ClassProperty_regular _ (toAnnotations_regular printTable formatFloat p.Annotations)
    (toOptionalType_regular printTable formatFloat p.Typ)
    (toOptionalExpression_regular printTable formatFloat p.Expression)
    (toOptionalObjectBody_regular printTable formatFloat p.Body)

theorem ClassMethodTree_regular (printTable : Char → Bool) (formatFloat : Nat → String)
    (m : ClassMethodTree) : Regular (m.toClassMethod printTable formatFloat).Marshal :=
  ClassMethod_regular _ (toAnnotations_regular printTable formatFloat m.Annotations)
    (MethodSignatureTree_regular printTable formatFloat m.Signature)
    (toOptionalExpression_regular printTable formatFloat m.Implementation)

theorem ClassMemberTree_regular (printTable : Char → Bool) (formatFloat : Nat → String) :
    ∀ m : ClassMemberTree, Regular (m.toClassMember printTable formatFloat).Marshal
  | .ClassProperty p => ClassPropertyTree_regular printTable formatFloat p
  | .ClassMethod m => ClassMethodTree_regular printTable formatFloat m

theorem ClassTree_regular (printTable : Char → Bool) (formatFloat : Nat → String)
    (c : ClassTree) : Regular (c.toClass printTable formatFloat).Marshal :=
  Class_regular _ (toAnnotations_regular printTable formatFloat c.Annotations)
    (mem_map_regular _ ClassMember.Marshal c.Members
      (ClassMemberTree_regular printTable formatFloat))

theorem TypeAliasTree_regular (printTable : Char → Bool) (formatFloat : Nat → String)
    (t : TypeAliasTree) : Regular (t.toTypeAlias printTable formatFloat).Marshal :=
  TypeAlias_regular _ (toAnnotations_regular printTable formatFloat t.Annotations)
    (TypeTree_regular printTable formatFloat t.Typ)

theorem ModuleMemberTree_regular (printTable : Char → Bool) (formatFloat : Nat → String) :
    ∀ m : ModuleMemberTree, Regular (m.toModuleMember printTable formatFloat).Marshal
  | .Class c => ClassTree_regular printTable formatFloat c
  | .ClassProperty p => ClassPropertyTree_regular printTable formatFloat p
  | .ClassMethod m => ClassMethodTree_regular printTable formatFloat m
  | .TypeAlias t => TypeAliasTree_regular printTable formatFloat t

theorem ModuleTree_regular (printTable : Char → Bool) (formatFloat : Nat → String)
    (m : ModuleTree) :
    Regular (Module.Marshal printTable (m.toModule printTable formatFloat)) :=
  Module_regular printTable _ (toAnnotations_regular printTable formatFloat m.Annotations)
    (mem_map_regular _ ModuleMember.Marshal m.Members
      (ModuleMemberTree_regular printTable formatFloat))

/-- Every value built from the node types of the package renders without an error, and
the outcome depends on the context through the indent level only. -/
theorem NodeTree_regular (printTable : Char → Bool) (formatFloat : Nat → String) :
    ∀ t : NodeTree, Regular (t.Marshal printTable formatFloat)
  | .Identifier _ => ⟨fun _ => ⟨_, rfl⟩, fun _ _ _ => rfl⟩
  | .QualifiedIdentifier _ => ⟨fun _ => ⟨_, rfl⟩, fun _ _ _ => rfl⟩
  | .Modifier _ => ⟨fun _ => ⟨_, rfl⟩, fun _ _ _ => rfl⟩
  | .Modifiers m => Modifiers_regular m
  | .LineComment c => LineComment_regular c
  | .BlockComment c => BlockComment_regular c
  | .Docs c => Docs_regular c
  | .ShebangComment c => ShebangComment_regular c
  | .Expression e => ExpressionTree_regular printTable formatFloat e
  | .AmendParentExpression e => AmendParentTree_regular printTable formatFloat e
  | .Expressions e =>
    joinNodes_regular _ ", " (toExpressions_regular printTable formatFloat e)
  | .TypeNode t => TypeTree_regular printTable formatFloat t
  | .Parameter p => ParameterTree_regular printTable formatFloat p
  | .Parameters p =>
    joinNodes_regular _ ", " (toParameters_regular printTable formatFloat p)
  | .TypeParameter t => TypeParameter_regular t
  | .TypeParameters t => TypeParameters_regular t
  | .MethodSignature m => MethodSignatureTree_regular printTable formatFloat m
  | .ObjectBody o => ObjectBodyTree_regular printTable formatFloat o
  | .ObjectMember m => ObjectMemberTree_regular printTable formatFloat m
  | .ObjectMembers m =>
    ObjectMembers_regular _ (toObjectMembers_regular printTable formatFloat m)
  | .AnnotationTree a => AnnotationTree_regular printTable formatFloat a
  | .Annotations a => Annotations_regular _ (toAnnotations_regular printTable formatFloat a)
  | .ClassMember m => ClassMemberTree_regular printTable formatFloat m
  | .ModuleMember m => ModuleMemberTree_regular printTable formatFloat m
  | .ModuleMembers m =>
    joinNodes_regular _ "\n\n"
      (mem_map_regular _ ModuleMember.Marshal m
        (ModuleMemberTree_regular printTable formatFloat))
  | .ImportClause i => ImportClause_regular printTable i
  | .ImportClauses i => ImportClauses_regular printTable i
  | .Module m => ModuleTree_regular printTable formatFloat m

/-! ## Auxiliary lemmas: shifting a text by one level of indentation -/

theorem shiftChars_append (a b : List Char) :
    shiftChars (a ++ b) = shiftChars a ++ shiftChars b := by
  induction a with
  | nil => rfl
  | cons c cs ih =>
    by_cases h : c = '\n' <;> simp [shiftChars, h, ih]

theorem shift_append (s t : String) : shift (s ++ t) = shift s ++ shift t := by
  apply String.ext
  simp [shift, shiftChars_append]

theorem shift_empty : shift "" = "" := rfl

theorem shift_eq_empty_iff (s : String) : shift s = "" ↔ s = "" := by
  constructor
  · intro h
    have hd := congrArg String.data h
    apply String.ext
    cases hs : s.data with
    | nil => rfl
    | cons c cs =>
      simp only [shift, hs, shiftChars] at hd
      split at hd <;> simp at hd
  · rintro rfl
    rfl

theorem shiftChars_of_all (l : List Char) (h : l.all (fun c => c != '\n') = true) :
    shiftChars l = l := by
  induction l with
  | nil => rfl
  | cons c cs ih =>
    simp only [List.all_cons, Bool.and_eq_true, bne_iff_ne, ne_eq] at h
    simp [shiftChars, h.1, ih h.2]

theorem shift_of_noNewline (s : String) (h : noNewline s = true) : shift s = s := by
  apply String.ext
  simp only [shift]
  exact shiftChars_of_all s.data h

theorem noNewline_append (s t : String) (hs : noNewline s = true) (ht : noNewline t = true) :
    noNewline (s ++ t) = true := by
  simp only [noNewline, String.data_append, List.all_append, Bool.and_eq_true] at *
  exact ⟨hs, ht⟩

theorem noNewline_spaces (n : Nat) : noNewline (spaces n) = true := by
  simp [noNewline, spaces]

theorem shift_newlineWithIndentation (ctx : Ctx) :
    shift (newlineWithIndentation ctx) = newlineWithIndentation (raiseIndentLevel ctx) := by
  rw [newlineWithIndentation_eq ctx _ rfl,
    newlineWithIndentation_eq (raiseIndentLevel ctx) (getIndentLevel ctx + 1) rfl,
    shift_append, shift_of_noNewline _ (noNewline_spaces _)]
  apply String.ext
  simp [shift, shiftChars, spaces, Nat.mul_add, List.replicate_succ]

theorem shift_prefixedAll (sep : String) (rs : List String) :
    shift (prefixedAll sep rs) = prefixedAll (shift sep) (rs.map shift) := by
  induction rs with
  | nil => rfl
  | cons r rs ih => simp [prefixedAll, shift_append, ih]

theorem shift_joined (sep : String) (rs : List String) :
    shift (joined sep rs) = joined (shift sep) (rs.map shift) := by
  cases rs with
  | nil => rfl
  | cons r rs => rw [List.map_cons, joined_cons, joined_cons, shift_append, shift_prefixedAll]

theorem forall₂_shift {N : Type} (f g : N → Except Error String) (nodes : List N)
    (h : ∀ n ∈ nodes, ∃ r, f n = .ok r ∧ g n = .ok (shift r)) :
    ∃ rs, List.Forall₂ (fun n r => f n = .ok r) nodes rs ∧
      List.Forall₂ (fun n r => g n = .ok r) nodes (rs.map shift) := by
  induction nodes with
  | nil => exact ⟨[], List.Forall₂.nil, List.Forall₂.nil⟩
  | cons n ns ih =>
    obtain ⟨r, hr, hr2⟩ := h n (List.mem_cons_self n ns)
    obtain ⟨rs, hrs, hrs2⟩ := ih (fun x hx => h x (List.mem_cons_of_mem n hx))
    exact ⟨r :: rs, List.Forall₂.cons hr hrs, List.Forall₂.cons hr2 hrs2⟩

/-- Joining nodes one level deeper, with the separator shifted, shifts the joined text. -/
theorem joinNodes_shift {N : Type} [Node N] (ctx ctx2 : Ctx) (nodes : List N) (sep : String)
    (h : ∀ n ∈ nodes, ∃ r, Node.Marshal n ctx = .ok r ∧ Node.Marshal n ctx2 = .ok (shift r)) :
    ∃ r, joinNodes ctx nodes sep = .ok r ∧ joinNodes ctx2 nodes (shift sep) = .ok (shift r) := by
  obtain ⟨rs, hrs, hrs2⟩ := forall₂_shift (fun n => Node.Marshal n ctx)
    (fun n => Node.Marshal n ctx2) nodes h
  exact ⟨_, joinNodes_ok ctx sep nodes rs hrs,
    by rw [shift_joined]; exact joinNodes_ok ctx2 (shift sep) nodes _ hrs2⟩

/-- As `joinNodes_shift`, for a separator without a line feed. -/
theorem joinNodes_shifts {N : Type} [Node N] (ctx : Ctx) (nodes : List N) (sep : String)
    (hsep : noNewline sep = true) (h : ∀ n ∈ nodes, Shifts (Node.Marshal n)) :
    ∃ r, joinNodes ctx nodes sep = .ok r ∧
      joinNodes (raiseIndentLevel ctx) nodes sep = .ok (shift r) := by
  have := joinNodes_shift ctx (raiseIndentLevel ctx) nodes sep (fun n hn => h n hn ctx)
  rwa [shift_of_noNewline sep hsep] at this

theorem Shifts_const (m : Ctx → Except Error String) (s : String) (hs : noNewline s = true)
    (hm : ∀ ctx, m ctx = .ok s) : Shifts m := by
  intro ctx
  exact ⟨s, hm ctx, by rw [hm, shift_of_noNewline s hs]⟩

theorem shift_ite (c : Prop) [Decidable c] (x y : String) :
    shift (if c then x else y) = if c then shift x else shift y := by
  split <;> rfl

theorem bytes_ite (c : Prop) [Decidable c] (x y : Buffer) :
    (if c then x else y).bytes = if c then x.bytes else y.bytes := by
  split <;> rfl

theorem noNewline_joined (sep : String) (rs : List String) (hsep : noNewline sep = true)
    (h : ∀ r ∈ rs, noNewline r = true) : noNewline (joined sep rs) = true := by
  induction rs with
  | nil => rfl
  | cons r rs ih =>
    cases rs with
    | nil => exact h r (List.mem_cons_self r [])
    | cons r2 rs =>
      rw [joined]
      exact noNewline_append _ _
        (noNewline_append _ _ (h r (List.mem_cons_self r _)) hsep)
        (ih (fun x hx => h x (List.mem_cons_of_mem r hx)))

theorem shift_modifiers (m : Modifiers) (h : ∀ x ∈ m, noNewline x.val = true) :
    shift (joined " " (m.map Modifier.val)) = joined " " (m.map Modifier.val) := by
  apply shift_of_noNewline
  apply noNewline_joined _ _ (by decide)
  intro r hr
  obtain ⟨x, hx, rfl⟩ := List.mem_map.1 hr
  exact h x hx

theorem TypeParameter_shifts (t : TypeParameter) (hv : noNewline t.Variance.val = true)
    (hn : noNewline t.Name.val = true) : Shifts t.Marshal := by
  intro ctx
  have t1 := shift_of_noNewline _ hv
  have t2 := shift_of_noNewline _ hn
  simp only [TypeParameter.Marshal, Identifier.Marshal, ok_bind, pure, Except.pure,
    WriteWithSuffix_app, Buffer.Write, Buffer.Bytes, Buffer.empty, bytes_ite]
  refine ⟨_, rfl, ?_⟩
  simp (disch := decide) only [shift_append, shift_ite, shift_eq_empty_iff, shift_empty, t1, t2,
    shift_of_noNewline]

theorem TypeParameters_shifts (t : TypeParameters)
    (h : ∀ x ∈ t, noNewline x.Variance.val = true ∧ noNewline x.Name.val = true) :
    Shifts (TypeParameters.Marshal t) := by
  intro ctx
  obtain ⟨r, a, b⟩ := joinNodes_shifts ctx t ", " (by decide)
    (fun n hn => TypeParameter_shifts n (h n hn).1 (h n hn).2)
  simp only [TypeParameters.Marshal, a, b, ok_bind, pure, Except.pure,
    WriteWithPrefixSuffix_app, Buffer.Bytes, Buffer.empty]
  refine ⟨_, rfl, ?_⟩
  simp (disch := decide) only [shift_append, shift_ite, shift_eq_empty_iff, shift_empty,
    shift_of_noNewline]

theorem arguments_shifts (o : Option Expressions)
    (h : ∀ a, o = some a → ∀ n ∈ a, Shifts n.Marshal) (a : Expressions) (ha : o = some a)
    (ctx : Ctx) :
    ∃ r, joinNodes ctx a ", " = .ok r ∧ joinNodes (raiseIndentLevel ctx) a ", " = .ok (shift r) :=
  joinNodes_shifts ctx a ", " (by decide) (h a ha)

theorem ObjectMembers_shifts (m : ObjectMembers) (h : ∀ n ∈ m, Shifts n.Marshal) :
    Shifts (ObjectMembers.Marshal m) := by
  intro ctx
  obtain ⟨r, a, b⟩ := joinNodes_shift (raiseIndentLevel ctx)
    (raiseIndentLevel (raiseIndentLevel ctx))
    m (newlineWithIndentation (raiseIndentLevel ctx)) (fun n hn => h n hn _)
  rw [shift_newlineWithIndentation] at b
  simp only [ObjectMembers.Marshal, a, b, ok_bind, pure, Except.pure,
    WriteWithPrefixSuffix_app, WriteWithSuffix_app, WriteWithPrefix_app, WriteRune_fst,
    Buffer.Write, Buffer.WriteString, Buffer.Bytes, Buffer.empty]
  refine ⟨_, rfl, ?_⟩
  simp (disch := decide) only [shift_append, shift_ite, shift_eq_empty_iff, shift_empty,
    shift_newlineWithIndentation, shift_of_noNewline]

theorem Parameter_shifts (p : Parameter) (hName : noNewline p.Name.val = true)
    (hTyp : ∀ x, p.Typ = some x → Shifts x.Marshal) : Shifts p.Marshal := by
  intro ctx
  have t1 := shift_of_noNewline _ hName
  simp only [Parameter.Marshal, Identifier.Marshal, QualifiedIdentifier.Marshal,
    Expressions.Marshal, Modifiers_Marshal_total, ok_bind, pure, Except.pure,
    WriteWithPrefixSuffix_app, WriteWithSuffix_app, WriteWithPrefix_app, WriteRune_fst,
    Buffer.Write, Buffer.WriteString, Buffer.Bytes, Buffer.empty, bytes_ite]
  rcases o1 : p.Typ with _ | x1
  all_goals try have p1 := hTyp x1 o1 ctx
  all_goals try rcases p1 with ⟨s1, c1, d1⟩
  all_goals try simp only [*, ok_bind, pure, Except.pure, WriteWithPrefixSuffix_app,
      WriteWithSuffix_app, WriteWithPrefix_app, WriteRune_fst, Buffer.Write, Buffer.WriteString,
      Buffer.Bytes, Buffer.empty, bytes_ite]
  all_goals refine ⟨_, rfl, ?_⟩
  all_goals simp (disch := decide) only [shift_append, shift_ite, shift_eq_empty_iff, shift_empty,
      t1, shift_newlineWithIndentation, shift_of_noNewline]

theorem ObjectBody_shifts (o : ObjectBody) (hParameters : ∀ n ∈ o.Parameters, Shifts n.Marshal)
    (hMembers : ∀ n ∈ o.Members, Shifts n.Marshal) : Shifts o.Marshal := by
  intro ctx
  obtain ⟨r1, a1, b1⟩ := joinNodes_shifts ctx o.Parameters ", " (by decide) hParameters
  obtain ⟨r2, a2, b2⟩ := ObjectMembers_shifts o.Members hMembers ctx
  simp only [ObjectBody.Marshal, Identifier.Marshal, QualifiedIdentifier.Marshal,
    Expressions.Marshal, Modifiers_Marshal_total, a1, b1, a2, b2, ok_bind, pure, Except.pure,
    WriteWithPrefixSuffix_app, WriteWithSuffix_app, WriteWithPrefix_app, WriteRune_fst,
    Buffer.Write, Buffer.WriteString, Buffer.Bytes, Buffer.empty, bytes_ite]
  all_goals refine ⟨_, rfl, ?_⟩
  all_goals simp (disch := decide) only [shift_append, shift_ite, shift_eq_empty_iff, shift_empty,
      shift_newlineWithIndentation, shift_of_noNewline]

theorem ObjectProperty_shifts (p : ObjectProperty)
    (hModifiers : ∀ x ∈ p.Modifiers, noNewline x.val = true)
    (hName : noNewline p.Name.val = true) (hBody : ∀ n ∈ p.Body, Shifts n.Marshal)
    (hTyp : ∀ x, p.Typ = some x → Shifts x.Marshal)
    (hValue : ∀ x, p.Value = some x → Shifts x.Marshal) : Shifts p.Marshal := by
  intro ctx
  have t1 := shift_modifiers p.Modifiers hModifiers
  have t2 := shift_of_noNewline _ hName
  obtain ⟨r3, a3, b3⟩ := joinNodes_shifts ctx p.Body " " (by decide) hBody
  simp only [ObjectProperty.Marshal, Identifier.Marshal, QualifiedIdentifier.Marshal,
    Expressions.Marshal, Modifiers_Marshal_total, a3, b3, ok_bind, pure, Except.pure,
    WriteWithPrefixSuffix_app, WriteWithSuffix_app, WriteWithPrefix_app, WriteRune_fst,
    Buffer.Write, Buffer.WriteString, Buffer.Bytes, Buffer.empty, bytes_ite]
  rcases o1 : p.Typ with _ | x1 <;> rcases o2 : p.Value with _ | x2
  all_goals try have p1 := hTyp x1 o1 ctx
  all_goals try have p2 := hValue x2 o2 ctx
  all_goals try rcases p1 with ⟨s1, c1, d1⟩
  all_goals try rcases p2 with ⟨s2, c2, d2⟩
  all_goals try simp only [*, ok_bind, pure, Except.pure, WriteWithPrefixSuffix_app,
      WriteWithSuffix_app, WriteWithPrefix_app, WriteRune_fst, Buffer.Write, Buffer.WriteString,
      Buffer.Bytes, Buffer.empty, bytes_ite]
  all_goals refine ⟨_, rfl, ?_⟩
  all_goals simp (disch := decide) only [shift_append, shift_ite, shift_eq_empty_iff, shift_empty,
      t1, t2, shift_newlineWithIndentation, shift_of_noNewline]

theorem ForGenerator_shifts (m : ForGenerator) (hValue : Shifts m.Value.Marshal)
    (hCollection : Shifts m.Collection.Marshal) (hBody : Shifts m.Body.Marshal)
    (hKey : ∀ x, m.Key = some x → Shifts x.Marshal) : Shifts m.Marshal := by
  intro ctx
  obtain ⟨r1, a1, b1⟩ := hValue ctx
  obtain ⟨r2, a2, b2⟩ := hCollection ctx
  obtain ⟨r3, a3, b3⟩ := hBody ctx
  simp only [ForGenerator.Marshal, Identifier.Marshal, QualifiedIdentifier.Marshal,
    Expressions.Marshal, Modifiers_Marshal_total, a1, b1, a2, b2, a3, b3, ok_bind, pure,
    Except.pure, WriteWithPrefixSuffix_app, WriteWithSuffix_app, WriteWithPrefix_app,
    WriteRune_fst, Buffer.Write, Buffer.WriteString, Buffer.Bytes, Buffer.empty, bytes_ite]
  rcases o1 : m.Key with _ | x1
  all_goals try have p1 := hKey x1 o1 ctx
  all_goals try rcases p1 with ⟨s1, c1, d1⟩
  all_goals try simp only [*, ok_bind, pure, Except.pure, WriteWithPrefixSuffix_app,
      WriteWithSuffix_app, WriteWithPrefix_app, WriteRune_fst, Buffer.Write, Buffer.WriteString,
      Buffer.Bytes, Buffer.empty, bytes_ite]
  all_goals refine ⟨_, rfl, ?_⟩
  all_goals simp (disch := decide) only [shift_append, shift_ite, shift_eq_empty_iff, shift_empty,
      shift_newlineWithIndentation, shift_of_noNewline]

theorem WhenGenerator_shifts (m : WhenGenerator) (hCondition : Shifts m.Condition.Marshal)
    (hThen : Shifts m.Then.Marshal) (hElse : ∀ x, m.Else = some x → Shifts x.Marshal) :
    Shifts m.Marshal := by
  intro ctx
  obtain ⟨r1, a1, b1⟩ := hCondition ctx
  obtain ⟨r2, a2, b2⟩ := hThen ctx
  simp only [WhenGenerator.Marshal, Identifier.Marshal, QualifiedIdentifier.Marshal,
    Expressions.Marshal, Modifiers_Marshal_total, a1, b1, a2, b2, ok_bind, pure, Except.pure,
    WriteWithPrefixSuffix_app, WriteWithSuffix_app, WriteWithPrefix_app, WriteRune_fst,
    Buffer.Write, Buffer.WriteString, Buffer.Bytes, Buffer.empty, bytes_ite]
  rcases o1 : m.Else with _ | x1
  all_goals try have p1 := hElse x1 o1 ctx
  all_goals try rcases p1 with ⟨s1, c1, d1⟩
  all_goals try simp only [*, ok_bind, pure, Except.pure, WriteWithPrefixSuffix_app,
      WriteWithSuffix_app, WriteWithPrefix_app, WriteRune_fst, Buffer.Write, Buffer.WriteString,
      Buffer.Bytes, Buffer.empty, bytes_ite]
  all_goals refine ⟨_, rfl, ?_⟩
  all_goals simp (disch := decide) only [shift_append, shift_ite, shift_eq_empty_iff, shift_empty,
      shift_newlineWithIndentation, shift_of_noNewline]

theorem MethodSignature_shifts (m : MethodSignature)
    (hModifiers : ∀ x ∈ m.Modifiers, noNewline x.val = true)
    (hName : noNewline m.Name.val = true)
    (hTypeParameters : ∀ x ∈ m.TypeParameters, noNewline x.Variance.val = true ∧
      noNewline x.Name.val = true)
    (hParameters : ∀ n ∈ m.Parameters, Shifts n.Marshal)
    (hResult : ∀ x, m.Result = some x → Shifts x.Marshal) : Shifts m.Marshal := by
  intro ctx
  have t1 := shift_modifiers m.Modifiers hModifiers
  have t2 := shift_of_noNewline _ hName
  obtain ⟨r3, a3, b3⟩ := TypeParameters_shifts m.TypeParameters hTypeParameters ctx
  obtain ⟨r4, a4, b4⟩ := joinNodes_shifts ctx m.Parameters ", " (by decide) hParameters
  simp only [MethodSignature.Marshal, Identifier.Marshal, QualifiedIdentifier.Marshal,
    Expressions.Marshal, Modifiers_Marshal_total, a3, b3, a4, b4, ok_bind, pure, Except.pure,
    WriteWithPrefixSuffix_app, WriteWithSuffix_app, WriteWithPrefix_app, WriteRune_fst,
    Buffer.Write, Buffer.WriteString, Buffer.Bytes, Buffer.empty, bytes_ite]
  rcases o1 : m.Result with _ | x1
  all_goals try have p1 := hResult x1 o1 ctx
  all_goals try rcases p1 with ⟨s1, c1, d1⟩
  all_goals try simp only [*, ok_bind, pure, Except.pure, WriteWithPrefixSuffix_app,
      WriteWithSuffix_app, WriteWithPrefix_app, WriteRune_fst, Buffer.Write, Buffer.WriteString,
      Buffer.Bytes, Buffer.empty, bytes_ite]
  all_goals refine ⟨_, rfl, ?_⟩
  all_goals simp (disch := decide) only [shift_append, shift_ite, shift_eq_empty_iff, shift_empty,
      t1, t2, shift_newlineWithIndentation, shift_of_noNewline]

theorem ObjectMethod_shifts (m : ObjectMethod) (hSignature : Shifts m.Signature.Marshal)
    (hValue : Shifts m.Value.Marshal) : Shifts m.Marshal := by
  intro ctx
  obtain ⟨r1, a1, b1⟩ := hSignature ctx
  obtain ⟨r2, a2, b2⟩ := hValue ctx
  simp only [ObjectMethod.Marshal, Identifier.Marshal, QualifiedIdentifier.Marshal,
    Expressions.Marshal, Modifiers_Marshal_total, a1, b1, a2, b2, ok_bind, pure, Except.pure,
    WriteWithPrefixSuffix_app, WriteWithSuffix_app, WriteWithPrefix_app, WriteRune_fst,
    Buffer.Write, Buffer.WriteString, Buffer.Bytes, Buffer.empty, bytes_ite]
  all_goals refine ⟨_, rfl, ?_⟩
  all_goals simp (disch := decide) only [shift_append, shift_ite, shift_eq_empty_iff, shift_empty,
      shift_newlineWithIndentation, shift_of_noNewline]

theorem ObjectEntry_shifts (m : ObjectEntry) (hKey : Shifts m.Key.Marshal)
    (hBody : ∀ n ∈ m.Body, Shifts n.Marshal) (hValue : ∀ x, m.Value = some x → Shifts x.Marshal)
    : Shifts m.Marshal := by
  intro ctx
  obtain ⟨r1, a1, b1⟩ := hKey ctx
  obtain ⟨r2, a2, b2⟩ := joinNodes_shifts ctx m.Body " " (by decide) hBody
  simp only [ObjectEntry.Marshal, Identifier.Marshal, QualifiedIdentifier.Marshal,
    Expressions.Marshal, Modifiers_Marshal_total, a1, b1, a2, b2, ok_bind, pure, Except.pure,
    WriteWithPrefixSuffix_app, WriteWithSuffix_app, WriteWithPrefix_app, WriteRune_fst,
    Buffer.Write, Buffer.WriteString, Buffer.Bytes, Buffer.empty, bytes_ite]
  rcases o1 : m.Value with _ | x1
  all_goals try have p1 := hValue x1 o1 ctx
  all_goals try rcases p1 with ⟨s1, c1, d1⟩
  all_goals try simp only [*, ok_bind, pure, Except.pure, WriteWithPrefixSuffix_app,
      WriteWithSuffix_app, WriteWithPrefix_app, WriteRune_fst, Buffer.Write, Buffer.WriteString,
      Buffer.Bytes, Buffer.empty, bytes_ite]
  all_goals refine ⟨_, rfl, ?_⟩
  all_goals simp (disch := decide) only [shift_append, shift_ite, shift_eq_empty_iff, shift_empty,
      shift_newlineWithIndentation, shift_of_noNewline]

theorem ObjectElement_shifts (m : ObjectElement) (hValue : Shifts m.Value.Marshal) :
    Shifts m.Marshal := by
  intro ctx
  obtain ⟨r1, a1, b1⟩ := hValue ctx
  simp only [ObjectElement.Marshal, Identifier.Marshal, QualifiedIdentifier.Marshal,
    Expressions.Marshal, Modifiers_Marshal_total, a1, b1, ok_bind, pure, Except.pure,
    WriteWithPrefixSuffix_app, WriteWithSuffix_app, WriteWithPrefix_app, WriteRune_fst,
    Buffer.Write, Buffer.WriteString, Buffer.Bytes, Buffer.empty, bytes_ite]
  all_goals refine ⟨_, rfl, ?_⟩
  all_goals simp (disch := decide) only [shift_append, shift_ite, shift_eq_empty_iff, shift_empty,
      shift_newlineWithIndentation, shift_of_noNewline]

theorem ObjectSpread_shifts (m : ObjectSpread) (hValue : Shifts m.Value.Marshal) :
    Shifts m.Marshal := by
  intro ctx
  obtain ⟨r1, a1, b1⟩ := hValue ctx
  simp only [ObjectSpread.Marshal, Identifier.Marshal, QualifiedIdentifier.Marshal,
    Expressions.Marshal, Modifiers_Marshal_total, a1, b1, ok_bind, pure, Except.pure,
    WriteWithPrefixSuffix_app, WriteWithSuffix_app, WriteWithPrefix_app, WriteRune_fst,
    Buffer.Write, Buffer.WriteString, Buffer.Bytes, Buffer.empty, bytes_ite]
  all_goals refine ⟨_, rfl, ?_⟩
  all_goals simp (disch := decide) only [shift_append, shift_ite, shift_eq_empty_iff, shift_empty,
      shift_newlineWithIndentation, shift_of_noNewline]

theorem MemberPredicate_shifts (m : MemberPredicate) (hCondition : Shifts m.Condition.Marshal)
    (hBody : ∀ n ∈ m.Body, Shifts n.Marshal) (hValue : ∀ x, m.Value = some x → Shifts x.Marshal)
    : Shifts m.Marshal := by
  intro ctx
  obtain ⟨r1, a1, b1⟩ := hCondition ctx
  obtain ⟨r2, a2, b2⟩ := joinNodes_shifts ctx m.Body " " (by decide) hBody
  simp only [MemberPredicate.Marshal, Identifier.Marshal, QualifiedIdentifier.Marshal,
    Expressions.Marshal, Modifiers_Marshal_total, a1, b1, a2, b2, ok_bind, pure, Except.pure,
    WriteWithPrefixSuffix_app, WriteWithSuffix_app, WriteWithPrefix_app, WriteRune_fst,
    Buffer.Write, Buffer.WriteString, Buffer.Bytes, Buffer.empty, bytes_ite]
  rcases o1 : m.Value with _ | x1
  all_goals try have p1 := hValue x1 o1 ctx
  all_goals try rcases p1 with ⟨s1, c1, d1⟩
  all_goals try simp only [*, ok_bind, pure, Except.pure, WriteWithPrefixSuffix_app,
      WriteWithSuffix_app, WriteWithPrefix_app, WriteRune_fst, Buffer.Write, Buffer.WriteString,
      Buffer.Bytes, Buffer.empty, bytes_ite]
  all_goals refine ⟨_, rfl, ?_⟩
  all_goals simp (disch := decide) only [shift_append, shift_ite, shift_eq_empty_iff, shift_empty,
      shift_newlineWithIndentation, shift_of_noNewline]

theorem PrefixUnaryExpression_shifts (e : PrefixUnaryExpression)
    (hOperator : noNewline e.Operator.val = true) (hOperand : Shifts e.Operand.Marshal) :
    Shifts e.Marshal := by
  intro ctx
  have t1 := shift_of_noNewline _ hOperator
  obtain ⟨r2, a2, b2⟩ := hOperand ctx
  simp only [PrefixUnaryExpression.Marshal, Identifier.Marshal, QualifiedIdentifier.Marshal,
    Expressions.Marshal, Modifiers_Marshal_total, a2, b2, ok_bind, pure, Except.pure,
    WriteWithPrefixSuffix_app, WriteWithSuffix_app, WriteWithPrefix_app, WriteRune_fst,
    Buffer.Write, Buffer.WriteString, Buffer.Bytes, Buffer.empty, bytes_ite]
  all_goals refine ⟨_, rfl, ?_⟩
  all_goals simp (disch := decide) only [shift_append, shift_ite, shift_eq_empty_iff, shift_empty,
      t1, shift_newlineWithIndentation, shift_of_noNewline]

theorem PostfixUnaryExpression_shifts (e : PostfixUnaryExpression)
    (hOperator : noNewline e.Operator.val = true) (hOperand : Shifts e.Operand.Marshal) :
    Shifts e.Marshal := by
  intro ctx
  have t1 := shift_of_noNewline _ hOperator
  obtain ⟨r2, a2, b2⟩ := hOperand ctx
  simp only [PostfixUnaryExpression.Marshal, Identifier.Marshal, QualifiedIdentifier.Marshal,
    Expressions.Marshal, Modifiers_Marshal_total, a2, b2, ok_bind, pure, Except.pure,
    WriteWithPrefixSuffix_app, WriteWithSuffix_app, WriteWithPrefix_app, WriteRune_fst,
    Buffer.Write, Buffer.WriteString, Buffer.Bytes, Buffer.empty, bytes_ite]
  all_goals refine ⟨_, rfl, ?_⟩
  all_goals simp (disch := decide) only [shift_append, shift_ite, shift_eq_empty_iff, shift_empty,
      t1, shift_newlineWithIndentation, shift_of_noNewline]

theorem BinaryExpression_shifts (e : BinaryExpression)
    (hOperator : noNewline e.Operator.val = true) (hLeft : Shifts e.Left.Marshal)
    (hRight : Shifts e.Right.Marshal) : Shifts e.Marshal := by
  intro ctx
  have t1 := shift_of_noNewline _ hOperator
  obtain ⟨r2, a2, b2⟩ := hLeft ctx
  obtain ⟨r3, a3, b3⟩ := hRight ctx
  simp only [BinaryExpression.Marshal, Identifier.Marshal, QualifiedIdentifier.Marshal,
    Expressions.Marshal, Modifiers_Marshal_total, a2, b2, a3, b3, ok_bind, pure, Except.pure,
    WriteWithPrefixSuffix_app, WriteWithSuffix_app, WriteWithPrefix_app, WriteRune_fst,
    Buffer.Write, Buffer.WriteString, Buffer.Bytes, Buffer.empty, bytes_ite]
  all_goals refine ⟨_, rfl, ?_⟩
  all_goals simp (disch := decide) only [shift_append, shift_ite, shift_eq_empty_iff, shift_empty,
      t1, shift_newlineWithIndentation, shift_of_noNewline]

theorem TypeExpression_shifts (e : TypeExpression) (hOperator : noNewline e.Operator.val = true)
    (hExpression : Shifts e.Expression.Marshal) (hTyp : Shifts e.Typ.Marshal) :
    Shifts e.Marshal := by
  intro ctx
  have t1 := shift_of_noNewline _ hOperator
  obtain ⟨r2, a2, b2⟩ := hExpression ctx
  obtain ⟨r3, a3, b3⟩ := hTyp ctx
  simp only [TypeExpression.Marshal, Identifier.Marshal, QualifiedIdentifier.Marshal,
    Expressions.Marshal, Modifiers_Marshal_total, a2, b2, a3, b3, ok_bind, pure, Except.pure,
    WriteWithPrefixSuffix_app, WriteWithSuffix_app, WriteWithPrefix_app, WriteRune_fst,
    Buffer.Write, Buffer.WriteString, Buffer.Bytes, Buffer.empty, bytes_ite]
  all_goals refine ⟨_, rfl, ?_⟩
  all_goals simp (disch := decide) only [shift_append, shift_ite, shift_eq_empty_iff, shift_empty,
      t1, shift_newlineWithIndentation, shift_of_noNewline]

theorem MemberAccessExpression_shifts (e : MemberAccessExpression)
    (hName : noNewline e.Name.val = true)
    (hArguments : ∀ a, e.Arguments = some a → ∀ n ∈ a, Shifts n.Marshal) :
    Shifts e.Marshal := by
  intro ctx
  have t1 := shift_of_noNewline _ hName
  simp only [MemberAccessExpression.Marshal, Identifier.Marshal, QualifiedIdentifier.Marshal,
    Expressions.Marshal, Modifiers_Marshal_total, ok_bind, pure, Except.pure,
    WriteWithPrefixSuffix_app, WriteWithSuffix_app, WriteWithPrefix_app, WriteRune_fst,
    Buffer.Write, Buffer.WriteString, Buffer.Bytes, Buffer.empty, bytes_ite]
  rcases o1 : e.Arguments with _ | x1
  all_goals try have p1 := arguments_shifts e.Arguments hArguments x1 o1 ctx
  all_goals try rcases p1 with ⟨s1, c1, d1⟩
  all_goals try simp only [*, ok_bind, pure, Except.pure, WriteWithPrefixSuffix_app,
      WriteWithSuffix_app, WriteWithPrefix_app, WriteRune_fst, Buffer.Write, Buffer.WriteString,
      Buffer.Bytes, Buffer.empty, bytes_ite]
  all_goals refine ⟨_, rfl, ?_⟩
  all_goals simp (disch := decide) only [shift_append, shift_ite, shift_eq_empty_iff, shift_empty,
      t1, shift_newlineWithIndentation, shift_of_noNewline]

theorem QualifiedMemberAccessExpression_shifts (e : QualifiedMemberAccessExpression)
    (hReceiver : Shifts e.Receiver.Marshal) (hName : noNewline e.Name.val = true)
    (hArguments : ∀ a, e.Arguments = some a → ∀ n ∈ a, Shifts n.Marshal) :
    Shifts e.Marshal := by
  intro ctx
  obtain ⟨r1, a1, b1⟩ := hReceiver ctx
  have t2 := shift_of_noNewline _ hName
  simp only [QualifiedMemberAccessExpression.Marshal, Identifier.Marshal,
    QualifiedIdentifier.Marshal, Expressions.Marshal, Modifiers_Marshal_total, a1, b1, ok_bind,
    pure, Except.pure, WriteWithPrefixSuffix_app, WriteWithSuffix_app, WriteWithPrefix_app,
    WriteRune_fst, Buffer.Write, Buffer.WriteString, Buffer.Bytes, Buffer.empty, bytes_ite]
  rcases o1 : e.Arguments with _ | x1
  all_goals try have p1 := arguments_shifts e.Arguments hArguments x1 o1 ctx
  all_goals try rcases p1 with ⟨s1, c1, d1⟩
  all_goals try simp only [*, ok_bind, pure, Except.pure, WriteWithPrefixSuffix_app,
      WriteWithSuffix_app, WriteWithPrefix_app, WriteRune_fst, Buffer.Write, Buffer.WriteString,
      Buffer.Bytes, Buffer.empty, bytes_ite]
  all_goals refine ⟨_, rfl, ?_⟩
  all_goals simp (disch := decide) only [shift_append, shift_ite, shift_eq_empty_iff, shift_empty,
      t2, shift_newlineWithIndentation, shift_of_noNewline]

theorem SuperAccessExpression_shifts (e : SuperAccessExpression)
    (hName : noNewline e.Name.val = true)
    (hArguments : ∀ a, e.Arguments = some a → ∀ n ∈ a, Shifts n.Marshal) :
    Shifts e.Marshal := by
  intro ctx
  have t1 := shift_of_noNewline _ hName
  simp only [SuperAccessExpression.Marshal, Identifier.Marshal, QualifiedIdentifier.Marshal,
    Expressions.Marshal, Modifiers_Marshal_total, ok_bind, pure, Except.pure,
    WriteWithPrefixSuffix_app, WriteWithSuffix_app, WriteWithPrefix_app, WriteRune_fst,
    Buffer.Write, Buffer.WriteString, Buffer.Bytes, Buffer.empty, bytes_ite]
  rcases o1 : e.Arguments with _ | x1
  all_goals try have p1 := arguments_shifts e.Arguments hArguments x1 o1 ctx
  all_goals try rcases p1 with ⟨s1, c1, d1⟩
  all_goals try simp only [*, ok_bind, pure, Except.pure, WriteWithPrefixSuffix_app,
      WriteWithSuffix_app, WriteWithPrefix_app, WriteRune_fst, Buffer.Write, Buffer.WriteString,
      Buffer.Bytes, Buffer.empty, bytes_ite]
  all_goals refine ⟨_, rfl, ?_⟩
  all_goals simp (disch := decide) only [shift_append, shift_ite, shift_eq_empty_iff, shift_empty,
      t1, shift_newlineWithIndentation, shift_of_noNewline]

theorem SubscriptExpression_shifts (e : SubscriptExpression)
    (hReceiver : Shifts e.Receiver.Marshal) (hSubscript : Shifts e.Subscript.Marshal) :
    Shifts e.Marshal := by
  intro ctx
  obtain ⟨r1, a1, b1⟩ := hReceiver ctx
  obtain ⟨r2, a2, b2⟩ := hSubscript ctx
  simp only [SubscriptExpression.Marshal, Identifier.Marshal, QualifiedIdentifier.Marshal,
    Expressions.Marshal, Modifiers_Marshal_total, a1, b1, a2, b2, ok_bind, pure, Except.pure,
    WriteWithPrefixSuffix_app, WriteWithSuffix_app, WriteWithPrefix_app, WriteRune_fst,
    Buffer.Write, Buffer.WriteString, Buffer.Bytes, Buffer.empty, bytes_ite]
  all_goals refine ⟨_, rfl, ?_⟩
  all_goals simp (disch := decide) only [shift_append, shift_ite, shift_eq_empty_iff, shift_empty,
      shift_newlineWithIndentation, shift_of_noNewline]

theorem SuperSubscriptExpression_shifts (e : SuperSubscriptExpression)
    (hSubscript : Shifts e.Subscript.Marshal) : Shifts e.Marshal := by
  intro ctx
  obtain ⟨r1, a1, b1⟩ := hSubscript ctx
  simp only [SuperSubscriptExpression.Marshal, Identifier.Marshal, QualifiedIdentifier.Marshal,
    Expressions.Marshal, Modifiers_Marshal_total, a1, b1, ok_bind, pure, Except.pure,
    WriteWithPrefixSuffix_app, WriteWithSuffix_app, WriteWithPrefix_app, WriteRune_fst,
    Buffer.Write, Buffer.WriteString, Buffer.Bytes, Buffer.empty, bytes_ite]
  all_goals refine ⟨_, rfl, ?_⟩
  all_goals simp (disch := decide) only [shift_append, shift_ite, shift_eq_empty_iff, shift_empty,
      shift_newlineWithIndentation, shift_of_noNewline]

theorem ParenthesizedExpression_shifts (e : ParenthesizedExpression)
    (hExpression : Shifts e.Expression.Marshal) : Shifts e.Marshal := by
  intro ctx
  obtain ⟨r1, a1, b1⟩ := hExpression ctx
  simp only [ParenthesizedExpression.Marshal, Identifier.Marshal, QualifiedIdentifier.Marshal,
    Expressions.Marshal, Modifiers_Marshal_total, a1, b1, ok_bind, pure, Except.pure,
    WriteWithPrefixSuffix_app, WriteWithSuffix_app, WriteWithPrefix_app, WriteRune_fst,
    Buffer.Write, Buffer.WriteString, Buffer.Bytes, Buffer.empty, bytes_ite]
  all_goals refine ⟨_, rfl, ?_⟩
  all_goals simp (disch := decide) only [shift_append, shift_ite, shift_eq_empty_iff, shift_empty,
      shift_newlineWithIndentation, shift_of_noNewline]

theorem NewExpression_shifts (e : NewExpression) (hBody : Shifts e.Body.Marshal)
    (hTyp : ∀ x, e.Typ = some x → Shifts x.Marshal) : Shifts e.Marshal := by
  intro ctx
  obtain ⟨r1, a1, b1⟩ := hBody ctx
  simp only [NewExpression.Marshal, Identifier.Marshal, QualifiedIdentifier.Marshal,
    Expressions.Marshal, Modifiers_Marshal_total, a1, b1, ok_bind, pure, Except.pure,
    WriteWithPrefixSuffix_app, WriteWithSuffix_app, WriteWithPrefix_app, WriteRune_fst,
    Buffer.Write, Buffer.WriteString, Buffer.Bytes, Buffer.empty, bytes_ite]
  rcases o1 : e.Typ with _ | x1
  all_goals try have p1 := hTyp x1 o1 ctx
  all_goals try rcases p1 with ⟨s1, c1, d1⟩
  all_goals try simp only [*, ok_bind, pure, Except.pure, WriteWithPrefixSuffix_app,
      WriteWithSuffix_app, WriteWithPrefix_app, WriteRune_fst, Buffer.Write, Buffer.WriteString,
      Buffer.Bytes, Buffer.empty, bytes_ite]
  all_goals refine ⟨_, rfl, ?_⟩
  all_goals simp (disch := decide) only [shift_append, shift_ite, shift_eq_empty_iff, shift_empty,
      shift_newlineWithIndentation, shift_of_noNewline]

theorem AmendExpression_shifts (e : AmendExpression) (hParent : Shifts e.Parent.Marshal)
    (hBody : Shifts e.Body.Marshal) : Shifts e.Marshal := by
  intro ctx
  obtain ⟨r1, a1, b1⟩ := hParent ctx
  obtain ⟨r2, a2, b2⟩ := hBody ctx
  simp only [AmendExpression.Marshal, Identifier.Marshal, QualifiedIdentifier.Marshal,
    Expressions.Marshal, Modifiers_Marshal_total, a1, b1, a2, b2, ok_bind, pure, Except.pure,
    WriteWithPrefixSuffix_app, WriteWithSuffix_app, WriteWithPrefix_app, WriteRune_fst,
    Buffer.Write, Buffer.WriteString, Buffer.Bytes, Buffer.empty, bytes_ite]
  all_goals refine ⟨_, rfl, ?_⟩
  all_goals simp (disch := decide) only [shift_append, shift_ite, shift_eq_empty_iff, shift_empty,
      shift_newlineWithIndentation, shift_of_noNewline]

theorem IfExpression_shifts (e : IfExpression) (hCondition : Shifts e.Condition.Marshal)
    (hThen : Shifts e.Then.Marshal) (hElse : Shifts e.Else.Marshal) : Shifts e.Marshal := by
  intro ctx
  obtain ⟨r1, a1, b1⟩ := hCondition ctx
  obtain ⟨r2, a2, b2⟩ := hThen ctx
  obtain ⟨r3, a3, b3⟩ := hElse ctx
  simp only [IfExpression.Marshal, Identifier.Marshal, QualifiedIdentifier.Marshal,
    Expressions.Marshal, Modifiers_Marshal_total, a1, b1, a2, b2, a3, b3, ok_bind, pure,
    Except.pure, WriteWithPrefixSuffix_app, WriteWithSuffix_app, WriteWithPrefix_app,
    WriteRune_fst, Buffer.Write, Buffer.WriteString, Buffer.Bytes, Buffer.empty, bytes_ite]
  all_goals refine ⟨_, rfl, ?_⟩
  all_goals simp (disch := decide) only [shift_append, shift_ite, shift_eq_empty_iff, shift_empty,
      shift_newlineWithIndentation, shift_of_noNewline]

theorem LetExpression_shifts (e : LetExpression) (hName : Shifts e.Name.Marshal)
    (hValue : Shifts e.Value.Marshal) (hExpression : Shifts e.Expression.Marshal) :
    Shifts e.Marshal := by
  intro ctx
  obtain ⟨r1, a1, b1⟩ := hName ctx
  obtain ⟨r2, a2, b2⟩ := hValue ctx
  obtain ⟨r3, a3, b3⟩ := hExpression ctx
  simp only [LetExpression.Marshal, Identifier.Marshal, QualifiedIdentifier.Marshal,
    Expressions.Marshal, Modifiers_Marshal_total, a1, b1, a2, b2, a3, b3, ok_bind, pure,
    Except.pure, WriteWithPrefixSuffix_app, WriteWithSuffix_app, WriteWithPrefix_app,
    WriteRune_fst, Buffer.Write, Buffer.WriteString, Buffer.Bytes, Buffer.empty, bytes_ite]
  all_goals refine ⟨_, rfl, ?_⟩
  all_goals simp (disch := decide) only [shift_append, shift_ite, shift_eq_empty_iff, shift_empty,
      shift_newlineWithIndentation, shift_of_noNewline]

theorem ReadExpression_shifts (e : ReadExpression) (hValue : Shifts e.Value.Marshal) :
    Shifts e.Marshal := by
  intro ctx
  obtain ⟨r1, a1, b1⟩ := hValue ctx
  simp only [ReadExpression.Marshal, Identifier.Marshal, QualifiedIdentifier.Marshal,
    Expressions.Marshal, Modifiers_Marshal_total, a1, b1, ok_bind, pure, Except.pure,
    WriteWithPrefixSuffix_app, WriteWithSuffix_app, WriteWithPrefix_app, WriteRune_fst,
    Buffer.Write, Buffer.WriteString, Buffer.Bytes, Buffer.empty, bytes_ite]
  all_goals refine ⟨_, rfl, ?_⟩
  all_goals simp (disch := decide) only [shift_append, shift_ite, shift_eq_empty_iff, shift_empty,
      shift_newlineWithIndentation, shift_of_noNewline]

theorem ThrowExpression_shifts (e : ThrowExpression) (hValue : Shifts e.Value.Marshal) :
    Shifts e.Marshal := by
  intro ctx
  obtain ⟨r1, a1, b1⟩ := hValue ctx
  simp only [ThrowExpression.Marshal, Identifier.Marshal, QualifiedIdentifier.Marshal,
    Expressions.Marshal, Modifiers_Marshal_total, a1, b1, ok_bind, pure, Except.pure,
    WriteWithPrefixSuffix_app, WriteWithSuffix_app, WriteWithPrefix_app, WriteRune_fst,
    Buffer.Write, Buffer.WriteString, Buffer.Bytes, Buffer.empty, bytes_ite]
  all_goals refine ⟨_, rfl, ?_⟩
  all_goals simp (disch := decide) only [shift_append, shift_ite, shift_eq_empty_iff, shift_empty,
      shift_newlineWithIndentation, shift_of_noNewline]

theorem TraceExpression_shifts (e : TraceExpression) (hValue : Shifts e.Value.Marshal) :
    Shifts e.Marshal := by
  intro ctx
  obtain ⟨r1, a1, b1⟩ := hValue ctx
  simp only [TraceExpression.Marshal, Identifier.Marshal, QualifiedIdentifier.Marshal,
    Expressions.Marshal, Modifiers_Marshal_total, a1, b1, ok_bind, pure, Except.pure,
    WriteWithPrefixSuffix_app, WriteWithSuffix_app, WriteWithPrefix_app, WriteRune_fst,
    Buffer.Write, Buffer.WriteString, Buffer.Bytes, Buffer.empty, bytes_ite]
  all_goals refine ⟨_, rfl, ?_⟩
  all_goals simp (disch := decide) only [shift_append, shift_ite, shift_eq_empty_iff, shift_empty,
      shift_newlineWithIndentation, shift_of_noNewline]

theorem DeclaredType_shifts (t : DeclaredType) (hName : noNewline t.Name.val = true)
    (hTypeParameters : ∀ n ∈ t.TypeParameters, Shifts n.Marshal) : Shifts t.Marshal := by
  intro ctx
  have t1 := shift_of_noNewline _ hName
  obtain ⟨r2, a2, b2⟩ := joinNodes_shifts ctx t.TypeParameters ", " (by decide) hTypeParameters
  by_cases hlen : t.TypeParameters.length > 0
  all_goals simp only [DeclaredType.Marshal, Identifier.Marshal, QualifiedIdentifier.Marshal,
      Expressions.Marshal, Modifiers_Marshal_total, hlen, if_true, if_false, a2, b2, ok_bind,
      pure, Except.pure, WriteWithPrefixSuffix_app, WriteWithSuffix_app, WriteWithPrefix_app,
      WriteRune_fst, Buffer.Write, Buffer.WriteString, Buffer.Bytes, Buffer.empty, bytes_ite]
  all_goals refine ⟨_, rfl, ?_⟩
  all_goals simp (disch := decide) only [shift_append, shift_ite, shift_eq_empty_iff, shift_empty,
      t1, shift_newlineWithIndentation, shift_of_noNewline]

theorem ParenthesizedType_shifts (t : ParenthesizedType) (hTyp : Shifts t.Typ.Marshal) :
    Shifts t.Marshal := by
  intro ctx
  obtain ⟨r1, a1, b1⟩ := hTyp ctx
  simp only [ParenthesizedType.Marshal, Identifier.Marshal, QualifiedIdentifier.Marshal,
    Expressions.Marshal, Modifiers_Marshal_total, a1, b1, ok_bind, pure, Except.pure,
    WriteWithPrefixSuffix_app, WriteWithSuffix_app, WriteWithPrefix_app, WriteRune_fst,
    Buffer.Write, Buffer.WriteString, Buffer.Bytes, Buffer.empty, bytes_ite]
  all_goals refine ⟨_, rfl, ?_⟩
  all_goals simp (disch := decide) only [shift_append, shift_ite, shift_eq_empty_iff, shift_empty,
      shift_newlineWithIndentation, shift_of_noNewline]

theorem NullableType_shifts (t : NullableType) (hTyp : Shifts t.Typ.Marshal) :
    Shifts t.Marshal := by
  intro ctx
  obtain ⟨r1, a1, b1⟩ := hTyp ctx
  simp only [NullableType.Marshal, Identifier.Marshal, QualifiedIdentifier.Marshal,
    Expressions.Marshal, Modifiers_Marshal_total, a1, b1, ok_bind, pure, Except.pure,
    WriteWithPrefixSuffix_app, WriteWithSuffix_app, WriteWithPrefix_app, WriteRune_fst,
    Buffer.Write, Buffer.WriteString, Buffer.Bytes, Buffer.empty, bytes_ite]
  all_goals refine ⟨_, rfl, ?_⟩
  all_goals simp (disch := decide) only [shift_append, shift_ite, shift_eq_empty_iff, shift_empty,
      shift_newlineWithIndentation, shift_of_noNewline]

theorem ConstrainedType_shifts (t : ConstrainedType) (hTyp : Shifts t.Typ.Marshal)
    (hConstraints : ∀ n ∈ t.Constraints, Shifts n.Marshal) : Shifts t.Marshal := by
  intro ctx
  obtain ⟨r1, a1, b1⟩ := hTyp ctx
  obtain ⟨r2, a2, b2⟩ := joinNodes_shifts ctx t.Constraints ", " (by decide) hConstraints
  simp only [ConstrainedType.Marshal, Identifier.Marshal, QualifiedIdentifier.Marshal,
    Expressions.Marshal, Modifiers_Marshal_total, a1, b1, a2, b2, ok_bind, pure, Except.pure,
    WriteWithPrefixSuffix_app, WriteWithSuffix_app, WriteWithPrefix_app, WriteRune_fst,
    Buffer.Write, Buffer.WriteString, Buffer.Bytes, Buffer.empty, bytes_ite]
  all_goals refine ⟨_, rfl, ?_⟩
  all_goals simp (disch := decide) only [shift_append, shift_ite, shift_eq_empty_iff, shift_empty,
      shift_newlineWithIndentation, shift_of_noNewline]

theorem UnionType_shifts (t : UnionType) (hMembers : ∀ n ∈ t.Members, Shifts n.Marshal)
    (hDefault : ∀ x, t.Default = some x → Shifts x.Marshal) : Shifts t.Marshal := by
  intro ctx
  obtain ⟨r1, a1, b1⟩ := joinNodes_shifts ctx t.Members " | " (by decide) hMembers
  simp only [UnionType.Marshal, Identifier.Marshal, QualifiedIdentifier.Marshal,
    Expressions.Marshal, Modifiers_Marshal_total, a1, b1, ok_bind, pure, Except.pure,
    WriteWithPrefixSuffix_app, WriteWithSuffix_app, WriteWithPrefix_app, WriteRune_fst,
    Buffer.Write, Buffer.WriteString, Buffer.Bytes, Buffer.empty, bytes_ite]
  rcases o1 : t.Default with _ | x1
  all_goals try have p1 := hDefault x1 o1 ctx
  all_goals try rcases p1 with ⟨s1, c1, d1⟩
  all_goals try simp only [*, ok_bind, pure, Except.pure, WriteWithPrefixSuffix_app,
      WriteWithSuffix_app, WriteWithPrefix_app, WriteRune_fst, Buffer.Write, Buffer.WriteString,
      Buffer.Bytes, Buffer.empty, bytes_ite]
  all_goals refine ⟨_, rfl, ?_⟩
  all_goals simp (disch := decide) only [shift_append, shift_ite, shift_eq_empty_iff, shift_empty,
      shift_newlineWithIndentation, shift_of_noNewline]

theorem FunctionLiteralType_shifts (t : FunctionLiteralType)
    (hParameters : ∀ n ∈ t.Parameters, Shifts n.Marshal) (hResult : Shifts t.Result.Marshal) :
    Shifts t.Marshal := by
  intro ctx
  obtain ⟨r1, a1, b1⟩ := joinNodes_shifts ctx t.Parameters ", " (by decide) hParameters
  obtain ⟨r2, a2, b2⟩ := hResult ctx
  simp only [FunctionLiteralType.Marshal, Identifier.Marshal, QualifiedIdentifier.Marshal,
    Expressions.Marshal, Modifiers_Marshal_total, a1, b1, a2, b2, ok_bind, pure, Except.pure,
    WriteWithPrefixSuffix_app, WriteWithSuffix_app, WriteWithPrefix_app, WriteRune_fst,
    Buffer.Write, Buffer.WriteString, Buffer.Bytes, Buffer.empty, bytes_ite]
  all_goals refine ⟨_, rfl, ?_⟩
  all_goals simp (disch := decide) only [shift_append, shift_ite, shift_eq_empty_iff, shift_empty,
      shift_newlineWithIndentation, shift_of_noNewline]

/-! ## Auxiliary lemmas: the literals hold no line feed -/

theorem noNewline_of_data (s : String) (l : List Char) (hs : s.data = l)
    (h : ∀ c ∈ l, c ≠ '\n') : noNewline s = true := by
  simp only [noNewline, hs, List.all_eq_true, bne_iff_ne, ne_eq]
  exact h

theorem hexDigitAt_ne_newline (n s : Nat) : hexDigitAt n s ≠ '\n' := by
  have hm : hexDigitAt n s ∈ lowerhex := lowerhex_getD_mem _
  intro h
  rw [h] at hm
  revert hm
  decide

theorem noNewline_escapedRune (printTable : Char → Bool) (r : Char) :
    noNewline (escapedRune printTable r) = true := by
  have hx := hexDigitAt_ne_newline r.toNat
  rcases escapedRune_cases printTable r with
    ⟨h, e⟩ | ⟨_, _, h, e⟩ | ⟨_, e⟩ | ⟨_, e⟩ | ⟨_, e⟩ | ⟨_, e⟩ | ⟨_, e⟩ | ⟨_, e⟩ | ⟨_, e⟩ |
      ⟨_, e⟩ | ⟨_, e⟩ | e
  · refine noNewline_of_data _ _ e ?_
    rcases h with rfl | rfl <;> decide
  · refine noNewline_of_data _ _ e ?_
    simpa using h
  all_goals refine noNewline_of_data _ _ e ?_
  all_goals simp only [List.mem_cons, List.mem_singleton, List.not_mem_nil, or_false,
    forall_eq_or_imp, forall_eq]
  all_goals simp [hx]

theorem noNewline_escapedRunes (printTable : Char → Bool) (l : List Char) :
    noNewline (escapedRunes printTable l) = true := by
  induction l with
  | nil => rfl
  | cons r rs ih => exact noNewline_append _ _ (noNewline_escapedRune printTable r) ih

theorem noNewline_strconvQuote (printTable : Char → Bool) (s : String) :
    noNewline (strconvQuote printTable s) = true := by
  rw [strconvQuote_eq]
  exact noNewline_append _ _
    (noNewline_append _ _ (by decide) (noNewline_escapedRunes printTable s.data)) (by decide)

theorem noNewline_repr (n : Nat) : noNewline (Nat.repr n) = true := by
  obtain ⟨l, hl, _, hdig, _⟩ := toDigitsCore_spec (n + 1) n [] (Nat.lt_succ_self n)
  refine noNewline_of_data _ l ?_ ?_
  · simp [Nat.repr, Nat.toDigits, hl, List.asString]
  · intro c hc e
    have := hdig c hc
    rw [e] at this
    exact absurd this (by decide)

theorem noNewline_strconvFormatInt (i : Int) : noNewline (strconvFormatInt i) = true := by
  unfold strconvFormatInt
  simp only []
  split
  · exact noNewline_append _ _ (by decide) (noNewline_repr _)
  · exact noNewline_repr _

theorem ImportExpression_shifts (printTable : Char → Bool) (e : ImportExpression) :
    Shifts (e.Marshal printTable) := by
  intro ctx
  have t1 := shift_of_noNewline _ (noNewline_strconvQuote printTable e.Path)
  simp only [ImportExpression.Marshal, WriteRune_fst, Buffer.Write, Buffer.WriteString,
    Buffer.Bytes, Buffer.empty, bytes_ite]
  refine ⟨_, rfl, ?_⟩
  simp (disch := decide) only [shift_append, shift_ite, shift_empty, t1, shift_of_noNewline]

/-! ## Auxiliary lemmas: the trees of an object body shift with the depth -/

mutual
theorem ExpressionTree_shifts (printTable : Char → Bool) (formatFloat : Nat → String)
    (hf : ∀ bits, noNewline (formatFloat bits) = true) :
    ∀ t : ExpressionTree, t.clean true = true →
      Shifts (t.toExpression printTable formatFloat).Marshal
  | .BuiltinExpression e, h => Shifts_const _ e.val h (fun _ => rfl)
  | .IntExpression e, _ =>
    Shifts_const _ _ (noNewline_strconvFormatInt e.val) (fun _ => rfl)
  | .FloatExpression e, _ => Shifts_const _ _ (hf e.bits) (fun _ => rfl)
  | .StringExpression e, _ =>
    Shifts_const _ _ (noNewline_strconvQuote printTable e.val) (fun _ => rfl)
  | .PrefixUnaryExpression _ x, h => by
    simp only [ExpressionTree.clean, Bool.and_eq_true] at h
    exact PrefixUnaryExpression_shifts _ h.1 (ExpressionTree_shifts printTable formatFloat hf x h.2)
  | .PostfixUnaryExpression _ x, h => by
    simp only [ExpressionTree.clean, Bool.and_eq_true] at h
    exact PostfixUnaryExpression_shifts _ h.1
      (ExpressionTree_shifts printTable formatFloat hf x h.2)
  | .BinaryExpression _ l r, h => by
    simp only [ExpressionTree.clean, Bool.and_eq_true] at h
    exact BinaryExpression_shifts _ h.1.1
      (ExpressionTree_shifts printTable formatFloat hf l h.1.2)
      (ExpressionTree_shifts printTable formatFloat hf r h.2)
  | .TypeExpression _ x t, h => by
    simp only [ExpressionTree.clean, Bool.and_eq_true] at h
    exact TypeExpression_shifts _ h.1.1
      (ExpressionTree_shifts printTable formatFloat hf x h.1.2)
      (TypeTree_shifts printTable formatFloat hf t h.2)
  | .MemberAccessExpression _ args, h => by
    simp only [ExpressionTree.clean, Bool.and_eq_true] at h
    exact MemberAccessExpression_shifts _ h.1
      (toArguments_shifts printTable formatFloat hf args h.2)
  | .QualifiedMemberAccessExpression x _ _ args, h => by
    simp only [ExpressionTree.clean, Bool.and_eq_true] at h
    exact QualifiedMemberAccessExpression_shifts _
      (ExpressionTree_shifts printTable formatFloat hf x h.1.1) h.1.2
      (toArguments_shifts printTable formatFloat hf args h.2)
  | .SuperAccessExpression _ args, h => by
    simp only [ExpressionTree.clean, Bool.and_eq_true] at h
    exact SuperAccessExpression_shifts _ h.1
      (toArguments_shifts printTable formatFloat hf args h.2)
  | .SubscriptExpression x s, h => by
    simp only [ExpressionTree.clean, Bool.and_eq_true] at h
    exact SubscriptExpression_shifts _ (ExpressionTree_shifts printTable formatFloat hf x h.1)
      (ExpressionTree_shifts printTable formatFloat hf s h.2)
  | .SuperSubscriptExpression s, h =>
    SuperSubscriptExpression_shifts _ (ExpressionTree_shifts printTable formatFloat hf s h)
  | .ParenthesizedExpression x, h =>
    ParenthesizedExpression_shifts _ (ExpressionTree_shifts printTable formatFloat hf x h)
  | .NewExpression t body, h => by
    simp only [ExpressionTree.clean, Bool.and_eq_true] at h
    exact NewExpression_shifts _ (ObjectBodyTree_shifts printTable formatFloat hf body h.2)
      (toOptionalType_shifts printTable formatFloat hf t h.1)
  | .AmendExpression parent body, h => by
    simp only [ExpressionTree.clean, Bool.and_eq_true] at h
    exact AmendExpression_shifts _ (AmendParentTree_shifts printTable formatFloat hf parent h.1)
      (ObjectBodyTree_shifts printTable formatFloat hf body h.2)
  | .IfExpression c t e, h => by
    simp only [ExpressionTree.clean, Bool.and_eq_true] at h
    exact IfExpression_shifts _ (ExpressionTree_shifts printTable formatFloat hf c h.1.1)
      (ExpressionTree_shifts printTable formatFloat hf t h.1.2)
      (ExpressionTree_shifts printTable formatFloat hf e h.2)
  | .ImportExpression e, _ => ImportExpression_shifts printTable e
  | .LetExpression name v x, h => by
    simp only [ExpressionTree.clean, Bool.and_eq_true] at h
    exact LetExpression_shifts _ (ParameterTree_shifts printTable formatFloat hf name h.1.1)
      (ExpressionTree_shifts printTable formatFloat hf v h.1.2)
      (ExpressionTree_shifts printTable formatFloat hf x h.2)
  | .ReadExpression _ v, h =>
    ReadExpression_shifts _ (ExpressionTree_shifts printTable formatFloat hf v h)
  | .ThrowExpression v, h =>
    ThrowExpression_shifts _ (ExpressionTree_shifts printTable formatFloat hf v h)
  | .TraceExpression v, h =>
    TraceExpression_shifts _ (ExpressionTree_shifts printTable formatFloat hf v h)
theorem toExpressions_shifts (printTable : Char → Bool) (formatFloat : Nat → String)
    (hf : ∀ bits, noNewline (formatFloat bits) = true) :
    ∀ l : List ExpressionTree, cleanExpressions true l = true →
      ∀ n ∈ toExpressions printTable formatFloat l, Shifts n.Marshal
  | [], _, _, h => absurd h (List.not_mem_nil _)
  | x :: xs, hc, n, h => by
    simp only [cleanExpressions, Bool.and_eq_true] at hc
    rcases List.mem_cons.1 h with e | h2
    · exact e ▸ ExpressionTree_shifts printTable formatFloat hf x hc.1
    · exact toExpressions_shifts printTable formatFloat hf xs hc.2 n h2
theorem toArguments_shifts (printTable : Char → Bool) (formatFloat : Nat → String)
    (hf : ∀ bits, noNewline (formatFloat bits) = true) :
    ∀ o : Option (List ExpressionTree), cleanArguments true o = true →
      ∀ a, toArguments printTable formatFloat o = some a → ∀ n ∈ a, Shifts n.Marshal
  | none, _, _, h => Option.noConfusion h
  | some xs, hc, _, h =>
    Option.some.inj h ▸ toExpressions_shifts printTable formatFloat hf xs hc
theorem toOptionalExpression_shifts (printTable : Char → Bool) (formatFloat : Nat → String)
    (hf : ∀ bits, noNewline (formatFloat bits) = true) :
    ∀ o : Option ExpressionTree, cleanOptionalExpression true o = true →
      ∀ x, toOptionalExpression printTable formatFloat o = some x → Shifts x.Marshal
  | none, _, _, h => Option.noConfusion h
  | some t, hc, _, h => Option.some.inj h ▸ ExpressionTree_shifts printTable formatFloat hf t hc
theorem AmendParentTree_shifts (printTable : Char → Bool) (formatFloat : Nat → String)
    (hf : ∀ bits, noNewline (formatFloat bits) = true) :
    ∀ t : AmendParentTree, t.clean true = true →
      Shifts (t.toAmendParentExpression printTable formatFloat).Marshal
  | .ParenthesizedExpression x, h =>
    ParenthesizedExpression_shifts _ (ExpressionTree_shifts printTable formatFloat hf x h)
  | .NewExpression t body, h => by
    simp only [AmendParentTree.clean, Bool.and_eq_true] at h
    exact NewExpression_shifts _ (ObjectBodyTree_shifts printTable formatFloat hf body h.2)
      (toOptionalType_shifts printTable formatFloat hf t h.1)
  | .AmendExpression parent body, h => by
    simp only [AmendParentTree.clean, Bool.and_eq_true] at h
    exact AmendExpression_shifts _ (AmendParentTree_shifts printTable formatFloat hf parent h.1)
      (ObjectBodyTree_shifts printTable formatFloat hf body h.2)
theorem TypeTree_shifts (printTable : Char → Bool) (formatFloat : Nat → String)
    (hf : ∀ bits, noNewline (formatFloat bits) = true) :
    ∀ t : TypeTree, t.clean true = true → Shifts (t.toTypeNode printTable formatFloat).Marshal
  | .BuiltinType t, h => Shifts_const _ t.val h (fun _ => rfl)
  | .StringLiteralType t, _ =>
    Shifts_const _ _ (noNewline_strconvQuote printTable t.val) (fun _ => rfl)
  | .DeclaredType _ ps, h => by
    simp only [TypeTree.clean, Bool.and_eq_true] at h
    exact DeclaredType_shifts _ h.1 (toTypes_shifts printTable formatFloat hf ps h.2)
  | .ParenthesizedType t, h =>
    ParenthesizedType_shifts _ (TypeTree_shifts printTable formatFloat hf t h)
  | .NullableType t, h => NullableType_shifts _ (TypeTree_shifts printTable formatFloat hf t h)
  | .ConstrainedType t cs, h => by
    simp only [TypeTree.clean, Bool.and_eq_true] at h
    exact ConstrainedType_shifts _ (TypeTree_shifts printTable formatFloat hf t h.1)
      (toExpressions_shifts printTable formatFloat hf cs h.2)
  | .UnionType ms d, h => by
    simp only [TypeTree.clean, Bool.and_eq_true] at h
    exact UnionType_shifts _ (toTypes_shifts printTable formatFloat hf ms h.1)
      (toOptionalType_shifts printTable formatFloat hf d h.2)
  | .FunctionLiteralType ps r, h => by
    simp only [TypeTree.clean, Bool.and_eq_true] at h
    exact FunctionLiteralType_shifts _ (toTypes_shifts printTable formatFloat hf ps h.1)
      (TypeTree_shifts printTable formatFloat hf r h.2)
theorem toTypes_shifts (printTable : Char → Bool) (formatFloat : Nat → String)
    (hf : ∀ bits, noNewline (formatFloat bits) = true) :
    ∀ l : List TypeTree, cleanTypes true l = true →
      ∀ n ∈ toTypes printTable formatFloat l, Shifts n.Marshal
  | [], _, _, h => absurd h (List.not_mem_nil _)
  | t :: ts, hc, n, h => by
    simp only [cleanTypes, Bool.and_eq_true] at hc
    rcases List.mem_cons.1 h with e | h2
    · exact e ▸ TypeTree_shifts printTable formatFloat hf t hc.1
    · exact toTypes_shifts printTable formatFloat hf ts hc.2 n h2
theorem toOptionalType_shifts (printTable : Char → Bool) (formatFloat : Nat → String)
    (hf : ∀ bits, noNewline (formatFloat bits) = true) :
    ∀ o : Option TypeTree, cleanOptionalType true o = true →
      ∀ x, toOptionalType printTable formatFloat o = some x → Shifts x.Marshal
  | none, _, _, h => Option.noConfusion h
  | some t, hc, _, h => Option.some.inj h ▸ TypeTree_shifts printTable formatFloat hf t hc
theorem ParameterTree_shifts (printTable : Char → Bool) (formatFloat : Nat → String)
    (hf : ∀ bits, noNewline (formatFloat bits) = true) :
    ∀ p : ParameterTree, p.clean true = true →
      Shifts (p.toParameter printTable formatFloat).Marshal
  | .mk _ t, h => by
    simp only [ParameterTree.clean, Bool.and_eq_true] at h
    exact Parameter_shifts _ h.1 (toOptionalType_shifts printTable formatFloat hf t h.2)
theorem toParameters_shifts (printTable : Char → Bool) (formatFloat : Nat → String)
    (hf : ∀ bits, noNewline (formatFloat bits) = true) :
    ∀ l : List ParameterTree, cleanParameters true l = true →
      ∀ n ∈ toParameters printTable formatFloat l, Shifts n.Marshal
  | [], _, _, h => absurd h (List.not_mem_nil _)
  | p :: ps, hc, n, h => by
    simp only [cleanParameters, Bool.and_eq_true] at hc
    rcases List.mem_cons.1 h with e | h2
    · exact e ▸ ParameterTree_shifts printTable formatFloat hf p hc.1
    · exact toParameters_shifts printTable formatFloat hf ps hc.2 n h2
theorem toOptionalParameter_shifts (printTable : Char → Bool) (formatFloat : Nat → String)
    (hf : ∀ bits, noNewline (formatFloat bits) = true) :
    ∀ o : Option ParameterTree, cleanOptionalParameter true o = true →
      ∀ x, toOptionalParameter printTable formatFloat o = some x → Shifts x.Marshal
  | none, _, _, h => Option.noConfusion h
  | some p, hc, _, h => Option.some.inj h ▸ ParameterTree_shifts printTable formatFloat hf p hc
theorem MethodSignatureTree_shifts (printTable : Char → Bool) (formatFloat : Nat → String)
    (hf : ∀ bits, noNewline (formatFloat bits) = true) :
    ∀ m : MethodSignatureTree, m.clean true = true →
      Shifts (m.toMethodSignature printTable formatFloat).Marshal
  | .mk _ _ _ ps r, h => by
    simp only [MethodSignatureTree.clean, Bool.and_eq_true, List.all_eq_true] at h
    exact MethodSignature_shifts _ h.1.1.1.1 h.1.1.1.2 h.1.1.2
      (toParameters_shifts printTable formatFloat hf ps h.1.2)
      (toOptionalType_shifts printTable formatFloat hf r h.2)
theorem ObjectBodyTree_shifts (printTable : Char → Bool) (formatFloat : Nat → String)
    (hf : ∀ bits, noNewline (formatFloat bits) = true) :
    ∀ o : ObjectBodyTree, o.clean true = true →
      Shifts (o.toObjectBody printTable formatFloat).Marshal
  | .mk ps ms, h => by
    simp only [ObjectBodyTree.clean, Bool.and_eq_true] at h
    exact ObjectBody_shifts _ (toParameters_shifts printTable formatFloat hf ps h.1)
      (toObjectMembers_shifts printTable formatFloat hf ms h.2)
theorem toObjectBodies_shifts (printTable : Char → Bool) (formatFloat : Nat → String)
    (hf : ∀ bits, noNewline (formatFloat bits) = true) :
    ∀ l : List ObjectBodyTree, cleanObjectBodies true l = true →
      ∀ n ∈ toObjectBodies printTable formatFloat l, Shifts n.Marshal
  | [], _, _, h => absurd h (List.not_mem_nil _)
  | b :: bs, hc, n, h => by
    simp only [cleanObjectBodies, Bool.and_eq_true] at hc
    rcases List.mem_cons.1 h with e | h2
    · exact e ▸ ObjectBodyTree_shifts printTable formatFloat hf b hc.1
    · exact toObjectBodies_shifts printTable formatFloat hf bs hc.2 n h2
theorem toOptionalObjectBody_shifts (printTable : Char → Bool) (formatFloat : Nat → String)
    (hf : ∀ bits, noNewline (formatFloat bits) = true) :
    ∀ o : Option ObjectBodyTree, cleanOptionalObjectBody true o = true →
      ∀ x, toOptionalObjectBody printTable formatFloat o = some x → Shifts x.Marshal
  | none, _, _, h => Option.noConfusion h
  | some b, hc, _, h => Option.some.inj h ▸ ObjectBodyTree_shifts printTable formatFloat hf b hc
theorem ObjectMemberTree_shifts (printTable : Char → Bool) (formatFloat : Nat → String)
    (hf : ∀ bits, noNewline (formatFloat bits) = true) :
    ∀ m : ObjectMemberTree, m.clean true = true →
      Shifts (m.toObjectMember printTable formatFloat).Marshal
  | .ObjectProperty _ _ t v bodies, h => by
    simp only [ObjectMemberTree.clean, Bool.and_eq_true, List.all_eq_true] at h
    exact ObjectProperty_shifts _ h.1.1.1.1 h.1.1.1.2
      (toObjectBodies_shifts printTable formatFloat hf bodies h.2)
      (toOptionalType_shifts printTable formatFloat hf t h.1.1.2)
      (toOptionalExpression_shifts printTable formatFloat hf v h.1.2)
  | .ObjectMethod s v, h => by
    simp only [ObjectMemberTree.clean, Bool.and_eq_true] at h
    exact ObjectMethod_shifts _ (MethodSignatureTree_shifts printTable formatFloat hf s h.1)
      (ExpressionTree_shifts printTable formatFloat hf v h.2)
  | .ObjectEntry k v bodies, h => by
    simp only [ObjectMemberTree.clean, Bool.and_eq_true] at h
    exact ObjectEntry_shifts _ (ExpressionTree_shifts printTable formatFloat hf k h.1.1)
      (toObjectBodies_shifts printTable formatFloat hf bodies h.2)
      (toOptionalExpression_shifts printTable formatFloat hf v h.1.2)
  | .ObjectElement v, h =>
    ObjectElement_shifts _ (ExpressionTree_shifts printTable formatFloat hf v h)
  | .ObjectSpread v _, h =>
    ObjectSpread_shifts _ (ExpressionTree_shifts printTable formatFloat hf v h)
  | .MemberPredicate c v bodies, h => by
    simp only [ObjectMemberTree.clean, Bool.and_eq_true] at h
    exact MemberPredicate_shifts _ (ExpressionTree_shifts printTable formatFloat hf c h.1.1)
      (toObjectBodies_shifts printTable formatFloat hf bodies h.2)
      (toOptionalExpression_shifts printTable formatFloat hf v h.1.2)
  | .ForGenerator k v c body, h => by
    simp only [ObjectMemberTree.clean, Bool.and_eq_true] at h
    exact ForGenerator_shifts _ (ParameterTree_shifts printTable formatFloat hf v h.1.1.2)
      (ExpressionTree_shifts printTable formatFloat hf c h.1.2)
      (ObjectBodyTree_shifts printTable formatFloat hf body h.2)
      (toOptionalParameter_shifts printTable formatFloat hf k h.1.1.1)
  | .WhenGenerator c t e, h => by
    simp only [ObjectMemberTree.clean, Bool.and_eq_true] at h
    exact WhenGenerator_shifts _ (ExpressionTree_shifts printTable formatFloat hf c h.1.1)
      (ObjectBodyTree_shifts printTable formatFloat hf t h.1.2)
      (toOptionalObjectBody_shifts printTable formatFloat hf e h.2)
theorem toObjectMembers_shifts (printTable : Char → Bool) (formatFloat : Nat → String)
    (hf : ∀ bits, noNewline (formatFloat bits) = true) :
    ∀ l : List ObjectMemberTree, cleanObjectMembers true l = true →
      ∀ n ∈ toObjectMembers printTable formatFloat l, Shifts n.Marshal
  | [], _, _, h => absurd h (List.not_mem_nil _)
  | m :: ms, hc, n, h => by
    simp only [cleanObjectMembers, Bool.and_eq_true] at hc
    rcases List.mem_cons.1 h with e | h2
    · exact e ▸ ObjectMemberTree_shifts printTable formatFloat hf m hc.1
    · exact toObjectMembers_shifts printTable formatFloat hf ms hc.2 n h2
end

/-! ## The properties of the renderer -/

/-- C1 (amended): for every module, at every depth (in particular depth 0), whose
children render without error, the rendering is `H` followed by the text after the
header line, where `H` (the rendering of the same module without imports and members)
is the header with its final line break.  That text is: nothing when there are no
imports and the joined member text is empty; otherwise a newline, the import clauses
joined by newlines and a newline when imports are present, followed by a newline, the
members joined by blank lines and a newline when the joined member text is not empty.
In particular the module named `foo.bar` with the single import "@foo/Bar.pkl" and the
single property `foo = "bar"` renders as in the specification's example. -/
theorem Module_Marshal_tail (printTable : Char → Bool) (m : Module) (ctx : Ctx) (H : String)
    (its mts : List String)
    (hH : Module.Marshal printTable { m with Imports := [], Members := [] } ctx = .ok H)
    (hi : List.Forall₂ (fun i r => ImportClause.Marshal printTable i ctx = .ok r) m.Imports its)
    (hm : List.Forall₂ (fun (x : ModuleMember) r => x.Marshal ctx = .ok r) m.Members mts) :
    Module.Marshal printTable m ctx = .ok
        (H ++ (if its = [] then "" else "\n" ++ joined "\n" its ++ "\n") ++
          (if joined "\n\n" mts = "" then "" else "\n" ++ joined "\n\n" mts ++ "\n")) ∧
      (∃ header, H = header ++ "\n") ∧
      Module.Marshal printTable (exampleModule printTable) Ctx.Background =
        .ok "module foo.bar\n\nimport \"@foo/Bar.pkl\"\n\nfoo = \"bar\"\n" := by
  obtain ⟨D, hD⟩ := Docs_Marshal_total m.Docs ctx
  obtain ⟨A, hA⟩ := Annotations_ok_of_Module_ok printTable _ ctx H hH
  have h0 := Module_Marshal_eq printTable { m with Imports := [], Members := [] } ctx D A [] []
    hD hA List.Forall₂.nil List.Forall₂.nil
  rw [hH, moduleTail_nil] at h0
  have hH2 := Except.ok.inj h0
  refine ⟨?_, ⟨_, hH2.trans (String.append_empty _)⟩, rfl⟩
  rw [Module_Marshal_eq printTable m ctx D A its mts hD hA hi hm, hH2]
  simp [moduleTail, String.append_assoc]

/-- C1 (as stated, refuted): the module named `foo` whose only member is a property
with an empty name has a member present and all its children render without error (the
member to the empty text), yet nothing follows the header line, whereas the sentence of
the specification asks for a newline, the joined members and a newline after it. -/
theorem Module_Marshal_tail_counterexample :
    emptyMemberModule.Imports = [] ∧ emptyMemberModule.Members ≠ [] ∧
      List.Forall₂ (fun (x : ModuleMember) r => x.Marshal Ctx.Background = .ok r)
        emptyMemberModule.Members [""] ∧
      Module.Marshal (fun _ => false) { emptyMemberModule with Imports := [], Members := [] }
        Ctx.Background = .ok "module foo\n" ∧
      Module.Marshal (fun _ => false) emptyMemberModule Ctx.Background = .ok "module foo\n" ∧
      Module.Marshal (fun _ => false) emptyMemberModule Ctx.Background ≠
        .ok ("module foo\n" ++ ("\n" ++ joined "\n\n" [""] ++ "\n")) := by
  refine ⟨rfl, by simp [emptyMemberModule], List.Forall₂.cons rfl List.Forall₂.nil, rfl, rfl,
    ?_⟩
  have h : Module.Marshal (fun _ => false) emptyMemberModule Ctx.Background =
      .ok "module foo\n" := rfl
  rw [h]
  intro h2
  exact absurd (Except.ok.inj h2) (by decide)

/-- Witness of C1 (amended) at the module of the end-to-end scenario. -/
theorem Module_Marshal_tail_witness :
    Module.Marshal (fun _ => false) (exampleModule (fun _ => false)) Ctx.Background = .ok
        ("module foo.bar\n" ++
          (if ["import \"@foo/Bar.pkl\""] = [] then ""
            else "\n" ++ joined "\n" ["import \"@foo/Bar.pkl\""] ++ "\n") ++
          (if joined "\n\n" ["foo = \"bar\""] = "" then ""
            else "\n" ++ joined "\n\n" ["foo = \"bar\""] ++ "\n")) :=
  (Module_Marshal_tail (fun _ => false) (exampleModule (fun _ => false)) Ctx.Background
    "module foo.bar\n" ["import \"@foo/Bar.pkl\""] ["foo = \"bar\""] rfl
    (List.Forall₂.cons rfl List.Forall₂.nil) (List.Forall₂.cons rfl List.Forall₂.nil)).1

/-- C2: for every module with no shebang, docs, annotations or modifiers whose imports
and members render to the texts `its` and `mts`, the rendering starts with the header
line, immediately followed by a newline (and then by the import and member blocks): the
header is "module " ++ Name when only a non-empty name is set, ParentRelationship ++ " "
++ the quoted ParentName when only a parent is set, and "module " ++ Name ++ " " ++
ParentRelationship ++ " " ++ the quoted ParentName, with exactly one space between the
name and the parent clause, when both are set. -/
theorem Module_Marshal_header (printTable : Char → Bool) (m : Module) (ctx : Ctx)
    (its mts : List String)
    (hs : m.ShebangComment.val = "") (hd : m.Docs.val = "") (ha : m.Annotations = [])
    (hmod : m.Modifiers = [])
    (hi : List.Forall₂ (fun i r => ImportClause.Marshal printTable i ctx = .ok r) m.Imports its)
    (hm : List.Forall₂ (fun (x : ModuleMember) r => x.Marshal ctx = .ok r) m.Members mts) :
    (m.Name.val ≠ "" → m.ParentName = "" →
        Module.Marshal printTable m ctx =
          .ok ("module " ++ m.Name.val ++ "\n" ++ moduleTail its mts)) ∧
      (m.Name.val = "" → m.ParentName ≠ "" →
        Module.Marshal printTable m ctx =
          .ok (m.ParentRelationship.val ++ " " ++ strconvQuote printTable m.ParentName ++
            "\n" ++ moduleTail its mts)) ∧
      (m.Name.val ≠ "" → m.ParentName ≠ "" →
        Module.Marshal printTable m ctx =
          .ok ("module " ++ m.Name.val ++ " " ++ m.ParentRelationship.val ++ " " ++
            strconvQuote printTable m.ParentName ++ "\n" ++ moduleTail its mts)) := by
  have hD : Docs.Marshal m.Docs ctx = .ok "" := by simp [Docs.Marshal, hd]
  have hA : Annotations.Marshal m.Annotations ctx = .ok "" := by
    simp [Annotations.Marshal, ha, joinNodes]
  have h := Module_Marshal_eq printTable m ctx "" "" its mts hD hA hi hm
  rw [h]
  refine ⟨fun h1 h2 => ?_, fun h1 h2 => ?_, fun h1 h2 => ?_⟩ <;>
    simp [hs, hmod, joined, h1, h2, String.append_assoc]

/-- Witness of C2 at the module named `foo.bar` that amends "./foo.pkl". -/
theorem Module_Marshal_header_witness :
    Module.Marshal (fun _ => false)
        { Name := ⟨"foo.bar"⟩, ParentRelationship := ModuleRelationshipAmends,
          ParentName := "./foo.pkl" } Ctx.Background =
      .ok ("module " ++ "foo.bar" ++ " " ++ "amends" ++ " " ++
        strconvQuote (fun _ => false) "./foo.pkl" ++ "\n" ++ moduleTail [] []) :=
  (Module_Marshal_header (fun _ => false)
    { Name := ⟨"foo.bar"⟩, ParentRelationship := ModuleRelationshipAmends,
      ParentName := "./foo.pkl" } Ctx.Background [] [] rfl rfl rfl rfl
    List.Forall₂.nil List.Forall₂.nil).2.2 (by decide) (by decide)

/-- C3: for every module, whatever its shebang, docs, annotations, modifiers, name,
parent, imports and members, whose children (the annotations and the members, the only
ones that can fail) render without error, `Module.Marshal` returns, without error, a
non-empty text whose last character is the newline. -/
theorem Module_Marshal_ends_with_newline (printTable : Char → Bool) (m : Module) (ctx : Ctx)
    (ha : ∀ a ∈ m.Annotations, ∃ r, Annotation.Marshal a ctx = .ok r)
    (hm : ∀ x ∈ m.Members, ∃ r, ModuleMember.Marshal x ctx = .ok r) :
    ∃ out, Module.Marshal printTable m ctx = .ok out ∧ out ≠ "" ∧
      out.data.getLast? = some '\n' := by
  obtain ⟨D, hD⟩ := Docs_Marshal_total m.Docs ctx
  obtain ⟨as, has⟩ := forall₂_of_forall_exists (fun a => Annotation.Marshal a ctx) _ ha
  obtain ⟨mts, hmts⟩ := forall₂_of_forall_exists (fun (x : ModuleMember) => x.Marshal ctx) _ hm
  have hA : Annotations.Marshal m.Annotations ctx = .ok _ :=
    joinNodes_ok ctx (newlineWithIndentation ctx) m.Annotations as has
  have hi := forall₂_map_of_total (fun i => ImportClause.Marshal printTable i ctx)
    (fun i => (ImportClause.Marshal printTable i ctx).toOption.getD "")
    (fun i => by simp [ImportClause.Marshal, Except.toOption]) m.Imports
  have h := Module_Marshal_eq printTable m ctx D _ _ mts hD hA hi hmts
  refine ⟨_, h, ?_⟩
  rcases moduleTail_cases (m.Imports.map
    (fun i => (ImportClause.Marshal printTable i ctx).toOption.getD "")) mts with h0 | ⟨t, ht⟩
  · rw [h0, String.append_empty]
    exact ⟨(data_getLast_append_newline _).2, (data_getLast_append_newline _).1⟩
  · rw [ht, ← String.append_assoc]
    exact ⟨(data_getLast_append_newline _).2, (data_getLast_append_newline _).1⟩

/-- Witness of C3 at the module of the end-to-end scenario. -/
theorem Module_Marshal_ends_with_newline_witness :
    ∃ out, Module.Marshal (fun _ => false) (exampleModule (fun _ => false)) Ctx.Background =
        .ok out ∧ out ≠ "" ∧ out.data.getLast? = some '\n' :=
  Module_Marshal_ends_with_newline (fun _ => false) (exampleModule (fun _ => false))
    Ctx.Background (by simp [exampleModule])
    (by
      intro x hx
      simp only [exampleModule, List.mem_singleton] at hx
      subst hx
      exact ⟨"foo = \"bar\"", rfl⟩)

/-- C4: an object body rendered at depth `d`, whose parameters (rendered at depth `d`)
and members (rendered at depth `d + 1`) all render without error to non-empty texts
`ps` and `ms`, renders as an opening brace, then a space, the parameters joined by
", " and " ->" when there are parameters, then, when there are members, every member
preceded by a newline and `2 * (d + 1)` spaces followed by a newline and `2 * d` spaces,
then a closing brace.  In particular the body with the members `foo = "bar"` and
`baz = 42` renders at depth 0 as the four lines of the specification's example. -/
theorem ObjectBody_Marshal_spec (printTable : Char → Bool) (o : ObjectBody) (ctx : Ctx)
    (d : Nat) (ps ms : List String) (hd : getIndentLevel ctx = d)
    (hp : List.Forall₂ (fun p r => Parameter.Marshal p ctx = .ok r ∧ r ≠ "") o.Parameters ps)
    (hm : List.Forall₂
      (fun (x : ObjectMember) r => x.Marshal (ctxWithIndentLevel ctx (d + 1)) = .ok r ∧ r ≠ "")
      o.Members ms) :
    ObjectBody.Marshal o ctx = .ok
        ("\x7b" ++ (if ps = [] then "" else " " ++ joined ", " ps ++ " ->") ++
          (if ms = [] then ""
            else prefixedAll ("\n" ++ spaces (2 * (d + 1))) ms ++ ("\n" ++ spaces (2 * d))) ++
          "\x7d") ∧
      ObjectBody.Marshal (exampleObjectBody printTable) Ctx.Background
        = .ok "\x7b\n  foo = \"bar\"\n  baz = 42\n\x7d" := by
  exact ⟨ObjectBody_Marshal_eq o ctx d ps ms hd hp hm, rfl⟩

/-- Witness of C4 at the object body of the end-to-end scenario, at depth 0. -/
theorem ObjectBody_Marshal_spec_witness :
    ObjectBody.Marshal (exampleObjectBody (fun _ => false)) Ctx.Background = .ok
      ("\x7b" ++ (if ([] : List String) = [] then "" else " " ++ joined ", " [] ++ " ->") ++
        (if ["foo = \"bar\"", "baz = 42"] = [] then ""
          else prefixedAll ("\n" ++ spaces (2 * (0 + 1))) ["foo = \"bar\"", "baz = 42"] ++
            ("\n" ++ spaces (2 * 0))) ++
        "\x7d") :=
  (ObjectBody_Marshal_spec (fun _ => false) (exampleObjectBody (fun _ => false))
    Ctx.Background 0 [] ["foo = \"bar\"", "baz = 42"] rfl List.Forall₂.nil
    (List.Forall₂.cons ⟨rfl, by decide⟩
      (List.Forall₂.cons ⟨rfl, by decide⟩ List.Forall₂.nil))).1

/-- C5: at every indentation depth (every context), an object body with no parameters
and no members renders as exactly the two characters of an empty pair of braces. -/
theorem ObjectBody_Marshal_empty (ctx : Ctx) :
    ObjectBody.Marshal { Parameters := [], Members := [] } ctx = .ok "\x7b\x7d" ∧
      len "\x7b\x7d" = 2 := by
  constructor
  · simp [ObjectBody.Marshal, ObjectMembers.Marshal, joinNodes, ok_bind,
      WriteWithPrefixSuffix_fst, WriteWithSuffix_fst, WriteWithPrefix_fst, Buffer.Bytes,
      Buffer.WriteRune, Buffer.empty]
    rfl
  · decide

/-- C6: a for generator whose value parameter, collection and body render, in the
generator's own context, to `V`, `C` (non-empty) and `B` renders without a key as
"for (" ++ V ++ " in " ++ C ++ ") " ++ B, and with a key rendering to a non-empty `K`
as "for (" ++ K ++ ", " ++ V ++ " in " ++ C ++ ") " ++ B.  In particular the generator
over `items` with parameter `item` and body member `value = item` renders at depth 0 as
the three lines of the specification's example. -/
theorem ForGenerator_Marshal_spec (m : ForGenerator) (ctx : Ctx) (V C B : String)
    (hV : Parameter.Marshal m.Value ctx = .ok V)
    (hC : m.Collection.Marshal ctx = .ok C) (hCne : C ≠ "")
    (hB : ObjectBody.Marshal m.Body ctx = .ok B) :
    (m.Key = none →
        ForGenerator.Marshal m ctx = .ok ("for (" ++ V ++ " in " ++ C ++ ") " ++ B)) ∧
      (∀ (k : Parameter) (K : String), m.Key = some k → Parameter.Marshal k ctx = .ok K →
        K ≠ "" →
        ForGenerator.Marshal m ctx =
          .ok ("for (" ++ K ++ ", " ++ V ++ " in " ++ C ++ ") " ++ B)) ∧
      ForGenerator.Marshal exampleForGenerator Ctx.Background
        = .ok "for (item in items) \x7b\n  value = item\n\x7d" := by
  refine ⟨?_, ?_, rfl⟩
  · intro hk
    simp [ForGenerator.Marshal, hk, hV, hC, hB, hCne, ok_bind, WriteWithPrefixSuffix_fst,
      Buffer.Bytes, Buffer.Write, Buffer.WriteString, Buffer.empty, pure, Except.pure,
      String.append_assoc]
  · intro k K hk hK hKne
    simp [ForGenerator.Marshal, hk, hK, hKne, hV, hC, hB, hCne, ok_bind,
      WriteWithPrefixSuffix_fst, WriteWithSuffix_fst,
      Buffer.Bytes, Buffer.Write, Buffer.WriteString, Buffer.empty, pure, Except.pure,
      String.append_assoc]

/-- Witness of C6 at the for generator of the end-to-end scenario (no key). -/
theorem ForGenerator_Marshal_spec_witness :
    ForGenerator.Marshal exampleForGenerator Ctx.Background =
      .ok ("for (" ++ "item" ++ " in " ++ "items" ++ ") " ++ "\x7b\n  value = item\n\x7d") :=
  (ForGenerator_Marshal_spec exampleForGenerator Ctx.Background "item" "items"
    "\x7b\n  value = item\n\x7d" rfl rfl (by decide) rfl).1 rfl

/-- C7: a when generator whose condition renders to a non-empty `C` and whose `Then`
body renders to `T`, both in the generator's own context, renders with no `Else` body as
"when (" ++ C ++ ") " ++ T, and with an `Else` body rendering (in the same context) to
`E` as that text followed by " else " ++ E. -/
theorem WhenGenerator_Marshal_spec (m : WhenGenerator) (ctx : Ctx) (C T : String)
    (hC : m.Condition.Marshal ctx = .ok C) (hCne : C ≠ "")
    (hT : ObjectBody.Marshal m.Then ctx = .ok T) :
    (m.Else = none → WhenGenerator.Marshal m ctx = .ok ("when (" ++ C ++ ") " ++ T)) ∧
      (∀ (e : ObjectBody) (E : String), m.Else = some e → ObjectBody.Marshal e ctx = .ok E →
        WhenGenerator.Marshal m ctx = .ok ("when (" ++ C ++ ") " ++ T ++ " else " ++ E)) := by
  refine ⟨?_, ?_⟩
  · intro he
    simp [WhenGenerator.Marshal, he, hC, hT, hCne, ok_bind, WriteWithPrefixSuffix_fst,
      Buffer.Bytes, Buffer.Write, Buffer.empty, pure, Except.pure, String.append_assoc]
  · intro e E he hE
    have hEne := ObjectBody_Marshal_ne_empty e ctx E hE
    simp [WhenGenerator.Marshal, he, hE, hEne, hC, hT, hCne, ok_bind,
      WriteWithPrefixSuffix_fst, WriteWithPrefix_fst,
      Buffer.Bytes, Buffer.Write, Buffer.empty, pure, Except.pure, String.append_assoc]

/-- Witness of C7 at a when generator with an `Else` body. -/
theorem WhenGenerator_Marshal_spec_witness :
    WhenGenerator.Marshal (exampleWhenGenerator (fun _ => false)) Ctx.Background =
      .ok ("when (" ++ "foo" ++ ") " ++ "\x7b\n  value = \"baz\"\n\x7d" ++ " else " ++
        "\x7b\n  value = \"qux\"\n\x7d") :=
  (WhenGenerator_Marshal_spec (exampleWhenGenerator (fun _ => false)) Ctx.Background "foo"
    "\x7b\n  value = \"baz\"\n\x7d" rfl (by decide) rfl).2 _
    "\x7b\n  value = \"qux\"\n\x7d" rfl rfl

/-- C8: for a context with indent depth `d` the indentation is the string of exactly
`2 * d` space characters, it is the empty string at depth 0 and for a context that
carries no indent level, and `newlineWithIndentation` is a newline followed by the
indentation. -/
theorem indentation_spec :
    (∀ d : Nat, indentation ⟨some d⟩ = String.mk (List.replicate (2 * d) ' ')) ∧
      indentation ⟨some 0⟩ = "" ∧
      indentation ⟨none⟩ = "" ∧
      (∀ ctx : Ctx, indentation ctx = String.mk (List.replicate (2 * getIndentLevel ctx) ' ')) ∧
      (∀ ctx : Ctx, newlineWithIndentation ctx = "\n" ++ indentation ctx) := by
  refine ⟨fun d => ?_, rfl, rfl, fun ctx => ?_, fun ctx => rfl⟩
  · exact indentation_eq_spaces ⟨some d⟩
  · exact indentation_eq_spaces ctx

/-- C9: for every context whose indent level is below `math.MaxUint`, which is where the
`uint` sum `indentLevel+1` of the Go code does not wrap around, `raiseIndentLevel ctx` is
a context whose indent level is that sum, and the sum is the indent level of `ctx` plus
one; the result is another context than `ctx`.  The Go code derives the result with
`context.WithValue` and never writes to its argument: a context is an immutable value,
here as in Go, so the level read from `ctx` is the same before and after the call. -/
theorem raiseIndentLevel_spec (ctx : Ctx) (h : getIndentLevel ctx < mathMaxUint) :
    getIndentLevel (raiseIndentLevel ctx) = uintAdd (getIndentLevel ctx) 1 ∧
    getIndentLevel (raiseIndentLevel ctx) = getIndentLevel ctx + 1 ∧
    raiseIndentLevel ctx ≠ ctx := by
  have hsum : uintAdd (getIndentLevel ctx) 1 = getIndentLevel ctx + 1 := by
    unfold uintAdd
    unfold mathMaxUint at h
    exact Nat.mod_eq_of_lt (by omega)
  refine ⟨hsum.symm, rfl, ?_⟩
  intro e
  have := congrArg getIndentLevel e
  simp [raiseIndentLevel, getIndentLevel] at this

/-- C9 at the context of indent level 3, and at the context without an indent level:
the raised contexts have the levels 4 and 1. -/
theorem raiseIndentLevel_spec_witness :
    getIndentLevel (ctxWithIndentLevel Ctx.Background 3) < mathMaxUint ∧
    getIndentLevel (raiseIndentLevel (ctxWithIndentLevel Ctx.Background 3)) = 4 ∧
    getIndentLevel Ctx.Background < mathMaxUint ∧
    getIndentLevel (raiseIndentLevel Ctx.Background) = 1 :=
  ⟨by decide, (raiseIndentLevel_spec (ctxWithIndentLevel Ctx.Background 3) (by decide)).2.1,
    by decide, (raiseIndentLevel_spec Ctx.Background (by decide)).2.1⟩

/-- C10: for every separator and every list of nodes that all render without error,
`joinNodes` returns the renderings in list order with the separator between each
consecutive pair: `k` nodes give exactly `k - 1` separators (the length of the result is
the total length of the renderings plus `k - 1` times the length of the separator), none
leading or trailing; for the empty list it returns zero bytes and no error. -/
theorem joinNodes_spec {N : Type} [Node N] (ctx : Ctx) (separator : String)
    (nodes : List N) (rs : List String)
    (h : List.Forall₂ (fun n r => Node.Marshal n ctx = .ok r) nodes rs) :
    joinNodes ctx nodes separator = .ok (joined separator rs) ∧
      (joined separator rs).length =
        (rs.map String.length).sum + (nodes.length - 1) * separator.length ∧
      joinNodes ctx ([] : List N) separator = .ok "" := by
  refine ⟨joinNodes_ok ctx separator nodes rs h, ?_, rfl⟩
  have hl := h.length_eq
  cases rs with
  | nil => simp [joined, hl]
  | cons r rs =>
    rw [joined_cons, String.length_append, length_prefixedAll, hl]
    simp
    omega

/-- Witness of C10 at the modifiers `abstract` and `open`, joined by a space. -/
theorem joinNodes_spec_witness :
    joinNodes Ctx.Background ([⟨"abstract"⟩, ⟨"open"⟩] : List Modifier) " " =
        .ok (joined " " ["abstract", "open"]) ∧
      (joined " " ["abstract", "open"]).length =
        (["abstract", "open"].map String.length).sum +
          (([⟨"abstract"⟩, ⟨"open"⟩] : List Modifier).length - 1) * (" " : String).length ∧
      joinNodes Ctx.Background ([] : List Modifier) " " = .ok "" :=
  joinNodes_spec Ctx.Background " " ([⟨"abstract"⟩, ⟨"open"⟩] : List Modifier)
    ["abstract", "open"] (List.Forall₂.cons rfl (List.Forall₂.cons rfl List.Forall₂.nil))

/-- C11: for every list of nodes in which some node fails to render, `n` being the
first one that fails (every node of `pre`, before it, renders), `joinNodes` returns the
error of `n` and no bytes (the result is the error alone, whatever the nodes before `n`
rendered to and whatever stands after `n`), and no node after `n` is rendered: `Marshal`
has been called on the nodes of `pre` and on `n` only.  The counting variant of
`joinNodes` returns the same result as `joinNodes` on every list. -/
theorem joinNodes_error_spec {N : Type} [Node N] (ctx : Ctx) (separator : String)
    (pre : List N) (n : N) (rest : List N) (rs : List String) (err : Error)
    (hpre : List.Forall₂ (fun x r => Node.Marshal x ctx = .ok r) pre rs)
    (hn : Node.Marshal n ctx = .error err) :
    joinNodes ctx (pre ++ n :: rest) separator = .error err ∧
      joinNodesCalls ctx (pre ++ n :: rest) separator = (.error err, pre.length + 1) ∧
      (∀ nodes : List N, (joinNodesCalls ctx nodes separator).1 = joinNodes ctx nodes separator)
    := by
  have h := joinNodesCalls_error ctx separator pre n rest rs err hpre hn
  refine ⟨?_, h, fun nodes => joinNodesCalls_fst ctx separator nodes⟩
  rw [← joinNodesCalls_fst, h]

/-- Witness of C11 at a list of three expressions of which the second fails (and the
third would fail with another error). -/
theorem joinNodes_error_spec_witness :
    joinNodes Ctx.Background ([renderingNode] ++ failingNode :: [otherFailingNode]) ", " =
        .error ⟨"first"⟩ ∧
      joinNodesCalls Ctx.Background ([renderingNode] ++ failingNode :: [otherFailingNode]) ", " =
        (.error ⟨"first"⟩, [renderingNode].length + 1) ∧
      (∀ nodes : List Expression,
        (joinNodesCalls Ctx.Background nodes ", ").1 = joinNodes Ctx.Background nodes ", ") :=
  joinNodes_error_spec Ctx.Background ", " [renderingNode] failingNode [otherFailingNode]
    ["a"] ⟨"first"⟩ (List.Forall₂.cons rfl List.Forall₂.nil) rfl

/-- C12 (amended): for each of Class, ClassProperty and TypeAlias rendered at any depth
`d`, with docs rendering to `D` and annotations rendering to the texts `ats`: the
rendering equals (`D` and a newline and `2 * d` spaces, if the docs are non-empty), then
(the annotations joined by a newline and `2 * d` spaces, followed by a newline and
`2 * d` spaces, if that joined text is non-empty), then (the modifiers joined by a space,
followed by a space, if that joined text is non-empty), then the rendering of the same
node with docs, annotations and modifiers all absent; so setting any of the three
fields leaves the text contributed by the others and by the core unchanged. -/
theorem declaration_prefix_spec (ctx : Ctx) (d : Nat) (docs : Docs) (annotations : Annotations)
    (modifiers : Modifiers) (D : String) (ats : List String)
    (hd : getIndentLevel ctx = d)
    (hD : Docs.Marshal docs ctx = .ok D)
    (hA : List.Forall₂ (fun (a : Annotation) r => a.Marshal ctx = .ok r) annotations ats) :
    (∀ (c : Class) (core : String),
        Class.Marshal { c with Docs := ⟨""⟩, Annotations := [], Modifiers := [] } ctx
          = .ok core →
        Class.Marshal { c with Docs := docs, Annotations := annotations,
                               Modifiers := modifiers } ctx = .ok
          ((if docs.val = "" then "" else D ++ ("\n" ++ spaces (2 * d))) ++
            (if joined ("\n" ++ spaces (2 * d)) ats = "" then ""
              else joined ("\n" ++ spaces (2 * d)) ats ++ ("\n" ++ spaces (2 * d))) ++
            (if joined " " (modifiers.map Modifier.val) = "" then ""
              else joined " " (modifiers.map Modifier.val) ++ " ") ++ core)) ∧
      (∀ (p : ClassProperty) (core : String),
        ClassProperty.Marshal { p with Docs := ⟨""⟩, Annotations := [], Modifiers := [] } ctx
          = .ok core →
        ClassProperty.Marshal { p with Docs := docs, Annotations := annotations,
                                       Modifiers := modifiers } ctx = .ok
          ((if docs.val = "" then "" else D ++ ("\n" ++ spaces (2 * d))) ++
            (if joined ("\n" ++ spaces (2 * d)) ats = "" then ""
              else joined ("\n" ++ spaces (2 * d)) ats ++ ("\n" ++ spaces (2 * d))) ++
            (if joined " " (modifiers.map Modifier.val) = "" then ""
              else joined " " (modifiers.map Modifier.val) ++ " ") ++ core)) ∧
      (∀ (t : TypeAlias) (core : String),
        TypeAlias.Marshal { t with Docs := ⟨""⟩, Annotations := [], Modifiers := [] } ctx
          = .ok core →
        TypeAlias.Marshal { t with Docs := docs, Annotations := annotations,
                                   Modifiers := modifiers } ctx = .ok
          ((if docs.val = "" then "" else D ++ ("\n" ++ spaces (2 * d))) ++
            (if joined ("\n" ++ spaces (2 * d)) ats = "" then ""
              else joined ("\n" ++ spaces (2 * d)) ats ++ ("\n" ++ spaces (2 * d))) ++
            (if joined " " (modifiers.map Modifier.val) = "" then ""
              else joined " " (modifiers.map Modifier.val) ++ " ") ++ core)) := by
  have hnl : newlineWithIndentation ctx = "\n" ++ spaces (2 * d) := by
    simp [newlineWithIndentation, indentation_eq_spaces, hd]
  have hA2 : Annotations.Marshal annotations ctx = .ok (joined ("\n" ++ spaces (2 * d)) ats) := by
    have := joinNodes_ok ctx (newlineWithIndentation ctx) annotations ats hA
    rw [hnl] at this
    simpa [Annotations.Marshal, hnl] using this
  have hDe := Docs_Marshal_eq_empty_iff docs ctx D hD
  have hpre : declarationPrefix ("\n" ++ spaces (2 * d)) D (joined ("\n" ++ spaces (2 * d)) ats)
      (joined " " (modifiers.map Modifier.val)) =
      (if docs.val = "" then "" else D ++ ("\n" ++ spaces (2 * d))) ++
        (if joined ("\n" ++ spaces (2 * d)) ats = "" then ""
          else joined ("\n" ++ spaces (2 * d)) ats ++ ("\n" ++ spaces (2 * d))) ++
        (if joined " " (modifiers.map Modifier.val) = "" then ""
          else joined " " (modifiers.map Modifier.val) ++ " ") := by
    simp only [declarationPrefix, hDe]
  refine ⟨fun c core hcore => ?_, fun p core hcore => ?_, fun t core hcore => ?_⟩
  · have h := Class_Marshal_prefix
      { c with Docs := docs, Annotations := annotations, Modifiers := modifiers } ctx D _ core
      hD hA2 hcore
    rw [h, hnl, hpre]
  · have h := ClassProperty_Marshal_prefix
      { p with Docs := docs, Annotations := annotations, Modifiers := modifiers } ctx D _ core
      hD hA2 hcore
    rw [h, hnl, hpre]
  · have h := TypeAlias_Marshal_prefix
      { t with Docs := docs, Annotations := annotations, Modifiers := modifiers } ctx D _ core
      hD hA2 hcore
    rw [h, hnl, hpre]

/-- C12 (as stated, refuted): the class `Foo` whose list of modifiers holds the empty
modifier has a modifier, yet renders exactly like the class without modifiers: the
modifiers joined by a space are the empty text and no space is written for them, whereas
the sentence of the specification asks for that text followed by a space in front of the
core. -/
theorem declaration_prefix_counterexample :
    emptyModifierClass.Modifiers ≠ [] ∧ emptyModifierClass.Docs.val = "" ∧
      emptyModifierClass.Annotations = [] ∧
      Class.Marshal { emptyModifierClass with Docs := ⟨""⟩, Annotations := [], Modifiers := [] }
        Ctx.Background = .ok "class Foo" ∧
      Class.Marshal emptyModifierClass Ctx.Background = .ok "class Foo" ∧
      Class.Marshal emptyModifierClass Ctx.Background ≠
        .ok ("" ++ "" ++ (joined " " (emptyModifierClass.Modifiers.map Modifier.val) ++ " ") ++
          "class Foo") := by
  refine ⟨by simp [emptyModifierClass], rfl, rfl, rfl, rfl, ?_⟩
  have h : Class.Marshal emptyModifierClass Ctx.Background = .ok "class Foo" := rfl
  rw [h]
  intro h2
  exact absurd (Except.ok.inj h2) (by decide)

/-- Witness of C12 (amended) at the type alias `HelloWorld` with docs, annotations and
modifiers, at depth 0. -/
theorem declaration_prefix_spec_witness :
    TypeAlias.Marshal exampleTypeAlias Ctx.Background = .ok
      ((if exampleTypeAlias.Docs.val = "" then ""
          else "/// This is a Hello World.\n///\n/// More docs here." ++
            ("\n" ++ spaces (2 * 0))) ++
        (if joined ("\n" ++ spaces (2 * 0)) ["@Foo", "@Bar"] = "" then ""
          else joined ("\n" ++ spaces (2 * 0)) ["@Foo", "@Bar"] ++ ("\n" ++ spaces (2 * 0))) ++
        (if joined " " (exampleTypeAlias.Modifiers.map Modifier.val) = "" then ""
          else joined " " (exampleTypeAlias.Modifiers.map Modifier.val) ++ " ") ++
        "typealias HelloWorld<T> = X") :=
  (declaration_prefix_spec Ctx.Background 0 exampleTypeAlias.Docs exampleTypeAlias.Annotations
    exampleTypeAlias.Modifiers "/// This is a Hello World.\n///\n/// More docs here."
    ["@Foo", "@Bar"] rfl rfl
    (List.Forall₂.cons rfl (List.Forall₂.cons rfl List.Forall₂.nil))).2.2 exampleTypeAlias
    "typealias HelloWorld<T> = X" rfl

/-- C13: for every non-empty name `N` and every depth (every context), the class with
name `N` whose docs, annotations, modifiers, type parameters, parent name, parent type
parameters and members are all absent or empty renders as exactly "class " ++ N. -/
theorem Class_Marshal_name_only (N : Identifier) (ctx : Ctx) (hN : N.val ≠ "") :
    Class.Marshal
        { Docs := ⟨""⟩, Annotations := [], Modifiers := [], Name := N, TypeParameters := [],
          ParentName := ⟨""⟩, ParentTypeParameters := [], Members := [] } ctx
      = .ok ("class " ++ N.val) := by
  have h := Class_Marshal_eq
    { Docs := ⟨""⟩, Annotations := [], Modifiers := [], Name := N, TypeParameters := [],
      ParentName := ⟨""⟩, ParentTypeParameters := [], Members := [] } ctx "" "" "" "" ""
    (Docs_Marshal_empty ctx) (Annotations_Marshal_nil ctx) (TypeParameters_Marshal_nil ctx)
    (TypeParameters_Marshal_nil ctx) rfl
  rw [h]
  simp [declarationPrefix, joined, hN]

/-- Witness of C13 at the class `Foo`, at depth 0. -/
theorem Class_Marshal_name_only_witness :
    Class.Marshal
        { Docs := ⟨""⟩, Annotations := [], Modifiers := [], Name := ⟨"Foo"⟩,
          TypeParameters := [], ParentName := ⟨""⟩, ParentTypeParameters := [], Members := [] }
        Ctx.Background
      = .ok ("class " ++ "Foo") :=
  Class_Marshal_name_only ⟨"Foo"⟩ Ctx.Background (by decide)

/-- C14: for every class rendered at depth `d` with a non-empty list of members that
render (at depth `d + 1`) without error to non-empty texts `ms`, the class head (the
rendering of the class without its members) is followed by " {", a newline and
`2 * (d + 1)` spaces, the members separated by an empty line (two newlines and
`2 * (d + 1)` spaces), a newline and `2 * d` spaces, and the closing brace.  In particular
the class `Foo` with the property `bar: String` and the method `baz` renders as in the
test of the package. -/
theorem Class_Marshal_members (c : Class) (ctx : Ctx) (d : Nat) (head : String)
    (ms : List String) (hd : getIndentLevel ctx = d) (hne : c.Members ≠ [])
    (hhead : Class.Marshal { c with Members := [] } ctx = .ok head)
    (hm : List.Forall₂
      (fun (x : ClassMember) r => x.Marshal (ctxWithIndentLevel ctx (d + 1)) = .ok r ∧ r ≠ "")
      c.Members ms) :
    Class.Marshal c ctx = .ok
        (head ++ " \x7b" ++ "\n" ++ spaces (2 * (d + 1)) ++
          joined ("\n\n" ++ spaces (2 * (d + 1))) ms ++ "\n" ++ spaces (2 * d) ++ "\x7d") ∧
      Class.Marshal exampleClass Ctx.Background =
        .ok "class Foo \x7b\n  bar: String\n\n  function baz(): Int = 42\n\x7d" := by
  refine ⟨?_, rfl⟩
  have hsep : "\n" ++ ("\n" ++ spaces (2 * (d + 1))) = "\n\n" ++ spaces (2 * (d + 1)) := by
    rw [← String.append_assoc]; rfl
  have hM := joinNodes_ok (ctxWithIndentLevel ctx (d + 1)) ("\n\n" ++ spaces (2 * (d + 1)))
    c.Members ms (forall₂_ok_of_nonempty _ _ _ hm)
  have hMne : joined ("\n\n" ++ spaces (2 * (d + 1))) ms ≠ "" := by
    rw [Ne, joined_eq_empty_iff_of_nonempty _ _ _ _ hm]
    intro h
    rw [h] at hm
    exact hne (List.forall₂_nil_right_iff.1 hm)
  have h := Class_Marshal_head c ctx head (joined ("\n\n" ++ spaces (2 * (d + 1))) ms) hhead
    (by
      rw [raiseIndentLevel_eq ctx d hd, newlineWithIndentation_raised ctx d, hsep]
      exact hM)
  rw [h, raiseIndentLevel_eq ctx d hd, newlineWithIndentation_raised ctx d,
    newlineWithIndentation_eq ctx d hd]
  simp [hMne, String.append_assoc]
  rfl

/-- Witness of C14 at the class `Foo` with the property `bar` and the method `baz`, at
depth 0. -/
theorem Class_Marshal_members_witness :
    Class.Marshal exampleClass Ctx.Background = .ok
      ("class Foo" ++ " \x7b" ++ "\n" ++ spaces (2 * (0 + 1)) ++
        joined ("\n\n" ++ spaces (2 * (0 + 1))) ["bar: String", "function baz(): Int = 42"] ++
        "\n" ++ spaces (2 * 0) ++ "\x7d") :=
  (Class_Marshal_members exampleClass Ctx.Background 0 "class Foo"
    ["bar: String", "function baz(): Int = 42"] rfl (by simp [exampleClass]) rfl
    (List.Forall₂.cons ⟨rfl, by decide⟩
      (List.Forall₂.cons ⟨rfl, by decide⟩ List.Forall₂.nil))).1

/-- C15 (amended): inside an object body consecutive members are joined by exactly the
line break of the member context (a newline followed by the member indentation of
`2 * (d + 1)` spaces) and nothing more; inside a class body they are joined by a newline
followed by that line break, that is, consecutive class members are separated by an
empty line. -/
theorem member_separator_spec (ctx : Ctx) (d : Nat) (hd : getIndentLevel ctx = d) :
    (∀ (m : ObjectMembers) (ms : List String),
        List.Forall₂
          (fun (x : ObjectMember) r => x.Marshal (ctxWithIndentLevel ctx (d + 1)) = .ok r)
          m ms →
        ObjectMembers.Marshal m ctx = .ok
          (if joined ("\n" ++ spaces (2 * (d + 1))) ms = "" then ""
            else "\n" ++ spaces (2 * (d + 1)) ++ joined ("\n" ++ spaces (2 * (d + 1))) ms)) ∧
      (∀ (c : Class) (head : String) (ms : List String),
        Class.Marshal { c with Members := [] } ctx = .ok head →
        List.Forall₂
          (fun (x : ClassMember) r => x.Marshal (ctxWithIndentLevel ctx (d + 1)) = .ok r)
          c.Members ms →
        Class.Marshal c ctx = .ok
          (head ++
            (if joined ("\n" ++ ("\n" ++ spaces (2 * (d + 1)))) ms = "" then ""
              else " \x7b" ++ ("\n" ++ spaces (2 * (d + 1))) ++
                joined ("\n" ++ ("\n" ++ spaces (2 * (d + 1)))) ms ++
                ("\n" ++ spaces (2 * d) ++ "\x7d")))) := by
  refine ⟨fun m ms hm => ?_, fun c head ms hhead hm => ?_⟩
  · have hM := joinNodes_ok (ctxWithIndentLevel ctx (d + 1)) ("\n" ++ spaces (2 * (d + 1)))
      m ms hm
    simp only [ObjectMembers.Marshal, raiseIndentLevel_eq ctx d hd,
      newlineWithIndentation_raised ctx d, hM, ok_bind, WriteWithPrefix_fst, Buffer.Bytes,
      Buffer.empty, pure, Except.pure]
    split <;> simp
  · have hM := joinNodes_ok (ctxWithIndentLevel ctx (d + 1))
      ("\n" ++ ("\n" ++ spaces (2 * (d + 1)))) c.Members ms hm
    have h := Class_Marshal_head c ctx head _ hhead
      (by
        rw [raiseIndentLevel_eq ctx d hd, newlineWithIndentation_raised ctx d]
        exact hM)
    rw [h, raiseIndentLevel_eq ctx d hd, newlineWithIndentation_raised ctx d,
      newlineWithIndentation_eq ctx d hd]

/-- C15 (as stated, refuted): the two members of the class `Foo`, which render at depth 1
to `bar: String` and `function baz(): Int = 42`, are not joined by the bare line break of
the member context (a newline and two spaces): an empty line stands between them. -/
theorem member_separator_counterexample :
    List.Forall₂
        (fun (x : ClassMember) r => x.Marshal (ctxWithIndentLevel Ctx.Background 1) = .ok r)
        exampleClass.Members ["bar: String", "function baz(): Int = 42"] ∧
      Class.Marshal { exampleClass with Members := [] } Ctx.Background = .ok "class Foo" ∧
      Class.Marshal exampleClass Ctx.Background =
        .ok "class Foo \x7b\n  bar: String\n\n  function baz(): Int = 42\n\x7d" ∧
      Class.Marshal exampleClass Ctx.Background ≠
        .ok ("class Foo" ++ " \x7b" ++ ("\n" ++ spaces 2) ++
          joined ("\n" ++ spaces 2) ["bar: String", "function baz(): Int = 42"] ++
          ("\n" ++ "\x7d")) := by
  refine ⟨List.Forall₂.cons rfl (List.Forall₂.cons rfl List.Forall₂.nil), rfl, rfl, ?_⟩
  have h : Class.Marshal exampleClass Ctx.Background =
      .ok "class Foo \x7b\n  bar: String\n\n  function baz(): Int = 42\n\x7d" := rfl
  rw [h]
  intro h2
  exact absurd (Except.ok.inj h2) (by decide)

/-- Witness of C15 (amended) at the class `Foo` with the property `bar` and the method
`baz`, at depth 0. -/
theorem member_separator_spec_witness :
    Class.Marshal exampleClass Ctx.Background = .ok
      ("class Foo" ++
        (if joined ("\n" ++ ("\n" ++ spaces (2 * (0 + 1))))
            ["bar: String", "function baz(): Int = 42"] = "" then ""
          else " \x7b" ++ ("\n" ++ spaces (2 * (0 + 1))) ++
            joined ("\n" ++ ("\n" ++ spaces (2 * (0 + 1))))
              ["bar: String", "function baz(): Int = 42"] ++
            ("\n" ++ spaces (2 * 0) ++ "\x7d"))) :=
  (member_separator_spec Ctx.Background 0 rfl).2 exampleClass "class Foo"
    ["bar: String", "function baz(): Int = 42"] rfl
    (List.Forall₂.cons rfl (List.Forall₂.cons rfl List.Forall₂.nil))

/-- C16 (amended): for every class rendered at depth `d` with two members of which the
first is a property carrying a nested object body with members: the class's own members
are indented by `2 * (d + 1)` spaces, the nested body's members by `2 * (d + 2)` spaces,
one level deeper than the class's own members (two levels deeper than the class
itself), the nested body is closed at the indentation of the class's members, and the
member following it is rendered back at exactly the class's member indentation. -/
theorem nested_body_indentation (c : Class) (ctx : Ctx) (d : Nat) (p : ClassProperty)
    (o : ObjectBody) (m2 : ClassMember) (head P r2 : String) (ps bms : List String)
    (hd : getIndentLevel ctx = d)
    (hmem : c.Members = [ClassProperty.toClassMember p, m2])
    (hb : p.Body = some o) (hbne : o.Members ≠ [])
    (hhead : Class.Marshal { c with Members := [] } ctx = .ok head)
    (hP : ClassProperty.Marshal { p with Body := none } (ctxWithIndentLevel ctx (d + 1)) = .ok P)
    (hps : List.Forall₂
      (fun q r => Parameter.Marshal q (ctxWithIndentLevel ctx (d + 1)) = .ok r ∧ r ≠ "")
      o.Parameters ps)
    (hbm : List.Forall₂
      (fun (x : ObjectMember) r => x.Marshal (ctxWithIndentLevel ctx (d + 2)) = .ok r ∧ r ≠ "")
      o.Members bms)
    (h2 : m2.Marshal (ctxWithIndentLevel ctx (d + 1)) = .ok r2) :
    Class.Marshal c ctx = .ok
      (head ++ " \x7b" ++
        ("\n" ++ spaces (2 * (d + 1))) ++ P ++ " \x7b" ++
          (if ps = [] then "" else " " ++ joined ", " ps ++ " ->") ++
          prefixedAll ("\n" ++ spaces (2 * (d + 2))) bms ++
        ("\n" ++ spaces (2 * (d + 1))) ++ "\x7d" ++
        ("\n" ++ ("\n" ++ spaces (2 * (d + 1)))) ++ r2 ++
        ("\n" ++ spaces (2 * d)) ++ "\x7d") := by
  have hB := ObjectBody_Marshal_eq o (ctxWithIndentLevel ctx (d + 1)) (d + 1) ps bms rfl hps hbm
  have hbms : bms ≠ [] := by
    intro h
    rw [h] at hbm
    exact hbne (List.forall₂_nil_right_iff.1 hbm)
  simp only [hbms, if_false] at hB
  have hp1 := ClassProperty_Marshal_body p (ctxWithIndentLevel ctx (d + 1)) o P _ hb hB hP
  have hM := joinNodes_ok (ctxWithIndentLevel ctx (d + 1))
    ("\n" ++ ("\n" ++ spaces (2 * (d + 1)))) c.Members _
    (by
      rw [hmem]
      exact List.Forall₂.cons hp1 (List.Forall₂.cons h2 List.Forall₂.nil))
  have h := Class_Marshal_head c ctx head _ hhead
    (by
      rw [raiseIndentLevel_eq ctx d hd, newlineWithIndentation_raised ctx d]
      exact hM)
  rw [h, raiseIndentLevel_eq ctx d hd, newlineWithIndentation_raised ctx d,
    newlineWithIndentation_eq ctx d hd]
  simp [joined, append_eq_empty_iff, String.append_assoc]
  rfl

/-- C16 (as stated, refuted): in the class `Foo` rendered at depth 0, whose first member
`bar` carries a nested body with the member `baz = 1` and whose second member is
`qux = 2`, the class's own members are indented by one level (2 spaces) and the nested
member by two levels (4 spaces), which is one level deeper than the class's own members
and not two levels deeper (6 spaces). -/
theorem nested_body_indentation_counterexample :
    Class.Marshal nestedBodyClass Ctx.Background = .ok
        ("class Foo \x7b\n" ++ spaces (2 * 1) ++ "bar \x7b\n" ++ spaces (2 * (1 + 1)) ++
          "baz = 1\n" ++ spaces (2 * 1) ++ "\x7d\n\n" ++ spaces (2 * 1) ++ "qux = 2\n\x7d") ∧
      Class.Marshal nestedBodyClass Ctx.Background ≠ .ok
        ("class Foo \x7b\n" ++ spaces (2 * 1) ++ "bar \x7b\n" ++ spaces (2 * (1 + 2)) ++
          "baz = 1\n" ++ spaces (2 * 1) ++ "\x7d\n\n" ++ spaces (2 * 1) ++ "qux = 2\n\x7d") := by
  have h : Class.Marshal nestedBodyClass Ctx.Background = .ok
      ("class Foo \x7b\n" ++ spaces (2 * 1) ++ "bar \x7b\n" ++ spaces (2 * (1 + 1)) ++
        "baz = 1\n" ++ spaces (2 * 1) ++ "\x7d\n\n" ++ spaces (2 * 1) ++ "qux = 2\n\x7d") := rfl
  refine ⟨h, ?_⟩
  rw [h]
  intro h2
  exact absurd (Except.ok.inj h2) (by decide)

/-- Witness of C16 (amended) at the class `Foo` with the members `bar` (carrying the
nested body) and `qux = 2`, at depth 0. -/
theorem nested_body_indentation_witness :
    Class.Marshal nestedBodyClass Ctx.Background = .ok
      ("class Foo" ++ " \x7b" ++
        ("\n" ++ spaces (2 * (0 + 1))) ++ "bar" ++ " \x7b" ++
          (if ([] : List String) = [] then "" else " " ++ joined ", " [] ++ " ->") ++
          prefixedAll ("\n" ++ spaces (2 * (0 + 2))) ["baz = 1"] ++
        ("\n" ++ spaces (2 * (0 + 1))) ++ "\x7d" ++
        ("\n" ++ ("\n" ++ spaces (2 * (0 + 1)))) ++ "qux = 2" ++
        ("\n" ++ spaces (2 * 0)) ++ "\x7d") :=
  nested_body_indentation nestedBodyClass Ctx.Background 0 nestedBodyProperty
    { Members := [
      ObjectProperty.toObjectMember
        { Name := ⟨"baz"⟩, Value := some (IntExpression.toExpression ⟨1⟩) }] }
    (ClassProperty.toClassMember
      { Name := ⟨"qux"⟩, Expression := some (IntExpression.toExpression ⟨2⟩) })
    "class Foo" "bar" "qux = 2" [] ["baz = 1"] rfl rfl rfl (by simp) rfl rfl List.Forall₂.nil
    (List.Forall₂.cons ⟨rfl, by decide⟩ List.Forall₂.nil) rfl

/-- C17: for every class property with no docs, annotations or modifiers and name `N`,
whose type, expression and body, where set, render to the texts `T`, `E` (non-empty) and
`B`: with only a type it renders as N ++ ": " ++ T, with only an expression as
N ++ " = " ++ E, with both as N ++ ": " ++ T ++ " = " ++ E, with only a body as
N ++ " " ++ B; an unset field contributes no bytes (with none of them set the rendering
is `N`). -/
theorem ClassProperty_Marshal_core (p : ClassProperty) (ctx : Ctx)
    (hdocs : p.Docs.val = "") (hann : p.Annotations = []) (hmod : p.Modifiers = []) :
    (∀ (t : TypeNode) (T : String), p.Typ = some t → p.Expression = none → p.Body = none →
        t.Marshal ctx = .ok T → T ≠ "" →
        ClassProperty.Marshal p ctx = .ok (p.Name.val ++ ": " ++ T)) ∧
      (∀ (e : Expression) (E : String), p.Typ = none → p.Expression = some e → p.Body = none →
        e.Marshal ctx = .ok E → E ≠ "" →
        ClassProperty.Marshal p ctx = .ok (p.Name.val ++ " = " ++ E)) ∧
      (∀ (t : TypeNode) (T : String) (e : Expression) (E : String),
        p.Typ = some t → p.Expression = some e → p.Body = none →
        t.Marshal ctx = .ok T → T ≠ "" → e.Marshal ctx = .ok E → E ≠ "" →
        ClassProperty.Marshal p ctx = .ok (p.Name.val ++ ": " ++ T ++ " = " ++ E)) ∧
      (∀ (o : ObjectBody) (B : String), p.Typ = none → p.Expression = none → p.Body = some o →
        ObjectBody.Marshal o ctx = .ok B →
        ClassProperty.Marshal p ctx = .ok (p.Name.val ++ " " ++ B)) ∧
      (p.Typ = none → p.Expression = none → p.Body = none →
        ClassProperty.Marshal p ctx = .ok p.Name.val) := by
  have hD : Docs.Marshal p.Docs ctx = .ok "" := by simp [Docs.Marshal, hdocs]
  have hA : Annotations.Marshal p.Annotations ctx = .ok "" := by
    rw [hann]; exact Annotations_Marshal_nil ctx
  have hM : Modifiers.Marshal p.Modifiers ctx = .ok "" := by
    rw [hmod]; exact Modifiers_Marshal_nil ctx
  refine ⟨fun t T ht he hb hT hTne => ?_, fun e E ht he hb hE hEne => ?_,
    fun t T e E ht he hb hT hTne hE hEne => ?_, fun o B ht he hb hB => ?_,
    fun ht he hb => ?_⟩
  · simp [ClassProperty.Marshal, hD, hA, hM, ht, he, hb, hT, hTne, ok_bind,
      WriteWithSuffix_app, WriteWithPrefix_app, Buffer.Write, Identifier.Marshal, Buffer.Bytes,
      Buffer.empty, pure, Except.pure, String.append_assoc]
  · simp [ClassProperty.Marshal, hD, hA, hM, ht, he, hb, hE, hEne, ok_bind,
      WriteWithSuffix_app, WriteWithPrefix_app, Buffer.Write, Identifier.Marshal, Buffer.Bytes,
      Buffer.empty, pure, Except.pure, String.append_assoc]
  · simp [ClassProperty.Marshal, hD, hA, hM, ht, he, hb, hT, hTne, hE, hEne, ok_bind,
      WriteWithSuffix_app, WriteWithPrefix_app, Buffer.Write, Identifier.Marshal, Buffer.Bytes,
      Buffer.empty, pure, Except.pure, String.append_assoc]
  · have hBne := ObjectBody_Marshal_ne_empty o ctx B hB
    simp [ClassProperty.Marshal, hD, hA, hM, ht, he, hb, hB, hBne, ok_bind,
      WriteWithSuffix_app, WriteWithPrefix_app, Buffer.Write, Identifier.Marshal, Buffer.Bytes,
      Buffer.empty, pure, Except.pure, String.append_assoc]
  · simp [ClassProperty.Marshal, hD, hA, hM, ht, he, hb, ok_bind,
      WriteWithSuffix_app, WriteWithPrefix_app, Buffer.Write, Identifier.Marshal, Buffer.Bytes,
      Buffer.empty, pure, Except.pure, String.append_assoc]

/-- Witness of C17 at the property `bar = 42` with the type `Int`, at depth 0. -/
theorem ClassProperty_Marshal_core_witness :
    ClassProperty.Marshal
        { Name := ⟨"bar"⟩, Typ := some exampleResultType,
          Expression := some (IntExpression.toExpression ⟨42⟩) } Ctx.Background
      = .ok ("bar" ++ ": " ++ "U" ++ " = " ++ "42") :=
  (ClassProperty_Marshal_core
    { Name := ⟨"bar"⟩, Typ := some exampleResultType,
      Expression := some (IntExpression.toExpression ⟨42⟩) } Ctx.Background rfl rfl rfl).2.2.1
    exampleResultType "U" (IntExpression.toExpression ⟨42⟩) "42" rfl rfl rfl rfl (by decide) rfl
    (by decide)

/-- C18 (amended): for every method signature with non-empty name `N`, whose type
parameters and parameters render to the texts `tps` and `ps`, the rendering is (the
modifiers joined by a space, and a space, if that joined text is non-empty), then
"function " and `N`, then (the type parameters joined by ", " between angle brackets, if
that joined text is non-empty), then the parameters joined by ", " between parentheses,
then (": " and the result type, if a result type is set and its text `R` is non-empty);
the parentheses are emitted even when the parameter list is empty, so the signature with
only a name renders as "function " ++ N ++ "()". -/
theorem MethodSignature_Marshal_spec (m : MethodSignature) (ctx : Ctx) (tps ps : List String)
    (hN : m.Name.val ≠ "")
    (htp : List.Forall₂ (fun x r => TypeParameter.Marshal x ctx = .ok r) m.TypeParameters tps)
    (hp : List.Forall₂ (fun x r => Parameter.Marshal x ctx = .ok r) m.Parameters ps) :
    (m.Result = none →
        MethodSignature.Marshal m ctx = .ok
          ((if joined " " (m.Modifiers.map Modifier.val) = "" then ""
              else joined " " (m.Modifiers.map Modifier.val) ++ " ") ++
            "function " ++ m.Name.val ++
            (if joined ", " tps = "" then "" else "<" ++ joined ", " tps ++ ">") ++
            "(" ++ joined ", " ps ++ ")")) ∧
      (∀ (r : TypeNode) (R : String), m.Result = some r → r.Marshal ctx = .ok R →
        MethodSignature.Marshal m ctx = .ok
          ((if joined " " (m.Modifiers.map Modifier.val) = "" then ""
              else joined " " (m.Modifiers.map Modifier.val) ++ " ") ++
            "function " ++ m.Name.val ++
            (if joined ", " tps = "" then "" else "<" ++ joined ", " tps ++ ">") ++
            "(" ++ joined ", " ps ++ ")" ++
            (if R = "" then "" else ": " ++ R))) ∧
      MethodSignature.Marshal
          { Modifiers := [], Name := m.Name, TypeParameters := [], Parameters := [],
            Result := none } ctx
        = .ok ("function " ++ m.Name.val ++ "()") := by
  have hTP := TypeParameters_Marshal_eq m.TypeParameters ctx tps htp
  have hP := joinNodes_ok ctx ", " m.Parameters ps hp
  refine ⟨fun hr => ?_, fun r R hr hR => ?_, ?_⟩
  · simp [MethodSignature.Marshal, Modifiers_Marshal_total, hTP, hP, hr, hN, ok_bind,
      WriteWithSuffix_app, WriteWithPrefix_app, WriteRune_fst, Buffer.Write,
      Identifier.Marshal, Buffer.Bytes, Buffer.empty, pure, Except.pure, String.append_assoc]
    rfl
  · simp [MethodSignature.Marshal, Modifiers_Marshal_total, hTP, hP, hr, hR, hN, ok_bind,
      WriteWithSuffix_app, WriteWithPrefix_app, WriteRune_fst, Buffer.Write,
      Identifier.Marshal, Buffer.Bytes, Buffer.empty, pure, Except.pure, String.append_assoc]
    rfl
  · simp [MethodSignature.Marshal, Modifiers_Marshal_nil, TypeParameters_Marshal_nil,
      joinNodes_nil, hN, ok_bind, WriteWithSuffix_app, WriteWithPrefix_app, WriteRune_fst,
      Buffer.Write, Identifier.Marshal, Buffer.Bytes, Buffer.empty, pure, Except.pure,
      String.append_assoc]
    rfl

/-- C18 (as stated, refuted): the signature named `f` whose result type is set, to a type
that renders to the empty text, renders as "function f()" and not as "function f(): ";
and the signature named `f` whose list of modifiers holds the empty modifier renders as
"function f()", with no space in front of it. -/
theorem MethodSignature_Marshal_counterexample :
    emptyResultSignature.Result ≠ none ∧
      MethodSignature.Marshal emptyResultSignature Ctx.Background = .ok "function f()" ∧
      MethodSignature.Marshal emptyResultSignature Ctx.Background ≠
        .ok ("function " ++ "f" ++ "(" ++ ")" ++ (": " ++ "")) ∧
      emptyModifierSignature.Modifiers ≠ [] ∧
      MethodSignature.Marshal emptyModifierSignature Ctx.Background = .ok "function f()" ∧
      MethodSignature.Marshal emptyModifierSignature Ctx.Background ≠
        .ok ((joined " " (emptyModifierSignature.Modifiers.map Modifier.val) ++ " ") ++
          "function " ++ "f" ++ "(" ++ ")") := by
  have h1 : MethodSignature.Marshal emptyResultSignature Ctx.Background = .ok "function f()" :=
    rfl
  have h2 : MethodSignature.Marshal emptyModifierSignature Ctx.Background =
      .ok "function f()" := rfl
  refine ⟨by simp [emptyResultSignature], h1, ?_, by simp [emptyModifierSignature], h2, ?_⟩
  · rw [h1]
    intro h
    exact absurd (Except.ok.inj h) (by decide)
  · rw [h2]
    intro h
    exact absurd (Except.ok.inj h) (by decide)

/-- Witness of C18 (amended) at the signature of the test "with all", at depth 0. -/
theorem MethodSignature_Marshal_spec_witness :
    MethodSignature.Marshal exampleSignature Ctx.Background = .ok
      ((if joined " " (exampleSignature.Modifiers.map Modifier.val) = "" then ""
          else joined " " (exampleSignature.Modifiers.map Modifier.val) ++ " ") ++
        "function " ++ exampleSignature.Name.val ++
        (if joined ", " ["T", "U"] = "" then "" else "<" ++ joined ", " ["T", "U"] ++ ">") ++
        "(" ++ joined ", " ["bar: T"] ++ ")" ++
        (if "U" = "" then "" else ": " ++ "U")) :=
  (MethodSignature_Marshal_spec exampleSignature Ctx.Background ["T", "U"] ["bar: T"]
    (by decide) (List.Forall₂.cons rfl (List.Forall₂.cons rfl List.Forall₂.nil))
    (List.Forall₂.cons rfl List.Forall₂.nil)).2.1 exampleResultType "U" rfl rfl

/-- C19: for every documentation text `t` and depth `d`, `Docs.Marshal` returns zero
bytes when `t` is empty, and otherwise the lines of `t` (the pieces between the newlines:
joined by newlines they give back `t`, and none contains a newline), each non-empty line
`L` rendered as "/// " ++ L and each empty line as the bare "///", joined by a newline
and `2 * d` spaces (so that the first line carries no indentation). -/
theorem Docs_Marshal_spec (t : String) (ctx : Ctx) (d : Nat) (hd : getIndentLevel ctx = d) :
    Docs.Marshal ⟨t⟩ ctx = .ok
        (if t = "" then ""
          else joined ("\n" ++ spaces (2 * d))
            ((splitNewline t.data).map (fun L => if L = "" then "///" else "/// " ++ L))) ∧
      Docs.Marshal ⟨""⟩ ctx = .ok "" ∧
      joined "\n" (splitNewline t.data) = t ∧
      (∀ L ∈ splitNewline t.data, '\n' ∉ L.data) := by
  refine ⟨?_, Docs_Marshal_empty ctx, splitNewline_joined t.data, splitNewline_no_newline t.data⟩
  rw [Docs_Marshal_eq, newlineWithIndentation_eq ctx d hd]
  rfl

/-- Witness of C19 at the two-line text of the test "indented", at depth 1. -/
theorem Docs_Marshal_spec_witness :
    Docs.Marshal ⟨"This is a comment\nThis is another comment"⟩
        (ctxWithIndentLevel Ctx.Background 1) = .ok
        (if "This is a comment\nThis is another comment" = "" then ""
          else joined ("\n" ++ spaces (2 * 1))
            ((splitNewline ("This is a comment\nThis is another comment" : String).data).map
              (fun L => if L = "" then "///" else "/// " ++ L))) ∧
      Docs.Marshal ⟨""⟩ (ctxWithIndentLevel Ctx.Background 1) = .ok "" ∧
      joined "\n" (splitNewline ("This is a comment\nThis is another comment" : String).data) =
        "This is a comment\nThis is another comment" ∧
      (∀ L ∈ splitNewline ("This is a comment\nThis is another comment" : String).data,
        '\n' ∉ L.data) :=
  Docs_Marshal_spec "This is a comment\nThis is another comment"
    (ctxWithIndentLevel Ctx.Background 1) 1 rfl

/-- C20: for every block-comment text `t` and depth `d`, `BlockComment.Marshal` returns
zero bytes when `t` is empty, and otherwise "/*", `nl`, the lines of `t` joined by `nl`,
`nl` and "*/", where `nl` is a newline and `2 * d` spaces, each non-empty line being
additionally prefixed by two spaces while an empty line gets no padding.  In particular
at depth 1 the text `This is a comment` renders as in the test of the package. -/
theorem BlockComment_Marshal_spec (t : String) (ctx : Ctx) (d : Nat)
    (hd : getIndentLevel ctx = d) :
    BlockComment.Marshal ⟨t⟩ ctx = .ok
        (if t = "" then ""
          else "/*" ++ ("\n" ++ spaces (2 * d)) ++
            joined ("\n" ++ spaces (2 * d))
              ((splitNewline t.data).map (fun L => if L = "" then "" else "  " ++ L)) ++
            ("\n" ++ spaces (2 * d)) ++ "*/") ∧
      BlockComment.Marshal ⟨""⟩ ctx = .ok "" ∧
      joined "\n" (splitNewline t.data) = t ∧
      (∀ L ∈ splitNewline t.data, '\n' ∉ L.data) ∧
      BlockComment.Marshal ⟨"This is a comment"⟩ (ctxWithIndentLevel Ctx.Background 1) =
        .ok "/*\n    This is a comment\n  */" := by
  refine ⟨?_, by simp [BlockComment.Marshal], splitNewline_joined t.data,
    splitNewline_no_newline t.data, rfl⟩
  rw [BlockComment_Marshal_eq, newlineWithIndentation_eq ctx d hd]
  rfl

/-- Witness of C20 at the text with an empty line of the test "multi line with empty
line", at depth 0. -/
theorem BlockComment_Marshal_spec_witness :
    BlockComment.Marshal ⟨"This is a comment\n\nThis is another comment"⟩ Ctx.Background = .ok
      (if "This is a comment\n\nThis is another comment" = "" then ""
        else "/*" ++ ("\n" ++ spaces (2 * 0)) ++
          joined ("\n" ++ spaces (2 * 0))
            ((splitNewline ("This is a comment\n\nThis is another comment" : String).data).map
              (fun L => if L = "" then "" else "  " ++ L)) ++
          ("\n" ++ spaces (2 * 0)) ++ "*/") :=
  (BlockComment_Marshal_spec "This is a comment\n\nThis is another comment" Ctx.Background 0
    rfl).1

/-- C21: un-quoting the rendering of a string expression, by the inverse `strconvUnquote`
of the quoting, gives the string back, for every string and every table of printable
characters; the same holds for the string literal type. -/
theorem StringExpression_Marshal_roundtrip (printTable : Char → Bool) (s : String)
    (ctx : Ctx) :
    (∃ text, StringExpression.Marshal printTable ⟨s⟩ ctx = .ok text ∧
      strconvUnquote text = some s) ∧
    (∃ text, StringLiteralType.Marshal printTable ⟨s⟩ ctx = .ok text ∧
      strconvUnquote text = some s) :=
  ⟨⟨_, rfl, strconvUnquote_strconvQuote printTable s⟩,
    ⟨_, rfl, strconvUnquote_strconvQuote printTable s⟩⟩

/-- C22: the rendering of a string expression and of a string literal type is a double
quote, the escaped texts of the characters of the string in their order, and a double
quote; a double quote of the string is written as a backslash and the double quote, a
backslash as two backslashes; read from the left, with every backslash taking the next
character with it, the text between the two outer quotes holds no double quote that is
not escaped, and the whole rendering holds exactly two, its first and its last
character. The string `"hello"` renders with its quotes escaped, the empty string as two
double quotes. -/
theorem strconvQuote_spec (printTable : Char → Bool) (s : String) (ctx : Ctx) :
    StringExpression.Marshal printTable ⟨s⟩ ctx =
      .ok ("\"" ++ escapedRunes printTable s.data ++ "\"") ∧
    StringLiteralType.Marshal printTable ⟨s⟩ ctx =
      .ok ("\"" ++ escapedRunes printTable s.data ++ "\"") ∧
    escapedRune printTable '"' = "\\\"" ∧
    escapedRune printTable '\\' = "\\\\" ∧
    unescapedQuotes (escapedRunes printTable s.data).data = 0 ∧
    unescapedQuotes ("\"" ++ escapedRunes printTable s.data ++ "\"").data = 2 ∧
    StringExpression.Marshal printTable ⟨"\"hello\""⟩ ctx = .ok "\"\\\"hello\\\"\"" ∧
    StringLiteralType.Marshal printTable ⟨"\"hello\""⟩ ctx = .ok "\"\\\"hello\\\"\"" ∧
    StringExpression.Marshal printTable ⟨""⟩ ctx = .ok "\"\"" ∧
    StringLiteralType.Marshal printTable ⟨""⟩ ctx = .ok "\"\"" := by
  refine ⟨?_, ?_, rfl, rfl, ?_, ?_, rfl, rfl, rfl, rfl⟩
  · simp only [StringExpression.Marshal, strconvQuote_eq]
  · simp only [StringLiteralType.Marshal, strconvQuote_eq]
  · have h := unescapedQuotes_escapedRunes printTable s.data []
    simpa [unescapedQuotes] using h
  · have h := unescapedQuotes_escapedRunes printTable s.data ['"']
    have hd : ("\"" ++ escapedRunes printTable s.data ++ "\"").data =
        '"' :: ((escapedRunes printTable s.data).data ++ ['"']) := by
      simp [String.data_append]
    rw [hd]
    cases hb : (escapedRunes printTable s.data).data ++ ['"'] with
    | nil => simp at hb
    | cons d rest =>
      rw [unescapedQuotes_quote, ← hb, h]
      simp [unescapedQuotes]

/-- C23: for every 64-bit signed integer `n`, the minimum included, an integer expression
renders as `-` exactly when `n` is negative, followed by decimal digits, at least one,
whose first is not `0` unless `n` is zero, for which the digits are the single `0`; the
digits denote the absolute value of `n`, and parsing the rendering as a decimal
integer gives `n` back. -/
theorem IntExpression_Marshal_spec (n : Int) (ctx : Ctx)
    (hmin : -9223372036854775808 ≤ n) (hmax : n < 9223372036854775808) :
    ∃ digits : List Char,
      IntExpression.Marshal ⟨n⟩ ctx = .ok ((if n < 0 then "-" else "") ++ String.mk digits) ∧
      digits ≠ [] ∧ (∀ c ∈ digits, c.isDigit = true) ∧
      (n = 0 → digits = ['0']) ∧ (n ≠ 0 → digits.head? ≠ some '0') ∧
      parseDigits 0 digits = some n.natAbs ∧
      parseDecimal ((if n < 0 then "-" else "") ++ String.mk digits) = some n := by
  obtain ⟨l, hl, hne, hdig, hhead, hzero, hminus, hparse⟩ :=
    toDigitsCore_spec (n.natAbs + 1) n.natAbs [] (by omega)
  have hrepr : Nat.repr n.natAbs = String.mk l := by
    simp only [Nat.repr, Nat.toDigits, hl, List.append_nil, List.asString]
  have hp : parseDigits 0 l = some n.natAbs := by
    rw [hparse 0]
    simp
  refine ⟨l, ?_, hne, hdig, ?_, ?_, hp, ?_⟩
  · simp only [IntExpression.Marshal, strconvFormatInt, magnitude_eq n hmin hmax, hrepr]
    split <;> simp
  · intro h
    exact hzero (by omega)
  · intro h
    exact hhead (by omega)
  · by_cases hneg : n < 0
    · cases l with
      | nil => exact absurd rfl hne
      | cons a t =>
        have hd : ("-" ++ String.mk (a :: t)).data = '-' :: a :: t := rfl
        simp only [hneg, if_true, parseDecimal, hd, hp, reduceCtorEq, if_false,
          Option.some.injEq, Int.ofNat_eq_coe]
        omega
    · cases l with
      | nil => exact absurd rfl hne
      | cons a t =>
        have ha : a ≠ '-' := by
          intro e
          apply hminus
          rw [e]
          rfl
        have hd : ("" ++ String.mk (a :: t)).data = a :: t := rfl
        simp only [hneg, if_false, parseDecimal, hd, ha, hp, Option.some.injEq,
          Int.ofNat_eq_coe]
        omega

/-- C23 at the minimum value: `-9223372036854775808` renders as that numeral, which
parses back to it. -/
theorem IntExpression_Marshal_spec_witness :
    IntExpression.Marshal ⟨-9223372036854775808⟩ Ctx.Background =
      .ok "-9223372036854775808" ∧
    parseDecimal "-9223372036854775808" = some (-9223372036854775808) ∧
    ∃ digits : List Char,
      IntExpression.Marshal ⟨-9223372036854775808⟩ Ctx.Background =
        .ok ((if (-9223372036854775808 : Int) < 0 then "-" else "") ++ String.mk digits) ∧
      digits ≠ [] ∧ (∀ c ∈ digits, c.isDigit = true) ∧
      ((-9223372036854775808 : Int) = 0 → digits = ['0']) ∧
      ((-9223372036854775808 : Int) ≠ 0 → digits.head? ≠ some '0') ∧
      parseDigits 0 digits = some (-9223372036854775808 : Int).natAbs ∧
      parseDecimal ((if (-9223372036854775808 : Int) < 0 then "-" else "") ++
        String.mk digits) = some (-9223372036854775808) :=
  ⟨rfl, by decide,
    IntExpression_Marshal_spec (-9223372036854775808) Ctx.Background (by decide) (by decide)⟩

/-- C24: a member access without arguments (a `nil` list) renders as its name alone; with
a list of arguments, whose members render to `rs`, it renders as the name, `(`, the
texts of `rs` joined by `, `, and `)`; with the present and empty list `NoArguments`
that is the name followed by `()`. -/
theorem MemberAccessExpression_Marshal_spec (N : Identifier) (arguments : Expressions)
    (ctx : Ctx) (rs : List String)
    (hargs : List.Forall₂ (fun a r => a.Marshal ctx = .ok r) arguments rs) :
    MemberAccessExpression.Marshal { Name := N, Arguments := none } ctx = .ok N.val ∧
    MemberAccessExpression.Marshal { Name := N, Arguments := some arguments } ctx =
      .ok (N.val ++ "(" ++ joined ", " rs ++ ")") ∧
    MemberAccessExpression.Marshal { Name := N, Arguments := some NoArguments } ctx =
      .ok (N.val ++ "()") := by
  have hj : joinNodes ctx arguments ", " = .ok (joined ", " rs) :=
    joinNodes_ok ctx ", " arguments rs hargs
  refine ⟨?_, ?_, ?_⟩
  · simp [MemberAccessExpression.Marshal, Identifier.Marshal, ok_bind, Buffer.Write,
      Buffer.Bytes, Buffer.empty, pure, Except.pure]
  · simp only [MemberAccessExpression.Marshal, Identifier.Marshal, Expressions.Marshal, hj,
      ok_bind, WriteRune_fst, Buffer.Write, Buffer.Bytes, Buffer.empty, pure, Except.pure]
    simp [String.append_assoc]
    rfl
  · simp only [MemberAccessExpression.Marshal, Identifier.Marshal, Expressions.Marshal,
      NoArguments, joinNodes_nil, ok_bind, WriteRune_fst, Buffer.Write, Buffer.Bytes,
      Buffer.empty, pure, Except.pure]
    simp [String.append_assoc]
    rfl

/-- C24 at the call of the package's tests: `foobar(42, "foobar")`, next to the plain
access `foobar` and the call `foobar()`. -/
theorem MemberAccessExpression_Marshal_spec_witness :
    (exampleCall (fun _ => false)).Marshal Ctx.Background = .ok "foobar(42, \"foobar\")" ∧
    MemberAccessExpression.Marshal { Name := ⟨"foobar"⟩, Arguments := none } Ctx.Background =
      .ok "foobar" ∧
    MemberAccessExpression.Marshal { Name := ⟨"foobar"⟩, Arguments := some NoArguments }
      Ctx.Background = .ok "foobar()" := by
  have h := MemberAccessExpression_Marshal_spec ⟨"foobar"⟩
    [(IntExpression.mk 42).toExpression,
      (StringExpression.mk "foobar").toExpression (fun _ => false)]
    Ctx.Background ["42", "\"foobar\""]
    (List.Forall₂.cons rfl (List.Forall₂.cons rfl List.Forall₂.nil))
  exact ⟨h.2.1, h.1, h.2.2⟩

/-- C25: a binary expression whose operands render to the non-empty texts `L` and `R`
renders as `L`, a space, the operator, a space, and `R`; an operand that is itself a
binary expression is written as it renders, without parentheses. -/
theorem BinaryExpression_Marshal_spec (e : BinaryExpression) (ctx : Ctx) (L R : String)
    (hl : e.Left.Marshal ctx = .ok L) (hr : e.Right.Marshal ctx = .ok R)
    (hL : L ≠ "") (hR : R ≠ "") :
    e.Marshal ctx = .ok (L ++ " " ++ e.Operator.val ++ " " ++ R) ∧
    (∀ (op : BinaryOperator) (other : Expression) (O : String),
      other.Marshal ctx = .ok O → O ≠ "" →
      BinaryExpression.Marshal { Operator := op, Left := e.toExpression, Right := other } ctx =
        .ok (L ++ " " ++ e.Operator.val ++ " " ++ R ++ " " ++ op.val ++ " " ++ O) ∧
      BinaryExpression.Marshal { Operator := op, Left := other, Right := e.toExpression } ctx =
        .ok (O ++ " " ++ op.val ++ " " ++ L ++ " " ++ e.Operator.val ++ " " ++ R)) := by
  have key : ∀ (x : BinaryExpression) (A B : String), x.Left.Marshal ctx = .ok A →
      x.Right.Marshal ctx = .ok B → A ≠ "" → B ≠ "" →
      x.Marshal ctx = .ok (A ++ " " ++ x.Operator.val ++ " " ++ B) := by
    intro x A B ha hb hA hB
    simp only [BinaryExpression.Marshal, ha, hb, ok_bind, WriteWithSuffix_fst,
      WriteWithPrefix_fst, hA, hB, if_false, Buffer.WriteString, Buffer.Write, Buffer.Bytes,
      Buffer.empty, pure, Except.pure]
    simp [String.append_assoc]
  have he := key e L R hl hr hL hR
  have hne : L ++ " " ++ e.Operator.val ++ " " ++ R ≠ "" := by
    simp only [String.append_assoc]
    exact append_ne_empty_left _ _ hL
  refine ⟨he, fun op other O ho hO => ⟨?_, ?_⟩⟩
  · have := key { Operator := op, Left := e.toExpression, Right := other } _ O he ho hne hO
    simpa [String.append_assoc] using this
  · have := key { Operator := op, Left := other, Right := e.toExpression } O _ ho he hO hne
    simpa [String.append_assoc] using this

/-- C25 at the product of the sum `a + b` and `c`: it renders as `a + b * c`. -/
theorem BinaryExpression_Marshal_spec_witness :
    exampleProduct.Marshal Ctx.Background = .ok "a + b * c" :=
  (BinaryExpression_Marshal_spec exampleProduct Ctx.Background "a + b" "c" rfl rfl
    (by decide) (by decide)).1

/-- C26: a union type with at least one member, whose members render to `rs`, renders
without a default as the texts of `rs` joined by ` | `, and with a default that renders
to `D` as that text followed by ` | *` and `D`. -/
theorem UnionType_Marshal_spec (t : UnionType) (ctx : Ctx) (rs : List String)
    (hne : t.Members ≠ [])
    (hmem : List.Forall₂ (fun m r => m.Marshal ctx = .ok r) t.Members rs) :
    (t.Default = none → t.Marshal ctx = .ok (joined " | " rs)) ∧
    (∀ (d : TypeNode) (D : String), t.Default = some d → d.Marshal ctx = .ok D →
      t.Marshal ctx = .ok (joined " | " rs ++ " | *" ++ D)) := by
  have hj : joinNodes ctx t.Members " | " = .ok (joined " | " rs) :=
    joinNodes_ok ctx " | " t.Members rs hmem
  have hlen : t.Members.length > 0 := List.length_pos.mpr hne
  refine ⟨fun hd => ?_, fun d D hd hD => ?_⟩
  · simp [UnionType.Marshal, hj, hd, ok_bind, Buffer.Write, Buffer.Bytes, Buffer.empty, pure,
      Except.pure]
  · simp only [UnionType.Marshal, hj, hd, hD, hlen, ok_bind, if_true, Buffer.WriteString,
      Buffer.Write, Buffer.Bytes, Buffer.empty, pure, Except.pure]
    simp [String.append_assoc]

/-- C26 at the union of the package's tests: `Int | String | *"foobar"`. -/
theorem UnionType_Marshal_spec_witness :
    (exampleUnion (fun _ => false)).Marshal Ctx.Background = .ok "Int | String | *\"foobar\"" :=
  (UnionType_Marshal_spec (exampleUnion (fun _ => false)) Ctx.Background ["Int", "String"]
    (by simp [exampleUnion])
    (List.Forall₂.cons rfl (List.Forall₂.cons rfl List.Forall₂.nil))).2
    ((StringLiteralType.mk "foobar").toTypeNode (fun _ => false)) "\"foobar\"" rfl rfl

/-- C27: a function literal type without parameters, whose result type renders to the
non-empty text `R`, renders as ` -> ` followed by `R`: the parentheses of the parameter
list are missing, so the rendering is not `() -> ` followed by `R`; with parameters whose
joined text `P` is non-empty the rendering is `(`, `P`, `) -> ` and `R`. -/
theorem FunctionLiteralType_Marshal_empty_parameters (t : FunctionLiteralType) (ctx : Ctx)
    (R : String) (hres : t.Result.Marshal ctx = .ok R) (hR : R ≠ "") :
    (t.Parameters = [] →
      t.Marshal ctx = .ok (" -> " ++ R) ∧ t.Marshal ctx ≠ .ok ("(" ++ ") -> " ++ R)) ∧
    (∀ rs : List String,
      List.Forall₂ (fun p r => p.Marshal ctx = .ok r) t.Parameters rs →
      joined ", " rs ≠ "" →
      t.Marshal ctx = .ok ("(" ++ joined ", " rs ++ ") -> " ++ R)) := by
  refine ⟨fun hp => ?_, fun rs hrs hne => ?_⟩
  · have h1 : t.Marshal ctx = .ok (" -> " ++ R) := by
      simp only [FunctionLiteralType.Marshal, hp, joinNodes_nil, hres, ok_bind,
        WriteWithPrefixSuffix_fst, WriteWithPrefix_fst, hR, if_true, if_false, Buffer.Bytes,
        Buffer.empty, pure, Except.pure]
      simp
    refine ⟨h1, ?_⟩
    rw [h1]
    intro h
    have := congrArg String.data (Except.ok.inj h)
    simp at this
  · have hj : joinNodes ctx t.Parameters ", " = .ok (joined ", " rs) :=
      joinNodes_ok ctx ", " t.Parameters rs hrs
    simp only [FunctionLiteralType.Marshal, hj, hres, ok_bind, WriteWithPrefixSuffix_fst,
      WriteWithPrefix_fst, hR, hne, if_false, Buffer.Bytes, Buffer.empty, pure, Except.pure]
    simp [String.append_assoc]

/-- C27 at the function type without parameters and with the result type `Int`: the
rendering is ` -> Int`, not `() -> Int`; the function type of the package's tests
renders as `(String, Int) -> Boolean`. -/
theorem FunctionLiteralType_Marshal_empty_parameters_witness :
    noParameterFunctionType.Marshal Ctx.Background = .ok " -> Int" ∧
    noParameterFunctionType.Marshal Ctx.Background ≠ .ok "() -> Int" ∧
    exampleFunctionType.Marshal Ctx.Background = .ok "(String, Int) -> Boolean" := by
  have h := FunctionLiteralType_Marshal_empty_parameters noParameterFunctionType
    Ctx.Background "Int" rfl (by decide)
  have h2 := FunctionLiteralType_Marshal_empty_parameters exampleFunctionType
    Ctx.Background "Boolean" rfl (by decide)
  exact ⟨(h.1 rfl).1, (h.1 rfl).2,
    h2.2 ["String", "Int"] (List.Forall₂.cons rfl (List.Forall₂.cons rfl List.Forall₂.nil))
      (by decide)⟩

/-- C28: after a `WriteFile` that succeeds, `ReadFile` returns the bytes written, for the
path written and for every path with the same normalized form, and a second `WriteFile`
to that path that succeeds replaces the bytes. A second `WriteFile` to the same path can
fail, though: on a fresh store the file `/` is written once, the second `WriteFile` to
`/` returns an error, and the file keeps the bytes written first. -/
theorem WriteFile_ReadFile_spec (m : MemFS) (p q data : String) (perm : Nat)
    (hw : (m.WriteFile p data perm).2 = none) (hq : pathClean q = pathClean p) :
    ((m.WriteFile p data perm).1.ReadFile q).2 = .ok data ∧
    ((m.WriteFile p data perm).1.ReadFile p).2 = .ok data ∧
    (∀ (data2 : String) (perm2 : Nat),
      ((m.WriteFile p data perm).1.WriteFile q data2 perm2).2 = none →
      (((m.WriteFile p data perm).1.WriteFile q data2 perm2).1.ReadFile p).2 = .ok data2) ∧
    (New.WriteFile "/" "a" 0o644).2 = none ∧
    ((New.WriteFile "/" "a" 0o644).1.ReadFile "/").2 = .ok "a" ∧
    ((New.WriteFile "/" "a" 0o644).1.WriteFile "/" "b" 0o644).2 =
      some (fsPathError "mkdir" "/" fsErrExist) ∧
    (((New.WriteFile "/" "a" 0o644).1.WriteFile "/" "b" 0o644).1.ReadFile "/").2 = .ok "a" := by
  have h1 := WriteFile_ok_lookup m p data perm hw
  refine ⟨?_, ?_, ?_, by decide, rfl, by decide, rfl⟩
  · exact ReadFile_of_lookup _ q _ (by rw [hq]; exact h1) rfl
  · exact ReadFile_of_lookup _ p _ h1 rfl
  · intro data2 perm2 hw2
    have h2 := WriteFile_ok_lookup _ q data2 perm2 hw2
    exact ReadFile_of_lookup _ p _ (by rw [← hq]; exact h2) rfl

/-- C28 at a fresh store: after `WriteFile("a/b/c.txt", "hello", 0644)` the path
`./a//b/c.txt`, which has the same normalized form, reads as `hello`. -/
theorem WriteFile_ReadFile_spec_witness :
    (exampleStore.ReadFile "./a//b/c.txt").2 = .ok "hello" :=
  (WriteFile_ReadFile_spec New "a/b/c.txt" "./a//b/c.txt" "hello" 0o644 (by decide)
    (by decide)).1

/-- C29: when the normalized form of the path is stored as a directory, `WriteFile`
returns an error and the store afterwards is the store before; the root `.` of a fresh
store is such a directory. -/
theorem WriteFile_directory_spec (m : MemFS) (p data : String) (perm : Nat) (node : memNode)
    (hnode : mapLookup (pathClean p) m.nodes = some node) (hdir : node.isDir = true) :
    (m.WriteFile p data perm).2 = some (fsPathError "write" (pathClean p) fsErrInvalid) ∧
    (m.WriteFile p data perm).1 = m ∧
    (New.WriteFile "." data perm).2 = some (fsPathError "write" "." fsErrInvalid) ∧
    (New.WriteFile "." data perm).1 = New := by
  have key : ∀ (s : MemFS) (x : String) (n : memNode),
      mapLookup (pathClean x) s.nodes = some n → n.isDir = true →
      s.WriteFile x data perm = (s, some (fsPathError "write" (pathClean x) fsErrInvalid)) := by
    intro s x n hn hd
    simp [MemFS.WriteFile, hn, hd]
  have hroot := key New "." { mode := fsModeDir ||| 0o755, isDir := true } (by decide) rfl
  rw [key m p node hnode hdir, hroot]
  exact ⟨rfl, rfl, by decide, rfl⟩

/-- C29 at the store that holds `a/b/c.txt`: writing to the directory `a/b`, named as
`a/b/`, fails and changes nothing. -/
theorem WriteFile_directory_spec_witness :
    (exampleStore.WriteFile "a/b/" "x" 0o644).2 =
      some (fsPathError "write" "a/b" fsErrInvalid) ∧
    (exampleStore.WriteFile "a/b/" "x" 0o644).1 = exampleStore := by
  have h := WriteFile_directory_spec exampleStore "a/b/" "x" 0o644
    { mode := 0o755 ||| fsModeDir, isDir := true } (by decide) rfl
  exact ⟨h.1, h.2.1⟩

/-- C30: `ReadFile` returns an error exactly when the normalized form of the path is not
stored or is stored as a directory, and returns the bytes of the file stored there
otherwise; on a fresh store every `ReadFile` returns an error; the store after a
`ReadFile` is the store before. -/
theorem ReadFile_spec (m : MemFS) (name : String) :
    ((∃ e, (m.ReadFile name).2 = .error e) ↔
      (mapLookup (pathClean name) m.nodes = none ∨
        ∃ node, mapLookup (pathClean name) m.nodes = some node ∧ node.isDir = true)) ∧
    (∀ node, mapLookup (pathClean name) m.nodes = some node → node.isDir = false →
      (m.ReadFile name).2 = .ok node.data) ∧
    (∃ e, (New.ReadFile name).2 = .error e) ∧
    (m.ReadFile name).1 = m := by
  refine ⟨?_, fun node h hf => ReadFile_of_lookup m name node h hf, ?_, ?_⟩
  · cases h : mapLookup (pathClean name) m.nodes with
    | none => simp [MemFS.ReadFile, h]
    | some node =>
      cases hd : node.isDir <;> simp [MemFS.ReadFile, h, hd]
  · by_cases h : pathClean name = "."
    · exact ⟨_, by simp [MemFS.ReadFile, New, mapLookup, h]; rfl⟩
    · have h2 : ¬ "." = pathClean name := fun e => h e.symm
      exact ⟨_, by simp [MemFS.ReadFile, New, mapLookup, h2]; rfl⟩
  · cases h : mapLookup (pathClean name) m.nodes with
    | none => simp [MemFS.ReadFile, h]
    | some node =>
      cases hd : node.isDir <;> simp [MemFS.ReadFile, h, hd]

/-- C30 at the store that holds `a/b/c.txt`: the file reads as `hello`, the directory
`a/b` and the missing path `a/x` do not read, and the store is as before. -/
theorem ReadFile_spec_witness :
    (exampleStore.ReadFile "a/b/c.txt").2 = .ok "hello" ∧
    (exampleStore.ReadFile "a/b").2 = .error (fsPathError "read" "a/b" fsErrInvalid) ∧
    (exampleStore.ReadFile "a/x").2 = .error fsErrNotExist ∧
    (exampleStore.ReadFile "a/b/c.txt").1 = exampleStore :=
  ⟨(ReadFile_spec exampleStore "a/b/c.txt").2.1 { data := "hello", mode := 0o644, isDir := false }
      (by decide) rfl,
    rfl, rfl, (ReadFile_spec exampleStore "a/b/c.txt").2.2.2⟩

/-- C31: on a fresh store `WriteFile("/a/b", "x", 0644)` succeeds, and afterwards the
parent `/a` of the path written is not stored: the directory created is `a`. For the
path `a/b/c.txt`, which is not rooted, the parent `a/b`, its parent `a` and the root `.`
are stored as directories after the call. -/
theorem WriteFile_rooted_parent :
    (New.WriteFile "/a/b" "x" 0o644).2 = none ∧
    pathDir (pathClean "/a/b") = "/a" ∧
    mapLookup "/a" (New.WriteFile "/a/b" "x" 0o644).1.nodes = none ∧
    mapLookup "a" (New.WriteFile "/a/b" "x" 0o644).1.nodes =
      some { mode := 0o755 ||| fsModeDir, isDir := true } ∧
    (New.WriteFile "a/b/c.txt" "hello" 0o644).2 = none ∧
    pathDir (pathClean "a/b/c.txt") = "a/b" ∧ pathDir "a/b" = "a" ∧ pathDir "a" = "." ∧
    mapLookup "a/b" (New.WriteFile "a/b/c.txt" "hello" 0o644).1.nodes =
      some { mode := 0o755 ||| fsModeDir, isDir := true } ∧
    mapLookup "a" (New.WriteFile "a/b/c.txt" "hello" 0o644).1.nodes =
      some { mode := 0o755 ||| fsModeDir, isDir := true } ∧
    mapLookup "." (New.WriteFile "a/b/c.txt" "hello" 0o644).1.nodes =
      some { mode := fsModeDir ||| 0o755, isDir := true } := by
  decide

/-- C32: opening a stored directory succeeds, and the names of the entries of the listing
are in strictly ascending order, so that no name is listed twice; a store that holds
the same nodes in another order gives the same list of names. -/
theorem Open_directory_sorted (m : MemFS) (name : String) (node : memNode)
    (hnode : mapLookup (pathClean name) m.nodes = some node) (hdir : node.isDir = true) :
    ∃ f, (m.Open name).2 = .ok f ∧ f.isDir = true ∧
      List.Sorted (fun a b : String => a < b) (f.entries.map (fun e => e.name)) ∧
      (f.entries.map (fun e => e.name)).Nodup ∧
      (∀ m2 : MemFS, m2.nodes.Perm m.nodes → (m.nodes.map Prod.fst).Nodup →
        ∃ f2, (m2.Open name).2 = .ok f2 ∧
          f2.entries.map (fun e => e.name) = f.entries.map (fun e => e.name)) := by
  obtain ⟨f, hf, hd, hs, hmem⟩ := openDir_spec m (pathClean name) node hnode hdir
  have hopen : ∀ (s : MemFS) (n : memNode), mapLookup (pathClean name) s.nodes = some n →
      n.isDir = true → (s.Open name).2 = s.openDir (pathClean name) := by
    intro s n hn hnd
    simp [MemFS.Open, hn, hnd]
  refine ⟨f, by rw [hopen m node hnode hdir, hf], hd, hs, hs.nodup, fun m2 hp hnd => ?_⟩
  have hnode2 : mapLookup (pathClean name) m2.nodes = some node := by
    rw [mapLookup_perm _ _ _ hp hnd, hnode]
  obtain ⟨f2, hf2, _, hs2, hmem2⟩ := openDir_spec m2 (pathClean name) node hnode2 hdir
  refine ⟨f2, by rw [hopen m2 node hnode2 hdir, hf2], ?_⟩
  apply List.eq_of_perm_of_sorted _ hs2 hs
  rw [List.perm_ext_iff_of_nodup hs2.nodup hs.nodup]
  intro y
  rw [hmem y, hmem2 y]
  constructor
  · rintro ⟨pn, h1, h2⟩
    exact ⟨pn, hp.mem_iff.mp h1, h2⟩
  · rintro ⟨pn, h1, h2⟩
    exact ⟨pn, hp.mem_iff.mpr h1, h2⟩

/-- C32 at the store written in the order `b.txt`, `a/y.txt`, `a.txt`, `a/x.txt`: the
listing of the directory `a` is in strictly ascending order of name. -/
theorem Open_directory_sorted_witness :
    ∃ f, (listingStore.Open "a").2 = .ok f ∧ f.isDir = true ∧
      List.Sorted (fun a b : String => a < b) (f.entries.map (fun e => e.name)) ∧
      (f.entries.map (fun e => e.name)).Nodup := by
  obtain ⟨f, h1, h2, h3, h4, _⟩ := Open_directory_sorted listingStore "a"
    { mode := 0o755 ||| fsModeDir, isDir := true } (by decide) rfl
  exact ⟨f, h1, h2, h3, h4⟩

/-- C33 (as amended): for every project name, rendering the new project succeeds and the
file `PklProject` of the store returned holds `amends "pkl:Project"` and one newline;
after `AddModule` with a module whose path has a normalized form other than
`PklProject`, the project holds the manifest and that module, and in whichever order
the two are rendered, a rendering that succeeds returns a store in which the file
`PklProject` holds the same text. -/
theorem NewProject_Render_spec (name : String) (printTable : Char → Bool) (m : pkl.Module)
    (hm : pathClean m.Path ≠ "PklProject") :
    (∃ fsys, (pkl.NewProject name).Render printTable = .ok fsys ∧
      (fsys.ReadFile "PklProject").2 = .ok "amends \"pkl:Project\"\n") ∧
    ((pkl.NewProject name).AddModule m).Modules =
      [("PklProject", manifestModule), (m.Path, m)] ∧
    (∀ fsys, pkl.renderLoop printTable [("PklProject", manifestModule), (m.Path, m)] New =
        .ok fsys → (fsys.ReadFile "PklProject").2 = .ok "amends \"pkl:Project\"\n") ∧
    (∀ fsys, pkl.renderLoop printTable [(m.Path, m), ("PklProject", manifestModule)] New =
        .ok fsys → (fsys.ReadFile "PklProject").2 = .ok "amends \"pkl:Project\"\n") := by
  have hmar : manifestModule.Marshal printTable = .ok "amends \"pkl:Project\"\n" := rfl
  have hclean : pathClean "PklProject" = "PklProject" := by decide
  have hpath : m.Path ≠ "PklProject" := by
    intro e
    rw [e] at hm
    exact hm hclean
  have hpath2 : ¬ "PklProject" = m.Path := fun e => hpath e.symm
  refine ⟨⟨_, rfl, rfl⟩, ?_, ?_, ?_⟩
  · simp [pkl.Project.AddModule, pkl.NewProject, mapAssign, hpath2, manifestModule]
  · intro fsys h
    have hno : ∀ e, pkl.renderLoop printTable [("PklProject", manifestModule), (m.Path, m)]
        New ≠ .error e := by
      intro e he
      rw [he] at h
      exact absurd h (by simp)
    obtain ⟨d1, hd1, hw1, hstep1⟩ := renderLoop_cons_ok printTable _ _ _ _ hno
    rw [hmar, Except.ok.injEq] at hd1
    subst hd1
    rw [hstep1] at h hno
    obtain ⟨d2, _, hw2, hstep2⟩ := renderLoop_cons_ok printTable _ _ _ _ hno
    rw [hstep2] at h
    simp only [pkl.renderLoop, Except.ok.injEq] at h
    subst h
    have hl := WriteFile_ok_lookup New "PklProject" "amends \"pkl:Project\"\n" 0o666 hw1
    have hl2 := WriteFile_preserves _ m.Path d2 0o666 _ _ hl (by rw [hclean]; exact fun e => hm e.symm)
    exact ReadFile_of_lookup _ "PklProject" _ hl2 rfl
  · intro fsys h
    have hno : ∀ e, pkl.renderLoop printTable [(m.Path, m), ("PklProject", manifestModule)]
        New ≠ .error e := by
      intro e he
      rw [he] at h
      exact absurd h (by simp)
    obtain ⟨d1, _, hw1, hstep1⟩ := renderLoop_cons_ok printTable _ _ _ _ hno
    rw [hstep1] at h hno
    obtain ⟨d2, hd2, hw2, hstep2⟩ := renderLoop_cons_ok printTable _ _ _ _ hno
    rw [hmar, Except.ok.injEq] at hd2
    subst hd2
    rw [hstep2] at h
    simp only [pkl.renderLoop, Except.ok.injEq] at h
    subst h
    exact ReadFile_of_lookup _ "PklProject" _ (WriteFile_ok_lookup _ _ _ _ hw2) rfl

/-- C33 (as stated, refuted): the path `./PklProject` is another path than `PklProject`,
and after `AddModule` with a module under it, which amends `pkl:Other`, the rendering
succeeds and the file `PklProject` holds the text of that module, not the manifest. -/
theorem NewProject_Render_counterexample :
    shadowModule.Path ≠ "PklProject" ∧
    ∃ fsys, ((pkl.NewProject "x").AddModule shadowModule).Render (fun _ => false) = .ok fsys ∧
      (fsys.ReadFile "PklProject").2 = .ok "amends \"pkl:Other\"\n" ∧
      (fsys.ReadFile "PklProject").2 ≠ .ok "amends \"pkl:Project\"\n" := by
  refine ⟨by decide, _, rfl, rfl, ?_⟩
  intro h
  exact absurd (Except.ok.inj h) (by decide)

/-- C33 at the module `a/b.pkl` added to a new project: the manifest file is as before. -/
theorem NewProject_Render_spec_witness :
    ∃ fsys, ((pkl.NewProject "x").AddModule (namedModule "a/b.pkl")).Render (fun _ => false) =
        .ok fsys ∧
      (fsys.ReadFile "PklProject").2 = .ok "amends \"pkl:Project\"\n" := by
  have h := NewProject_Render_spec "x" (fun _ => false) (namedModule "a/b.pkl") (by decide)
  refine ⟨_, rfl, ?_⟩
  exact h.2.2.1 _ rfl

/-- C34: when the modules before `m` render and are stored, and `m` fails to render or to
be stored with the error `err`, `Render` returns no store and an error that wraps `err`
itself and whose message holds the path of `m`; a project that holds a module at the
path `a` and one at the path `a/b` fails to render in every order of its modules. -/
theorem Render_error_spec (printTable : Char → Bool) (name : String)
    (before after : List (String × pkl.Module)) (k : String) (m : pkl.Module) (fsys : MemFS)
    (hbefore : pkl.renderLoop printTable before New = .ok fsys) :
    (∀ err, m.Marshal printTable = .error err →
      ∃ e, pkl.Project.Render printTable ⟨name, before ++ (k, m) :: after⟩ = .error e ∧
        e.Unwrap = err ∧ e.msg = "marshal Pkl module " ++ m.Path ++ ": " ++ err.msg) ∧
    (∀ data err, m.Marshal printTable = .ok data →
      (fsys.WriteFile m.Path data 0o666).2 = some err →
      ∃ e, pkl.Project.Render printTable ⟨name, before ++ (k, m) :: after⟩ = .error e ∧
        e.Unwrap = err ∧ e.msg = "write Pkl module " ++ m.Path ++ ": " ++ err.msg) ∧
    (∀ l : List (String × pkl.Module), (∃ x ∈ l, x.2.Path = "a") →
      (∃ y ∈ l, y.2.Path = "a/b") →
      ∃ e, pkl.Project.Render printTable ⟨name, l⟩ = .error e) := by
  refine ⟨fun err hm => ?_, fun data err hm hw => ?_, fun l h1 h2 => ?_⟩
  · refine ⟨marshalError m.Path err, ?_, rfl, rfl⟩
    simp only [pkl.Project.Render]
    rw [renderLoop_append printTable before _ New fsys hbefore, pkl.renderLoop]
    simp only [hm]
  · refine ⟨writeError m.Path err, ?_, rfl, rfl⟩
    simp only [pkl.Project.Render]
    rw [renderLoop_append printTable before _ New fsys hbefore, pkl.renderLoop]
    simp only [hm, hw]
  · exact renderLoop_a_ab printTable l New h1 h2

/-- C34 at the project that holds the modules `a/b` and `a`, processed in this order:
storing `a` fails, and the error of `Render` wraps the error of the store. -/
theorem Render_error_spec_witness :
    ∃ e, pkl.Project.Render (fun _ => false)
        ⟨"x", [("a/b", namedModule "a/b"), ("a", namedModule "a")]⟩ = .error e ∧
      e.Unwrap = fsPathError "write" "a" fsErrInvalid ∧
      e.msg = "write Pkl module a: write a: invalid argument" := by
  obtain ⟨e, h1, h2, h3⟩ := (Render_error_spec (fun _ => false) "x"
    [("a/b", namedModule "a/b")] [] "a" (namedModule "a")
    (New.WriteFile "a/b" "module m\n" 0o666).1 rfl).2.1 "module m\n"
    (fsPathError "write" "a" fsErrInvalid) rfl (by decide)
  exact ⟨e, h1, h2, by rw [h3]; decide⟩

/-- C35: rendering is deterministic.  For every value built from the node types of the
package and every two contexts with the same indent level, `Marshal` has the same outcome,
text or error, in both: the outcome is a function of the fields of the node and of the
indent level alone, and so a second call on the same tree returns the same bytes. -/
theorem Marshal_deterministic (printTable : Char → Bool) (formatFloat : Nat → String)
    (t : NodeTree) (ctx ctx2 : Ctx) (h : getIndentLevel ctx = getIndentLevel ctx2) :
    t.Marshal printTable formatFloat ctx = t.Marshal printTable formatFloat ctx2 :=
  (NodeTree_regular printTable formatFloat t).2 ctx ctx2 h

/-- C35 at the object body with the member `x = new` and the nested element `1`: the
context without an indent level and the context with the indent level 0 give the same
outcome. -/
theorem Marshal_deterministic_witness :
    getIndentLevel Ctx.Background = getIndentLevel (ctxWithIndentLevel Ctx.Background 0) ∧
    NodeTree.Marshal (fun _ => false) (fun _ => "0") (.ObjectBody nestedBodyTree)
        Ctx.Background =
      NodeTree.Marshal (fun _ => false) (fun _ => "0") (.ObjectBody nestedBodyTree)
        (ctxWithIndentLevel Ctx.Background 0) :=
  ⟨rfl, Marshal_deterministic _ _ _ _ _ rfl⟩

/-- C36: for an empty `p` the three guarded writes leave the buffer as it is and return
0; otherwise they append `p` and the suffix, the text `pre` and `p`, and `pre`, `p` and
the suffix, and return the number of bytes appended; in every case the bytes held
before are the beginning of the bytes held afterwards. -/
theorem WriteWith_spec (b : Buffer) (p pre suffix : String) :
    (p = "" → b.WriteWithSuffix p suffix = (b, 0) ∧ b.WriteWithPrefix pre p = (b, 0) ∧
      b.WriteWithPrefixSuffix pre p suffix = (b, 0)) ∧
    (p ≠ "" →
      b.WriteWithSuffix p suffix = (⟨b.bytes ++ (p ++ suffix)⟩, len (p ++ suffix)) ∧
      b.WriteWithPrefix pre p = (⟨b.bytes ++ (pre ++ p)⟩, len (pre ++ p)) ∧
      b.WriteWithPrefixSuffix pre p suffix =
        (⟨b.bytes ++ (pre ++ p ++ suffix)⟩, len (pre ++ p ++ suffix))) ∧
    (∃ t, (b.WriteWithSuffix p suffix).1.bytes = b.bytes ++ t ∧
      (b.WriteWithSuffix p suffix).2 = len t) ∧
    (∃ t, (b.WriteWithPrefix pre p).1.bytes = b.bytes ++ t ∧
      (b.WriteWithPrefix pre p).2 = len t) ∧
    (∃ t, (b.WriteWithPrefixSuffix pre p suffix).1.bytes = b.bytes ++ t ∧
      (b.WriteWithPrefixSuffix pre p suffix).2 = len t) := by
  have hlen : ∀ s t : String, len (s ++ t) = len s + len t := by
    intro s t
    obtain ⟨cs⟩ := s
    obtain ⟨ct⟩ := t
    show String.utf8ByteSize ⟨cs ++ ct⟩ = String.utf8ByteSize ⟨cs⟩ + String.utf8ByteSize ⟨ct⟩
    simp
  have h0 : len "" = 0 := rfl
  by_cases hp : p = ""
  · subst hp
    refine ⟨fun _ => ⟨rfl, rfl, rfl⟩, fun h => absurd rfl h, ⟨"", ?_, ?_⟩, ⟨"", ?_, ?_⟩,
      ⟨"", ?_, ?_⟩⟩ <;> simp [Buffer.WriteWithSuffix, Buffer.WriteWithPrefix,
        Buffer.WriteWithPrefixSuffix, h0]
  · have hl : len p ≠ 0 := fun e => hp ((len_eq_zero_iff p).mp e)
    have e1 : b.WriteWithSuffix p suffix = (⟨b.bytes ++ (p ++ suffix)⟩, len (p ++ suffix)) := by
      simp [Buffer.WriteWithSuffix, hl, Buffer.Write, Buffer.WriteString, hlen,
        String.append_assoc]
    have e2 : b.WriteWithPrefix pre p = (⟨b.bytes ++ (pre ++ p)⟩, len (pre ++ p)) := by
      simp [Buffer.WriteWithPrefix, hl, Buffer.Write, Buffer.WriteString, hlen,
        String.append_assoc]
    have e3 : b.WriteWithPrefixSuffix pre p suffix =
        (⟨b.bytes ++ (pre ++ p ++ suffix)⟩, len (pre ++ p ++ suffix)) := by
      simp [Buffer.WriteWithPrefixSuffix, hl, Buffer.Write, Buffer.WriteString, hlen,
        String.append_assoc, Nat.add_assoc]
    refine ⟨fun h => absurd h hp, fun _ => ⟨e1, e2, e3⟩, ⟨p ++ suffix, ?_, ?_⟩,
      ⟨pre ++ p, ?_, ?_⟩, ⟨pre ++ p ++ suffix, ?_, ?_⟩⟩
    · rw [e1]
    · rw [e1]
    · rw [e2]
    · rw [e2]
    · rw [e3]
    · rw [e3]

/-- C37: for every value built from the node types of the package alone, in which every
required child is present, `Marshal` returns a text and no error in every context, so at
every depth: no node type originates an error, and the error branches of the renderer
are not reached. -/
theorem Marshal_never_fails (printTable : Char → Bool) (formatFloat : Nat → String)
    (t : NodeTree) (ctx : Ctx) :
    ∃ out, t.Marshal printTable formatFloat ctx = .ok out :=
  (NodeTree_regular printTable formatFloat t).1 ctx

/-- C38, as stated, fails: the object body whose one member is the built-in expression
named `"a\nb"` has no identifier, modifier or operator that holds a line feed, its
rendering at depth 0 is an opening brace, `"\n  a\nb\n"` and a closing brace, and its
rendering at depth 1 leaves the line `b` where it is, whereas the replacement of every
`"\n"` moves it to the right by two spaces. -/
theorem ObjectBody_Marshal_shift_counterexample :
    builtinBodyTree.clean false = true ∧
    (builtinBodyTree.toObjectBody (fun _ => false) (fun _ => "0")).Marshal
      (ctxWithIndentLevel Ctx.Background 0) = .ok "\x7b\n  a\nb\n\x7d" ∧
    (builtinBodyTree.toObjectBody (fun _ => false) (fun _ => "0")).Marshal
      (ctxWithIndentLevel Ctx.Background 1) = .ok "\x7b\n    a\nb\n  \x7d" ∧
    shift "\x7b\n  a\nb\n\x7d" = "\x7b\n    a\n  b\n  \x7d" ∧
    "\x7b\n    a\nb\n  \x7d" ≠ "\x7b\n    a\n  b\n  \x7d" :=
  ⟨rfl, rfl, rfl, rfl, by decide⟩

/-- C38 (amended): indentation is a homomorphism on the object bodies built from the node
types of the package in which no text that the renderer writes as it is holds a line
feed: the identifiers, modifiers and operators, and also the names of the built-in
expressions and types and the variances (the texts of the floating-point literals are
those of `formatFloat`, without a line feed).  For such a body the rendering in a context
one level deeper is the rendering with every `"\n"` replaced by `"\n"` and two spaces. -/
theorem ObjectBody_Marshal_shift (printTable : Char → Bool) (formatFloat : Nat → String)
    (hf : ∀ bits, noNewline (formatFloat bits) = true) (b : ObjectBodyTree)
    (hb : b.clean true = true) (ctx ctx2 : Ctx)
    (hd : getIndentLevel ctx2 = getIndentLevel ctx + 1) :
    ∃ out, (b.toObjectBody printTable formatFloat).Marshal ctx = .ok out ∧
      (b.toObjectBody printTable formatFloat).Marshal ctx2 = .ok (shift out) := by
  obtain ⟨out, h1, h2⟩ := ObjectBodyTree_shifts printTable formatFloat hf b hb ctx
  refine ⟨out, h1, ?_⟩
  rw [← h2]
  exact (ObjectBodyTree_regular printTable formatFloat b).2 ctx2 (raiseIndentLevel ctx) hd

/-- C38 (amended) at the object body with the member `x = new` and the nested element
`1`, between the depths 0 and 1. -/
theorem ObjectBody_Marshal_shift_witness :
    (∀ bits : Nat, noNewline ((fun _ => "0") bits) = true) ∧
    nestedBodyTree.clean true = true ∧
    getIndentLevel (ctxWithIndentLevel Ctx.Background 1) = getIndentLevel Ctx.Background + 1 ∧
    ∃ out, (nestedBodyTree.toObjectBody (fun _ => false) (fun _ => "0")).Marshal
        Ctx.Background = .ok out ∧
      (nestedBodyTree.toObjectBody (fun _ => false) (fun _ => "0")).Marshal
        (ctxWithIndentLevel Ctx.Background 1) = .ok (shift out) :=
  ⟨fun _ => rfl, rfl, rfl,
    ObjectBody_Marshal_shift (fun _ => false) (fun _ => "0") (fun _ => rfl) nestedBodyTree rfl
      Ctx.Background (ctxWithIndentLevel Ctx.Background 1) rfl⟩

/-- C39: a `WriteFile` that succeeds leaves every other path alone: a file stored under a
path `q` whose normalized form differs from the one of the path written reads as
before, every directory stored before is stored as the same directory afterwards, and
in fact every stored path other than the one written keeps its node. -/
theorem WriteFile_frame (m : MemFS) (p q data : String) (perm : Nat)
    (hw : (m.WriteFile p data perm).2 = none) (hpq : pathClean q ≠ pathClean p) :
    (∀ node, mapLookup (pathClean q) m.nodes = some node → node.isDir = false →
      (m.ReadFile q).2 = .ok node.data ∧
      ((m.WriteFile p data perm).1.ReadFile q).2 = .ok node.data) ∧
    (∀ k node, mapLookup k m.nodes = some node → node.isDir = true →
      mapLookup k (m.WriteFile p data perm).1.nodes = some node) ∧
    (∀ k node, mapLookup k m.nodes = some node → k ≠ pathClean p →
      mapLookup k (m.WriteFile p data perm).1.nodes = some node) := by
  refine ⟨fun node hq hf => ⟨ReadFile_of_lookup m q node hq hf, ?_⟩, fun k node hk hd => ?_,
    fun k node hk hne => WriteFile_preserves m p data perm k node hk hne⟩
  · exact ReadFile_of_lookup _ q node (WriteFile_preserves m p data perm _ node hq hpq) hf
  · apply WriteFile_preserves m p data perm k node hk
    intro e
    subst e
    have := WriteFile_not_directory m p data perm hw node hk
    rw [hd] at this
    exact absurd this (by decide)

/-- C39 at the store that holds `a/b/c.txt`: after `WriteFile("a/d.txt", "x", 0644)` the
file `a/b/c.txt` still reads as `hello` and `a/b` is still a directory. -/
theorem WriteFile_frame_witness :
    ((exampleStore.WriteFile "a/d.txt" "x" 0o644).1.ReadFile "a/b/c.txt").2 = .ok "hello" ∧
    mapLookup "a/b" (exampleStore.WriteFile "a/d.txt" "x" 0o644).1.nodes =
      some { mode := 0o755 ||| fsModeDir, isDir := true } := by
  have h := WriteFile_frame exampleStore "a/d.txt" "a/b/c.txt" "x" 0o644 (by decide)
    (by decide)
  exact ⟨(h.1 { data := "hello", mode := 0o644, isDir := false } (by decide) rfl).2,
    h.2.1 "a/b" { mode := 0o755 ||| fsModeDir, isDir := true } (by decide) rfl⟩

/-- C40: a class whose name is empty renders, without an error, as the text of its other
parts: the docs, annotations and modifiers, the type parameters, ` extends ` and the
parent when there is one, and the members between braces; the keyword `class ` is not
written, so that the class with only the parent `Bar` renders as ` extends Bar`. A method
signature whose name is empty renders, without an error, as its modifiers, its type
parameters, the parameters between parentheses and the result type; the keyword
`function ` is not written, so that the signature with no field set renders as `()`. -/
theorem empty_name_spec (c : Class) (m : MethodSignature) (ctx : Ctx) (A MT : String)
    (tps ps : List String) (hc : c.Name.val = "") (hm : m.Name.val = "")
    (hA : Annotations.Marshal c.Annotations ctx = .ok A)
    (hM : joinNodes (raiseIndentLevel ctx) c.Members
      ("\n" ++ newlineWithIndentation (raiseIndentLevel ctx)) = .ok MT)
    (htp : List.Forall₂ (fun x r => TypeParameter.Marshal x ctx = .ok r) m.TypeParameters tps)
    (hp : List.Forall₂ (fun x r => Parameter.Marshal x ctx = .ok r) m.Parameters ps) :
    (∃ D TP PTP, Docs.Marshal c.Docs ctx = .ok D ∧
      TypeParameters.Marshal c.TypeParameters ctx = .ok TP ∧
      TypeParameters.Marshal c.ParentTypeParameters ctx = .ok PTP ∧
      Class.Marshal c ctx = .ok
        (declarationPrefix (newlineWithIndentation ctx) D A
            (joined " " (c.Modifiers.map Modifier.val)) ++ TP ++
          (if c.ParentName.val = "" then "" else " extends " ++ c.ParentName.val) ++ PTP ++
          (if MT = "" then ""
            else " \x7b" ++ newlineWithIndentation (raiseIndentLevel ctx) ++ MT ++
              (newlineWithIndentation ctx ++ "\x7d")))) ∧
    Class.Marshal { Name := ⟨""⟩, ParentName := ⟨"Bar"⟩ } ctx = .ok " extends Bar" ∧
    Class.Marshal { Name := ⟨""⟩ } ctx = .ok "" ∧
    (m.Result = none →
      MethodSignature.Marshal m ctx = .ok
        ((if joined " " (m.Modifiers.map Modifier.val) = "" then ""
            else joined " " (m.Modifiers.map Modifier.val) ++ " ") ++
          (if joined ", " tps = "" then "" else "<" ++ joined ", " tps ++ ">") ++
          "(" ++ joined ", " ps ++ ")")) ∧
    (∀ (r : TypeNode) (R : String), m.Result = some r → r.Marshal ctx = .ok R →
      MethodSignature.Marshal m ctx = .ok
        ((if joined " " (m.Modifiers.map Modifier.val) = "" then ""
            else joined " " (m.Modifiers.map Modifier.val) ++ " ") ++
          (if joined ", " tps = "" then "" else "<" ++ joined ", " tps ++ ">") ++
          "(" ++ joined ", " ps ++ ")" ++ (if R = "" then "" else ": " ++ R))) ∧
    MethodSignature.Marshal { Name := ⟨""⟩ } ctx = .ok "()" := by
  obtain ⟨D, hD⟩ := Docs_Marshal_total c.Docs ctx
  obtain ⟨TP, hTP⟩ := TypeParameters_Marshal_total c.TypeParameters ctx
  obtain ⟨PTP, hPTP⟩ := TypeParameters_Marshal_total c.ParentTypeParameters ctx
  have hTPm := TypeParameters_Marshal_eq m.TypeParameters ctx tps htp
  have hP := joinNodes_ok ctx ", " m.Parameters ps hp
  refine ⟨⟨D, TP, PTP, hD, hTP, hPTP, ?_⟩, ?_, ?_, fun hr => ?_, fun r R hr hR => ?_, ?_⟩
  · rw [Class_Marshal_eq c ctx D A TP PTP MT hD hA hTP hPTP hM]
    simp [hc]
  · rw [Class_Marshal_eq _ ctx "" "" "" "" "" (Docs_Marshal_empty ctx)
      (Annotations_Marshal_nil ctx) (TypeParameters_Marshal_nil ctx)
      (TypeParameters_Marshal_nil ctx) (joinNodes_nil _ _)]
    simp [declarationPrefix, joined]
  · rw [Class_Marshal_eq _ ctx "" "" "" "" "" (Docs_Marshal_empty ctx)
      (Annotations_Marshal_nil ctx) (TypeParameters_Marshal_nil ctx)
      (TypeParameters_Marshal_nil ctx) (joinNodes_nil _ _)]
    simp [declarationPrefix, joined]
  · simp [MethodSignature.Marshal, Modifiers_Marshal_total, hTPm, hP, hr, hm, ok_bind,
      WriteWithSuffix_app, WriteWithPrefix_app, WriteRune_fst, Buffer.Write,
      Identifier.Marshal, Buffer.Bytes, Buffer.empty, pure, Except.pure, String.append_assoc]
    rfl
  · simp [MethodSignature.Marshal, Modifiers_Marshal_total, hTPm, hP, hr, hR, hm, ok_bind,
      WriteWithSuffix_app, WriteWithPrefix_app, WriteRune_fst, Buffer.Write,
      Identifier.Marshal, Buffer.Bytes, Buffer.empty, pure, Except.pure, String.append_assoc]
    rfl
  · rfl

/-- C40 at the class with only the parent `Bar` and the signature with no field set. -/
theorem empty_name_spec_witness :
    Class.Marshal { Name := ⟨""⟩, ParentName := ⟨"Bar"⟩ } Ctx.Background = .ok " extends Bar" ∧
    MethodSignature.Marshal { Name := ⟨""⟩ } Ctx.Background = .ok "()" := by
  have h := empty_name_spec { Name := ⟨""⟩, ParentName := ⟨"Bar"⟩ } { Name := ⟨""⟩ }
    Ctx.Background "" "" [] [] rfl rfl rfl rfl List.Forall₂.nil List.Forall₂.nil
  exact ⟨h.2.1, h.2.2.2.2.2⟩

end Balsamic
